import Mathlib

/-!
# Verification development for the save-file split / merge pipeline

Shallow embedding of `merge-tts-save-pro.js`, `split-tts-save-pro.js`,
`modules/lua-bandler.js` and `modules/xml-bundler.js`.

Conventions of the embedding:

* a JavaScript string is a `List Char` (`Str`): a well-formed text, one `Char` for each character
  (code point); `jsLength` and `jsSlice` count its UTF-16 units, two for a character beyond
  `U+FFFF`. A text with a lone surrogate is no `Str`: the theorems speak of well-formed texts
  only, and the one lone surrogate the programs can make themselves, at the end of a slice, is
  written `U+FFFD`,
* files are read and written as UTF-8, which gives a well-formed text back as it was written,
* regular expressions are values of `Re`, run by a backtracking matcher that lists the ways a
  pattern can match in priority order (the first one is the match JavaScript reports),
* the file system is an association list from normalised paths to file contents,
* `JSON.stringify` and `JSON.parse` on node objects and the Unicode classes `\p{L}` and `\p{N}`
  are fields of a `Host` record,
* `process.exit(1)` is the result `Res.exit`, recursion that follows data (module imports,
  markup inclusions, manifest parents) is driven by a fuel argument and `Res.timeout` is the
  result of running out of it.
-/

set_option autoImplicit false
set_option exponentiation.threshold 2048

namespace TTS

/-! ## Strings -/

/-- JavaScript strings, as lists of characters. -/
abbrev Str := List Char

/-- Characters matched by `\s` and stripped by `trim`: WhiteSpace and LineTerminator. -/
def isSpace (c : Char) : Bool :=
  let n := c.toNat
  (9 ≤ n && n ≤ 13) || n == 32 || n == 160 || n == 5760 || (8192 ≤ n && n ≤ 8202) ||
    n == 8232 || n == 8233 || n == 8239 || n == 8287 || n == 12288 || n == 65279

/-- Characters matched by `\d`. -/
def isDigit (c : Char) : Bool := 48 ≤ c.toNat && c.toNat ≤ 57

/-- Characters matched by `\w` (the word characters of `\b`). -/
def isWordChar (c : Char) : Bool :=
  let n := c.toNat
  (48 ≤ n && n ≤ 57) || (65 ≤ n && n ≤ 90) || (97 ≤ n && n ≤ 122) || n == 95

/-- `String.prototype.trimStart`. -/
def trimStart (s : Str) : Str := s.dropWhile isSpace

/-- `String.prototype.trimEnd`. -/
def trimEnd (s : Str) : Str := (s.reverse.dropWhile isSpace).reverse

/-- `String.prototype.trim`. -/
def trim (s : Str) : Str := trimEnd (trimStart s)

/-- Truthiness of a string: the empty string is falsy. -/
def truthy (s : Str) : Bool := !s.isEmpty

/-- Truthiness of a possibly absent (or null) string property. -/
def truthyOpt : Option Str → Bool
  | some s => truthy s
  | none => false

/-- The expression `x || d` for a possibly absent string `x`. -/
def orElseStr (x : Option Str) (d : Str) : Str :=
  match x with
  | some s => if truthy s then s else d
  | none => d

/-- `s.split(sep)` for a one-character separator: never the empty list. -/
def splitOn (sep : Char) : Str → List Str
  | [] => [[]]
  | c :: cs =>
    if c = sep then [] :: splitOn sep cs
    else match splitOn sep cs with
      | [] => [[c]]
      | l :: ls => (c :: l) :: ls

/-- `lines.join(sep)`. -/
def joinWith (sep : Str) : List Str → Str
  | [] => []
  | [l] => l
  | l :: ls => l ++ sep ++ joinWith sep ls

/-- `s.startsWith(p)`. -/
def startsWith (s p : Str) : Bool := p.isPrefixOf s

/-- `s.endsWith(p)`. -/
def endsWith (s p : Str) : Bool := p.reverse.isPrefixOf s.reverse

/-- `s.includes(p)`. -/
def includes : Str → Str → Bool
  | [], p => p.isEmpty
  | c :: cs, p => p.isPrefixOf (c :: cs) || includes cs p

/-- The UTF-16 units of a character: one up to `U+FFFF`, two (a surrogate pair) beyond. -/
def unitsOf (c : Char) : Nat := if c.toNat < 65536 then 1 else 2

/-- `s.length`: the number of UTF-16 units of a text. -/
def jsLength : Str → Nat
  | [] => 0
  | c :: cs => unitsOf c + jsLength cs

/-- `s.slice(0, n)`: the first `n` UTF-16 units of a text. Where the cut falls inside a surrogate
pair the result ends in the lone high surrogate; no `Char` is a surrogate, and the lone surrogate
is written `U+FFFD`, the character as which it is written to a file name or a file. -/
def jsSlice : Nat → Str → Str
  | 0, _ => []
  | _, [] => []
  | n + 1, c :: cs =>
    if c.toNat < 65536 then c :: jsSlice n cs
    else
      match n with
      | 0 => ['\uFFFD']
      | m + 1 => c :: jsSlice m cs

/-! ## Regular expressions -/

/-- Regular expressions, as far as the programs use them. Every quantifier of the sources is
applied to a single character class, so `star` and `lazyStar` take the class. -/
inductive Re where
  | eps
  | chr (p : Char → Bool)
  | seq (a b : Re)
  | alt (a b : Re)
  | star (p : Char → Bool)
  | lazyStar (p : Char → Bool)
  | group (i : Nat) (a : Re)
  | bol
  | eol
  | wordB
  | look (a : Re)

/-- A state of the matcher: the input before the cursor (nearest character first), the input
after it, and the captures recorded so far (latest first). -/
structure MState where
  left : Str
  right : Str
  caps : List (Nat × Str)

/-- Greedy `p*` at a cursor: the longest run first, then shorter ones. -/
def starRun (p : Char → Bool) (caps : List (Nat × Str)) : Str → Str → List MState
  | left, [] => [⟨left, [], caps⟩]
  | left, c :: r =>
    if p c then starRun p caps (c :: left) r ++ [⟨left, c :: r, caps⟩]
    else [⟨left, c :: r, caps⟩]

/-- Lazy `p*?` at a cursor: the empty run first, then longer ones. -/
def lazyRun (p : Char → Bool) (caps : List (Nat × Str)) : Str → Str → List MState
  | left, [] => [⟨left, [], caps⟩]
  | left, c :: r =>
    if p c then ⟨left, c :: r, caps⟩ :: lazyRun p caps (c :: left) r
    else [⟨left, c :: r, caps⟩]

/-- Is the cursor at a word boundary (`\b`)? -/
def atWordBoundary (left right : Str) : Bool :=
  (match left with | c :: _ => isWordChar c | [] => false) !=
    (match right with | c :: _ => isWordChar c | [] => false)

/-- All the ways the pattern matches at the cursor, in the order a backtracking matcher tries
them. No flag `m` is used by the sources: `^` and `$` are the ends of the input. -/
def Re.run : Re → MState → List MState
  | .eps, s => [s]
  | .chr p, s =>
    match s.right with
    | c :: r => if p c then [⟨c :: s.left, r, s.caps⟩] else []
    | [] => []
  | .seq a b, s => (a.run s).flatMap b.run
  | .alt a b, s => a.run s ++ b.run s
  | .star p, s => starRun p s.caps s.left s.right
  | .lazyStar p, s => lazyRun p s.caps s.left s.right
  | .group i a, s =>
    (a.run s).map fun t =>
      ⟨t.left, t.right, (i, s.right.take (s.right.length - t.right.length)) :: t.caps⟩
  | .bol, s => if s.left.isEmpty then [s] else []
  | .eol, s => if s.right.isEmpty then [s] else []
  | .wordB, s => if atWordBoundary s.left s.right then [s] else []
  | .look a, s =>
    match a.run s with
    | [] => []
    | t :: _ => [⟨s.left, s.right, t.caps⟩]

/-- The character class of one literal character. -/
def Re.c (ch : Char) : Re := .chr fun x => x == ch

/-- The character class of one literal character under flag `i`. -/
def Re.ci (ch : Char) : Re := .chr fun x => x.toLower == ch.toLower

/-- A literal string. -/
def Re.lit : Str → Re
  | [] => .eps
  | ch :: cs => .seq (.c ch) (Re.lit cs)

/-- A literal string under flag `i`. -/
def Re.litCI : Str → Re
  | [] => .eps
  | ch :: cs => .seq (.ci ch) (Re.litCI cs)

/-- The quantifier `+` on a class. -/
def Re.plus (p : Char → Bool) : Re := .seq (.chr p) (.star p)

/-- A sequence of patterns. -/
def Re.cat : List Re → Re
  | [] => .eps
  | [a] => a
  | a :: as => .seq a (Re.cat as)

/-- A successful match: the text before it, the matched text, the text after it, the captures. -/
structure Match where
  pre : Str
  matched : Str
  post : Str
  caps : List (Nat × Str)
  deriving DecidableEq

/-- Capture group `i` of a match (`m[i]`), `none` when the group took no part. -/
def Match.cap (m : Match) (i : Nat) : Option Str := (m.caps.find? fun p => p.1 == i).map (·.2)

/-- The match of the pattern that starts at the cursor, if any. -/
def Re.matchAt (re : Re) (left right : Str) : Option Match :=
  match re.run ⟨left, right, []⟩ with
  | [] => none
  | t :: _ => some ⟨left.reverse, right.take (right.length - t.right.length), t.right, t.caps⟩

/-- Scan of the start positions from the cursor on, leftmost first. -/
def Re.scan (re : Re) : Str → Str → Option Match
  | left, [] => re.matchAt left []
  | left, c :: r =>
    match re.matchAt left (c :: r) with
    | some m => some m
    | none => re.scan (c :: left) r

/-- `re.exec(s)` with `lastIndex = 0`, and `s.match(re)` for a pattern without flag `g`. -/
def Re.exec (re : Re) (s : Str) : Option Match := re.scan [] s

/-! ## Numbers -/

/-- JavaScript numbers as the manifest can hold them: `JSON.parse` yields a finite number, or an
infinity for a literal beyond the range of a double. Finite numbers are taken as rationals. -/
inductive JsNumber where
  | finite (q : ℚ)
  | posInfinity
  | negInfinity
  | nan
  deriving DecidableEq

/-- The values `getOrderFromFile` returns: a finite number or `Number.POSITIVE_INFINITY`. -/
inductive OrderKey where
  | fin (q : ℚ)
  | posInf
  deriving DecidableEq

/-- The order of the keys as numbers. -/
def OrderKey.le : OrderKey → OrderKey → Prop
  | .fin a, .fin b => a ≤ b
  | _, .posInf => True
  | .posInf, .fin _ => False

instance : DecidableRel OrderKey.le := fun a b => by
  cases a <;> cases b <;> unfold OrderKey.le <;> infer_instance

/-- Sign of the difference `x - y` of two keys; `none` is `NaN` (infinity minus infinity). -/
def OrderKey.subSign : OrderKey → OrderKey → Option Int
  | .fin a, .fin b => some (if a < b then -1 else if b < a then 1 else 0)
  | .fin _, .posInf => some (-1)
  | .posInf, .fin _ => some 1
  | .posInf, .posInf => none

/-- Value of a string of decimal digits. -/
def digitsValue (ds : Str) : Nat := ds.foldl (fun acc c => 10 * acc + (c.toNat - 48)) 0

/-- Least `e` (searched upwards from `e`) with `n / 2 ^ e < 2 ^ 53`. -/
def doubleExponent (n : Nat) : Nat → Nat → Nat
  | 0, e => e
  | fuel + 1, e => if n / 2 ^ e < 2 ^ 53 then e else doubleExponent n fuel (e + 1)

/-- The double nearest to a natural number (ties to even); `none` is `Infinity`. -/
def roundToDouble (n : Nat) : Option Nat :=
  if n < 2 ^ 53 then some n
  else if 2 ^ 1024 - 2 ^ 970 ≤ n then none
  else
    let e := doubleExponent n 1024 0
    let q := n / 2 ^ e
    let r := n % 2 ^ e
    let half := 2 ^ (e - 1)
    let q' := if half < r ∨ (r = half ∧ q % 2 = 1) then q + 1 else q
    some (q' * 2 ^ e)

/-- `parseInt(ds, 10)` for a non-empty string of decimal digits; `none` is `Infinity`. -/
def parseInt (ds : Str) : Option Nat := roundToDouble (digitsValue ds)

/-- The double `n - 1` for a double `n` that is a natural number. -/
def doubleMinusOne (n : Nat) : ℚ :=
  if n = 0 then ((-1 : Int) : ℚ)
  else match roundToDouble (n - 1) with
    | some v => ((v : Int) : ℚ)
    | none => ((n : Int) : ℚ)

/-! ## Paths -/

/-- `path.basename(p)` (POSIX): the last segment, trailing separators dropped. -/
def basename (p : Str) : Str :=
  ((p.reverse.dropWhile (· == '/')).takeWhile (· != '/')).reverse

/-! ## Manifest entries and their order (`merge-tts-save-pro.js`) -/

/-- One record of `manifest.json`. `order` is `none` when the property is not a number. -/
structure ManifestEntry where
  type : Str
  nickname : Option Str
  guid : Option Str
  file : Str
  parent : Option Str
  order : Option JsNumber
  deriving DecidableEq

/-- The pattern `/^(\d{3,})_/`. -/
def reOrderPrefix : Re :=
  .cat [.bol, .group 1 (.cat [.chr isDigit, .chr isDigit, .chr isDigit, .star isDigit]), .c '_']

/-- `getOrderFromFile(entry)`. -/
def getOrderFromFile (entry : ManifestEntry) : OrderKey :=
  match entry.order with
  | some (.finite q) => .fin q
  | _ =>
    match reOrderPrefix.exec (basename entry.file) with
    | some m =>
      match parseInt ((m.cap 1).getD []) with
      | some n => .fin (doubleMinusOne n)
      | none => .posInf
    | none => .posInf

/-- The records `sortByOrderStable` sorts: `{ v, idx, key }`. -/
structure Keyed where
  v : ManifestEntry
  idx : Nat
  key : OrderKey

/-- The comparator `(a, b) => (a.key - b.key) || (a.idx - b.idx)`: the first operand of `||`
when it is neither zero nor `NaN`, the second otherwise. -/
def compareKeyed (a b : Keyed) : Int :=
  match a.key.subSign b.key with
  | some d => if d ≠ 0 then d else (a.idx : Int) - (b.idx : Int)
  | none => (a.idx : Int) - (b.idx : Int)

/-- `Array.prototype.sort(cmp)`: the sorted arrangement, equal elements in their given order. -/
def arraySort {α : Type} (cmp : α → α → Int) (l : List α) : List α :=
  l.insertionSort fun a b => cmp a b ≤ 0

/-- `sortByOrderStable(arr)`. -/
def sortByOrderStable (arr : List ManifestEntry) : List ManifestEntry :=
  ((arr.enum.map fun p => (⟨p.2, p.1, getOrderFromFile p.2⟩ : Keyed)) |> arraySort compareKeyed).map
    (·.v)

/-! ## Results, files -/

/-- Outcome of a run: a value, `process.exit(1)`, an uncaught exception, or out of fuel. -/
inductive Res (α : Type) where
  | ok (a : α)
  | exit
  | crash
  | timeout
  deriving DecidableEq

/-- The file system: the regular files and the directories, by normalised path. The programs
build the paths they read and write with `path.join`, which normalises. -/
structure FS where
  files : List (Str × Str)
  dirs : List Str

/-- `fs.readFileSync(p, 'utf-8')`; `none` when the read throws. A well-formed text comes back from
UTF-8 as it was written. -/
def FS.readFileSync (fs : FS) (p : Str) : Option Str := fs.files.lookup p

/-- `fs.existsSync(p)`. -/
def FS.existsSync (fs : FS) (p : Str) : Bool := (fs.files.lookup p).isSome || fs.dirs.contains p

/-- The segments of a path with `.`, `..` and empty segments resolved; the result is kept in
reverse. A relative path keeps the `..` segments it cannot resolve. -/
def normalizeSegs (isAbsolute : Bool) : List Str → List Str → List Str
  | acc, [] => acc
  | acc, seg :: segs =>
    if seg = [] ∨ seg = ['.'] then normalizeSegs isAbsolute acc segs
    else if seg = ['.', '.'] then
      match acc with
      | top :: below =>
        if top = ['.', '.'] then normalizeSegs isAbsolute (seg :: acc) segs
        else normalizeSegs isAbsolute below segs
      | [] =>
        if isAbsolute then normalizeSegs isAbsolute [] segs
        else normalizeSegs isAbsolute [seg] segs
    else normalizeSegs isAbsolute (seg :: acc) segs

/-- `path.normalize(p)` (POSIX). -/
def pathNormalize (p : Str) : Str :=
  if p = [] then ['.']
  else
    let isAbsolute := p.head? = some '/'
    let trailing := p.getLast? = some '/'
    let body := joinWith ['/'] (normalizeSegs isAbsolute [] (splitOn '/' p)).reverse
    if body = [] then
      if isAbsolute then ['/'] else if trailing then ['.', '/'] else ['.']
    else
      (if isAbsolute then ['/'] else []) ++ body ++ (if trailing then ['/'] else [])

/-- `path.join(...args)` (POSIX). -/
def pathJoin (args : List Str) : Str :=
  match args.filter fun a => !a.isEmpty with
  | [] => ['.']
  | parts => pathNormalize (joinWith ['/'] parts)

/-! ## The script bundler (`modules/lua-bandler.js`) -/

/-- The class `["']`. -/
def isQuote (c : Char) : Bool := c == '"' || c == '\''

/-- The pattern `REQUIRE_RE`,
`/(^|\s)require\s*(?:\(\s*["']([^"']+)["']\s*\)|\s+["']([^"']+)["'])/g`. -/
def REQUIRE_RE : Re :=
  .cat [.group 1 (.alt .bol (.chr isSpace)), .lit "require".toList, .star isSpace,
    .alt
      (.cat [.c '(', .star isSpace, .chr isQuote, .group 2 (.plus fun c => !isQuote c),
        .chr isQuote, .star isSpace, .c ')'])
      (.cat [.plus isSpace, .chr isQuote, .group 3 (.plus fun c => !isQuote c), .chr isQuote])]

/-- The loop `while ((m = re.exec(s)) !== null)` of a pattern with flag `g`: the successive
matches, each search starting where the previous match ended. -/
def Re.execAll (re : Re) : Nat → Str → Str → List Match
  | 0, _, _ => []
  | fuel + 1, left, right =>
    match re.scan left right with
    | none => []
    | some m => m :: re.execAll fuel (m.matched.reverse ++ m.pre.reverse) m.post

/-- `Set.prototype.add`, the set kept in insertion order. -/
def setAdd (ids : List Str) (id : Str) : List Str := if id ∈ ids then ids else ids ++ [id]

/-- The expression `m[2] || m[3]`. -/
def requireIdOf (m : Match) : Option Str :=
  match m.cap 2 with
  | some id => if truthy id then some id else m.cap 3
  | none => m.cap 3

/-- `findRequireIds(luaCode)`. -/
def findRequireIds (luaCode : Str) : List Str :=
  (REQUIRE_RE.execAll (luaCode.length + 1) [] luaCode).foldl
    (fun ids m =>
      match requireIdOf m with
      | some id => if truthy id then setAdd ids id else ids
      | none => ids)
    []

/-- The lines of the loader preamble of `emitLuabundleHeader`. -/
def luabundleHeaderLines : List String :=
  ["-- Bundled by luabundle \x7b\"version\":\"1.6.0\"\x7d",
   "local __bundle_require, __bundle_loaded, __bundle_register, __bundle_modules = (function(superRequire)",
   "\tlocal loadingPlaceholder = \x7b[\x7b\x7d] = true\x7d",
   "",
   "\tlocal register",
   "\tlocal modules = \x7b\x7d",
   "",
   "\tlocal require",
   "\tlocal loaded = \x7b\x7d",
   "",
   "\tregister = function(name, body)",
   "\t\tif not modules[name] then",
   "\t\t\tmodules[name] = body",
   "\t\tend",
   "\tend",
   "",
   "\trequire = function(name)",
   "\t\tlocal loadedModule = loaded[name]",
   "",
   "\t\tif loadedModule then",
   "\t\t\tif loadedModule == loadingPlaceholder then",
   "\t\t\t\treturn nil",
   "\t\t\tend",
   "\t\telse",
   "\t\t\tif not modules[name] then",
   "\t\t\t\tif not superRequire then",
   "\t\t\t\t\tlocal identifier = type(name) == 'string' and '\"' .. name .. '\"' or tostring(name)",
   "\t\t\t\t\terror('Tried to require ' .. identifier .. ', but no such module has been registered')",
   "\t\t\t\telse",
   "\t\t\t\t\treturn superRequire(name)",
   "\t\t\t\tend",
   "\t\t\tend",
   "",
   "\t\t\tloaded[name] = loadingPlaceholder",
   "\t\t\tloadedModule = modules[name](require, loaded, register, modules)",
   "\t\t\tloaded[name] = loadedModule",
   "\t\tend",
   "",
   "\t\treturn loadedModule",
   "\tend",
   "",
   "\treturn require, loaded, register, modules",
   "end)(nil)"]

/-- `emitLuabundleHeader()`. -/
def emitLuabundleHeader : Str := joinWith ['\n'] (luabundleHeaderLines.map String.toList)

/-- `resolveModulePath(id, libDir)`. -/
def resolveModulePath (fs : FS) (id libDir : Str) : Option Str :=
  let parts := (splitOn '/' id).filter fun p => truthy p
  let base := pathJoin (libDir :: parts)
  [base ++ ".lua".toList, base ++ ".ttslua".toList].find? fs.existsSync

/-- One collected module, `{ id, code }`. -/
structure LuaModule where
  id : Str
  code : Str
  deriving DecidableEq

/-- The state of one bundle operation: the set `visited`, the list `modules`, and the chains
of the circular-require warnings written to the console. -/
structure BundleState where
  visited : List Str
  modules : List LuaModule
  warnings : List (List Str)
  deriving DecidableEq

/-- The loop `for (const sub of findRequireIds(code))` in `loadModule`, given the function to
call for a module that is not on the chain. -/
def loadSubs (load : Str → List Str → BundleState → Res BundleState) (id : Str)
    (chain : List Str) : List Str → BundleState → Res BundleState
  | [], st => .ok st
  | sub :: subs, st =>
    if sub ∈ chain then
      loadSubs load id chain subs { st with warnings := st.warnings ++ [chain ++ [sub]] }
    else
      match load sub (chain ++ [id]) st with
      | .ok st' => loadSubs load id chain subs st'
      | .exit => .exit
      | .crash => .crash
      | .timeout => .timeout

/-- `loadModule(id, chain)`, with the depth of the recursion bounded by the fuel. -/
def loadModule (fs : FS) (libDir : Str) : Nat → Str → List Str → BundleState → Res BundleState
  | 0, _, _, _ => .timeout
  | fuel + 1, id, chain, st =>
    if id ∈ st.visited then .ok st
    else
      let st₁ : BundleState := { st with visited := st.visited ++ [id] }
      match resolveModulePath fs id libDir with
      | none => .exit
      | some file =>
        match fs.readFileSync file with
        | none => .exit
        | some code =>
          if !truthy code || !truthy (trim code) then .exit
          else
            match loadSubs (loadModule fs libDir fuel) id chain (findRequireIds code) st₁ with
            | .ok st₂ => .ok { st₂ with modules := st₂.modules ++ [⟨id, code⟩] }
            | r => r

/-- The loop `for (const id of requires) loadModule(id, ['__root'])`. -/
def loadRoots (fs : FS) (libDir : Str) (fuel : Nat) : List Str → BundleState → Res BundleState
  | [], st => .ok st
  | id :: ids, st =>
    match loadModule fs libDir fuel id ["__root".toList] st with
    | .ok st' => loadRoots fs libDir fuel ids st'
    | r => r

/-- The first line of a registration block. -/
def registerOpen (id : Str) : Str :=
  "__bundle_register(\"".toList ++ id ++
    "\", function(require, _LOADED, __bundle_register, __bundle_modules)".toList

/-- The registration block of one collected module. -/
def registerBlock (m : LuaModule) : Str := registerOpen m.id ++ '\n' :: m.code ++ "\nend)".toList

/-- The registration block of the entry body and the trailing `return`. -/
def rootBlock (rootCode : Str) : Str :=
  registerOpen "__root".toList ++ '\n' :: rootCode ++
    "\nend)\n\nreturn __bundle_require(\"__root\")".toList

/-- The text `bundleLuaIfNeeded` emits for the collected modules and the entry body. -/
def emitBundle (modules : List LuaModule) (rootCode : Str) : Str :=
  joinWith "\n\n".toList (emitLuabundleHeader :: modules.map registerBlock ++ [rootBlock rootCode])

/-- The modules `bundleLuaIfNeeded` collects, when there are imports and `libDir` exists. -/
def collectModules (fs : FS) (libDir : Str) (fuel : Nat) (rootCode : Str) : Res BundleState :=
  loadRoots fs libDir fuel (findRequireIds rootCode) ⟨[], [], []⟩

/-- `bundleLuaIfNeeded(rootCode, who, { libDir, debug })`; `who` and `debug` only reach the
console. -/
def bundleLuaIfNeeded (fs : FS) (libDir : Str) (fuel : Nat) (rootCode : Str) : Res Str :=
  if (findRequireIds rootCode).isEmpty then .ok rootCode
  else if !fs.existsSync (pathNormalize libDir) then .exit
  else
    match collectModules fs libDir fuel rootCode with
    | .ok st => .ok (emitBundle st.modules rootCode)
    | .exit => .exit
    | .crash => .crash
    | .timeout => .timeout

/-! ## Replacement with a pattern -/

/-- `s.replace(re, rep)` for a pattern with flag `g` and a replacement text without `$`. -/
def Re.replaceAllFrom (re : Re) (rep : Str) : Nat → Str → Str → Str
  | 0, _, right => right
  | fuel + 1, left, right =>
    match re.matchAt left right with
    | some m =>
      if m.matched.isEmpty then
        match right with
        | [] => rep
        | c :: r => rep ++ c :: re.replaceAllFrom rep fuel (c :: left) r
      else rep ++ re.replaceAllFrom rep fuel (m.matched.reverse ++ left) m.post
    | none =>
      match right with
      | [] => []
      | c :: r => c :: re.replaceAllFrom rep fuel (c :: left) r

/-- `s.replace(re, rep)` for a pattern with flag `g`. -/
def Re.replaceAll (re : Re) (rep : Str) (s : Str) : Str := re.replaceAllFrom rep (s.length + 1) [] s

/-- `s.replace(re, rep)` for a pattern without flag `g`: the first match only. -/
def Re.replaceFirst (re : Re) (rep : Str) (s : Str) : Str :=
  match re.exec s with
  | some m => m.pre ++ rep ++ m.post
  | none => s

/-! ## The markup bundler (`modules/xml-bundler.js`) -/

/-- The pattern `INCLUDE_PATTERN`, `/^(\s*)<Include src="([^"]+)"\s*\/>/`. -/
def INCLUDE_PATTERN : Re :=
  .cat [.bol, .group 1 (.star isSpace), .lit "<Include src=\"".toList,
    .group 2 (.plus fun c => c != '"'), .c '"', .star isSpace, .lit "/>".toList]

/-- The pattern `COMMENT_PATTERN`, `/^(\s*)<!-- include ([^ ]+) -->/`. -/
def COMMENT_PATTERN : Re :=
  .cat [.bol, .group 1 (.star isSpace), .lit "<!-- include ".toList,
    .group 2 (.plus fun c => c != ' '), .lit " -->".toList]

/-- `isXMLBundled(xmlContent)`. -/
def isXMLBundled (xmlContent : Str) : Bool :=
  truthy xmlContent && includes xmlContent "<!-- include ".toList

/-- The sanitisation `srcFile.replace(/\.\.\//g, '')` of an inclusion source. -/
def cleanSrcOf (srcFile : Str) : Str := (Re.lit "../".toList).replaceAll [] srcFile

/-- The file an inclusion source names: `cleanSrc`, with `.xml` appended unless it ends so. -/
def xmlFileOf (cleanSrc : Str) : Str :=
  if endsWith cleanSrc ".xml".toList then cleanSrc else cleanSrc ++ ".xml".toList

/-- The marker comment `${indent}<!-- ${kind}${cleanSrc} -->`. -/
def markerLine (indent kind cleanSrc : Str) : Str :=
  indent ++ "<!-- ".toList ++ kind ++ cleanSrc ++ " -->".toList

/-- The re-indentation of an expanded fragment: every non-empty line gets the indentation of
the directive. -/
def indentLines (indent bundled : Str) : Str :=
  joinWith ['\n'] ((splitOn '\n' bundled).map fun line => if line.length > 0 then indent ++ line else line)

/-- The loop over the lines in `bundleXML`, given the function for the nested expansion; the
result is the array `result`. -/
def bundleLines (fs : FS) (xmlDir : Str) (recur : Str → List Str → Res Str)
    (visited : List Str) : List Str → Res (List Str)
  | [] => .ok []
  | line :: lines =>
    let rest := bundleLines fs xmlDir recur visited lines
    let push (out : List Str) : Res (List Str) :=
      match rest with
      | .ok more => .ok (out ++ more)
      | .exit => .exit
      | .crash => .crash
      | .timeout => .timeout
    match INCLUDE_PATTERN.exec line with
    | none => push [line]
    | some m =>
      let indent := (m.cap 1).getD []
      let srcFile := (m.cap 2).getD []
      let cleanSrc := cleanSrcOf srcFile
      if cleanSrc ∈ visited then push [markerLine indent "CIRCULAR: ".toList cleanSrc]
      else
        let fullPath := pathJoin [xmlDir, xmlFileOf cleanSrc]
        if !fs.existsSync fullPath then push [markerLine indent "MISSING: ".toList cleanSrc]
        else
          match fs.readFileSync fullPath with
          | none =>
            push [markerLine indent "include ".toList cleanSrc,
              markerLine indent "ERROR: ".toList cleanSrc,
              markerLine indent "include ".toList cleanSrc]
          | some includeContent =>
            match recur includeContent (visited ++ [cleanSrc]) with
            | .ok bundled =>
              push [markerLine indent "include ".toList cleanSrc, indentLines indent bundled,
                markerLine indent "include ".toList cleanSrc]
            | .exit => .exit
            | .crash => .crash
            | .timeout => .timeout

/-- `bundleXML(xmlContent, xmlDir, visited)`, the depth of the expansion bounded by the fuel. -/
def bundleXML (fs : FS) (xmlDir : Str) : Nat → Str → List Str → Res Str
  | 0, _, _ => .timeout
  | fuel + 1, xmlContent, visited =>
    if !truthy xmlContent then .ok xmlContent
    else
      match bundleLines fs xmlDir (bundleXML fs xmlDir fuel) visited (splitOn '\n' xmlContent) with
      | .ok result => .ok (joinWith ['\n'] result)
      | .exit => .exit
      | .crash => .crash
      | .timeout => .timeout

/-- An object with text properties, in the order the properties were created. -/
abbrev TextObject := List (Str × Str)

/-- The assignment `obj[key] = value` of a text: a new property goes last, and the key
`__proto__` creates none. -/
def objSet : TextObject → Str → Str → TextObject
  | [], key, value => if key = "__proto__".toList then [] else [(key, value)]
  | (k, v) :: rest, key, value =>
    if k = key then (k, value) :: rest else (k, v) :: objSet rest key value

/-- The own property `obj[key]`. -/
def objGet (obj : TextObject) (key : Str) : Option Str := obj.lookup key

/-- An open marker on the stack of `unbundleXML`: `{ name, indent, start }`. -/
structure Frame where
  name : Str
  indent : Str
  start : Nat

/-- The `while` loop of `unbundleXML`: the lines, the stack (top first), the index `i` and the
object `modules`; every turn brings `i` one line nearer to the end of the lines. -/
def unbundleLoop : Nat → List Str → List Frame → Nat → TextObject → List Str × TextObject
  | 0, lines, _, _, modules => (lines, modules)
  | fuel + 1, lines, stack, i, modules =>
    match lines[i]? with
    | none => (lines, modules)
    | some line =>
      match COMMENT_PATTERN.exec line with
      | none => unbundleLoop fuel lines stack (i + 1) modules
      | some m =>
        let indent := (m.cap 1).getD []
        let moduleName := (m.cap 2).getD []
        let push := unbundleLoop fuel lines (⟨moduleName, indent, i⟩ :: stack) (i + 1) modules
        match stack with
        | [] => push
        | openTag :: below =>
          if openTag.name = moduleName ∧ openTag.indent = indent then
            let moduleLines := (lines.take i).drop (openTag.start + 1)
            let unindented := moduleLines.map fun line =>
              if startsWith line indent then line.drop indent.length else line
            let modules' := objSet modules moduleName (trim (joinWith ['\n'] unindented))
            let replacement := indent ++ "<Include src=\"".toList ++ moduleName ++ "\"/>".toList
            let lines' := lines.take openTag.start ++ replacement :: lines.drop (i + 1)
            unbundleLoop fuel lines' below (openTag.start + 1) modules'
          else push

/-- `unbundleXML(bundledXml)`. -/
def unbundleXML (bundledXml : Str) : TextObject :=
  let lines := splitOn '\n' bundledXml
  let r := unbundleLoop (lines.length + 1) lines [] 0 []
  objSet r.2 "__root".toList (trim (joinWith ['\n'] r.1))

/-! ## Extraction of the entry body (`split-tts-save-pro.js`) -/

/-- The class `[\s\S]`: any character. -/
def anyChar (_ : Char) : Bool := true

/-- The lookahead of `reRegister`,
`(?=__bundle_register|package\.preload|return\s+__bundle_require|\s*$)`, under flag `i`. -/
def registerLookahead : Re :=
  .alt (.litCI "__bundle_register".toList)
    (.alt (.litCI "package.preload".toList)
      (.alt (.cat [.litCI "return".toList, .plus isSpace, .litCI "__bundle_require".toList])
        (.cat [.star isSpace, .eol])))

/-- The end of `reRegister` after the capture: `\bend\)\s*(?=...)`, under flag `i`. -/
def registerStop : Re :=
  .cat [.wordB, .litCI "end)".toList, .star isSpace, .look registerLookahead]

/-- The start of `reRegister`: `__bundle_register\(\s*["']__root["']`, under flag `i`. -/
def registerOpenRoot : Re :=
  .cat [.litCI "__bundle_register(".toList, .star isSpace, .chr isQuote, .litCI "__root".toList,
    .chr isQuote]

/-- The pattern `reRegister`,
`/__bundle_register\(\s*["']__root["']\s*,\s*function\s*\([^)]*\)\s*([\s\S]*?)\bend\)\s*(?=__bundle_register|package\.preload|return\s+__bundle_require|\s*$)/i`. -/
def reRegister : Re :=
  .cat [.litCI "__bundle_register(".toList, .star isSpace, .chr isQuote, .litCI "__root".toList,
    .chr isQuote, .star isSpace, .ci ',', .star isSpace, .litCI "function".toList, .star isSpace,
    .ci '(', .star (fun c => c != ')'), .ci ')', .star isSpace, .group 1 (.lazyStar anyChar),
    registerStop]

/-- The pattern `rePreload`,
`/package\.preload\[\s*["']__root["']\s*\]\s*=\s*function\s*\([^)]*\)\s*([\s\S]*?)\bend\b/`. -/
def rePreload : Re :=
  .cat [.lit "package.preload[".toList, .star isSpace, .chr isQuote, .lit "__root".toList,
    .chr isQuote, .star isSpace, .c ']', .star isSpace, .c '=', .star isSpace,
    .lit "function".toList, .star isSpace, .c '(', .star (fun c => c != ')'), .c ')',
    .star isSpace, .group 1 (.lazyStar anyChar), .wordB, .lit "end".toList, .wordB]

/-- The pattern `/\n{3,}/g`. -/
def reBlankLines : Re := .cat [.c '\n', .c '\n', .c '\n', .star fun c => c == '\n']

/-- The pattern `/^\s+/`. -/
def reLeadingSpace : Re := .cat [.bol, .plus isSpace]

/-- `tidyLua(s)`. -/
def tidyLua (s : Str) : Str :=
  trimEnd (reLeadingSpace.replaceFirst []
    (reBlankLines.replaceAll "\n\n".toList ((Re.lit "\r\n".toList).replaceAll "\n".toList s)))

/-- The test `m && m[1]` on the result of `s.match(re)`: the capture, when it is not empty. -/
def capturedBody (m : Option Match) : Option Str :=
  match m with
  | some m =>
    match m.cap 1 with
    | some body => if truthy body then some body else none
    | none => none
  | none => none

/-- `extractRootModule(lua)`. -/
def extractRootModule (lua : Str) : Str :=
  if !truthy lua then lua
  else
    match capturedBody (reRegister.exec lua) with
    | some body => tidyLua body
    | none =>
      match capturedBody (rePreload.exec lua) with
      | some body => tidyLua body
      | none => lua

/-! ## Nodes, and what the host provides -/

/-- One element of the content tree: the properties `Name`, `Nickname`, `GUID`, `LuaScript`,
`LuaScriptState`, `XmlUI` and `Memo` (`none` when absent or null), all other attributes as an
opaque text, and `ContainedObjects` (`none` when absent). -/
inductive Node where
  | mk (name nickname guid luaScript luaScriptState xmlUI memo : Option Str) (rest : Str)
      (contained : Option (List Node))

/-- The property `Name`. -/
def Node.name : Node → Option Str
  | .mk n _ _ _ _ _ _ _ _ => n

/-- The property `Nickname`. -/
def Node.nickname : Node → Option Str
  | .mk _ n _ _ _ _ _ _ _ => n

/-- The property `GUID`. -/
def Node.guid : Node → Option Str
  | .mk _ _ g _ _ _ _ _ _ => g

/-- The property `LuaScript`. -/
def Node.luaScript : Node → Option Str
  | .mk _ _ _ s _ _ _ _ _ => s

/-- The property `LuaScriptState`. -/
def Node.luaScriptState : Node → Option Str
  | .mk _ _ _ _ s _ _ _ _ => s

/-- The property `XmlUI`. -/
def Node.xmlUI : Node → Option Str
  | .mk _ _ _ _ _ s _ _ _ => s

/-- The property `Memo`. -/
def Node.memo : Node → Option Str
  | .mk _ _ _ _ _ _ s _ _ => s

/-- All the other attributes of the node. -/
def Node.rest : Node → Str
  | .mk _ _ _ _ _ _ _ r _ => r

/-- The property `ContainedObjects`. -/
def Node.contained : Node → Option (List Node)
  | .mk _ _ _ _ _ _ _ _ c => c

/-- The children `saveObjectToFile` descends into: `ContainedObjects` when it is an array. -/
def Node.children (n : Node) : List Node := n.contained.getD []

/-- What the programs take from the host: `JSON.stringify` and `JSON.parse` on node objects,
the Unicode classes `\p{L}` and `\p{N}`, and `String.prototype.normalize('NFC')`. -/
structure Host where
  stringify : Node → Str
  parse : Str → Option Node
  letterOrNumber : Char → Bool
  normalize : Str → Str

/-- `fs.writeFileSync(p, data, 'utf-8')`: the newest entry of a path is the file. The text, being
well-formed, is kept by the encoding as UTF-8. -/
def FS.writeFileSync (fs : FS) (p data : Str) : FS := { fs with files := (p, data) :: fs.files }

/-- The directories `fs.mkdirSync(p, { recursive: true })` makes sure of: the path and the
directories above it. -/
def dirAncestors (p : Str) : List Str :=
  let segs := splitOn '/' p
  (List.range segs.length).map fun i => joinWith ['/'] (segs.take (i + 1))

/-- `fs.mkdirSync(p, { recursive: true })`. -/
def FS.mkdirSync (fs : FS) (p : Str) : FS := { fs with dirs := dirAncestors p ++ fs.dirs }

/-! ## The splitter (`split-tts-save-pro.js`) -/

/-- The constant `outputDir`. -/
def outputDir : Str := "./src".toList

/-- The characters `sanitize` keeps: letters, numbers, `_`, `-` and `.`. -/
def keptBySanitize (H : Host) (c : Char) : Bool :=
  H.letterOrNumber c || c == '_' || c == '-' || c == '.'

/-- `sanitize(str)`: `(str || 'unnamed').replace(/[^\p{L}\p{N}_\-.]/gu, '_').slice(0, 50)`; the
pattern has the flag `u` and replaces whole characters, the slice counts UTF-16 units. -/
def sanitize (H : Host) (str : Option Str) : Str :=
  jsSlice 50
    ((Re.chr fun c => !keptBySanitize H c).replaceAll ['_'] (orElseStr str "unnamed".toList))

/-- `padIndex(i)`: `String(i + 1).padStart(3, '0')`. -/
def padIndex (i : Nat) : Str :=
  let digits := Nat.toDigits 10 (i + 1)
  List.replicate (3 - digits.length) '0' ++ digits

/-- `generateFilename(obj, order, includeNickname)`. -/
def generateFilename (H : Host) (obj : Node) (order : Option Nat) (includeNickname : Bool) : Str :=
  let guid := sanitize H (some (orElseStr obj.guid "noguid".toList))
  let base :=
    if includeNickname && truthyOpt obj.nickname && truthyOpt obj.name then
      sanitize H (some ((obj.nickname.getD []) ++ '.' :: (obj.name.getD [])))
    else if truthyOpt obj.name then sanitize H obj.name
    else "Unnamed".toList
  let orderPrefix :=
    match order with
    | some i => padIndex i ++ ['_']
    | none => []
  orderPrefix ++ base ++ '_' :: guid ++ ".json".toList

/-- The pattern `/\.json$/i`. -/
def reJsonExt : Re := .cat [.litCI ".json".toList, .eol]

/-- `x || null` for a possibly absent text. -/
def orNull (x : Option Str) : Option Str :=
  match x with
  | some s => if truthy s then some s else none
  | none => none

/-- The test `x && x.trim()` on a payload. -/
def nonBlank (x : Option Str) : Bool :=
  match x with
  | some s => truthy s && truthy (trim s)
  | none => false

/-- The object `objToWrite`: the node without its four payload properties. -/
def Node.stripped : Node → Node
  | .mk n k g _ _ _ _ r c => .mk n k g none none none none r c

/-- The state of the splitter: the files written and the array `manifest`. -/
structure SplitState where
  fs : FS
  manifest : List ManifestEntry

/-- One payload file of `saveObjectToFile`: written when the payload is present and not blank. -/
def writePayload (fs : FS) (path : Str) (payload : Option Str) (content : Str) : FS :=
  if nonBlank payload then fs.writeFileSync path content else fs

/-- The directory of the children of a node, relative to the output directory. -/
def containerRelPath (H : Host) (obj : Node) : Str :=
  pathJoin ["Contained".toList,
    sanitize H obj.nickname ++ '_' :: sanitize H (some (orElseStr obj.guid "noguid".toList))]

/-- The writes and the manifest entry of `saveObjectToFile` for the node itself. -/
def saveObjectOnly (H : Host) (obj : Node) (relativePath : Str) (parentGuid : Option Str)
    (order : Option Nat) (includeNicknameOnFilename : Bool) (st : SplitState) : SplitState :=
  let fileName := generateFilename H obj order includeNicknameOnFilename
  let dirPath := pathJoin [outputDir, relativePath]
  let jsonPath := pathJoin [dirPath, fileName]
  let basePathNoExt := reJsonExt.replaceFirst [] jsonPath
  let fs₀ := st.fs.mkdirSync dirPath
  let fs₁ := writePayload fs₀ (basePathNoExt ++ ".lua".toList) obj.luaScript
    (extractRootModule (obj.luaScript.getD []))
  let fs₂ := writePayload fs₁ (basePathNoExt ++ ".state.txt".toList) obj.luaScriptState
    (obj.luaScriptState.getD [])
  let fs₃ := writePayload fs₂ (basePathNoExt ++ ".xml".toList) obj.xmlUI (obj.xmlUI.getD [])
  let fs₄ := writePayload fs₃ (basePathNoExt ++ ".memo.txt".toList) obj.memo (obj.memo.getD [])
  let fs₅ := fs₄.writeFileSync jsonPath (H.stringify obj.stripped)
  { fs := fs₅,
    manifest := st.manifest ++
      [{ type := orElseStr obj.name "Object".toList, nickname := orNull obj.nickname,
         guid := orNull obj.guid, file := pathJoin [relativePath, fileName],
         parent := orNull parentGuid,
         order := order.map fun i => JsNumber.finite (i : ℚ) }] }

mutual
/-- `saveObjectToFile(obj, relativePath, parentGuid, order, includeNicknameOnFilename)`. -/
def saveObjectToFile (H : Host) : Node → Str → Option Str → Option Nat → Bool → SplitState →
    SplitState
  | .mk n k g s t x m r c, relativePath, parentGuid, order, incl, st =>
    saveContained H c (containerRelPath H (.mk n k g s t x m r c)) (orNull g)
      (saveObjectOnly H (.mk n k g s t x m r c) relativePath parentGuid order incl st)
/-- The test `Array.isArray(obj.ContainedObjects) && obj.ContainedObjects.length`, and the
loop over the children. -/
def saveContained (H : Host) : Option (List Node) → Str → Option Str → SplitState → SplitState
  | none, _, _, st => st
  | some children, rel, parentGuid, st => saveEach H children rel parentGuid 0 st
/-- The loop `forEach((child, index) => saveObjectToFile(child, rel, parent, index, false))`,
from index `i` on. -/
def saveEach (H : Host) : List Node → Str → Option Str → Nat → SplitState → SplitState
  | [], _, _, _, st => st
  | child :: rest, rel, parentGuid, i, st =>
    saveEach H rest rel parentGuid (i + 1)
      (saveObjectToFile H child rel parentGuid (some i) false st)
end

/-- The loop of `main` over the top-level objects:
`data.ObjectStates.forEach((obj, index) => saveObjectToFile(obj, '.', null, index, true))`. -/
def saveTopLevel (H : Host) : List Node → Nat → SplitState → SplitState
  | [], _, st => st
  | obj :: rest, i, st =>
    saveTopLevel H rest (i + 1) (saveObjectToFile H obj ['.'] none (some i) true st)

/-- The split of a node sequence into a cleaned output directory: the files and the manifest. -/
def splitObjectStates (H : Host) (objectStates : List Node) : SplitState :=
  saveTopLevel H objectStates 0 ⟨⟨[], dirAncestors (pathNormalize outputDir)⟩, []⟩

/-! ## The merger (`merge-tts-save-pro.js`) -/

/-- The constant `srcDir` (without `SRC_DIR` in the environment). -/
def srcDir : Str := "./src".toList

/-- The constant `LIB_DIR`. -/
def LIB_DIR : Str := "./lib".toList

/-- The property names every object inherits from `Object.prototype`: as keys of the object
`manifestMap` they do not read as absent. -/
def objectPrototypeKeys : List Str :=
  ["constructor", "__proto__", "hasOwnProperty", "isPrototypeOf", "propertyIsEnumerable",
    "toLocaleString", "toString", "valueOf", "__defineGetter__", "__defineSetter__",
    "__lookupGetter__", "__lookupSetter__"].map String.toList

/-- The object `manifestMap`: its own properties in the order of their creation. -/
abbrev ManifestMap := List (Str × List ManifestEntry)

/-- The key `entry.parent || '__root__'`. -/
def parentKey (entry : ManifestEntry) : Str := orElseStr entry.parent "__root__".toList

/-- The statement `manifestMap[key].push(entry)` on an own property. -/
def pushEntry : ManifestMap → Str → ManifestEntry → ManifestMap
  | [], key, entry => [(key, [entry])]
  | (k, es) :: rest, key, entry =>
    if k = key then (k, es ++ [entry]) :: rest else (k, es) :: pushEntry rest key entry

/-- The loop of `main` that groups the entries by parent; an inherited property under the key
makes `push` throw. -/
def groupByParent : List ManifestEntry → ManifestMap → Res ManifestMap
  | [], m => .ok m
  | entry :: rest, m =>
    if parentKey entry ∈ objectPrototypeKeys then .crash
    else groupByParent rest (pushEntry m (parentKey entry) entry)

/-- The expression `manifestMap[key] || []`; an inherited property is no array, and sorting it
throws. -/
def childrenOf (m : ManifestMap) (key : Str) : Res (List ManifestEntry) :=
  match m.lookup key with
  | some es => .ok es
  | none => if key ∈ objectPrototypeKeys then .crash else .ok []

/-- The key a GUID of the manifest is as a property name. -/
def guidKey (guid : Option Str) : Str := guid.getD "null".toList

/-- `readObjectLuaIfExists(jsonPath)`: the script next to the node file, `none` for `null`. -/
def readObjectLuaIfExists (fs : FS) (jsonPath : Str) : Res (Option Str) :=
  let base := reJsonExt.replaceFirst [] jsonPath
  match [base ++ ".lua".toList, base ++ ".ttslua".toList].find? fs.existsSync with
  | none => .ok none
  | some p =>
    match fs.readFileSync p with
    | some code => .ok (some code)
    | none => .crash

/-- The statement `if (fs.existsSync(p)) obj.X = fs.readFileSync(p, 'utf-8')`: the new value of
the property. -/
def readIfExists (fs : FS) (p : Str) (old : Option Str) : Res (Option Str) :=
  if fs.existsSync p then
    match fs.readFileSync p with
    | some s => .ok (some s)
    | none => .crash
  else .ok old

/-- The loop `children.map(child => loadObjectFromManifest(child, manifestMap))`. -/
def loadEach (load : ManifestEntry → Res Node) : List ManifestEntry → Res (List Node)
  | [] => .ok []
  | e :: es =>
    match load e with
    | .ok n =>
      match loadEach load es with
      | .ok ns => .ok (n :: ns)
      | .exit => .exit
      | .crash => .crash
      | .timeout => .timeout
    | .exit => .exit
    | .crash => .crash
    | .timeout => .timeout

/-- `loadObjectFromManifest(entry, manifestMap)`, the depth of the recursion bounded by the
fuel; `luaFuel` is the fuel of the script bundler. -/
def loadObjectFromManifest (H : Host) (fs : FS) (luaFuel : Nat) (manifestMap : ManifestMap) :
    Nat → ManifestEntry → Res Node
  | 0, _ => .timeout
  | fuel + 1, entry =>
    let jsonPath := pathJoin [srcDir, entry.file]
    match (fs.readFileSync jsonPath).bind H.parse with
    | none => .exit
    | some obj =>
      match readObjectLuaIfExists fs jsonPath with
      | .ok rawCode =>
        let script : Res (Option Str) :=
          match rawCode with
          | some code =>
            match bundleLuaIfNeeded fs LIB_DIR luaFuel code with
            | .ok s => .ok (some s)
            | .exit => .exit
            | .crash => .crash
            | .timeout => .timeout
          | none => .ok obj.luaScript
        match script with
        | .ok luaScript =>
          match readIfExists fs (reJsonExt.replaceFirst ".state.txt".toList jsonPath)
              obj.luaScriptState with
          | .ok luaScriptState =>
            match readIfExists fs (reJsonExt.replaceFirst ".xml".toList jsonPath) obj.xmlUI with
            | .ok xmlUI =>
              match readIfExists fs (reJsonExt.replaceFirst ".memo.txt".toList jsonPath)
                  obj.memo with
              | .ok memo =>
                match childrenOf manifestMap (guidKey entry.guid) with
                | .ok rawChildren =>
                  let children := sortByOrderStable rawChildren
                  if children.length > 0 then
                    match loadEach (loadObjectFromManifest H fs luaFuel manifestMap fuel)
                        children with
                    | .ok nodes =>
                      .ok (.mk obj.name obj.nickname obj.guid luaScript luaScriptState xmlUI memo
                        obj.rest (some nodes))
                    | .exit => .exit
                    | .crash => .crash
                    | .timeout => .timeout
                  else
                    .ok (.mk obj.name obj.nickname obj.guid luaScript luaScriptState xmlUI memo
                      obj.rest obj.contained)
                | .exit => .exit
                | .crash => .crash
                | .timeout => .timeout
              | .exit => .exit
              | .crash => .crash
              | .timeout => .timeout
            | .exit => .exit
            | .crash => .crash
            | .timeout => .timeout
          | .exit => .exit
          | .crash => .crash
          | .timeout => .timeout
        | .exit => .exit
        | .crash => .crash
        | .timeout => .timeout
      | .exit => .exit
      | .crash => .crash
      | .timeout => .timeout

/-- The node sequence `objectStates` that `main` builds from the manifest and the files. -/
def buildObjectStates (H : Host) (fs : FS) (luaFuel fuel : Nat) (manifest : List ManifestEntry) :
    Res (List Node) :=
  match groupByParent manifest [] with
  | .ok manifestMap =>
    match childrenOf manifestMap "__root__".toList with
    | .ok rootEntries =>
      loadEach (loadObjectFromManifest H fs luaFuel manifestMap fuel)
        (sortByOrderStable rootEntries)
    | .exit => .exit
    | .crash => .crash
    | .timeout => .timeout
  | .exit => .exit
  | .crash => .crash
  | .timeout => .timeout

/-! ### The name of the output file -/

/-- The class `[\u0000-\u001F\u007F]`. -/
def isControl (c : Char) : Bool := c.toNat ≤ 31 || c.toNat == 127

/-- The class `[\s._]`. -/
def isSpaceDotUnderscore (c : Char) : Bool := isSpace c || c == '.' || c == '_'

/-- The class `[1-9]`. -/
def isDigitNonZero (c : Char) : Bool := 49 ≤ c.toNat && c.toNat ≤ 57

/-- The pattern `reserved`, `/^(con|prn|aux|nul|com[1-9]|lpt[1-9])$/i`. -/
def reReserved : Re :=
  .cat [.bol,
    .group 1 (.alt (.litCI "con".toList) (.alt (.litCI "prn".toList) (.alt (.litCI "aux".toList)
      (.alt (.litCI "nul".toList)
        (.alt (.cat [.litCI "com".toList, .chr isDigitNonZero])
          (.cat [.litCI "lpt".toList, .chr isDigitNonZero])))))),
    .eol]

/-- The test `reserved.test(s)`. -/
def isReservedName (s : Str) : Bool := (reReserved.exec s).isSome

/-- The first two statements of `sanitizeFileNameStrict`: the replacements and the trimming,
before the fallback; `none` is an input that is `null` or `undefined`. -/
def cleanFileName (H : Host) (input : Option Str) : Str :=
  let s := (Re.chr fun c => !keptBySanitize H c).replaceAll ['_']
    ((Re.plus isSpace).replaceAll ['_']
      ((Re.chr isControl).replaceAll [] (H.normalize (input.getD []))))
  let s := (Re.cat [.c '.', .c '.', .star fun c => c == '.']).replaceAll ['.']
    ((Re.plus fun c => c == '_').replaceAll ['_'] s)
  (Re.cat [.plus isSpaceDotUnderscore, .eol]).replaceFirst []
    ((Re.cat [.bol, .plus isSpaceDotUnderscore]).replaceFirst [] s)

/-- The statement `if (!s || s === '.' || s === '..') s = fallback`. -/
def orFallback (s fallback : Str) : Str :=
  if !truthy s || s == ['.'] || s == ['.', '.'] then fallback else s

/-- The statement `if (reserved.test(s)) s = '_' + s`. -/
def escapeReserved (s : Str) : Str := if isReservedName s then '_' :: s else s

/-- `sanitizeFileNameStrict(input, fallback)`; the length and the slice count UTF-16 units. -/
def sanitizeFileNameStrict (H : Host) (input : Option Str) (fallback : Str) : Str :=
  let s := escapeReserved (orFallback (cleanFileName H input) fallback)
  let s := if jsLength s > 50 then jsSlice 50 s else s
  if !truthy s then fallback else s

/-! ### The validation of the assembled document -/

/-- The assembled document as far as `validateModStructure` reads it: `ObjectStates` (`none`
when absent), `SaveName` and `GameMode` (`none` when absent or no string). -/
structure ModDocument where
  objectStates : Option (List Node)
  saveName : Option Str
  gameMode : Option Str

/-- The text `ObjectStates[i]`. -/
def objectLabel (i : Nat) : Str := "ObjectStates[".toList ++ Nat.toDigits 10 i ++ [']']

/-- The state of the loop of `validateModStructure`: the array `errors` and the set
`seenGuids`. -/
structure ValidationState where
  errors : List Str
  seenGuids : List Str

/-- One round of the loop `mod.ObjectStates?.forEach((obj, i) => ...)`; `hasTransform` is the
test `obj.Transform`. The warnings, which only reach the console, are left out. -/
def validateObject (hasTransform : Node → Bool) (i : Nat) (obj : Node) (st : ValidationState) :
    ValidationState :=
  let p := objectLabel i
  let e₁ := if !truthyOpt obj.guid then st.errors ++ [p ++ " is missing GUID.".toList]
    else st.errors
  let e₂ := if !truthyOpt obj.name then e₁ ++ [p ++ " is missing Name.".toList] else e₁
  let e₃ := if !hasTransform obj then e₂ ++ [p ++ " is missing Transform.".toList] else e₂
  if truthyOpt obj.guid then
    if obj.guid.getD [] ∈ st.seenGuids then
      ⟨e₃ ++ [p ++ " has duplicate GUID: ".toList ++ obj.guid.getD []], st.seenGuids⟩
    else ⟨e₃, setAdd st.seenGuids (obj.guid.getD [])⟩
  else ⟨e₃, st.seenGuids⟩

/-- The loop over `ObjectStates`, from index `i` on. -/
def validateObjects (hasTransform : Node → Bool) : Nat → List Node → ValidationState →
    ValidationState
  | _, [], st => st
  | i, obj :: rest, st =>
    validateObjects hasTransform (i + 1) rest (validateObject hasTransform i obj st)

/-- The array `errors` of `validateModStructure(mod)` when the loop is done. -/
def validationErrors (hasTransform : Node → Bool) (mod : ModDocument) : List Str :=
  let e₁ :=
    match mod.objectStates with
    | some (_ :: _) => []
    | _ => ["Mod must contain non-empty ObjectStates array.".toList]
  let e₂ := if !truthyOpt mod.saveName then e₁ ++ ["SaveName is missing or invalid.".toList]
    else e₁
  let e₃ := if !truthyOpt mod.gameMode then e₂ ++ ["GameMode is missing or invalid.".toList]
    else e₂
  (validateObjects hasTransform 0 (mod.objectStates.getD []) ⟨e₃, []⟩).errors

/-- `validateModStructure(mod)`. -/
def validateModStructure (hasTransform : Node → Bool) (mod : ModDocument) : Res Unit :=
  if (validationErrors hasTransform mod).length > 0 then .exit else .ok ()

/-- The end of `main`: `validateModStructure(merged)` and then
`fs.writeFileSync(outputFile, JSON.stringify(merged, null, 2), 'utf-8')`, with `text` for the
text of the document: the files the step leaves, and its outcome. -/
def validateAndWrite (hasTransform : Node → Bool) (fs : FS) (merged : ModDocument)
    (outputFile text : Str) : FS × Res Unit :=
  match validateModStructure hasTransform merged with
  | .ok _ => (fs.writeFileSync outputFile text, .ok ())
  | .exit => (fs, .exit)
  | .crash => (fs, .crash)
  | .timeout => (fs, .timeout)

/-! ## Auxiliary definitions of the proofs -/

/-- The relation `Array.prototype.sort` orders the keyed records by. -/
abbrev keyedLe (a b : Keyed) : Prop := compareKeyed a b ≤ 0

/-- The keyed records of a list of entries, numbered from `n`. -/
def keyedFrom (n : Nat) (arr : List ManifestEntry) : List Keyed :=
  (arr.enumFrom n).map fun p => (⟨p.2, p.1, getOrderFromFile p.2⟩ : Keyed)

/-- The entry of the counterexample to C4: no explicit order, a file-name prefix of 310 digits. -/
def hugePrefixEntry : ManifestEntry :=
  ⟨"Card".toList, none, some "abc123".toList,
    '1' :: List.replicate 309 '0' ++ "_Card_abc123.json".toList, none, none⟩

/-- The text `loadModule` registers for an identifier: the file it resolves to, read, and
neither empty nor blank. -/
def moduleCode (fs : FS) (libDir id : Str) : Option Str :=
  match resolveModulePath fs id libDir with
  | none => none
  | some file =>
    match fs.readFileSync file with
    | none => none
    | some code => if !truthy code || !truthy (trim code) then none else some code

/-- Every identifier an import statement of the entry body or of a file names. -/
def requireUniverse (fs : FS) (rootCode : Str) : List Str :=
  findRequireIds rootCode ++ fs.files.flatMap fun f => findRequireIds f.2

/-- The set `visited` holds no identifier twice and only identifiers of the universe. -/
def VisitedOk (U : List Str) (st : BundleState) : Prop := st.visited.Nodup ∧ st.visited ⊆ U

/-- A loader that does not run out of fuel on states with at least `n` visited identifiers. -/
def GoodLoader (U : List Str) (n : Nat) (load : Str → List Str → BundleState → Res BundleState) :
    Prop :=
  ∀ sub ch st, sub ∈ U → VisitedOk U st → n ≤ st.visited.length →
    load sub ch st ≠ .timeout ∧
      ∀ st', load sub ch st = .ok st' → VisitedOk U st' ∧ st.visited.length ≤ st'.visited.length

/-- The reserved root name. -/
def rootName : Str := "__root".toList

/-- The identifiers the bundler follows from the entry body: the imports of the entry body, and
the imports of every module so reached, an import of the reserved name `__root` from a module
left out (the chain of every module starts with `__root`, so it is skipped as circular). -/
inductive Imports (fs : FS) (libDir rootCode : Str) : Str → Prop where
  | root {id : Str} : id ∈ findRequireIds rootCode → Imports fs libDir rootCode id
  | step {m sub code : Str} : Imports fs libDir rootCode m → moduleCode fs libDir m = some code →
      sub ∈ findRequireIds code → sub ≠ rootName → Imports fs libDir rootCode sub

/-- The identifiers transitively imported from the entry body, none left out. -/
inductive ImportsAll (fs : FS) (libDir rootCode : Str) : Str → Prop where
  | root {id : Str} : id ∈ findRequireIds rootCode → ImportsAll fs libDir rootCode id
  | step {m sub code : Str} : ImportsAll fs libDir rootCode m →
      moduleCode fs libDir m = some code → sub ∈ findRequireIds code →
      ImportsAll fs libDir rootCode sub

/-- The chain of a call names the entry and, besides, only identifiers already visited. -/
def ChainOk (ch : List Str) (st : BundleState) : Prop :=
  rootName ∈ ch ∧ ∀ c ∈ ch, c = rootName ∨ c ∈ st.visited

/-- What a completed call has done to the state. -/
structure LoadPost (fs : FS) (libDir rootCode : Str) (st st' : BundleState) : Prop where
  visited_mono : st.visited ⊆ st'.visited
  done : ∀ v ∈ st'.visited, v ∈ st.visited ∨ v ∈ st'.modules.map (·.id)
  sound : ∀ v ∈ st'.visited, v ∈ st.visited ∨ Imports fs libDir rootCode v
  fresh : ∃ new, st'.modules = st.modules ++ new ∧ (new.map (·.id)).Nodup ∧
    ∀ m ∈ new, m.id ∉ st.visited ∧ m.id ∈ st'.visited ∧
      moduleCode fs libDir m.id = some m.code ∧
      ∀ sub ∈ findRequireIds m.code, sub = rootName ∨ sub ∈ st'.visited

/-- What the loop over the imports of a module assumes of the function it calls. -/
def LoaderSpec (fs : FS) (libDir rootCode : Str)
    (load : Str → List Str → BundleState → Res BundleState) : Prop :=
  ∀ sub ch st, Imports fs libDir rootCode sub → ChainOk ch st →
    load sub ch st = .timeout ∨
      ∃ st', load sub ch st = .ok st' ∧ LoadPost fs libDir rootCode st st' ∧ sub ∈ st'.visited

/-- A library with the cycle `A` imports `B` imports `A`. -/
def cyclicLib : FS :=
  ⟨[("lib/A.lua".toList, "local b = require(\"B\")\nreturn 1".toList),
    ("lib/B.lua".toList, "local a = require(\"A\")\nreturn 2".toList)], ["lib".toList]⟩

/-- An entry script that imports `A`. -/
def cyclicEntry : Str := "local a = require(\"A\")".toList

/-- A library in which module `a` imports the reserved name `__root`, for which a file exists. -/
def rootNameLib : FS :=
  ⟨[("lib/a.lua".toList, "return require(\"__root\")".toList),
    ("lib/__root.lua".toList, "return 1".toList)], ["lib".toList]⟩

/-- An entry script that imports `a`. -/
def rootNameEntry : Str := "local a = require(\"a\")".toList

/-- The first way a pattern matches at a cursor: the one a backtracking matcher finds. -/
def Re.first (re : Re) (s : MState) : Option MState := (re.run s).head?

/-- The inclusion directive in its canonical form. -/
def directiveLine (indent name : Str) : Str :=
  indent ++ ("<Include src=\"".toList ++ (name ++ "\"/>".toList))

/-- A text free of directives: no line starts, after white space, with `<Include src="`. -/
def NoDirective (lines : List Str) : Prop :=
  ∀ l ∈ lines, startsWith (trimStart l) "<Include src=\"".toList = false

/-- A text free of markers: no line starts, after white space, with `<!-- include `. -/
def NoMarker (lines : List Str) : Prop :=
  ∀ l ∈ lines, startsWith (trimStart l) "<!-- include ".toList = false

/-- The lines of a fragment as `bundleXML` re-indents them. -/
def indentedLines (indent T : Str) : List Str :=
  (splitOn '\n' T).map fun line => if line.length > 0 then indent ++ line else line

/-- A source directory `ui` with the fragment `panel.xml`. -/
def panelDir : FS :=
  ⟨[("ui/panel.xml".toList, "<Panel>\n  <Text/>\n\n</Panel>".toList)], ["ui".toList]⟩

/-- A source directory `ui` whose fragment `panel.xml` ends with a line break, and a file
`secret.xml` next to the directory. -/
def panelDirNewline : FS :=
  ⟨[("ui/panel.xml".toList, "<Panel/>\n".toList), ("secret.xml".toList, "<Secret/>".toList)],
    ["ui".toList]⟩

/-- Patterns whose matches depend neither on the text before the cursor nor on the captures:
no `^`, no `\b`, no group. -/
def Re.simple : Re → Bool
  | .eps => true
  | .chr _ => true
  | .seq a b => a.simple && b.simple
  | .alt a b => a.simple && b.simple
  | .star _ => true
  | .lazyStar _ => true
  | .group _ _ => false
  | .bol => false
  | .eol => true
  | .wordB => false
  | .look a => a.simple

/-- A state moved to another text before the cursor and other captures. -/
def MState.shift (l : Str) (caps : List (Nat × Str)) (t : MState) : MState :=
  ⟨t.left ++ l, t.right, caps⟩

/-- The separator `bundleLuaIfNeeded` joins the blocks with. -/
def blockSep : Str := "\n\n".toList

/-- A block the scan of `reRegister` passes over: it ends with `)` and holds no opening of a
registration of the root name. -/
def CleanBlock (x : Str) : Prop := (∃ y, x = y ++ [')']) ∧ registerOpenRoot.exec x = none

/-- The text that follows the entry body in the bundle. -/
def rootTrailer : Str := "\nend)\n\nreturn __bundle_require(\"__root\")".toList

/-- The stop `\bend\)\s*(?=...)` of `reRegister` matches nowhere in the body as it stands in
the bundle, between a line break and the closing text of the root registration. -/
def noEarlyStop (body : Str) : Bool :=
  (List.range (body.length + 1)).all fun i =>
    (registerStop.run ⟨(body.take i).reverse ++ ['\n'], body.drop i ++ rootTrailer, []⟩).isEmpty

/-- The part of `registerStop` after `\b`. -/
def registerStopTail : Re :=
  .cat [.litCI "end)".toList, .star isSpace, .look registerLookahead]

/-- The text of the root registration between the entry body and the `return`. -/
def stopText : Str := "end)\n\nreturn __bundle_require(\"__root\")".toList

/-- The form the splitter leaves a script body in: no `\r\n`, no three line breaks in a row,
no white space at either end. -/
structure Tidy (body : Str) : Prop where
  no_crlf : includes body "\r\n".toList = false
  no_blank_run : includes body "\n\n\n".toList = false
  no_leading : trimStart body = body
  no_trailing : trimEnd body = body

/-- An entry body in tidy form that imports `A`. -/
def tidyEntry : Str :=
  "local a = require(\"A\")\n\nfunction onLoad()\n  a.run(function() end)\nend".toList

/-- An entry body in tidy form in which `end)` is followed by `package.preload`. -/
def earlyStopEntry : Str :=
  "local a = require(\"A\")\na.run(function() end)\npackage.preload[\"x\"] = nil".toList

/-- The modules collected for an entry body that imports `A` from `cyclicLib`. -/
def cyclicModules : List LuaModule :=
  [⟨"B".toList, "local a = require(\"A\")\nreturn 2".toList⟩,
    ⟨"A".toList, "local b = require(\"B\")\nreturn 1".toList⟩]

/-- A path segment that `path.normalize` keeps as it is. -/
def CleanSeg (s : Str) : Prop := s ≠ [] ∧ '/' ∉ s ∧ s ≠ ['.'] ∧ s ≠ ['.', '.']

/-- A relative path of segments that are clean or `.`. -/
def GoodPath (p : Str) : Prop := ∀ s ∈ splitOn '/' p, s = ['.'] ∨ CleanSeg s

/-- The segments of a path other than `.`. -/
def segsOf (p : Str) : List Str := (splitOn '/' p).filter fun s => s ≠ ['.']


/-- The name of a node file without its extension. -/
def fileStem (H : Host) (obj : Node) (order : Option Nat) (includeNickname : Bool) : Str :=
  (generateFilename H obj order includeNickname).dropLast.dropLast.dropLast.dropLast.dropLast

/-- The name of the directory of the children of a node. -/
def containerName (H : Host) (obj : Node) : Str :=
  sanitize H obj.nickname ++ '_' :: sanitize H (some (orElseStr obj.guid "noguid".toList))

mutual
/-- The number of levels of a node with everything it contains. -/
def Node.depth : Node → Nat
  | .mk _ _ _ _ _ _ _ _ c => depthContained c + 1
/-- The number of levels below a node. -/
def depthContained : Option (List Node) → Nat
  | none => 0
  | some l => depthEach l
/-- The number of levels of a node sequence. -/
def depthEach : List Node → Nat
  | [] => 0
  | n :: ns => max n.depth (depthEach ns)
end

mutual
/-- A node and every node the splitter reaches below it, parents first. -/
def Node.subtree : Node → List Node
  | .mk n k g s t x m r c => .mk n k g s t x m r c :: subtreeContained c
/-- The nodes the splitter reaches below a node. -/
def subtreeContained : Option (List Node) → List Node
  | none => []
  | some l => subtreeEach l
/-- The nodes the splitter reaches from a node sequence. -/
def subtreeEach : List Node → List Node
  | [] => []
  | n :: ns => n.subtree ++ subtreeEach ns
end

/-- One call of `saveObjectToFile`: the node and the other arguments. -/
structure Placed where
  node : Node
  rel : Str
  parent : Option Str
  order : Option Nat
  incl : Bool

/-- The file name of the call. -/
def Placed.fileName (H : Host) (p : Placed) : Str := generateFilename H p.node p.order p.incl

/-- The path of the node file of the call. -/
def Placed.jsonPath (H : Host) (p : Placed) : Str :=
  pathJoin [pathJoin [outputDir, p.rel], p.fileName H]

/-- The manifest entry of the call. -/
def Placed.entry (H : Host) (p : Placed) : ManifestEntry :=
  { type := orElseStr p.node.name "Object".toList, nickname := orNull p.node.nickname,
    guid := orNull p.node.guid, file := pathJoin [p.rel, p.fileName H],
    parent := orNull p.parent, order := p.order.map fun i => JsNumber.finite (i : ℚ) }

/-- The writes and the manifest entry of the call. -/
def Placed.save (H : Host) (st : SplitState) (p : Placed) : SplitState :=
  saveObjectOnly H p.node p.rel p.parent p.order p.incl st

/-- The calls for a node sequence itself, without the calls for what the nodes contain. -/
def placedDirect (incl : Bool) : List Node → Str → Option Str → Nat → List Placed
  | [], _, _, _ => []
  | n :: ns, rel, parent, i =>
    ⟨n, rel, parent, some i, incl⟩ :: placedDirect incl ns rel parent (i + 1)

mutual
/-- The calls of `saveObjectToFile` that one call makes, itself first. -/
def placedNode (H : Host) : Node → Str → Option Str → Option Nat → Bool → List Placed
  | .mk n k g s t x m r c, rel, parent, order, incl =>
    ⟨.mk n k g s t x m r c, rel, parent, order, incl⟩ ::
      placedContained H c (containerRelPath H (.mk n k g s t x m r c)) (orNull g)
/-- The calls for what a node contains. -/
def placedContained (H : Host) : Option (List Node) → Str → Option Str → List Placed
  | none, _, _ => []
  | some l, rel, parent => placedEach H false l rel parent 0
/-- The calls for a node sequence, from index `i` on. -/
def placedEach (H : Host) (incl : Bool) : List Node → Str → Option Str → Nat → List Placed
  | [], _, _, _ => []
  | n :: ns, rel, parent, i =>
    placedNode H n rel parent (some i) incl ++ placedEach H incl ns rel parent (i + 1)
end

/-- The calls for the children of a node. -/
def placedChildren (H : Host) (n : Node) : List Placed :=
  placedDirect false n.children (containerRelPath H n) (orNull n.guid) 0

/-- All calls of `saveObjectToFile` in a split of the node sequence. -/
def placedAll (H : Host) (objectStates : List Node) : List Placed :=
  placedEach H true objectStates ['.'] none 0


/-- The path of the node file of a call without the extension, as `saveObjectToFile` has it in
`basePathNoExt`. -/
def Placed.base (H : Host) (p : Placed) : Str := reJsonExt.replaceFirst [] (p.jsonPath H)

/-- The extensions of the files next to a node file, and of the node file. -/
def allExts : List Str :=
  [".json", ".lua", ".ttslua", ".state.txt", ".xml", ".memo.txt"].map String.toList

/-- What a call writes to the file with the given extension, `none` when it writes no such
file. -/
def Placed.content (H : Host) (p : Placed) (e : Str) : Option Str :=
  if e = ".json".toList then some (H.stringify p.node.stripped)
  else if e = ".lua".toList then
    if nonBlank p.node.luaScript then some (extractRootModule (p.node.luaScript.getD [])) else none
  else if e = ".state.txt".toList then
    if nonBlank p.node.luaScriptState then some (p.node.luaScriptState.getD []) else none
  else if e = ".xml".toList then
    if nonBlank p.node.xmlUI then some (p.node.xmlUI.getD []) else none
  else if e = ".memo.txt".toList then
    if nonBlank p.node.memo then some (p.node.memo.getD []) else none
  else none

/-- A number that tells the extensions apart. -/
def pathKind (s : Str) : Nat :=
  let r := s.reverse
  if ".json".toList.reverse.isPrefixOf r then 0
  else if ".ttslua".toList.reverse.isPrefixOf r then 1
  else if ".lua".toList.reverse.isPrefixOf r then 2
  else if ".state.txt".toList.reverse.isPrefixOf r then 3
  else if ".memo.txt".toList.reverse.isPrefixOf r then 4
  else if ".xml".toList.reverse.isPrefixOf r then 5
  else 6

/-- The calls whose arguments are as the splitter passes them: below the output directory
itself, or in the directory of a container. -/
def Placed.Shaped (H : Host) (p : Placed) : Prop :=
  (p.rel = ['.'] ∨ ∃ m : Node, p.rel = containerRelPath H m) ∧ ∃ i, p.order = some i


/-- The text before the file name in the path of the node file of a call. -/
def Placed.dirPrefix (p : Placed) : Str :=
  ("src".toList :: segsOf p.rel).flatMap fun x => x ++ ['/']

/-- The entries of a key in the object `manifestMap`, none when the key is no own property. -/
def ownEntries (m : ManifestMap) (key : Str) : List ManifestEntry := (m.lookup key).getD []

/-- The key under which the merger groups the entry of a call. -/
def Placed.pkey (p : Placed) : Str := orElseStr (orNull p.parent) "__root__".toList

/-- The key under which the merger groups the entries of the children of a node. -/
def Node.childKey (n : Node) : Str := orElseStr (orNull (orNull n.guid)) "__root__".toList


/-- The predicate of the filter for a key. -/
def keyIs (key : Str) (p : Placed) : Bool := decide (p.pkey = key)

/-- A node whose payloads come back from their files as they are: every payload that is present
has more than white space, and the script has no imports and is no bundle. -/
def Node.Restorable (n : Node) : Prop :=
  (∀ s, n.luaScript = some s →
    trim s ≠ [] ∧ findRequireIds s = [] ∧ extractRootModule s = s) ∧
  (∀ s, n.luaScriptState = some s → trim s ≠ []) ∧
  (∀ s, n.xmlUI = some s → trim s ≠ []) ∧
  (∀ s, n.memo = some s → trim s ≠ [])

/-- A node with a GUID that is a usable key of the object `manifestMap`. -/
def Node.HasKey (n : Node) : Prop :=
  ∃ g, n.guid = some g ∧ g ≠ [] ∧ g ≠ "__root__".toList ∧ g ∉ objectPrototypeKeys


/-- A host for examples: its codec writes a node as its GUID and reads the nodes of a table
back, its letters and numbers are those of ASCII, and it leaves a text as it is when it
normalises it (a text of ASCII is in normal form). -/
def tableHost (nodes : List Node) : Host :=
  ⟨fun n => n.guid.getD [],
    fun s => (nodes.map Node.stripped).find? fun n => n.guid == some s,
    Char.isAlphanum, fun s => s⟩

/-- A node whose note is one blank. -/
def blankMemoNode : Node :=
  .mk (some "Card".toList) none (some "abc123".toList) none none none (some [' ']) [] none

/-- A leaf with a note. -/
def sampleCard : Node :=
  .mk (some "Card".toList) (some "Ace".toList) (some "c0ffee".toList) none none none
    (some "note".toList) [] none

/-- A leaf with an empty list of contained nodes. -/
def sampleDie : Node :=
  .mk (some "Die".toList) none (some "d1ce00".toList) none (some "6".toList) none none []
    (some [])

/-- A container with a script, a state and markup. -/
def sampleBag : Node :=
  .mk (some "Bag".toList) (some "Loot bag".toList) (some "bag001".toList)
    (some "x = 1".toList) (some "s".toList) (some "<Panel/>".toList) none []
    (some [sampleCard, sampleDie])

/-- A node sequence with a container and a leaf. -/
def sampleTree : List Node :=
  [sampleBag, .mk (some "Token".toList) none (some "70ke17".toList) none none none none [] none]


/-- The start of `rePreload`: `package\.preload\[\s*["']__root["']`. -/
def preloadOpenRoot : Re :=
  .cat [.lit "package.preload[".toList, .star isSpace, .chr isQuote, .lit "__root".toList,
    .chr isQuote]

/-- A script in which the registration of the root name is written in capital letters. -/
def capitalRegister : Str :=
  "__BUNDLE_REGISTER(\"__root\", function()\nx = 1\nend)".toList


/-- A card in a bag in a bag. -/
def nestedTree : List Node :=
  [.mk (some "Bag".toList) (some "Outer".toList) (some "aaa111".toList) none none none none []
    (some [.mk (some "Bag".toList) (some "Inner".toList) (some "bbb222".toList) none none none
      none []
      (some [.mk (some "Card".toList) (some "Ace".toList) (some "ccc333".toList) none none none
        none [] none])])]

/-- An entry without an explicit order, for a file. -/
def fileEntry (file : String) : ManifestEntry :=
  ⟨"Card".toList, none, none, file.toList, none, none⟩


/-- Every import of a collected module is registered before the module, or names the module
itself, or was skipped with a circular-require warning whose chain already held it. -/
def DepsSettled (st : BundleState) : Prop :=
  ∀ pre m post, st.modules = pre ++ m :: post → ∀ d ∈ findRequireIds m.code,
    d ∈ pre.map (·.id) ∨ d = m.id ∨ ∃ ch, d ∈ ch ∧ ch ++ [d] ∈ st.warnings

/-- What holds of the state of a bundle operation between two calls made with the chain `ch`:
a visited identifier is collected or still in progress (on the chain). -/
structure RunInv (fs : FS) (libDir : Str) (ch : List Str) (st : BundleState) : Prop where
  pending : ∀ v ∈ st.visited, v ∈ st.modules.map (·.id) ∨ v ∈ ch
  collected : ∀ m ∈ st.modules, m.id ∈ st.visited
  nodup : (st.modules.map (·.id)).Nodup
  codes : ∀ m ∈ st.modules, moduleCode fs libDir m.id = some m.code
  warned : ∀ w ∈ st.warnings, ∃ c d, w = c ++ [d] ∧ d ∈ c
  deps : DepsSettled st

/-- What a completed call has added to the state. -/
structure RunPost (st st' : BundleState) : Prop where
  visited_mono : st.visited ⊆ st'.visited
  modules_mono : ∃ new, st'.modules = st.modules ++ new ∧ ∀ m ∈ new, m.id ∉ st.visited
  warnings_mono : st.warnings ⊆ st'.warnings

/-- What the loop over the imports of a module assumes of the function it calls, for the calls
that complete. -/
def RunSpec (fs : FS) (libDir : Str) (load : Str → List Str → BundleState → Res BundleState) :
    Prop :=
  ∀ sub ch st st', RunInv fs libDir ch st → load sub ch st = .ok st' →
    RunInv fs libDir ch st' ∧ RunPost st st' ∧ (sub ∈ st'.modules.map (·.id) ∨ sub ∈ ch)

/-- The identifiers are ranked so that every import, of the entry body (ranked as `__root`) and
of every module reached from it, goes down in rank. -/
def RankedImports (fs : FS) (libDir rootCode : Str) (rank : Str → Nat) : Prop :=
  (∀ id ∈ findRequireIds rootCode, rank id < rank rootName) ∧
    ∀ m code d, ImportsAll fs libDir rootCode m → moduleCode fs libDir m = some code →
      d ∈ findRequireIds code → rank d < rank m

/-- The import graph reached from the entry body is acyclic. -/
def Acyclic (fs : FS) (libDir rootCode : Str) : Prop :=
  ∃ rank : Str → Nat, RankedImports fs libDir rootCode rank

/-- A loader that, called for a reached module ranked below its whole chain, writes no warning
and collects reached modules only. -/
def QuietLoader (fs : FS) (libDir rootCode : Str) (rank : Str → Nat)
    (load : Str → List Str → BundleState → Res BundleState) : Prop :=
  ∀ sub ch st st', ImportsAll fs libDir rootCode sub → (∀ c ∈ ch, rank sub < rank c) →
    load sub ch st = .ok st' →
      st'.warnings = st.warnings ∧
        ∀ m ∈ st'.modules, m ∈ st.modules ∨ ImportsAll fs libDir rootCode m.id

/-- A library without a cycle: `A` imports `B`, and `B` imports nothing. -/
def chainLib : FS :=
  ⟨[("lib/A.lua".toList, "local b = require(\"B\")\nreturn 1".toList),
    ("lib/B.lua".toList, "return 2".toList)], ["lib".toList]⟩

/-- A library in which `A` imports itself. -/
def selfLib : FS :=
  ⟨[("lib/A.lua".toList, "local a = require(\"A\")\nreturn 1".toList)], ["lib".toList]⟩

/-- The rank of the identifiers of `chainLib` under the entry `cyclicEntry`. -/
def chainRank (id : Str) : Nat :=
  if id = rootName then 3 else if id = "A".toList then 2 else if id = "B".toList then 1 else 0


/-- The sanitised sources of the directives of a text, line by line. -/
def includeSources (text : Str) : List Str :=
  (splitOn '\n' text).filterMap fun line =>
    (INCLUDE_PATTERN.exec line).map fun m => cleanSrcOf ((m.cap 2).getD [])

/-- Every sanitised source a directive of the markup text or of a file names. -/
def includeUniverse (fs : FS) (xmlContent : Str) : List Str :=
  includeSources xmlContent ++ fs.files.flatMap fun f => includeSources f.2

/-- The sources of the universe that the guard set does not hold. -/
def unguarded (U visited : List Str) : List Str := U.filter fun t => t ∉ visited

/-- The expansion that fails as soon as a guard set names a source twice, that is, as soon as a
source would be expanded inside its own expansion; otherwise it is `bundleXML`. -/
def bundleXMLStrict (fs : FS) (xmlDir : Str) : Nat → Str → List Str → Res Str
  | 0, _, _ => .timeout
  | fuel + 1, xmlContent, visited =>
    if ¬visited.Nodup then .crash
    else if !truthy xmlContent then .ok xmlContent
    else
      match bundleLines fs xmlDir (bundleXMLStrict fs xmlDir fuel) visited
          (splitOn '\n' xmlContent) with
      | .ok result => .ok (joinWith ['\n'] result)
      | .exit => .exit
      | .crash => .crash
      | .timeout => .timeout

/-- A source directory in which `x` includes `y` and `y` includes `x`. -/
def cycleDir : FS :=
  ⟨[("ui/x.xml".toList, "<X>\n  <Include src=\"y\"/>\n</X>".toList),
    ("ui/y.xml".toList, "<Y/>\n<Include src=\"x\"/>".toList)], ["ui".toList]⟩

/-- A source directory in which `a` and `b` both include `c`. -/
def diamondDir : FS :=
  ⟨[("ui/a.xml".toList, "<A/>\n<Include src=\"c\"/>".toList),
    ("ui/b.xml".toList, "<Include src=\"c\"/>".toList),
    ("ui/c.xml".toList, "<C/>".toList)], ["ui".toList]⟩

/-- A source directory whose file `a.xml` includes itself under the name `a.xml`. -/
def aliasDir : FS :=
  ⟨[("ui/a.xml".toList, "<A/>\n<Include src=\"a.xml\"/>".toList)], ["ui".toList]⟩


/-- The object `manifestMap` of a manifest, empty when the grouping throws. -/
def groupOf (manifest : List ManifestEntry) : ManifestMap :=
  match groupByParent manifest [] with
  | .ok M => M
  | _ => []

/-- The split of the sample node sequence. -/
def sampleSplit : SplitState := splitObjectStates (tableHost (subtreeEach sampleTree)) sampleTree

/-- The manifest entry of the container of the sample node sequence. -/
def sampleBagEntry : ManifestEntry :=
  ⟨"Bag".toList, some "Loot bag".toList, some "bag001".toList,
    "001_Loot_bag.Bag_bag001.json".toList, none, some (.finite 0)⟩

/-- The split of the node sequence that holds the die alone. -/
def dieSplit : SplitState := splitObjectStates (tableHost [sampleDie]) [sampleDie]

/-- The manifest entry of the die. -/
def sampleDieEntry : ManifestEntry :=
  ⟨"Die".toList, none, some "d1ce00".toList, "001_Die_d1ce00.json".toList, none,
    some (.finite 0)⟩

/-- One step of the depth-first walk of a tree: the node, its parent (`none` for a top-level
node) and its zero-based index among its siblings. -/
structure Visit where
  node : Node
  parent : Option Node
  index : Nat

mutual
/-- The depth-first pre-order walk of a node and what it contains, the node first. -/
def Node.walk : Node → Option Node → Nat → List Visit
  | .mk n k g s t x m r c, parent, i =>
    ⟨.mk n k g s t x m r c, parent, i⟩ :: walkContained c (.mk n k g s t x m r c)
/-- The walk of what a node contains. -/
def walkContained : Option (List Node) → Node → List Visit
  | none, _ => []
  | some l, p => walkEach l (some p) 0
/-- The walk of a node sequence with the given parent, from index `i` on. -/
def walkEach : List Node → Option Node → Nat → List Visit
  | [], _, _ => []
  | n :: ns, p, i => n.walk p i ++ walkEach ns p (i + 1)
end

/-- What a manifest entry records besides the file: type, nickname, identifier, parent
reference and explicit order. -/
def ManifestEntry.record (e : ManifestEntry) :
    Str × Option Str × Option Str × Option Str × Option JsNumber :=
  (e.type, e.nickname, e.guid, e.parent, e.order)

/-- What the manifest is to record of a step of the walk: the name of the node (`Object` when
it has none), its nickname and identifier (`null` when missing or empty), the identifier of the
parent (`null` for a top-level node and for a parent whose identifier is missing or empty) and
the index among the siblings. -/
def Visit.record (v : Visit) : Str × Option Str × Option Str × Option Str × Option JsNumber :=
  (orElseStr v.node.name "Object".toList, orNull v.node.nickname, orNull v.node.guid,
    v.parent.bind (fun p => orNull p.guid), some (.finite (v.index : ℚ)))

/-- A container whose identifier is the empty string, with one card. -/
def blankGuidTree : List Node :=
  [.mk (some "Bag".toList) none (some []) none none none none [] (some [sampleCard])]


/-- The indentation `bundleXML` gives one line of an expanded fragment. -/
def indentLine (indent line : Str) : Str := if line.length > 0 then indent ++ line else line

/-- A line that is neither a directive nor a marker: after white space it starts neither with
`<Include src="` nor with `<!-- include `. -/
def PlainLine (l : Str) : Prop :=
  startsWith (trimStart l) "<Include src=\"".toList = false ∧
    startsWith (trimStart l) "<!-- include ".toList = false

/-- A fragment name that the expansion and the extraction both keep as it is: not empty, no
quote, blank or line break in it, no `../` in it, and neither `__root` nor `__proto__`. -/
def GoodName (name : Str) : Prop :=
  name ≠ [] ∧ '"' ∉ name ∧ ' ' ∉ name ∧ '\n' ∉ name ∧ includes name "../".toList = false ∧
    name ≠ "__root".toList ∧ name ≠ "__proto__".toList

/-- A text in the form the round trip asks for: trimmed, and every line is plain or a directive
`<indent><Include src="name"/>` with white space as indentation and a good name, whose file is
read and holds a text of lower rank. -/
def TidyMarkup (fs : FS) (xmlDir : Str) (rank : Str → Nat) (T : Str) : Prop :=
  trim T = T ∧
    ∀ l ∈ splitOn '\n' T, PlainLine l ∨
      ∃ indent name T', l = directiveLine indent name ∧ (∀ c ∈ indent, isSpace c = true) ∧
        GoodName name ∧ fs.readFileSync (pathJoin [xmlDir, xmlFileOf name]) = some T' ∧
        rank T' < rank T

/-- The fragment names the lines include, at any depth: the sanitised source of a directive of
the lines, or one included by the file of a fragment so included. -/
inductive Included (fs : FS) (xmlDir : Str) : List Str → Str → Prop where
  | here {lines : List Str} {line : Str} {m : Match} : line ∈ lines →
      INCLUDE_PATTERN.exec line = some m →
      Included fs xmlDir lines (cleanSrcOf ((m.cap 2).getD []))
  | deep {lines : List Str} {line T name : Str} {m : Match} : line ∈ lines →
      INCLUDE_PATTERN.exec line = some m →
      fs.readFileSync (pathJoin [xmlDir, xmlFileOf (cleanSrcOf ((m.cap 2).getD []))]) = some T →
      Included fs xmlDir (splitOn '\n' T) name → Included fs xmlDir lines name

/-- What the loop of `unbundleXML` does with the lines `X` of the expansion of the lines `L`,
indented by `I`, between the lines `A` and `B`: it scans them in as many turns as there are,
leaves the lines `L` indented by `I` in their place, and sets the fragments that `L` includes,
and no other key, to the texts of their files. -/
def Unbundles (fs : FS) (xmlDir : Str) (rank : Str → Nat) (r : Nat) (L X : List Str) : Prop :=
  ∀ (I : Str) (A B : List Str) (S : List Frame) (M : TextObject) (f : Nat),
    (∀ c ∈ I, isSpace c = true) →
    (∀ fr, S.head? = some fr →
      ∀ T, fs.readFileSync (pathJoin [xmlDir, xmlFileOf fr.name]) = some T → r ≤ rank T) →
    ∃ M', unbundleLoop (f + X.length) (A ++ (X.map (indentLine I) ++ B)) S A.length M =
        unbundleLoop f (A ++ (L.map (indentLine I) ++ B)) S (A.length + L.length) M' ∧
      (∀ key, objGet M' key = objGet M key ∨
        (Included fs xmlDir L key ∧
          ∃ T, fs.readFileSync (pathJoin [xmlDir, xmlFileOf key]) = some T ∧
            objGet M' key = some T)) ∧
      ∀ name, Included fs xmlDir L name →
        ∃ T, fs.readFileSync (pathJoin [xmlDir, xmlFileOf name]) = some T ∧
          objGet M' name = some T

/-- The guard set of a nested expansion names only fragments whose texts rank at least as high
as the text being expanded. -/
def GuardAbove (fs : FS) (xmlDir : Str) (rank : Str → Nat) (visited : List Str) (T : Str) :
    Prop :=
  ∀ v ∈ visited, ∃ Tv, fs.readFileSync (pathJoin [xmlDir, xmlFileOf v]) = some Tv ∧
    rank T ≤ rank Tv


/-- The lines of a text in the form the round trip asks for, with `r` above the ranks of the
texts they include. -/
def TidyLines (fs : FS) (xmlDir : Str) (rank : Str → Nat) (r : Nat) (L : List Str) : Prop :=
  ∀ l ∈ L, PlainLine l ∨
    ∃ indent name T', l = directiveLine indent name ∧ (∀ c ∈ indent, isSpace c = true) ∧
      GoodName name ∧ fs.readFileSync (pathJoin [xmlDir, xmlFileOf name]) = some T' ∧
      rank T' < r

/-- A source directory whose fragment `outer` includes the fragment `inner`. -/
def nestDir : FS :=
  ⟨[("ui/outer.xml".toList, "<Outer>\n  <Include src=\"inner\"/>\n</Outer>".toList),
    ("ui/inner.xml".toList, "<Inner>\n\n  <Text/>\n</Inner>".toList)], ["ui".toList]⟩

/-- A root document that includes `outer` and, next to it, `inner`. -/
def nestRoot : Str :=
  "<Root>\n\t<Include src=\"outer\"/>\n\t<Include src=\"inner\"/>\n</Root>".toList

/-- A source directory with a fragment whose name holds a blank. -/
def spaceDir : FS := ⟨[("ui/my panel.xml".toList, "<Panel/>".toList)], ["ui".toList]⟩

/-- The character `U+1D400` (mathematical bold capital A): a letter of class Lu that takes two
UTF-16 units. -/
def boldA : Char := Char.ofNat 0x1D400

/-- The character `U+00BD` (vulgar fraction one half): a number of class No, and no digit. -/
def oneHalf : Char := Char.ofNat 0xBD

/-- A host for examples beyond ASCII: as `tableHost []`, and `U+1D400` is a letter and `U+00BD`
a number; both are in normal form. -/
def unicodeHost : Host :=
  ⟨fun n => n.guid.getD [], fun _ => none,
    fun c => c.isAlphanum || c == boldA || c == oneHalf, fun s => s⟩

/-- Fuel for the script bundler that is enough for every script of the file system. -/
def scriptFuel (fs : FS) : Nat := 2 * (fs.files.flatMap fun f => findRequireIds f.2).length + 1

/-- The rank of the entries of the split of the sample node sequence: the container above its
children. -/
def sampleRank (e : ManifestEntry) : Nat := if e.guid = some "bag001".toList then 1 else 0

/-- A node that is its own container in the manifest below. -/
def loopBag : Node :=
  .mk (some "Bag".toList) none (some "bag001".toList) none none none none [] none

/-- A manifest entry that names its own GUID as parent. -/
def selfParentEntry : ManifestEntry :=
  ⟨"Bag".toList, none, some "bag001".toList, "001_Bag_bag001.json".toList,
    some "bag001".toList, some (.finite 0)⟩

/-- The node file of `selfParentEntry`. -/
def selfParentFiles : FS :=
  ⟨[("src/001_Bag_bag001.json".toList, (tableHost [loopBag]).stringify loopBag)],
    ["src".toList]⟩

/-! # Theorems -/

/-! ### The matcher -/

theorem mem_starRun {p : Char → Bool} {caps : List (Nat × Str)} {left right : Str} {t : MState} :
    t ∈ starRun p caps left right ↔
      ∃ run rest, right = run ++ rest ∧ (∀ c ∈ run, p c = true) ∧
        t = ⟨run.reverse ++ left, rest, caps⟩ := by
  induction right generalizing left with
  | nil =>
    simp only [starRun, List.mem_singleton]
    constructor
    · rintro rfl
      exact ⟨[], [], rfl, by simp, rfl⟩
    · rintro ⟨run, rest, h, _, rfl⟩
      obtain ⟨rfl, rfl⟩ := List.append_eq_nil.1 h.symm
      rfl
  | cons c r ih =>
    unfold starRun
    split
    · rename_i hc
      rw [List.mem_append, ih, List.mem_singleton]
      constructor
      · rintro (⟨run, rest, rfl, hrun, rfl⟩ | rfl)
        · refine ⟨c :: run, rest, rfl, ?_, by simp⟩
          intro x hx
          rcases List.mem_cons.1 hx with rfl | hx
          · exact hc
          · exact hrun x hx
        · exact ⟨[], c :: r, rfl, by simp, rfl⟩
      · rintro ⟨run, rest, h, hrun, rfl⟩
        cases run with
        | nil => right; simp at h; subst h; rfl
        | cons x xs =>
          simp only [List.cons_append, List.cons.injEq] at h
          obtain ⟨rfl, rfl⟩ := h
          left
          exact ⟨xs, rest, rfl, fun y hy => hrun y (List.mem_cons_of_mem _ hy), by simp⟩
    · rename_i hc
      rw [List.mem_singleton]
      constructor
      · rintro rfl
        exact ⟨[], c :: r, rfl, by simp, rfl⟩
      · rintro ⟨run, rest, h, hrun, rfl⟩
        cases run with
        | nil => simp at h; subst h; rfl
        | cons x xs =>
          simp only [List.cons_append, List.cons.injEq] at h
          obtain ⟨rfl, rfl⟩ := h
          exact absurd (hrun c (List.mem_cons_self _ _)) hc

/-- A greedy star first takes the whole run in front of a character outside the class. -/
theorem starRun_head {p : Char → Bool} (caps : List (Nat × Str)) (left run rest : Str)
    (hrun : ∀ c ∈ run, p c = true) (hrest : ∀ c r, rest = c :: r → p c = false) :
    ∃ tl, starRun p caps left (run ++ rest) = ⟨run.reverse ++ left, rest, caps⟩ :: tl := by
  induction run generalizing left with
  | nil =>
    cases rest with
    | nil => exact ⟨[], rfl⟩
    | cons c r =>
      refine ⟨[], ?_⟩
      simp [starRun, hrest c r rfl]
  | cons x xs ih =>
    obtain ⟨tl, htl⟩ := ih (x :: left) (fun c hc => hrun c (List.mem_cons_of_mem _ hc))
    refine ⟨tl ++ [⟨left, x :: (xs ++ rest), caps⟩], ?_⟩
    simp [starRun, hrun x (List.mem_cons_self _ _), htl]

theorem mem_run_chr {p : Char → Bool} {s t : MState} :
    t ∈ (Re.chr p).run s ↔ ∃ c r, s.right = c :: r ∧ p c = true ∧ t = ⟨c :: s.left, r, s.caps⟩ := by
  rcases s with ⟨l, r, cs⟩
  cases r with
  | nil => simp [Re.run]
  | cons c r =>
    by_cases h : p c = true
    · simp only [Re.run, h, if_true, List.mem_singleton, List.cons.injEq]
      constructor
      · rintro rfl
        exact ⟨c, r, ⟨rfl, rfl⟩, h, rfl⟩
      · rintro ⟨_, _, ⟨rfl, rfl⟩, _, rfl⟩
        rfl
    · simp only [Re.run, h, List.cons.injEq]
      constructor
      · intro h'
        simp at h'
      · rintro ⟨_, _, ⟨rfl, rfl⟩, hc, _⟩
        exact absurd hc h

theorem mem_run_seq {a b : Re} {s t : MState} :
    t ∈ (Re.seq a b).run s ↔ ∃ u ∈ a.run s, t ∈ b.run u := by
  simp [Re.run, List.mem_flatMap]

theorem mem_run_group {i : Nat} {a : Re} {s t : MState} :
    t ∈ (Re.group i a).run s ↔
      ∃ u ∈ a.run s, t = ⟨u.left, u.right,
        (i, s.right.take (s.right.length - u.right.length)) :: u.caps⟩ := by
  simp only [Re.run, List.mem_map]
  constructor
  · rintro ⟨u, hu, rfl⟩
    exact ⟨u, hu, rfl⟩
  · rintro ⟨u, hu, rfl⟩
    exact ⟨u, hu, rfl⟩

theorem mem_run_star {p : Char → Bool} {s t : MState} :
    t ∈ (Re.star p).run s ↔
      ∃ run rest, s.right = run ++ rest ∧ (∀ c ∈ run, p c = true) ∧
        t = ⟨run.reverse ++ s.left, rest, s.caps⟩ := by
  simp only [Re.run, mem_starRun]

theorem mem_run_bol {s t : MState} : t ∈ Re.bol.run s ↔ s.left = [] ∧ t = s := by
  rcases s with ⟨l, r, cs⟩
  cases l <;> simp [Re.run]

theorem mem_run_eol {s t : MState} : t ∈ Re.eol.run s ↔ s.right = [] ∧ t = s := by
  rcases s with ⟨l, r, cs⟩
  cases r <;> simp [Re.run]

theorem mem_run_c {ch : Char} {s t : MState} :
    t ∈ (Re.c ch).run s ↔ ∃ r, s.right = ch :: r ∧ t = ⟨ch :: s.left, r, s.caps⟩ := by
  rw [Re.c, mem_run_chr]
  constructor
  · rintro ⟨c, r, h, hc, rfl⟩
    have : c = ch := by simpa using hc
    subst this
    exact ⟨r, h, rfl⟩
  · rintro ⟨r, h, rfl⟩
    exact ⟨ch, r, h, by simp, rfl⟩

theorem scan_of_matchAt {re : Re} {left right : Str} {m : Match}
    (h : re.matchAt left right = some m) : re.scan left right = some m := by
  cases right with
  | nil => simpa [Re.scan] using h
  | cons c r => simp [Re.scan, h]

/-- A pattern anchored with `^` matches nowhere but at the start of the input. -/
theorem scan_bol_none (r : Re) (right left : Str) (h : left ≠ []) :
    (Re.seq .bol r).scan left right = none := by
  have hm : ∀ rt, (Re.seq .bol r).matchAt left rt = none := by
    intro rt
    cases left with
    | nil => exact absurd rfl h
    | cons x xs => simp [Re.matchAt, Re.run]
  induction right generalizing left with
  | nil => simp [Re.scan, hm]
  | cons c cs ih =>
    simp only [Re.scan, hm]
    exact ih (c :: left) (by simp) (fun rt => by simp [Re.matchAt, Re.run])


/-- The text a matcher consumed between two cursors. -/
theorem consumed_eq {α : Type} {s a t : List α} (h : s = a ++ t) :
    s.take (s.length - t.length) = a := by
  subst h
  simp

theorem orderPrefix_match (ds rest : Str) (hds : ∀ c ∈ ds, isDigit c = true) (hlen : 3 ≤ ds.length) :
    ∃ m, reOrderPrefix.exec (ds ++ '_' :: rest) = some m ∧ m.cap 1 = some ds := by
  obtain ⟨d₁, d₂, d₃, ds', rfl⟩ : ∃ d₁ d₂ d₃ ds', ds = d₁ :: d₂ :: d₃ :: ds' := by
    match ds, hlen with
    | d₁ :: d₂ :: d₃ :: ds', _ => exact ⟨d₁, d₂, d₃, ds', rfl⟩
  have h₁ := hds d₁ (by simp)
  have h₂ := hds d₂ (by simp)
  have h₃ := hds d₃ (by simp)
  obtain ⟨tl, htl⟩ := starRun_head (p := isDigit) [] [d₃, d₂, d₁] ds' ('_' :: rest)
    (fun c hc => hds c (by simp [hc])) (by rintro c r h; cases h; decide)
  refine ⟨_, scan_of_matchAt (m := ⟨[], (d₁ :: d₂ :: d₃ :: ds') ++ ['_'], rest,
    [(1, d₁ :: d₂ :: d₃ :: ds')]⟩) ?_, by simp [Match.cap]⟩
  simp only [Re.matchAt, Re.run, reOrderPrefix, Re.cat, Re.c, h₁, h₂, h₃, htl, List.cons_append,
    List.isEmpty_nil, if_true, List.flatMap_cons, List.flatMap_nil, List.append_nil, List.map_cons,
    List.cons_append, List.nil_append, beq_self_eq_true, List.reverse_nil]
  have e₁ : (d₁ :: d₂ :: d₃ :: (ds' ++ '_' :: rest)).take
      ((d₁ :: d₂ :: d₃ :: (ds' ++ '_' :: rest)).length - rest.length) =
      d₁ :: d₂ :: d₃ :: (ds' ++ ['_']) := consumed_eq (by simp)
  have e₂ : (d₁ :: d₂ :: d₃ :: (ds' ++ '_' :: rest)).take
      ((d₁ :: d₂ :: d₃ :: (ds' ++ '_' :: rest)).length - ('_' :: rest).length) =
      d₁ :: d₂ :: d₃ :: ds' := consumed_eq (by simp)
  simp only [e₁, e₂]

theorem matchAt_eq_none_iff {re : Re} {left right : Str} :
    re.matchAt left right = none ↔ re.run ⟨left, right, []⟩ = [] := by
  unfold Re.matchAt
  split <;> simp_all

theorem orderPrefix_sound {s : Str} {t : MState} (h : t ∈ reOrderPrefix.run ⟨[], s, []⟩) :
    ∃ ds rest, s = ds ++ '_' :: rest ∧ (∀ c ∈ ds, isDigit c = true) ∧ 3 ≤ ds.length := by
  simp only [reOrderPrefix, Re.cat, mem_run_seq, mem_run_group, mem_run_bol, mem_run_chr,
    mem_run_star, mem_run_c] at h
  obtain ⟨u, ⟨-, rfl⟩, v, ⟨w, ⟨a, ⟨d₁, r₁, hr₁, hd₁, rfl⟩, b, ⟨d₂, r₂, hr₂, hd₂, rfl⟩, c,
    ⟨d₃, r₃, hr₃, hd₃, rfl⟩, run, rest, hrr, hrun, rfl⟩, rfl⟩, r, hx, -⟩ := h
  simp only at hr₁ hr₂ hr₃ hx hrr
  subst hr₁ hr₂ hr₃ hrr hx
  refine ⟨d₁ :: d₂ :: d₃ :: run, r, by simp, ?_, by simp⟩
  intro c hc
  simp only [List.mem_cons] at hc
  rcases hc with rfl | rfl | rfl | hc
  · exact hd₁
  · exact hd₂
  · exact hd₃
  · exact hrun c hc

theorem orderPrefix_none (s : Str)
    (h : ¬∃ ds rest, s = ds ++ '_' :: rest ∧ (∀ c ∈ ds, isDigit c = true) ∧ 3 ≤ ds.length) :
    reOrderPrefix.exec s = none := by
  have hm : reOrderPrefix.matchAt [] s = none := by
    rw [matchAt_eq_none_iff]
    cases hr : reOrderPrefix.run ⟨[], s, []⟩ with
    | nil => rfl
    | cons t tl => exact absurd (orderPrefix_sound (t := t) (by rw [hr]; exact List.mem_cons_self _ _)) h
  unfold Re.exec
  cases s with
  | nil => simpa [Re.scan] using hm
  | cons c r =>
    simp only [Re.scan, hm]
    exact scan_bol_none _ r [c] (by simp)


theorem roundToDouble_small {n : Nat} (h : n < 2 ^ 53) : roundToDouble n = some n := by
  unfold roundToDouble
  rw [if_pos h]

theorem roundToDouble_le {n : Nat} (h : n ≤ 2 ^ 53) : roundToDouble n = some n := by
  rcases Nat.lt_or_ge n (2 ^ 53) with h' | h'
  · exact roundToDouble_small h'
  · have : n = 2 ^ 53 := Nat.le_antisymm h h'
    subst this
    decide

theorem roundToDouble_overflow {n : Nat} (h : 2 ^ 1024 - 2 ^ 970 ≤ n) : roundToDouble n = none := by
  have h53 : ¬ n < 2 ^ 53 := by
    have : (2 : Nat) ^ 53 ≤ 2 ^ 1024 - 2 ^ 970 := by decide
    omega
  unfold roundToDouble
  rw [if_neg h53, if_pos h]

theorem doubleMinusOne_le {n : Nat} (h : n ≤ 2 ^ 53) :
    doubleMinusOne n = (((n : Int) - 1 : Int) : ℚ) := by
  unfold doubleMinusOne
  split
  · rename_i h0
    subst h0
    rfl
  · rename_i h0
    have hlt : n - 1 < 2 ^ 53 := by omega
    rw [roundToDouble_small hlt]
    have : ((n - 1 : Nat) : Int) = (n : Int) - 1 := by omega
    simp only [this]

set_option maxRecDepth 20000 in
theorem digitsValue_huge : 2 ^ 1024 - 2 ^ 970 ≤ digitsValue ('1' :: List.replicate 309 '0') := by
  decide


theorem orderKey_le_refl (a : OrderKey) : a.le a := by
  cases a <;> simp [OrderKey.le]

theorem orderKey_le_trans {a b c : OrderKey} (h₁ : a.le b) (h₂ : b.le c) : a.le c := by
  cases a <;> cases b <;> cases c <;> simp_all [OrderKey.le]
  exact le_trans h₁ h₂

theorem orderKey_le_antisymm {a b : OrderKey} (h₁ : a.le b) (h₂ : b.le a) : a = b := by
  cases a <;> cases b <;> simp_all [OrderKey.le]
  exact le_antisymm h₁ h₂

theorem orderKey_le_total (a b : OrderKey) : a.le b ∨ b.le a := by
  cases a <;> cases b <;> simp [OrderKey.le]
  exact le_total _ _

theorem keyedLe_iff (a b : Keyed) :
    keyedLe a b ↔ (a.key.le b.key ∧ a.key ≠ b.key) ∨ (a.key = b.key ∧ a.idx ≤ b.idx) := by
  unfold keyedLe compareKeyed
  rcases a with ⟨va, ia, ka⟩
  rcases b with ⟨vb, ib, kb⟩
  cases ka with
  | fin x =>
    cases kb with
    | fin y =>
      simp only [OrderKey.subSign, OrderKey.le, ne_eq, OrderKey.fin.injEq]
      rcases lt_trichotomy x y with h | h | h
      · simp [h, h.le, h.ne]
      · subst h; simp
      · simp [h, h.not_lt, h.not_le, h.ne']
    | posInf => simp [OrderKey.subSign, OrderKey.le]
  | posInf =>
    cases kb with
    | fin y => simp [OrderKey.subSign, OrderKey.le]
    | posInf => simp [OrderKey.subSign, OrderKey.le]

theorem keyedLe_total (a b : Keyed) : keyedLe a b ∨ keyedLe b a := by
  rw [keyedLe_iff, keyedLe_iff]
  by_cases h : a.key = b.key
  · rcases Nat.le_total a.idx b.idx with hi | hi
    · exact Or.inl (Or.inr ⟨h, hi⟩)
    · exact Or.inr (Or.inr ⟨h.symm, hi⟩)
  · rcases orderKey_le_total a.key b.key with hk | hk
    · exact Or.inl (Or.inl ⟨hk, h⟩)
    · exact Or.inr (Or.inl ⟨hk, fun e => h e.symm⟩)

theorem keyedLe_trans {a b c : Keyed} (h₁ : keyedLe a b) (h₂ : keyedLe b c) : keyedLe a c := by
  rw [keyedLe_iff] at *
  rcases h₁ with ⟨h₁, n₁⟩ | ⟨e₁, i₁⟩ <;> rcases h₂ with ⟨h₂, n₂⟩ | ⟨e₂, i₂⟩
  · refine Or.inl ⟨orderKey_le_trans h₁ h₂, fun e => ?_⟩
    rw [e] at h₁
    exact n₂ (orderKey_le_antisymm h₂ h₁)
  · rw [← e₂]; exact Or.inl ⟨h₁, n₁⟩
  · rw [e₁]; exact Or.inl ⟨h₂, n₂⟩
  · exact Or.inr ⟨e₁.trans e₂, i₁.trans i₂⟩

instance : IsTotal Keyed keyedLe := ⟨keyedLe_total⟩

instance : IsTrans Keyed keyedLe := ⟨fun _ _ _ => keyedLe_trans⟩

theorem sortByOrderStable_eq (arr : List ManifestEntry) :
    sortByOrderStable arr = ((keyedFrom 0 arr).insertionSort keyedLe).map (·.v) := rfl

theorem keyedFrom_map_v (n : Nat) (arr : List ManifestEntry) : (keyedFrom n arr).map (·.v) = arr := by
  simp [keyedFrom, List.map_map, Function.comp_def, List.enumFrom_map_snd]

theorem keyedFrom_key {n : Nat} {arr : List ManifestEntry} {k : Keyed} (h : k ∈ keyedFrom n arr) :
    k.key = getOrderFromFile k.v := by
  simp only [keyedFrom, List.mem_map] at h
  obtain ⟨p, _, rfl⟩ := h
  rfl

theorem keyedFrom_idx_ge {n : Nat} {arr : List ManifestEntry} {k : Keyed} (h : k ∈ keyedFrom n arr) :
    n ≤ k.idx := by
  simp only [keyedFrom, List.mem_map] at h
  obtain ⟨⟨i, x⟩, hp, rfl⟩ := h
  exact (List.mk_mem_enumFrom_iff_le_and_getElem?_sub.1 hp).1

/-- In the keyed records the index strictly increases along the list. -/
theorem keyedFrom_pairwise (n : Nat) (arr : List ManifestEntry) :
    (keyedFrom n arr).Pairwise fun a b => a.idx < b.idx := by
  induction arr generalizing n with
  | nil => simp [keyedFrom]
  | cons x xs ih =>
    have : keyedFrom n (x :: xs) = ⟨x, n, getOrderFromFile x⟩ :: keyedFrom (n + 1) xs := rfl
    rw [this, List.pairwise_cons]
    exact ⟨fun b hb => keyedFrom_idx_ge hb, ih (n + 1)⟩

theorem sortByOrderStable_perm (arr : List ManifestEntry) : (sortByOrderStable arr).Perm arr := by
  rw [sortByOrderStable_eq]
  have h := ((keyedFrom 0 arr).perm_insertionSort keyedLe).map (·.v)
  rwa [keyedFrom_map_v] at h

theorem sortByOrderStable_keys (arr : List ManifestEntry) :
    ((sortByOrderStable arr).map getOrderFromFile).Pairwise OrderKey.le := by
  rw [sortByOrderStable_eq, List.map_map, List.pairwise_map]
  have hs : ((keyedFrom 0 arr).insertionSort keyedLe).Pairwise keyedLe :=
    List.sorted_insertionSort keyedLe _
  have hmem : ∀ k ∈ (keyedFrom 0 arr).insertionSort keyedLe, k.key = getOrderFromFile k.v :=
    fun k hk => keyedFrom_key (((keyedFrom 0 arr).perm_insertionSort keyedLe).subset hk)
  refine (List.Pairwise.and_mem.1 hs).imp ?_
  rintro a b ⟨ha, hb, hab⟩
  simp only [Function.comp]
  rw [← hmem a ha, ← hmem b hb]
  rcases (keyedLe_iff a b).1 hab with ⟨h, _⟩ | ⟨h, _⟩
  · exact h
  · rw [h]; exact orderKey_le_refl _

theorem keyed_filter_stable (arr : List ManifestEntry) (p : OrderKey → Bool) (k : OrderKey)
    (hp : ∀ x, p x = true → x = k) :
    ((keyedFrom 0 arr).insertionSort keyedLe).filter (fun a => p a.key) =
      (keyedFrom 0 arr).filter (fun a => p a.key) := by
  have hperm := (keyedFrom 0 arr).perm_insertionSort keyedLe
  have hK := keyedFrom_pairwise 0 arr
  have hne : ((keyedFrom 0 arr).insertionSort keyedLe).Pairwise fun a b => a.idx ≠ b.idx := by
    refine (hperm.pairwise_iff (fun {a b} (h : a.idx ≠ b.idx) => h.symm)).2 (hK.imp ?_)
    intro a b h
    exact h.ne
  have hs : ((keyedFrom 0 arr).insertionSort keyedLe).Pairwise keyedLe :=
    List.sorted_insertionSort keyedLe _
  have h₁ : (((keyedFrom 0 arr).insertionSort keyedLe).filter (fun a => p a.key)).Pairwise
      fun a b => a.idx < b.idx := by
    refine ((hs.and hne).sublist (List.filter_sublist _)).imp_of_mem ?_
    rintro a b ha hb ⟨hab, hidx⟩
    have hk : a.key = b.key :=
      (hp _ (List.mem_filter.1 ha).2).trans (hp _ (List.mem_filter.1 hb).2).symm
    rcases (keyedLe_iff a b).1 hab with ⟨_, h⟩ | ⟨_, h⟩
    · exact absurd hk h
    · exact lt_of_le_of_ne h hidx
  have h₂ : ((keyedFrom 0 arr).filter (fun a => p a.key)).Pairwise fun a b => a.idx < b.idx :=
    hK.sublist (List.filter_sublist _)
  refine (hperm.filter _).eq_of_sorted ?_ h₁ h₂
  intro a b _ _ hab hba
  exact absurd hab (Nat.lt_asymm hba)

/-- Entries of one key keep their order: the sort is stable. -/
theorem sortByOrderStable_filter_key (arr : List ManifestEntry) (k : OrderKey) :
    (sortByOrderStable arr).filter (fun e => getOrderFromFile e = k) =
      arr.filter (fun e => getOrderFromFile e = k) := by
  have hmem : ∀ a ∈ (keyedFrom 0 arr).insertionSort keyedLe, a.key = getOrderFromFile a.v :=
    fun a ha => keyedFrom_key (((keyedFrom 0 arr).perm_insertionSort keyedLe).subset ha)
  have hmem' : ∀ a ∈ keyedFrom 0 arr, a.key = getOrderFromFile a.v := fun a ha => keyedFrom_key ha
  have e₁ : (sortByOrderStable arr).filter (fun e => getOrderFromFile e = k) =
      (((keyedFrom 0 arr).insertionSort keyedLe).filter (fun a => decide (a.key = k))).map (·.v) := by
    rw [sortByOrderStable_eq, List.filter_map]
    congr 1
    apply List.filter_congr
    intro a ha
    simp [hmem a ha]
  have e₂ : arr.filter (fun e => getOrderFromFile e = k) =
      ((keyedFrom 0 arr).filter (fun a => decide (a.key = k))).map (·.v) := by
    conv_lhs => rw [← keyedFrom_map_v 0 arr]
    rw [List.filter_map]
    congr 1
    apply List.filter_congr
    intro a ha
    simp [hmem' a ha]
  rw [e₁, e₂, keyed_filter_stable arr (fun x => decide (x = k)) k (by simp)]

theorem pairwise_le_split (l : List ManifestEntry)
    (h : (l.map getOrderFromFile).Pairwise OrderKey.le) :
    l = l.filter (fun e => getOrderFromFile e ≠ .posInf) ++
      l.filter (fun e => getOrderFromFile e = .posInf) := by
  induction l with
  | nil => rfl
  | cons x xs ih =>
    rw [List.map_cons, List.pairwise_cons] at h
    by_cases hx : getOrderFromFile x = .posInf
    · have hall : ∀ y ∈ xs, getOrderFromFile y = .posInf := by
        intro y hy
        have := h.1 _ (List.mem_map_of_mem _ hy)
        rw [hx] at this
        cases hy' : getOrderFromFile y with
        | fin q => rw [hy'] at this; exact this.elim
        | posInf => rfl
      have e₁ : (x :: xs).filter (fun e => getOrderFromFile e ≠ .posInf) = [] := by
        rw [List.filter_eq_nil_iff]
        intro y hy
        rcases List.mem_cons.1 hy with rfl | hy
        · simp [hx]
        · simp [hall y hy]
      have e₂ : (x :: xs).filter (fun e => getOrderFromFile e = .posInf) = x :: xs := by
        rw [List.filter_eq_self]
        intro y hy
        rcases List.mem_cons.1 hy with rfl | hy
        · simp [hx]
        · simp [hall y hy]
      rw [e₁, e₂]; rfl
    · have e₁ : (x :: xs).filter (fun e => getOrderFromFile e ≠ .posInf) =
          x :: xs.filter (fun e => getOrderFromFile e ≠ .posInf) := by
        simp [List.filter_cons, hx]
      have e₂ : (x :: xs).filter (fun e => getOrderFromFile e = .posInf) =
          xs.filter (fun e => getOrderFromFile e = .posInf) := by
        simp [List.filter_cons, hx]
      rw [e₁, e₂, List.cons_append, ← ih h.2]


theorem getOrderFromFile_explicit (e : ManifestEntry) (q : ℚ) (h : e.order = some (.finite q)) :
    getOrderFromFile e = .fin q := by
  simp [getOrderFromFile, h]

theorem getOrderFromFile_fallback (e : ManifestEntry) (h : ∀ q, e.order ≠ some (.finite q)) :
    getOrderFromFile e =
      match reOrderPrefix.exec (basename e.file) with
      | some m =>
        match parseInt ((m.cap 1).getD []) with
        | some n => .fin (doubleMinusOne n)
        | none => .posInf
      | none => .posInf := by
  unfold getOrderFromFile
  split
  · rename_i q hq
    exact absurd hq (h q)
  · rfl

theorem getOrderFromFile_digits (e : ManifestEntry) (ds rest : Str)
    (h : ∀ q, e.order ≠ some (.finite q)) (hb : basename e.file = ds ++ '_' :: rest)
    (hds : ∀ c ∈ ds, isDigit c = true) (hlen : 3 ≤ ds.length) :
    getOrderFromFile e =
      match roundToDouble (digitsValue ds) with
      | some n => .fin (doubleMinusOne n)
      | none => .posInf := by
  obtain ⟨m, hm, hcap⟩ := orderPrefix_match ds rest hds hlen
  rw [getOrderFromFile_fallback e h, hb, hm]
  simp only [hcap, Option.getD_some, parseInt]

/-- C4 (as amended): `getOrderFromFile` returns a finite explicit order as it is; otherwise, for
a base name that starts with three or more decimal digits and `_`, the number minus one when the
number is at most `2 ^ 53`, and positive infinity when the number is too large for a finite
double; otherwise positive infinity. -/
theorem getOrderFromFile_spec (e : ManifestEntry) :
    (∀ q, e.order = some (.finite q) → getOrderFromFile e = .fin q) ∧
    (∀ ds rest, (∀ q, e.order ≠ some (.finite q)) → basename e.file = ds ++ '_' :: rest →
      (∀ c ∈ ds, isDigit c = true) → 3 ≤ ds.length →
        (digitsValue ds ≤ 2 ^ 53 →
          getOrderFromFile e = .fin (((digitsValue ds : Int) - 1 : Int) : ℚ)) ∧
        (2 ^ 1024 - 2 ^ 970 ≤ digitsValue ds → getOrderFromFile e = .posInf)) ∧
    ((∀ q, e.order ≠ some (.finite q)) →
      (¬∃ ds rest, basename e.file = ds ++ '_' :: rest ∧ (∀ c ∈ ds, isDigit c = true) ∧
        3 ≤ ds.length) →
      getOrderFromFile e = .posInf) := by
  refine ⟨getOrderFromFile_explicit e, ?_, ?_⟩
  · intro ds rest h hb hds hlen
    have key := getOrderFromFile_digits e ds rest h hb hds hlen
    constructor
    · intro hle
      rw [key, roundToDouble_le hle]
      simp only [doubleMinusOne_le hle]
    · intro hbig
      rw [key, roundToDouble_overflow hbig]
  · intro h hno
    rw [getOrderFromFile_fallback e h, orderPrefix_none _ hno]

/-- Witness for `getOrderFromFile_spec`: an entry without explicit order whose file is
`Contained/Bag_abc123/002_Card_def456.json` has order key 1. -/
theorem getOrderFromFile_spec_witness :
    getOrderFromFile ⟨"Card".toList, none, some "def456".toList,
      "Contained/Bag_abc123/002_Card_def456.json".toList, some "abc123".toList, none⟩ = .fin 1 :=
  ((getOrderFromFile_spec ⟨"Card".toList, none, some "def456".toList,
      "Contained/Bag_abc123/002_Card_def456.json".toList, some "abc123".toList, none⟩).2.1
    "002".toList "Card_def456.json".toList (by simp) (by decide) (by decide) (by decide)).1
    (by decide)

set_option maxRecDepth 20000 in
/-- C4 as stated fails: the base name of this entry starts with 310 decimal digits and `_`, and
`getOrderFromFile` returns positive infinity, not that number minus one. -/
theorem getOrderFromFile_huge_prefix :
    hugePrefixEntry.order = none ∧
    basename hugePrefixEntry.file =
      ('1' :: List.replicate 309 '0') ++ '_' :: "Card_abc123.json".toList ∧
    (∀ c ∈ '1' :: List.replicate 309 '0', isDigit c = true) ∧
    getOrderFromFile hugePrefixEntry = .posInf ∧
    getOrderFromFile hugePrefixEntry ≠
      .fin (((digitsValue ('1' :: List.replicate 309 '0') : Int) - 1 : Int) : ℚ) := by
  have hb : basename hugePrefixEntry.file =
      ('1' :: List.replicate 309 '0') ++ '_' :: "Card_abc123.json".toList := by decide
  have hds : ∀ c ∈ '1' :: List.replicate 309 '0', isDigit c = true := by
    intro c hc
    rcases List.mem_cons.1 hc with rfl | hc
    · decide
    · rw [List.eq_of_mem_replicate hc]; decide
  have hinf : getOrderFromFile hugePrefixEntry = .posInf := by
    rw [getOrderFromFile_digits hugePrefixEntry _ _ (by simp [hugePrefixEntry]) hb hds (by simp),
      roundToDouble_overflow digitsValue_huge]
  exact ⟨rfl, hb, hds, hinf, by rw [hinf]; simp⟩


/-- C2: `sortByOrderStable` returns a permutation of its input whose order keys are
non-decreasing, and three entries with the explicit orders 2, 0, 1 come out in the order of the
values 0, 1, 2. -/
theorem sortByOrderStable_sorted_perm (arr : List ManifestEntry) :
    (sortByOrderStable arr).Perm arr ∧
    ((sortByOrderStable arr).map getOrderFromFile).Pairwise OrderKey.le ∧
    (∀ a b c : ManifestEntry,
      sortByOrderStable [{ a with order := some (.finite 2) }, { b with order := some (.finite 0) },
          { c with order := some (.finite 1) }] =
        [{ b with order := some (.finite 0) }, { c with order := some (.finite 1) },
          { a with order := some (.finite 2) }]) := by
  refine ⟨sortByOrderStable_perm arr, sortByOrderStable_keys arr, ?_⟩
  intro a b c
  norm_num [sortByOrderStable, arraySort, getOrderFromFile, compareKeyed, OrderKey.subSign,
    List.enum, List.enumFrom, List.insertionSort, List.orderedInsert]

theorem loadModule_zero (fs : FS) (libDir id : Str) (chain : List Str) (st : BundleState) :
    loadModule fs libDir 0 id chain st = .timeout := rfl

theorem loadModule_succ (fs : FS) (libDir : Str) (fuel : Nat) (id : Str) (chain : List Str)
    (st : BundleState) :
    loadModule fs libDir (fuel + 1) id chain st =
      if id ∈ st.visited then .ok st
      else
        match moduleCode fs libDir id with
        | none => .exit
        | some code =>
          match loadSubs (loadModule fs libDir fuel) id chain (findRequireIds code)
              { st with visited := st.visited ++ [id] } with
          | .ok st₂ => .ok { st₂ with modules := st₂.modules ++ [⟨id, code⟩] }
          | r => r := by
  rw [loadModule]
  unfold moduleCode
  split
  · rfl
  · cases h₁ : resolveModulePath fs id libDir with
    | none => rfl
    | some file =>
      cases h₂ : fs.readFileSync file with
      | none => simp only [h₂]
      | some code =>
        simp only [h₂]
        split <;> rfl

theorem mem_of_lookup {α : Type} {l : List (Str × α)} {k : Str} {v : α}
    (h : l.lookup k = some v) : (k, v) ∈ l := by
  induction l with
  | nil => simp at h
  | cons p ps ih =>
    rcases p with ⟨k', v'⟩
    rw [List.lookup_cons] at h
    by_cases hk : k = k'
    · subst hk
      simp at h
      subst h
      exact List.mem_cons_self _ _
    · have : (k == k') = false := by simpa using hk
      rw [this] at h
      exact List.mem_cons_of_mem _ (ih h)

theorem moduleCode_mem {fs : FS} {libDir id code : Str} (h : moduleCode fs libDir id = some code) :
    ∃ file, (file, code) ∈ fs.files := by
  unfold moduleCode at h
  split at h
  · cases h
  · rename_i file _
    split at h
    · cases h
    · rename_i code' hr
      split at h
      · cases h
      · cases h
        refine ⟨file, ?_⟩
        unfold FS.readFileSync at hr
        exact mem_of_lookup hr


theorem visitedOk_length {U : List Str} {st : BundleState} (h : VisitedOk U st) :
    st.visited.length ≤ U.length :=
  (List.subperm_of_subset h.1 h.2).length_le

theorem requires_subset_universe {fs : FS} {libDir rootCode id code : Str}
    (h : moduleCode fs libDir id = some code) :
    findRequireIds code ⊆ requireUniverse fs rootCode := by
  obtain ⟨file, hf⟩ := moduleCode_mem h
  intro x hx
  unfold requireUniverse
  exact List.mem_append_right _ (List.mem_flatMap.2 ⟨(file, code), hf, hx⟩)

theorem loadSubs_good {U : List Str} {n : Nat}
    {load : Str → List Str → BundleState → Res BundleState} (hload : GoodLoader U n load)
    (id : Str) (chain : List Str) (subs : List Str) (st : BundleState) (hsubs : subs ⊆ U)
    (hst : VisitedOk U st) (hn : n ≤ st.visited.length) :
    loadSubs load id chain subs st ≠ .timeout ∧
      ∀ st', loadSubs load id chain subs st = .ok st' →
        VisitedOk U st' ∧ st.visited.length ≤ st'.visited.length := by
  induction subs generalizing st with
  | nil =>
    refine ⟨by simp [loadSubs], ?_⟩
    intro st' h
    simp only [loadSubs, Res.ok.injEq] at h
    subst h
    exact ⟨hst, le_rfl⟩
  | cons sub subs ih =>
    have hsub : sub ∈ U := hsubs (List.mem_cons_self _ _)
    have hsubs' : subs ⊆ U := fun x hx => hsubs (List.mem_cons_of_mem _ hx)
    unfold loadSubs
    split
    · exact ih _ hsubs' hst hn
    · obtain ⟨hnt, hok⟩ := hload sub (chain ++ [id]) st hsub hst hn
      cases hr : load sub (chain ++ [id]) st with
      | ok st₁ =>
        obtain ⟨h₁, hlen⟩ := hok st₁ hr
        obtain ⟨hnt', hok'⟩ := ih st₁ hsubs' h₁ (hn.trans hlen)
        refine ⟨hnt', fun st' h => ?_⟩
        obtain ⟨h₂, hlen'⟩ := hok' st' h
        exact ⟨h₂, hlen.trans hlen'⟩
      | exit => simp
      | crash => simp
      | timeout => exact absurd hr hnt

theorem loadModule_good (fs : FS) (libDir rootCode : Str) (fuel : Nat) :
    GoodLoader (requireUniverse fs rootCode) ((requireUniverse fs rootCode).length + 1 - fuel)
      (loadModule fs libDir fuel) := by
  induction fuel with
  | zero =>
    intro sub ch st _ hst hn
    have := visitedOk_length hst
    omega
  | succ fuel ih =>
    intro id ch st hid hst hn
    rw [loadModule_succ]
    split
    · refine ⟨by simp, fun st' h => ?_⟩
      simp only [Res.ok.injEq] at h
      subst h
      exact ⟨hst, le_rfl⟩
    · rename_i hvis
      cases hc : moduleCode fs libDir id with
      | none => simp
      | some code =>
        simp only
        have hst₁ : VisitedOk (requireUniverse fs rootCode)
            { st with visited := st.visited ++ [id] } := by
          refine ⟨?_, ?_⟩
          · simp only
            rw [List.nodup_append]
            refine ⟨hst.1, List.nodup_singleton _, ?_⟩
            intro a ha hb
            rw [List.mem_singleton] at hb
            subst hb
            exact hvis ha
          · intro x hx
            simp only [List.mem_append, List.mem_singleton] at hx
            rcases hx with hx | rfl
            · exact hst.2 hx
            · exact hid
        obtain ⟨hnt, hok⟩ := loadSubs_good ih id ch (findRequireIds code)
          { st with visited := st.visited ++ [id] } (requires_subset_universe hc) hst₁
          (by simp only [List.length_append, List.length_singleton]; omega)
        cases hr : loadSubs (loadModule fs libDir fuel) id ch (findRequireIds code)
            { st with visited := st.visited ++ [id] } with
        | ok st₂ =>
          obtain ⟨h₂, hlen⟩ := hok st₂ hr
          refine ⟨by simp, fun st' h => ?_⟩
          simp only [Res.ok.injEq] at h
          subst h
          refine ⟨h₂, ?_⟩
          simp only [List.length_append, List.length_singleton] at hlen ⊢
          omega
        | exit => simp
        | crash => simp
        | timeout => exact absurd hr hnt


theorem loadRoots_good (fs : FS) (libDir rootCode : Str) (fuel : Nat)
    (hfuel : (requireUniverse fs rootCode).length + 1 ≤ fuel) (ids : List Str) (st : BundleState)
    (hids : ids ⊆ requireUniverse fs rootCode) (hst : VisitedOk (requireUniverse fs rootCode) st) :
    loadRoots fs libDir fuel ids st ≠ .timeout := by
  have hgood := loadModule_good fs libDir rootCode fuel
  induction ids generalizing st with
  | nil => simp [loadRoots]
  | cons id ids ih =>
    unfold loadRoots
    obtain ⟨hnt, hok⟩ := hgood id ["__root".toList] st (hids (List.mem_cons_self _ _)) hst
      (by omega)
    cases hr : loadModule fs libDir fuel id ["__root".toList] st with
    | ok st₁ => exact ih st₁ (fun x hx => hids (List.mem_cons_of_mem _ hx)) (hok st₁ hr).1
    | exit => simp
    | crash => simp
    | timeout => exact absurd hr hnt

theorem collectModules_no_timeout (fs : FS) (libDir rootCode : Str) (fuel : Nat)
    (hfuel : (requireUniverse fs rootCode).length + 1 ≤ fuel) :
    collectModules fs libDir fuel rootCode ≠ .timeout :=
  loadRoots_good fs libDir rootCode fuel hfuel _ _
    (fun _ hx => List.mem_append_left _ hx) ⟨List.nodup_nil, by simp⟩

theorem loadSubs_mono {load₁ load₂ : Str → List Str → BundleState → Res BundleState}
    (h : ∀ sub ch st r, load₁ sub ch st = r → r ≠ .timeout → load₂ sub ch st = r)
    (id : Str) (chain subs : List Str) (st : BundleState) (r : Res BundleState)
    (hr : loadSubs load₁ id chain subs st = r) (hnt : r ≠ .timeout) :
    loadSubs load₂ id chain subs st = r := by
  induction subs generalizing st with
  | nil => simpa [loadSubs] using hr
  | cons sub subs ih =>
    unfold loadSubs at hr ⊢
    split
    · rename_i hc
      rw [if_pos hc] at hr
      exact ih _ hr
    · rename_i hc
      rw [if_neg hc] at hr
      cases h₁ : load₁ sub (chain ++ [id]) st with
      | ok st₁ =>
        rw [h₁] at hr
        rw [h _ _ _ _ h₁ (by simp)]
        exact ih _ hr
      | exit =>
        rw [h₁] at hr
        rw [h _ _ _ _ h₁ (by simp)]
        exact hr
      | crash =>
        rw [h₁] at hr
        rw [h _ _ _ _ h₁ (by simp)]
        exact hr
      | timeout =>
        rw [h₁] at hr
        exact absurd hr.symm hnt

theorem loadModule_mono_succ (fs : FS) (libDir : Str) (fuel : Nat) :
    ∀ id ch st r, loadModule fs libDir fuel id ch st = r → r ≠ .timeout →
      loadModule fs libDir (fuel + 1) id ch st = r := by
  induction fuel with
  | zero =>
    intro id ch st r hr hnt
    rw [loadModule_zero] at hr
    exact absurd hr.symm hnt
  | succ fuel ih =>
    intro id ch st r hr hnt
    rw [loadModule_succ] at hr ⊢
    split
    · rename_i hv
      rw [if_pos hv] at hr
      exact hr
    · rename_i hv
      rw [if_neg hv] at hr
      cases hc : moduleCode fs libDir id with
      | none =>
        rw [hc] at hr
        exact hr
      | some code =>
        rw [hc] at hr
        simp only at hr ⊢
        cases hl : loadSubs (loadModule fs libDir fuel) id ch (findRequireIds code)
            { st with visited := st.visited ++ [id] } with
        | ok st₂ =>
          rw [hl] at hr
          rw [loadSubs_mono ih _ _ _ _ _ hl (by simp)]
          exact hr
        | exit =>
          rw [hl] at hr
          rw [loadSubs_mono ih _ _ _ _ _ hl (by simp)]
          exact hr
        | crash =>
          rw [hl] at hr
          rw [loadSubs_mono ih _ _ _ _ _ hl (by simp)]
          exact hr
        | timeout =>
          rw [hl] at hr
          exact absurd hr.symm hnt

theorem loadModule_mono (fs : FS) (libDir : Str) (fuel k : Nat) :
    ∀ id ch st r, loadModule fs libDir fuel id ch st = r → r ≠ .timeout →
      loadModule fs libDir (fuel + k) id ch st = r := by
  induction k with
  | zero => intro id ch st r hr _; exact hr
  | succ k ih =>
    intro id ch st r hr hnt
    exact loadModule_mono_succ fs libDir (fuel + k) id ch st r (ih id ch st r hr hnt) hnt

theorem loadRoots_mono (fs : FS) (libDir : Str) (fuel k : Nat) (ids : List Str)
    (st : BundleState) (r : Res BundleState) (hr : loadRoots fs libDir fuel ids st = r)
    (hnt : r ≠ .timeout) : loadRoots fs libDir (fuel + k) ids st = r := by
  induction ids generalizing st with
  | nil => simpa [loadRoots] using hr
  | cons id ids ih =>
    unfold loadRoots at hr ⊢
    cases h₁ : loadModule fs libDir fuel id ["__root".toList] st with
    | ok st₁ =>
      rw [h₁] at hr
      rw [loadModule_mono fs libDir fuel k _ _ _ _ h₁ (by simp)]
      exact ih _ hr
    | exit =>
      rw [h₁] at hr
      rw [loadModule_mono fs libDir fuel k _ _ _ _ h₁ (by simp)]
      exact hr
    | crash =>
      rw [h₁] at hr
      rw [loadModule_mono fs libDir fuel k _ _ _ _ h₁ (by simp)]
      exact hr
    | timeout =>
      rw [h₁] at hr
      exact absurd hr.symm hnt

theorem collectModules_mono (fs : FS) (libDir rootCode : Str) (k : Nat) :
    collectModules fs libDir ((requireUniverse fs rootCode).length + 1 + k) rootCode =
      collectModules fs libDir ((requireUniverse fs rootCode).length + 1) rootCode :=
  loadRoots_mono fs libDir _ k _ _ _ rfl
    (collectModules_no_timeout fs libDir rootCode _ le_rfl)

/-- C7: the recursive module resolution of `bundleLuaIfNeeded` terminates for every entry script
and every finite library, cyclic ones included: with fuel above the number of import
identifiers in the texts it never runs out of fuel, and more fuel does not change the result. -/
theorem bundleLuaIfNeeded_terminates (fs : FS) (libDir rootCode : Str) (k : Nat) :
    bundleLuaIfNeeded fs libDir ((requireUniverse fs rootCode).length + 1 + k) rootCode ≠
        .timeout ∧
      collectModules fs libDir ((requireUniverse fs rootCode).length + 1 + k) rootCode ≠
        .timeout ∧
      bundleLuaIfNeeded fs libDir ((requireUniverse fs rootCode).length + 1 + k) rootCode =
        bundleLuaIfNeeded fs libDir ((requireUniverse fs rootCode).length + 1) rootCode := by
  have hnt := collectModules_no_timeout fs libDir rootCode
    ((requireUniverse fs rootCode).length + 1 + k) (by omega)
  refine ⟨?_, hnt, ?_⟩
  · unfold bundleLuaIfNeeded
    split
    · simp
    · split
      · simp
      · cases hc : collectModules fs libDir ((requireUniverse fs rootCode).length + 1 + k)
            rootCode with
        | ok st => simp
        | exit => simp
        | crash => simp
        | timeout => exact absurd hc hnt
  · unfold bundleLuaIfNeeded
    rw [collectModules_mono]


theorem LoadPost.refl_of_eq (fs : FS) (libDir rootCode : Str) (st st' : BundleState)
    (hv : st'.visited = st.visited) (hm : st'.modules = st.modules) :
    LoadPost fs libDir rootCode st st' where
  visited_mono := by rw [hv]; exact fun _ h => h
  done := by rw [hv]; exact fun v h => Or.inl h
  sound := by rw [hv]; exact fun v h => Or.inl h
  fresh := ⟨[], by simp [hm], by simp, by simp⟩

theorem LoadPost.trans {fs : FS} {libDir rootCode : Str} {st st₁ st₂ : BundleState}
    (h₁ : LoadPost fs libDir rootCode st st₁) (h₂ : LoadPost fs libDir rootCode st₁ st₂) :
    LoadPost fs libDir rootCode st st₂ where
  visited_mono := fun _ h => h₂.visited_mono (h₁.visited_mono h)
  done := by
    obtain ⟨new₂, hm₂, -, -⟩ := h₂.fresh
    intro v hv
    rcases h₂.done v hv with h | h
    · rcases h₁.done v h with h' | h'
      · exact Or.inl h'
      · right
        rw [hm₂, List.map_append]
        exact List.mem_append_left _ h'
    · exact Or.inr h
  sound := by
    intro v hv
    rcases h₂.sound v hv with h | h
    · exact h₁.sound v h
    · exact Or.inr h
  fresh := by
    obtain ⟨new₁, hm₁, hn₁, hp₁⟩ := h₁.fresh
    obtain ⟨new₂, hm₂, hn₂, hp₂⟩ := h₂.fresh
    refine ⟨new₁ ++ new₂, by rw [hm₂, hm₁, List.append_assoc], ?_, ?_⟩
    · rw [List.map_append, List.nodup_append]
      refine ⟨hn₁, hn₂, ?_⟩
      intro a ha hb
      obtain ⟨m₁, hm₁', rfl⟩ := List.mem_map.1 ha
      obtain ⟨m₂, hm₂', he⟩ := List.mem_map.1 hb
      exact (hp₂ m₂ hm₂').1 (he ▸ (hp₁ m₁ hm₁').2.1)
    · intro m hm
      rcases List.mem_append.1 hm with hm | hm
      · obtain ⟨a, b, c, d⟩ := hp₁ m hm
        refine ⟨a, h₂.visited_mono b, c, fun sub hs => ?_⟩
        rcases d sub hs with h | h
        · exact Or.inl h
        · exact Or.inr (h₂.visited_mono h)
      · obtain ⟨a, b, c, d⟩ := hp₂ m hm
        exact ⟨fun h => a (h₁.visited_mono h), b, c, d⟩

theorem loadSubs_spec {fs : FS} {libDir rootCode : Str}
    {load : Str → List Str → BundleState → Res BundleState}
    (hload : LoaderSpec fs libDir rootCode load) (id code : Str) (chain subs : List Str)
    (st : BundleState) (hid : Imports fs libDir rootCode id)
    (hcode : moduleCode fs libDir id = some code) (hsubs : subs ⊆ findRequireIds code)
    (hch : ChainOk chain st) (hvis : id ∈ st.visited) :
    loadSubs load id chain subs st = .timeout ∨
      ∃ st', loadSubs load id chain subs st = .ok st' ∧ LoadPost fs libDir rootCode st st' ∧
        ∀ sub ∈ subs, sub = rootName ∨ sub ∈ st'.visited := by
  induction subs generalizing st with
  | nil =>
    right
    exact ⟨st, rfl, LoadPost.refl_of_eq fs libDir rootCode st st rfl rfl, by simp⟩
  | cons sub subs ih =>
    have hsubs' : subs ⊆ findRequireIds code := fun x hx => hsubs (List.mem_cons_of_mem _ hx)
    unfold loadSubs
    split
    · rename_i hc
      rcases ih { st with warnings := st.warnings ++ [chain ++ [sub]] } hsubs' hch hvis with h | h
      · exact Or.inl h
      · obtain ⟨st', hr, hp, hs⟩ := h
        refine Or.inr ⟨st', hr, (LoadPost.refl_of_eq fs libDir rootCode st
          { st with warnings := st.warnings ++ [chain ++ [sub]] } rfl rfl).trans hp, ?_⟩
        intro x hx
        rcases List.mem_cons.1 hx with rfl | hx
        · rcases hch.2 x hc with h | h
          · exact Or.inl h
          · exact Or.inr (hp.visited_mono h)
        · exact hs x hx
    · rename_i hc
      have hne : sub ≠ rootName := fun h => hc (h ▸ hch.1)
      have hsubI : Imports fs libDir rootCode sub :=
        Imports.step hid hcode (hsubs (List.mem_cons_self _ _)) hne
      have hch' : ChainOk (chain ++ [id]) st := by
        refine ⟨List.mem_append_left _ hch.1, fun c hcm => ?_⟩
        rcases List.mem_append.1 hcm with h | h
        · exact hch.2 c h
        · rw [List.mem_singleton] at h
          exact Or.inr (h ▸ hvis)
      rcases hload sub (chain ++ [id]) st hsubI hch' with h | ⟨st₁, hr₁, hp₁, hs₁⟩
      · rw [h]; exact Or.inl rfl
      · rw [hr₁]
        simp only
        have hch₁ : ChainOk chain st₁ :=
          ⟨hch.1, fun c hcm => (hch.2 c hcm).imp (fun h => h) (fun h => hp₁.visited_mono h)⟩
        rcases ih st₁ hsubs' hch₁ (hp₁.visited_mono hvis) with h | ⟨st', hr, hp, hs⟩
        · exact Or.inl h
        · refine Or.inr ⟨st', hr, hp₁.trans hp, ?_⟩
          intro x hx
          rcases List.mem_cons.1 hx with rfl | hx
          · exact Or.inr (hp.visited_mono hs₁)
          · exact hs x hx


theorem loadModule_spec {fs : FS} {libDir rootCode : Str}
    (hres : ∀ id, Imports fs libDir rootCode id → (moduleCode fs libDir id).isSome)
    (fuel : Nat) : LoaderSpec fs libDir rootCode (loadModule fs libDir fuel) := by
  induction fuel with
  | zero => intro sub ch st _ _; exact Or.inl rfl
  | succ fuel ih =>
    intro id ch st hid hch
    rw [loadModule_succ]
    split
    · rename_i hvis
      exact Or.inr ⟨st, rfl, LoadPost.refl_of_eq fs libDir rootCode st st rfl rfl, hvis⟩
    · rename_i hvis
      obtain ⟨code, hcode⟩ := Option.isSome_iff_exists.1 (hres id hid)
      rw [hcode]
      simp only
      have hch₁ : ChainOk ch { st with visited := st.visited ++ [id] } :=
        ⟨hch.1, fun c hc => (hch.2 c hc).imp (fun h => h) (fun h => List.mem_append_left _ h)⟩
      rcases loadSubs_spec ih id code ch (findRequireIds code)
          { st with visited := st.visited ++ [id] } hid hcode (fun _ h => h) hch₁
          (by simp) with h | ⟨st₂, hr, hp, hs⟩
      · rw [h]; exact Or.inl rfl
      · rw [hr]
        simp only
        refine Or.inr ⟨_, rfl, ?_, hp.visited_mono (by simp)⟩
        obtain ⟨new, hm, hn, hpn⟩ := hp.fresh
        simp only at hm
        refine ⟨fun v hv => hp.visited_mono (List.mem_append_left _ hv), ?_, ?_, ?_⟩
        · intro v hv
          simp only [List.map_append, List.mem_append, List.map_cons, List.map_nil,
            List.mem_singleton]
          rcases hp.done v hv with h | h
          · simp only [List.mem_append, List.mem_singleton] at h
            rcases h with h | h
            · exact Or.inl h
            · exact Or.inr (Or.inr h)
          · exact Or.inr (Or.inl h)
        · intro v hv
          rcases hp.sound v hv with h | h
          · simp only [List.mem_append, List.mem_singleton] at h
            rcases h with h | h
            · exact Or.inl h
            · exact Or.inr (h ▸ hid)
          · exact Or.inr h
        · refine ⟨new ++ [⟨id, code⟩], by simp only [hm, List.append_assoc], ?_, ?_⟩
          · rw [List.map_append, List.nodup_append]
            refine ⟨hn, List.nodup_singleton _, ?_⟩
            intro a ha hb
            obtain ⟨m, hm', rfl⟩ := List.mem_map.1 ha
            simp only [List.map_cons, List.map_nil, List.mem_singleton] at hb
            exact (hpn m hm').1 (by simp [hb])
          · intro m hm'
            rcases List.mem_append.1 hm' with h | h
            · obtain ⟨a, b, c, d⟩ := hpn m h
              exact ⟨fun hh => a (List.mem_append_left _ hh), b, c, d⟩
            · rw [List.mem_singleton] at h
              subst h
              exact ⟨hvis, hp.visited_mono (by simp), hcode, hs⟩

theorem loadRoots_spec {fs : FS} {libDir rootCode : Str}
    (hres : ∀ id, Imports fs libDir rootCode id → (moduleCode fs libDir id).isSome)
    (fuel : Nat) (ids : List Str) (st : BundleState) (hids : ids ⊆ findRequireIds rootCode) :
    loadRoots fs libDir fuel ids st = .timeout ∨
      ∃ st', loadRoots fs libDir fuel ids st = .ok st' ∧ LoadPost fs libDir rootCode st st' ∧
        ∀ id ∈ ids, id ∈ st'.visited := by
  induction ids generalizing st with
  | nil => exact Or.inr ⟨st, rfl, LoadPost.refl_of_eq fs libDir rootCode st st rfl rfl, by simp⟩
  | cons id ids ih =>
    unfold loadRoots
    have hch : ChainOk ["__root".toList] st :=
      ⟨List.mem_singleton.2 rfl, fun c hc => Or.inl (List.mem_singleton.1 hc)⟩
    rcases loadModule_spec hres fuel id _ st (Imports.root (hids (List.mem_cons_self _ _))) hch
      with h | ⟨st₁, hr₁, hp₁, hs₁⟩
    · rw [h]; exact Or.inl rfl
    · rw [hr₁]
      simp only
      rcases ih st₁ (fun x hx => hids (List.mem_cons_of_mem _ hx)) with h | ⟨st', hr, hp, hs⟩
      · exact Or.inl h
      · refine Or.inr ⟨st', hr, hp₁.trans hp, ?_⟩
        intro x hx
        rcases List.mem_cons.1 hx with rfl | hx
        · exact hp.visited_mono hs₁
        · exact hs x hx

theorem collectModules_spec (fs : FS) (libDir rootCode : Str)
    (hres : ∀ id, Imports fs libDir rootCode id → (moduleCode fs libDir id).isSome) (k : Nat) :
    ∃ st, collectModules fs libDir ((requireUniverse fs rootCode).length + 1 + k) rootCode =
        .ok st ∧
      (st.modules.map (·.id)).Nodup ∧
      (∀ id, id ∈ st.modules.map (·.id) ↔ Imports fs libDir rootCode id) ∧
      ∀ m ∈ st.modules, moduleCode fs libDir m.id = some m.code := by
  have hnt := collectModules_no_timeout fs libDir rootCode
    ((requireUniverse fs rootCode).length + 1 + k) (by omega)
  rcases loadRoots_spec hres ((requireUniverse fs rootCode).length + 1 + k)
      (findRequireIds rootCode) ⟨[], [], []⟩ (fun _ h => h) with h | ⟨st, hr, hp, hs⟩
  · exact absurd h hnt
  · obtain ⟨new, hm, hn, hpn⟩ := hp.fresh
    simp only [List.nil_append] at hm
    have hdone : ∀ v ∈ st.visited, v ∈ st.modules.map (·.id) := fun v hv =>
      (hp.done v hv).resolve_left (by simp)
    refine ⟨st, hr, hm ▸ hn, fun id => ⟨fun h => ?_, fun h => ?_⟩, fun m h => ?_⟩
    · obtain ⟨m, hm', rfl⟩ := List.mem_map.1 h
      exact (hp.sound m.id (hpn m (hm ▸ hm')).2.1).resolve_left (by simp)
    · induction h with
      | root h => exact hdone _ (hs _ h)
      | step _ hcode hsub hne ih =>
        obtain ⟨m, hm', rfl⟩ := List.mem_map.1 ih
        obtain ⟨-, -, hc, hcl⟩ := hpn m (hm ▸ hm')
        rw [hc] at hcode
        cases hcode
        exact hdone _ ((hcl _ hsub).resolve_left hne)
    · exact (hpn m (hm ▸ h)).2.2.1


/-- C5: a script body in which `findRequireIds` finds no import is returned unchanged by
`bundleLuaIfNeeded`, whatever the file system and the module root directory are. -/
theorem bundleLuaIfNeeded_no_imports (fs : FS) (libDir : Str) (fuel : Nat) (rootCode : Str)
    (h : findRequireIds rootCode = []) : bundleLuaIfNeeded fs libDir fuel rootCode = .ok rootCode := by
  simp [bundleLuaIfNeeded, h]

/-- Witness for `bundleLuaIfNeeded_no_imports`: a script without imports, on an empty file
system without the module root directory. -/
theorem bundleLuaIfNeeded_no_imports_witness :
    findRequireIds "function onLoad()\n  print('required')\nend".toList = [] ∧
      bundleLuaIfNeeded ⟨[], []⟩ "./lib".toList 0
        "function onLoad()\n  print('required')\nend".toList =
        .ok "function onLoad()\n  print('required')\nend".toList :=
  ⟨by decide, bundleLuaIfNeeded_no_imports _ _ _ _ (by decide)⟩

/-- C6 (as amended): when every identifier the bundler follows resolves to a non-empty file, the
collected list holds each of them exactly once and nothing else, each with the text of its file;
an import of the reserved name `__root` from a module is not followed. -/
theorem collectModules_complete (fs : FS) (libDir rootCode : Str)
    (hres : ∀ id, Imports fs libDir rootCode id → (moduleCode fs libDir id).isSome) (k : Nat) :
    ∃ st, collectModules fs libDir ((requireUniverse fs rootCode).length + 1 + k) rootCode =
        .ok st ∧
      (st.modules.map (·.id)).Nodup ∧
      (∀ id, id ∈ st.modules.map (·.id) ↔ Imports fs libDir rootCode id) ∧
      ∀ m ∈ st.modules, moduleCode fs libDir m.id = some m.code :=
  collectModules_spec fs libDir rootCode hres k

theorem cyclicLib_imports (id : Str) (h : Imports cyclicLib "lib".toList cyclicEntry id) :
    id = "A".toList ∨ id = "B".toList := by
  induction h with
  | root h =>
    have : findRequireIds cyclicEntry = ["A".toList] := by decide
    rw [this] at h
    exact Or.inl (List.mem_singleton.1 h)
  | step _ hcode hsub _ ih =>
    rcases ih with rfl | rfl
    · have : moduleCode cyclicLib "lib".toList "A".toList =
          some "local b = require(\"B\")\nreturn 1".toList := by decide
      rw [this] at hcode
      cases hcode
      have : findRequireIds "local b = require(\"B\")\nreturn 1".toList = ["B".toList] := by decide
      rw [this] at hsub
      exact Or.inr (List.mem_singleton.1 hsub)
    · have : moduleCode cyclicLib "lib".toList "B".toList =
          some "local a = require(\"A\")\nreturn 2".toList := by decide
      rw [this] at hcode
      cases hcode
      have : findRequireIds "local a = require(\"A\")\nreturn 2".toList = ["A".toList] := by decide
      rw [this] at hsub
      exact Or.inl (List.mem_singleton.1 hsub)

/-- Witness for `collectModules_complete`: `A` imports `B` imports `A`. -/
theorem collectModules_complete_witness :
    ∃ st, collectModules cyclicLib "lib".toList
        ((requireUniverse cyclicLib cyclicEntry).length + 1 + 0) cyclicEntry = .ok st ∧
      (st.modules.map (·.id)).Nodup ∧
      (∀ id, id ∈ st.modules.map (·.id) ↔ Imports cyclicLib "lib".toList cyclicEntry id) ∧
      ∀ m ∈ st.modules, moduleCode cyclicLib "lib".toList m.id = some m.code :=
  collectModules_complete cyclicLib "lib".toList cyclicEntry
    (fun id h => by rcases cyclicLib_imports id h with rfl | rfl <;> decide) 0

theorem rootNameLib_importsAll (id : Str)
    (h : ImportsAll rootNameLib "lib".toList rootNameEntry id) :
    id = "a".toList ∨ id = "__root".toList := by
  induction h with
  | root h =>
    have : findRequireIds rootNameEntry = ["a".toList] := by decide
    rw [this] at h
    exact Or.inl (List.mem_singleton.1 h)
  | step _ hcode hsub ih =>
    rcases ih with rfl | rfl
    · have : moduleCode rootNameLib "lib".toList "a".toList =
          some "return require(\"__root\")".toList := by decide
      rw [this] at hcode
      cases hcode
      have : findRequireIds "return require(\"__root\")".toList = ["__root".toList] := by decide
      rw [this] at hsub
      exact Or.inr (List.mem_singleton.1 hsub)
    · have : moduleCode rootNameLib "lib".toList "__root".toList =
          some "return 1".toList := by decide
      rw [this] at hcode
      cases hcode
      have : findRequireIds "return 1".toList = [] := by decide
      rw [this] at hsub
      cases hsub

/-- C6 as stated fails: every identifier transitively imported from this entry script resolves to
a non-empty file, `__root` is one of them (module `a` imports it), and the collected list is
`a` alone, for every amount of fuel that is enough. -/
theorem collectModules_misses_root_name :
    (∀ id, ImportsAll rootNameLib "lib".toList rootNameEntry id →
      (moduleCode rootNameLib "lib".toList id).isSome) ∧
    ImportsAll rootNameLib "lib".toList rootNameEntry "__root".toList ∧
    ∀ k, ∃ st, collectModules rootNameLib "lib".toList
        ((requireUniverse rootNameLib rootNameEntry).length + 1 + k) rootNameEntry = .ok st ∧
      st.modules.map (·.id) = ["a".toList] ∧ "__root".toList ∉ st.modules.map (·.id) := by
  refine ⟨fun id h => ?_, ?_, fun k => ?_⟩
  · rcases rootNameLib_importsAll id h with rfl | rfl <;> decide
  · exact @ImportsAll.step _ _ _ "a".toList "__root".toList "return require(\"__root\")".toList
      (ImportsAll.root (by decide)) (by decide) (by decide)
  · rw [collectModules_mono]
    have : collectModules rootNameLib "lib".toList
        ((requireUniverse rootNameLib rootNameEntry).length + 1) rootNameEntry =
        .ok ⟨["a".toList], [⟨"a".toList, "return require(\"__root\")".toList⟩],
          [["__root".toList, "__root".toList]]⟩ := by decide
    exact ⟨_, this, rfl, by decide⟩


/-! ### Lines -/

theorem splitOn_ne_nil (sep : Char) (s : Str) : splitOn sep s ≠ [] := by
  cases s with
  | nil => simp [splitOn]
  | cons c cs =>
    unfold splitOn
    split
    · simp
    · split <;> simp

theorem joinWith_cons_cons (sep l l' : Str) (ls : List Str) :
    joinWith sep (l :: l' :: ls) = l ++ sep ++ joinWith sep (l' :: ls) := rfl

theorem joinWith_splitOn (sep : Char) (s : Str) : joinWith [sep] (splitOn sep s) = s := by
  induction s with
  | nil => rfl
  | cons c cs ih =>
    unfold splitOn
    split
    · rename_i h
      subst h
      cases hs : splitOn c cs with
      | nil => exact absurd hs (splitOn_ne_nil _ _)
      | cons l ls =>
        rw [joinWith_cons_cons, ← hs, ih]
        rfl
    · cases hs : splitOn sep cs with
      | nil => exact absurd hs (splitOn_ne_nil _ _)
      | cons l ls =>
        rw [hs] at ih
        simp only
        cases ls with
        | nil =>
          simp only [joinWith] at ih ⊢
          rw [ih]
        | cons l' ls' =>
          rw [joinWith_cons_cons] at ih ⊢
          rw [← ih]
          simp

theorem splitOn_of_not_mem (sep : Char) (s : Str) (h : sep ∉ s) : splitOn sep s = [s] := by
  induction s with
  | nil => rfl
  | cons c cs ih =>
    have hc : c ≠ sep := fun e => h (e ▸ List.mem_cons_self _ _)
    have hcs : sep ∉ cs := fun e => h (List.mem_cons_of_mem _ e)
    unfold splitOn
    rw [if_neg hc, ih hcs]

theorem splitOn_append_sep (sep : Char) (a b : Str) (h : sep ∉ a) :
    splitOn sep (a ++ sep :: b) = a :: splitOn sep b := by
  induction a with
  | nil => simp [splitOn]
  | cons c cs ih =>
    have hc : c ≠ sep := fun e => h (e ▸ List.mem_cons_self _ _)
    have hcs : sep ∉ cs := fun e => h (List.mem_cons_of_mem _ e)
    rw [List.cons_append, splitOn, if_neg hc, ih hcs]

/-- Splitting a text joined from lines gives the lines back. -/
theorem splitOn_joinWith (sep : Char) (ls : List Str) (hne : ls ≠ [])
    (h : ∀ l ∈ ls, sep ∉ l) : splitOn sep (joinWith [sep] ls) = ls := by
  induction ls with
  | nil => exact absurd rfl hne
  | cons l ls ih =>
    cases ls with
    | nil => exact splitOn_of_not_mem sep l (h l (List.mem_cons_self _ _))
    | cons l' ls' =>
      rw [joinWith_cons_cons, List.append_assoc, List.singleton_append,
        splitOn_append_sep sep _ _ (h l (List.mem_cons_self _ _)),
        ih (by simp) (fun x hx => h x (List.mem_cons_of_mem _ hx))]

theorem not_mem_of_mem_splitOn (sep : Char) (s : Str) : ∀ l ∈ splitOn sep s, sep ∉ l := by
  induction s with
  | nil =>
    intro l hl
    simp only [splitOn, List.mem_singleton] at hl
    subst hl
    simp
  | cons c cs ih =>
    intro l hl
    unfold splitOn at hl
    split at hl
    · rcases List.mem_cons.1 hl with rfl | hl
      · simp
      · exact ih l hl
    · rename_i hc
      cases hs : splitOn sep cs with
      | nil => exact absurd hs (splitOn_ne_nil _ _)
      | cons l' ls =>
        rw [hs] at hl ih
        simp only at hl
        rcases List.mem_cons.1 hl with rfl | hl
        · intro hm
          rcases List.mem_cons.1 hm with e | e
          · exact hc e.symm
          · exact ih l' (List.mem_cons_self _ _) e
        · exact ih l (List.mem_cons_of_mem _ hl)

theorem joinWith_append (sep : Str) (as bs : List Str) (ha : as ≠ []) (hb : bs ≠ []) :
    joinWith sep (as ++ bs) = joinWith sep as ++ sep ++ joinWith sep bs := by
  induction as with
  | nil => exact absurd rfl ha
  | cons a as ih =>
    cases as with
    | nil =>
      cases bs with
      | nil => exact absurd rfl hb
      | cons b bs => rfl
    | cons a' as' =>
      rw [List.cons_append, List.cons_append, joinWith_cons_cons, ← List.cons_append,
        ih (by simp), joinWith_cons_cons]
      simp [List.append_assoc]

/-- A joined text that stands as one element in a list of lines joins like its lines. -/
theorem joinWith_flatten (sep : Str) (as bs xs : List Str) (hx : xs ≠ []) :
    joinWith sep (as ++ joinWith sep xs :: bs) = joinWith sep (as ++ xs ++ bs) := by
  have key : ∀ bs : List Str, joinWith sep (joinWith sep xs :: bs) = joinWith sep (xs ++ bs) := by
    intro bs
    cases bs with
    | nil => simp [joinWith]
    | cons b bs =>
      rw [joinWith_cons_cons, joinWith_append sep xs (b :: bs) hx (by simp)]
  cases as with
  | nil => simpa using key bs
  | cons a as =>
    have e : a :: as ++ xs ++ bs = (a :: as) ++ (xs ++ bs) := by simp
    rw [joinWith_append sep (a :: as) _ (by simp) (by simp), key, e,
      joinWith_append sep (a :: as) (xs ++ bs) (by simp) (by simp [hx])]


theorem first_seq {a b : Re} {s t x : MState} (ha : a.first s = some t)
    (hb : b.first t = some x) : (Re.seq a b).first s = some x := by
  unfold Re.first at *
  cases hr : a.run s with
  | nil => rw [hr] at ha; cases ha
  | cons t' tl =>
    rw [hr] at ha
    simp only [List.head?_cons, Option.some.injEq] at ha
    subst ha
    cases hr' : b.run t' with
    | nil => rw [hr'] at hb; cases hb
    | cons x' xs =>
      rw [hr'] at hb
      simp only [List.head?_cons, Option.some.injEq] at hb
      subst hb
      simp [Re.run, hr, hr']

theorem first_group {i : Nat} {a : Re} {s t : MState} (ha : a.first s = some t) :
    (Re.group i a).first s =
      some ⟨t.left, t.right, (i, s.right.take (s.right.length - t.right.length)) :: t.caps⟩ := by
  unfold Re.first at *
  cases hr : a.run s with
  | nil => rw [hr] at ha; cases ha
  | cons t' tl =>
    rw [hr] at ha
    simp only [List.head?_cons, Option.some.injEq] at ha
    subst ha
    simp [Re.run, hr]

theorem first_chr {p : Char → Bool} {l r : Str} {caps : List (Nat × Str)} {c : Char}
    (h : p c = true) : (Re.chr p).first ⟨l, c :: r, caps⟩ = some ⟨c :: l, r, caps⟩ := by
  simp [Re.first, Re.run, h]

theorem first_c (c : Char) (l r : Str) (caps : List (Nat × Str)) :
    (Re.c c).first ⟨l, c :: r, caps⟩ = some ⟨c :: l, r, caps⟩ :=
  first_chr (by simp)

theorem first_bol (r : Str) (caps : List (Nat × Str)) :
    Re.bol.first ⟨[], r, caps⟩ = some ⟨[], r, caps⟩ := by
  simp [Re.first, Re.run]

theorem first_lit (s l r : Str) (caps : List (Nat × Str)) :
    (Re.lit s).first ⟨l, s ++ r, caps⟩ = some ⟨s.reverse ++ l, r, caps⟩ := by
  induction s generalizing l with
  | nil => simp [Re.lit, Re.first, Re.run]
  | cons c cs ih =>
    rw [Re.lit]
    refine first_seq (first_c c l (cs ++ r) caps) ?_
    rw [ih]
    simp

theorem first_star {p : Char → Bool} (l run rest : Str) (caps : List (Nat × Str))
    (hrun : ∀ c ∈ run, p c = true) (hrest : ∀ c r, rest = c :: r → p c = false) :
    (Re.star p).first ⟨l, run ++ rest, caps⟩ = some ⟨run.reverse ++ l, rest, caps⟩ := by
  obtain ⟨tl, htl⟩ := starRun_head caps l run rest hrun hrest
  simp [Re.first, Re.run, htl]

theorem first_plus {p : Char → Bool} (l rest : Str) (c : Char) (run : Str)
    (caps : List (Nat × Str)) (hc : p c = true) (hrun : ∀ x ∈ run, p x = true)
    (hrest : ∀ x r, rest = x :: r → p x = false) :
    (Re.plus p).first ⟨l, c :: run ++ rest, caps⟩ = some ⟨(c :: run).reverse ++ l, rest, caps⟩ := by
  rw [Re.plus]
  refine first_seq (first_chr (r := run ++ rest) hc) ?_
  rw [first_star (c :: l) run rest caps hrun hrest]
  simp

theorem matchAt_of_first {re : Re} {left right : Str} {t : MState}
    (h : re.first ⟨left, right, []⟩ = some t) :
    re.matchAt left right =
      some ⟨left.reverse, right.take (right.length - t.right.length), t.right, t.caps⟩ := by
  unfold Re.first at h
  unfold Re.matchAt
  cases hr : re.run ⟨left, right, []⟩ with
  | nil => rw [hr] at h; cases h
  | cons t' tl =>
    rw [hr] at h
    simp only [List.head?_cons, Option.some.injEq] at h
    subst h
    rfl

theorem exec_of_first {re : Re} {s : Str} {t : MState} (h : re.first ⟨[], s, []⟩ = some t) :
    re.exec s = some ⟨[], s.take (s.length - t.right.length), t.right, t.caps⟩ :=
  scan_of_matchAt (matchAt_of_first h)

theorem mem_run_lit {s : Str} {st t : MState} :
    t ∈ (Re.lit s).run st ↔ ∃ r, st.right = s ++ r ∧ t = ⟨s.reverse ++ st.left, r, st.caps⟩ := by
  induction s generalizing st with
  | nil =>
    rcases st with ⟨l, r, cs⟩
    simp [Re.lit, Re.run]
  | cons c cs ih =>
    rw [Re.lit, mem_run_seq]
    constructor
    · rintro ⟨u, hu, ht⟩
      obtain ⟨r, hr, rfl⟩ := mem_run_c.1 hu
      obtain ⟨r', hr', rfl⟩ := ih.1 ht
      simp only at hr'
      subst hr'
      exact ⟨r', by simpa using hr, by simp⟩
    · rintro ⟨r, hr, rfl⟩
      refine ⟨⟨c :: st.left, cs ++ r, st.caps⟩, mem_run_c.2 ⟨cs ++ r, by simpa using hr, rfl⟩, ?_⟩
      exact ih.2 ⟨r, rfl, by simp⟩

theorem exec_bol_eq_matchAt (r : Re) (s : Str) :
    (Re.seq .bol r).exec s = (Re.seq .bol r).matchAt [] s := by
  unfold Re.exec
  cases s with
  | nil => rfl
  | cons c cs =>
    rw [Re.scan]
    cases h : (Re.seq .bol r).matchAt [] (c :: cs) with
    | some m => rfl
    | none => exact scan_bol_none r cs [c] (by simp)

theorem dropWhile_append_of_all {p : Char → Bool} (ws rest : Str) (h : ∀ c ∈ ws, p c = true) :
    (ws ++ rest).dropWhile p = rest.dropWhile p := by
  induction ws with
  | nil => rfl
  | cons c cs ih =>
    rw [List.cons_append, List.dropWhile_cons, if_pos (h c (List.mem_cons_self _ _))]
    exact ih (fun x hx => h x (List.mem_cons_of_mem _ hx))

theorem trimStart_append_of_space (ws rest : Str) (h : ∀ c ∈ ws, isSpace c = true) :
    trimStart (ws ++ rest) = trimStart rest :=
  dropWhile_append_of_all ws rest h


theorem first_group_consumed {i : Nat} {a : Re} {l l' c r : Str} {caps caps' : List (Nat × Str)}
    (h : a.first ⟨l, c ++ r, caps⟩ = some ⟨l', r, caps'⟩) :
    (Re.group i a).first ⟨l, c ++ r, caps⟩ = some ⟨l', r, (i, c) :: caps'⟩ := by
  rw [first_group h]
  simp only [consumed_eq (s := c ++ r) (a := c) (t := r) rfl]

theorem markerLine_include (indent name : Str) :
    markerLine indent "include ".toList name =
      indent ++ ("<!-- include ".toList ++ (name ++ " -->".toList)) := by
  simp [markerLine]

theorem include_exec (indent name : Str) (hi : ∀ c ∈ indent, isSpace c = true)
    (hne : name ≠ []) (hq : '"' ∉ name) :
    ∃ m, INCLUDE_PATTERN.exec (directiveLine indent name) = some m ∧
      m.cap 1 = some indent ∧ m.cap 2 = some name := by
  obtain ⟨f, fs, rfl⟩ : ∃ f fs, name = f :: fs := by
    cases name with
    | nil => exact absurd rfl hne
    | cons f fs => exact ⟨f, fs, rfl⟩
  have hname : ∀ x ∈ f :: fs, (x != '"') = true := by
    intro x hx
    simp only [bne_iff_ne, ne_eq]
    rintro rfl
    exact hq hx
  have h := @exec_of_first INCLUDE_PATTERN (directiveLine indent (f :: fs))
    (⟨"/>".toList.reverse ++ ('"' :: ((f :: fs).reverse ++
      ("<Include src=\"".toList.reverse ++ (indent.reverse ++ [])))), [],
      [(2, f :: fs), (1, indent)]⟩) ?_
  · exact ⟨_, h, by simp [Match.cap], by simp [Match.cap]⟩
  · simp only [INCLUDE_PATTERN, Re.cat, directiveLine]
    refine first_seq (first_bol _ _) ?_
    refine first_seq (first_group_consumed (first_star [] indent _ [] hi ?_)) ?_
    · rintro c r h
      cases h
      decide
    refine first_seq (first_lit _ _ _ _) ?_
    refine first_seq (first_group_consumed (c := f :: fs)
      (first_plus _ _ f fs _ (hname f (List.mem_cons_self _ _))
        (fun x hx => hname x (List.mem_cons_of_mem _ hx)) ?_)) ?_
    · rintro c r h
      cases h
      decide
    refine first_seq (first_c _ _ _ _) ?_
    refine first_seq (first_star _ [] _ _ (by simp) ?_) ?_
    · rintro c r h
      cases h
      decide
    have := first_lit "/>".toList ('"' :: ((f :: fs).reverse ++
      ("<Include src=\"".toList.reverse ++ (indent.reverse ++ [])))) [] [(2, f :: fs), (1, indent)]
    simpa using this

theorem comment_exec (indent name : Str) (hi : ∀ c ∈ indent, isSpace c = true)
    (hne : name ≠ []) (hq : ' ' ∉ name) :
    ∃ m, COMMENT_PATTERN.exec (markerLine indent "include ".toList name) = some m ∧
      m.cap 1 = some indent ∧ m.cap 2 = some name := by
  obtain ⟨f, fs, rfl⟩ : ∃ f fs, name = f :: fs := by
    cases name with
    | nil => exact absurd rfl hne
    | cons f fs => exact ⟨f, fs, rfl⟩
  have hname : ∀ x ∈ f :: fs, (x != ' ') = true := by
    intro x hx
    simp only [bne_iff_ne, ne_eq]
    rintro rfl
    exact hq hx
  have h := @exec_of_first COMMENT_PATTERN (markerLine indent "include ".toList (f :: fs))
    (⟨" -->".toList.reverse ++ ((f :: fs).reverse ++
      ("<!-- include ".toList.reverse ++ (indent.reverse ++ []))), [],
      [(2, f :: fs), (1, indent)]⟩) ?_
  · exact ⟨_, h, by simp [Match.cap], by simp [Match.cap]⟩
  · rw [markerLine_include]
    simp only [COMMENT_PATTERN, Re.cat]
    refine first_seq (first_bol _ _) ?_
    refine first_seq (first_group_consumed (first_star [] indent _ [] hi ?_)) ?_
    · rintro c r h
      cases h
      decide
    refine first_seq (first_lit _ _ _ _) ?_
    refine first_seq (first_group_consumed (c := f :: fs)
      (first_plus _ _ f fs _ (hname f (List.mem_cons_self _ _))
        (fun x hx => hname x (List.mem_cons_of_mem _ hx)) ?_)) ?_
    · rintro c r h
      cases h
      decide
    have := first_lit " -->".toList ((f :: fs).reverse ++
      ("<!-- include ".toList.reverse ++ (indent.reverse ++ []))) [] [(2, f :: fs), (1, indent)]
    simpa using this


theorem anchored_sound (A : Str) (R : Re) {l : Str} {t : MState}
    (h : t ∈ (Re.seq .bol (.seq (.group 1 (.star isSpace)) (.seq (.lit A) R))).run ⟨[], l, []⟩) :
    ∃ ws r, l = ws ++ (A ++ r) ∧ ∀ c ∈ ws, isSpace c = true := by
  simp only [mem_run_seq, mem_run_bol, mem_run_group, mem_run_star, mem_run_lit] at h
  obtain ⟨u, ⟨-, rfl⟩, v, ⟨w, ⟨ws, rest, hl, hws, rfl⟩, rfl⟩, x, ⟨r, hr, rfl⟩, -⟩ := h
  simp only at hl hr
  subst hl hr
  exact ⟨ws, r, rfl, hws⟩

theorem anchored_exec_none (A : Str) (R : Re) (l : Str) (hA : ∀ c r, A = c :: r → isSpace c = false)
    (h : startsWith (trimStart l) A = false) :
    (Re.seq .bol (.seq (.group 1 (.star isSpace)) (.seq (.lit A) R))).exec l = none := by
  rw [exec_bol_eq_matchAt, matchAt_eq_none_iff]
  cases hr : (Re.seq .bol (.seq (.group 1 (.star isSpace)) (.seq (.lit A) R))).run ⟨[], l, []⟩ with
  | nil => rfl
  | cons t tl =>
    obtain ⟨ws, r, rfl, hws⟩ := anchored_sound A R (t := t) (by rw [hr]; exact List.mem_cons_self _ _)
    exfalso
    rw [trimStart_append_of_space ws _ hws] at h
    have : trimStart (A ++ r) = A ++ r := by
      cases A with
      | nil =>
        -- the empty literal is a prefix of everything
        simp [startsWith] at h
      | cons c cs =>
        simp [trimStart, List.dropWhile_cons, hA c cs rfl]
    rw [this] at h
    have hp : A.isPrefixOf (A ++ r) = true := List.isPrefixOf_iff_prefix.2 (List.prefix_append _ _)
    simp [startsWith, hp] at h

/-- A line that does not start, after white space, with `<Include src="` is no directive. -/
theorem include_exec_none (l : Str)
    (h : startsWith (trimStart l) "<Include src=\"".toList = false) :
    INCLUDE_PATTERN.exec l = none := by
  simp only [INCLUDE_PATTERN, Re.cat]
  exact anchored_exec_none _ _ l (by rintro c r h; cases h; decide) h

/-- A line that does not start, after white space, with `<!-- include ` is no marker. -/
theorem comment_exec_none (l : Str)
    (h : startsWith (trimStart l) "<!-- include ".toList = false) :
    COMMENT_PATTERN.exec l = none := by
  simp only [COMMENT_PATTERN, Re.cat]
  exact anchored_exec_none _ _ l (by rintro c r h; cases h; decide) h

theorem bundleLines_plain (fs : FS) (xmlDir : Str) (recur : Str → List Str → Res Str)
    (visited : List Str) (pre rest : List Str) (h : NoDirective pre) :
    bundleLines fs xmlDir recur visited (pre ++ rest) =
      match bundleLines fs xmlDir recur visited rest with
      | .ok more => .ok (pre ++ more)
      | .exit => .exit
      | .crash => .crash
      | .timeout => .timeout := by
  induction pre with
  | nil =>
    simp only [List.nil_append]
    cases bundleLines fs xmlDir recur visited rest <;> rfl
  | cons l ls ih =>
    rw [List.cons_append, bundleLines, include_exec_none l (h l (List.mem_cons_self _ _))]
    simp only
    rw [ih (fun x hx => h x (List.mem_cons_of_mem _ hx))]
    cases bundleLines fs xmlDir recur visited rest <;> rfl

theorem bundleXML_plain (fs : FS) (xmlDir : Str) (fuel : Nat) (s : Str) (visited : List Str)
    (h : NoDirective (splitOn '\n' s)) : bundleXML fs xmlDir (fuel + 1) s visited = .ok s := by
  rw [bundleXML]
  split
  · rfl
  · have := bundleLines_plain fs xmlDir (bundleXML fs xmlDir fuel) visited (splitOn '\n' s) [] h
    rw [List.append_nil] at this
    rw [this]
    simp only [bundleLines, List.append_nil]
    rw [joinWith_splitOn]


theorem joinWith_ne_nil (sep : Str) (ls : List Str) (l : Str) (hl : l ∈ ls) (hne : l ≠ []) :
    joinWith sep ls ≠ [] := by
  induction ls with
  | nil => cases hl
  | cons a as ih =>
    cases as with
    | nil =>
      rw [List.mem_singleton] at hl
      subst hl
      exact hne
    | cons b bs =>
      rw [joinWith_cons_cons]
      rcases List.mem_cons.1 hl with rfl | h
      · simp [hne]
      · have := ih h
        simp [this]

theorem indentLines_eq (indent T : Str) :
    indentLines indent T = joinWith ['\n'] (indentedLines indent T) := rfl

theorem indentedLines_ne_nil (indent T : Str) : indentedLines indent T ≠ [] := by
  simp [indentedLines, splitOn_ne_nil]

theorem indentedLines_no_newline (indent T : Str) (hin : '\n' ∉ indent) :
    ∀ l ∈ indentedLines indent T, '\n' ∉ l := by
  intro l hl
  simp only [indentedLines, List.mem_map] at hl
  obtain ⟨x, hx, rfl⟩ := hl
  have := not_mem_of_mem_splitOn '\n' T x hx
  split
  · simp [hin, this]
  · exact this

theorem directiveLine_no_newline (indent name : Str) (hin : '\n' ∉ indent) (hnn : '\n' ∉ name) :
    '\n' ∉ directiveLine indent name := by
  simp only [directiveLine, List.mem_append, not_or]
  exact ⟨hin, by decide, hnn, by decide⟩

theorem markerLine_no_newline (indent name : Str) (hin : '\n' ∉ indent) (hnn : '\n' ∉ name) :
    '\n' ∉ markerLine indent "include ".toList name := by
  rw [markerLine_include]
  simp only [List.mem_append, not_or]
  exact ⟨hin, by decide, hnn, by decide⟩

/-- The expansion of a root document with one directive, whose fragment has no directive. -/
theorem bundleXML_one_include (fs : FS) (xmlDir indent name T : Str) (pre post : List Str)
    (k : Nat) (hi : ∀ c ∈ indent, isSpace c = true) (hin : '\n' ∉ indent) (hne : name ≠ [])
    (hq : '"' ∉ name) (hnn : '\n' ∉ name) (hclean : cleanSrcOf name = name)
    (hex : fs.existsSync (pathJoin [xmlDir, xmlFileOf name]) = true)
    (hread : fs.readFileSync (pathJoin [xmlDir, xmlFileOf name]) = some T)
    (hT : NoDirective (splitOn '\n' T)) (hpre : NoDirective pre) (hpost : NoDirective post)
    (hnl : ∀ l ∈ pre ++ post, '\n' ∉ l) :
    bundleXML fs xmlDir (2 + k) (joinWith ['\n'] (pre ++ directiveLine indent name :: post)) [] =
      .ok (joinWith ['\n'] (pre ++ markerLine indent "include ".toList name ::
        (indentedLines indent T ++ markerLine indent "include ".toList name :: post))) := by
  have hd : directiveLine indent name ≠ [] := by simp [directiveLine]
  have hroot : joinWith ['\n'] (pre ++ directiveLine indent name :: post) ≠ [] :=
    joinWith_ne_nil _ _ _ (by simp) hd
  have hsplit : splitOn '\n' (joinWith ['\n'] (pre ++ directiveLine indent name :: post)) =
      pre ++ directiveLine indent name :: post := by
    apply splitOn_joinWith _ _ (by simp)
    intro l hl
    simp only [List.mem_append, List.mem_cons] at hl
    rcases hl with h | rfl | h
    · exact hnl l (List.mem_append_left _ h)
    · exact directiveLine_no_newline indent name hin hnn
    · exact hnl l (List.mem_append_right _ h)
  obtain ⟨m, hm, hc₁, hc₂⟩ := include_exec indent name hi hne hq
  have hpostL : bundleLines fs xmlDir (bundleXML fs xmlDir (1 + k)) [] post = .ok post := by
    have := bundleLines_plain fs xmlDir (bundleXML fs xmlDir (1 + k)) [] post [] hpost
    simpa [bundleLines] using this
  have hrec : bundleXML fs xmlDir (1 + k) T ([] ++ [name]) = .ok T := by
    rw [Nat.add_comm]
    exact bundleXML_plain fs xmlDir k T _ hT
  rw [show 2 + k = (1 + k) + 1 by omega, bundleXML]
  have htr : truthy (joinWith ['\n'] (pre ++ directiveLine indent name :: post)) = true := by
    cases hj : joinWith ['\n'] (pre ++ directiveLine indent name :: post) with
    | nil => exact absurd hj hroot
    | cons c cs => rfl
  rw [htr, hsplit, bundleLines_plain _ _ _ _ _ _ hpre]
  simp only [Bool.not_true, Bool.false_eq_true, if_false]
  rw [bundleLines, hm]
  simp only [hc₁, hc₂, Option.getD_some, hclean, List.not_mem_nil, if_false, hex, Bool.not_true,
    Bool.false_eq_true, hread, hrec, hpostL]
  rw [indentLines_eq]
  congr 1
  have := joinWith_flatten ['\n'] (pre ++ [markerLine indent "include ".toList name])
    (markerLine indent "include ".toList name :: post) (indentedLines indent T)
    (indentedLines_ne_nil indent T)
  simpa [List.append_assoc] using this


theorem getElem?_middle {α : Type} (A B : List α) (x : α) : (A ++ x :: B)[A.length]? = some x := by
  rw [List.getElem?_append_right (Nat.le_refl _)]
  simp

theorem unbundleLoop_skip (fuel : Nat) (A seg B : List Str) (stack : List Frame)
    (modules : TextObject) (h : ∀ l ∈ seg, COMMENT_PATTERN.exec l = none) :
    unbundleLoop (fuel + seg.length) (A ++ (seg ++ B)) stack A.length modules =
      unbundleLoop fuel (A ++ (seg ++ B)) stack (A.length + seg.length) modules := by
  induction seg generalizing A with
  | nil => rfl
  | cons x xs ih =>
    have hx := h x (List.mem_cons_self _ _)
    rw [List.length_cons, ← Nat.add_assoc, unbundleLoop, List.cons_append, getElem?_middle]
    simp only [hx]
    have := ih (A ++ [x]) (fun l hl => h l (List.mem_cons_of_mem _ hl))
    simp only [List.append_assoc, List.singleton_append, List.length_append,
      List.length_singleton] at this
    rw [this]
    congr 1
    omega

theorem unbundleLoop_end (fuel : Nat) (lines : List Str) (stack : List Frame)
    (modules : TextObject) : unbundleLoop fuel lines stack lines.length modules = (lines, modules) := by
  cases fuel with
  | zero => rfl
  | succ n =>
    rw [unbundleLoop]
    simp

theorem unindent_indentedLines (indent T : Str) :
    (indentedLines indent T).map
        (fun line => if startsWith line indent then line.drop indent.length else line) =
      splitOn '\n' T := by
  unfold indentedLines
  rw [List.map_map]
  conv_rhs => rw [← List.map_id (splitOn '\n' T)]
  apply List.map_congr_left
  intro x _
  simp only [Function.comp, id]
  by_cases hx : x.length > 0
  · have hp : startsWith (indent ++ x) indent = true :=
      List.isPrefixOf_iff_prefix.2 (List.prefix_append _ _)
    simp [hx, hp]
  · have : x = [] := by
      cases x with
      | nil => rfl
      | cons c cs => simp at hx
    subst this
    simp

theorem noMarker_indentedLines (indent T : Str) (hi : ∀ c ∈ indent, isSpace c = true)
    (hT : NoMarker (splitOn '\n' T)) :
    ∀ l ∈ indentedLines indent T, COMMENT_PATTERN.exec l = none := by
  intro l hl
  simp only [indentedLines, List.mem_map] at hl
  obtain ⟨x, hx, rfl⟩ := hl
  apply comment_exec_none
  split
  · rw [trimStart_append_of_space indent x hi]
    exact hT x hx
  · exact hT x hx


theorem take_length_append {α : Type} (A B : List α) : (A ++ B).take A.length = A := by
  induction A with
  | nil => simp
  | cons a as ih => simp [ih]

theorem drop_succ_middle {α : Type} (A B : List α) (x : α) :
    (A ++ x :: B).drop (A.length + 1) = B := by
  induction A with
  | nil => rfl
  | cons a as ih => simp [ih]

theorem unbundleLoop_one_include (indent name T : Str) (pre post : List Str)
    (hi : ∀ c ∈ indent, isSpace c = true) (hne : name ≠ []) (hsp : ' ' ∉ name)
    (hproto : name ≠ "__proto__".toList)
    (hT : NoMarker (splitOn '\n' T)) (hpre : NoMarker pre) (hpost : NoMarker post) :
    unbundleLoop
        ((pre ++ markerLine indent "include ".toList name ::
          (indentedLines indent T ++ markerLine indent "include ".toList name :: post)).length + 1)
        (pre ++ markerLine indent "include ".toList name ::
          (indentedLines indent T ++ markerLine indent "include ".toList name :: post))
        [] 0 [] =
      (pre ++ directiveLine indent name :: post, [(name, trim T)]) := by
  obtain ⟨m, hm, hc₁, hc₂⟩ := comment_exec indent name hi hne hsp
  have hpre' : ∀ l ∈ pre, COMMENT_PATTERN.exec l = none :=
    fun l hl => comment_exec_none l (hpre l hl)
  have hpost' : ∀ l ∈ post, COMMENT_PATTERN.exec l = none :=
    fun l hl => comment_exec_none l (hpost l hl)
  have hbody := noMarker_indentedLines indent T hi hT
  generalize hmk : markerLine indent "include ".toList name = mk at hm
  generalize hbd : indentedLines indent T = body at hbody
  have hfuel : (pre ++ mk :: (body ++ mk :: post)).length + 1 =
      ((((1 + post.length) + 1) + body.length) + 1) + pre.length := by
    simp only [List.length_append, List.length_cons]
    omega
  rw [hfuel]
  -- the lines before the opening marker
  have p₁ := unbundleLoop_skip ((((1 + post.length) + 1) + body.length) + 1) [] pre
    (mk :: (body ++ mk :: post)) [] [] hpre'
  simp only [List.nil_append, List.length_nil, Nat.zero_add] at p₁
  rw [p₁]
  -- the opening marker
  rw [unbundleLoop, getElem?_middle]
  simp only [hm, hc₁, hc₂, Option.getD_some]
  -- the lines of the fragment
  have p₃ := unbundleLoop_skip ((1 + post.length) + 1) (pre ++ [mk]) body (mk :: post)
    [⟨name, indent, pre.length⟩] [] hbody
  simp only [List.append_assoc, List.singleton_append, List.length_append,
    List.length_singleton] at p₃
  rw [p₃]
  -- the closing marker
  have hlines : pre ++ mk :: (body ++ mk :: post) = (pre ++ mk :: body) ++ mk :: post := by simp
  have hidx : pre.length + 1 + body.length = (pre ++ mk :: body).length := by
    simp only [List.length_append, List.length_cons]
    omega
  rw [unbundleLoop, hidx]
  conv_lhs => rw [hlines, getElem?_middle]
  simp only [hm, hc₁, hc₂, Option.getD_some, and_self, if_true]
  have htake : ((pre ++ mk :: body) ++ mk :: post).take (pre ++ mk :: body).length =
      pre ++ mk :: body := take_length_append _ _
  have hdrop : (pre ++ mk :: body).drop (pre.length + 1) = body := drop_succ_middle _ _ _
  have htake' : ((pre ++ mk :: body) ++ mk :: post).take pre.length = pre := by
    rw [List.append_assoc]
    exact take_length_append _ _
  have hdrop' : ((pre ++ mk :: body) ++ mk :: post).drop ((pre ++ mk :: body).length + 1) =
      post := drop_succ_middle _ _ _
  rw [htake, hdrop, htake', hdrop', ← hbd, unindent_indentedLines, joinWith_splitOn]
  -- the lines after the closing marker
  have hrepl : indent ++ "<Include src=\"".toList ++ name ++ "\"/>".toList =
      directiveLine indent name := by simp [directiveLine]
  rw [hrepl]
  have p₅ := unbundleLoop_skip 1 (pre ++ [directiveLine indent name]) post []
    [] (objSet [] name (trim T)) hpost'
  simp only [List.append_assoc, List.singleton_append, List.length_append,
    List.length_singleton, List.append_nil] at p₅
  rw [p₅]
  have hend := unbundleLoop_end 1 (pre ++ directiveLine indent name :: post) []
    (objSet [] name (trim T))
  simp only [List.length_append, List.length_cons] at hend
  rw [show pre.length + 1 + post.length = pre.length + (post.length + 1) by omega, hend]
  rw [objSet, if_neg hproto]


theorem matchAt_lit_none (s left right : Str) (h : s.isPrefixOf right = false) :
    (Re.lit s).matchAt left right = none := by
  rw [matchAt_eq_none_iff]
  cases hr : (Re.lit s).run ⟨left, right, []⟩ with
  | nil => rfl
  | cons t tl =>
    obtain ⟨r, hr', -⟩ := mem_run_lit.1 (show t ∈ (Re.lit s).run ⟨left, right, []⟩ by
      rw [hr]; exact List.mem_cons_self _ _)
    simp only at hr'
    subst hr'
    have hp : s.isPrefixOf (s ++ r) = true := List.isPrefixOf_iff_prefix.2 (List.prefix_append _ _)
    rw [hp] at h
    cases h

theorem replaceAllFrom_lit_of_not_includes (s rep : Str) (hs : s ≠ []) (fuel : Nat)
    (left right : Str) (hfuel : right.length < fuel) (h : includes right s = false) :
    (Re.lit s).replaceAllFrom rep fuel left right = right := by
  induction right generalizing fuel left with
  | nil =>
    cases fuel with
    | zero => rfl
    | succ n =>
      have hp : s.isPrefixOf [] = false := by
        cases s with
        | nil => exact absurd rfl hs
        | cons c cs => rfl
      rw [Re.replaceAllFrom, matchAt_lit_none s left [] hp]
  | cons c cs ih =>
    cases fuel with
    | zero => simp at hfuel
    | succ n =>
      rw [includes, Bool.or_eq_false_iff] at h
      rw [Re.replaceAllFrom, matchAt_lit_none s left (c :: cs) h.1]
      simp only
      rw [ih n (c :: left) (by simpa using hfuel) h.2]

/-- A source without `../` is left as it is by the sanitisation. -/
theorem cleanSrcOf_of_not_includes (name : Str) (h : includes name "../".toList = false) :
    cleanSrcOf name = name :=
  replaceAllFrom_lit_of_not_includes _ _ (by decide) _ _ _ (Nat.lt_succ_self _) h

theorem bundle_unbundle_one (fs : FS) (xmlDir indent name T : Str) (pre post : List Str)
    (k : Nat) (hi : ∀ c ∈ indent, isSpace c = true) (hin : '\n' ∉ indent) (hne : name ≠ [])
    (hq : '"' ∉ name) (hsp : ' ' ∉ name) (hnn : '\n' ∉ name)
    (hdots : includes name "../".toList = false)
    (hroot : name ≠ "__root".toList) (hproto : name ≠ "__proto__".toList)
    (hex : fs.existsSync (pathJoin [xmlDir, xmlFileOf name]) = true)
    (hread : fs.readFileSync (pathJoin [xmlDir, xmlFileOf name]) = some T)
    (hTd : NoDirective (splitOn '\n' T)) (hTm : NoMarker (splitOn '\n' T)) (htrim : trim T = T)
    (hpred : NoDirective pre) (hpostd : NoDirective post) (hprem : NoMarker pre)
    (hpostm : NoMarker post) (hnl : ∀ l ∈ pre ++ post, '\n' ∉ l) :
    ∃ b, bundleXML fs xmlDir (2 + k)
        (joinWith ['\n'] (pre ++ directiveLine indent name :: post)) [] = .ok b ∧
      objGet (unbundleXML b) name = some T := by
  refine ⟨_, bundleXML_one_include fs xmlDir indent name T pre post k hi hin hne hq hnn
    (cleanSrcOf_of_not_includes name hdots) hex hread hTd hpred hpostd hnl, ?_⟩
  have hsplit : splitOn '\n' (joinWith ['\n'] (pre ++ markerLine indent "include ".toList name ::
      (indentedLines indent T ++ markerLine indent "include ".toList name :: post))) =
      pre ++ markerLine indent "include ".toList name ::
        (indentedLines indent T ++ markerLine indent "include ".toList name :: post) := by
    apply splitOn_joinWith _ _ (by simp)
    intro l hl
    simp only [List.mem_append, List.mem_cons] at hl
    rcases hl with h | rfl | h | rfl | h
    · exact hnl l (List.mem_append_left _ h)
    · exact markerLine_no_newline indent name hin hnn
    · exact indentedLines_no_newline indent T hin l h
    · exact markerLine_no_newline indent name hin hnn
    · exact hnl l (List.mem_append_right _ h)
  unfold unbundleXML
  simp only [hsplit]
  rw [unbundleLoop_one_include indent name T pre post hi hne hsp hproto hTm hprem hpostm]
  simp only [objSet, hroot, if_false, objGet, htrim]
  simp


/-- C8 (as amended): for a fragment name without space, quote, line break or `../` that is
neither `__root` nor `__proto__`, a fragment text that is trimmed and has neither directive nor
marker lines, and a directive `<indent><Include src="name"/>` on a line of its own among lines
that are neither directives nor markers, bundling and then extracting yields a fragment keyed by
the name whose content is the text exactly. -/
theorem bundle_unbundle_fragment (fs : FS) (xmlDir indent name T : Str) (pre post : List Str)
    (k : Nat) (hi : ∀ c ∈ indent, isSpace c = true) (hin : '\n' ∉ indent) (hne : name ≠ [])
    (hq : '"' ∉ name) (hsp : ' ' ∉ name) (hnn : '\n' ∉ name)
    (hdots : includes name "../".toList = false)
    (hroot : name ≠ "__root".toList) (hproto : name ≠ "__proto__".toList)
    (hex : fs.existsSync (pathJoin [xmlDir, xmlFileOf name]) = true)
    (hread : fs.readFileSync (pathJoin [xmlDir, xmlFileOf name]) = some T)
    (hTd : NoDirective (splitOn '\n' T)) (hTm : NoMarker (splitOn '\n' T)) (htrim : trim T = T)
    (hpred : NoDirective pre) (hpostd : NoDirective post) (hprem : NoMarker pre)
    (hpostm : NoMarker post) (hnl : ∀ l ∈ pre ++ post, '\n' ∉ l) :
    ∃ b, bundleXML fs xmlDir (2 + k)
        (joinWith ['\n'] (pre ++ directiveLine indent name :: post)) [] = .ok b ∧
      objGet (unbundleXML b) name = some T :=
  bundle_unbundle_one fs xmlDir indent name T pre post k hi hin hne hq hsp hnn hdots hroot hproto
    hex hread hTd hTm htrim hpred hpostd hprem hpostm hnl

/-- Witness for `bundle_unbundle_fragment`: the fragment `panel` included with a tab of
indentation between the lines `<Root>` and `</Root>`. -/
theorem bundle_unbundle_fragment_witness :
    ∃ b, bundleXML panelDir "ui".toList (2 + 0)
        (joinWith ['\n'] (["<Root>".toList] ++ directiveLine ['\t'] "panel".toList ::
          ["</Root>".toList])) [] = .ok b ∧
      objGet (unbundleXML b) "panel".toList = some "<Panel>\n  <Text/>\n\n</Panel>".toList :=
  bundle_unbundle_fragment panelDir "ui".toList ['\t'] "panel".toList
    "<Panel>\n  <Text/>\n\n</Panel>".toList ["<Root>".toList] ["</Root>".toList] 0
    (by decide) (by decide) (by decide) (by decide) (by decide) (by decide) (by decide)
    (by decide) (by decide) (by decide) (by decide) (by unfold NoDirective; decide)
    (by unfold NoMarker; decide) (by decide) (by unfold NoDirective; decide)
    (by unfold NoDirective; decide) (by unfold NoMarker; decide) (by unfold NoMarker; decide)
    (by decide)

/-- C8 as stated fails: the fragment text `<Panel/>` followed by a line break comes back without
the line break. -/
theorem bundle_unbundle_trims :
    panelDirNewline.readFileSync (pathJoin ["ui".toList, xmlFileOf "panel".toList]) =
      some "<Panel/>\n".toList ∧
    ∃ b, bundleXML panelDirNewline "ui".toList 2 "<Include src=\"panel\"/>".toList [] = .ok b ∧
      objGet (unbundleXML b) "panel".toList = some "<Panel/>".toList ∧
      objGet (unbundleXML b) "panel".toList ≠ some "<Panel/>\n".toList := by
  refine ⟨by decide, "<!-- include panel -->\n<Panel/>\n\n<!-- include panel -->".toList,
    by decide, by decide, by decide⟩

/-- C9 fails on the code: the source `....//secret` is sanitised to `../secret`, which still
holds the segment `..`, and `bundleXML` reads `secret.xml` outside the source directory `ui`. -/
theorem cleanSrc_keeps_traversal :
    cleanSrcOf "....//secret".toList = "../secret".toList ∧
    includes (cleanSrcOf "....//secret".toList) "../".toList = true ∧
    pathJoin ["ui".toList, xmlFileOf (cleanSrcOf "....//secret".toList)] = "secret.xml".toList ∧
    bundleXML panelDirNewline "ui".toList 2 "<Include src=\"....//secret\"/>".toList [] =
      .ok "<!-- include ../secret -->\n<Secret/>\n<!-- include ../secret -->".toList := by
  refine ⟨by decide, by decide, by decide, by decide⟩


theorem starRun_shift (p : Char → Bool) (caps : List (Nat × Str)) (l r : Str) :
    starRun p caps l r = (starRun p [] [] r).map (MState.shift l caps) := by
  induction r generalizing l caps with
  | nil => simp [starRun, MState.shift]
  | cons c r ih =>
    unfold starRun
    split
    · rw [ih caps (c :: l), ih [] [c]]
      simp [MState.shift, List.map_map, Function.comp_def]
    · simp [MState.shift]

theorem lazyRun_shift (p : Char → Bool) (caps : List (Nat × Str)) (l r : Str) :
    lazyRun p caps l r = (lazyRun p [] [] r).map (MState.shift l caps) := by
  induction r generalizing l caps with
  | nil => simp [lazyRun, MState.shift]
  | cons c r ih =>
    unfold lazyRun
    split
    · rw [ih caps (c :: l), ih [] [c]]
      simp [MState.shift, List.map_map, Function.comp_def]
    · simp [MState.shift]

/-- A simple pattern matches the same way whatever stands before the cursor. -/
theorem run_simple (re : Re) (h : re.simple = true) (l r : Str) (caps : List (Nat × Str)) :
    re.run ⟨l, r, caps⟩ = (re.run ⟨[], r, []⟩).map (MState.shift l caps) := by
  induction re generalizing l r caps with
  | eps => simp [Re.run, MState.shift]
  | chr p =>
    cases r with
    | nil => simp [Re.run]
    | cons c r =>
      by_cases hc : p c = true
      · simp [Re.run, hc, MState.shift]
      · simp [Re.run, hc]
  | seq a b iha ihb =>
    simp only [Re.simple, Bool.and_eq_true] at h
    simp only [Re.run]
    rw [iha h.1 l r caps, List.flatMap_map, List.map_flatMap]
    apply List.flatMap_congr
    intro t _
    rcases t with ⟨tl, tr, tc⟩
    simp only [MState.shift]
    rw [ihb h.2 (tl ++ l) tr caps, ihb h.2 tl tr tc, List.map_map]
    apply List.map_congr_left
    intro u _
    simp [MState.shift]
  | alt a b iha ihb =>
    simp only [Re.simple, Bool.and_eq_true] at h
    simp only [Re.run]
    rw [iha h.1 l r caps, ihb h.2 l r caps, List.map_append]
  | star p => simp only [Re.run]; exact starRun_shift p caps l r
  | lazyStar p => simp only [Re.run]; exact lazyRun_shift p caps l r
  | group i a _ => simp [Re.simple] at h
  | bol => simp [Re.simple] at h
  | eol =>
    cases r <;> simp [Re.run, MState.shift]
  | wordB => simp [Re.simple] at h
  | look a iha =>
    simp only [Re.simple] at h
    simp only [Re.run]
    rw [iha h l r caps]
    cases a.run ⟨[], r, []⟩ with
    | nil => rfl
    | cons t tl => simp [MState.shift]

theorem run_simple_eq_nil_iff (re : Re) (h : re.simple = true) (l r : Str)
    (caps : List (Nat × Str)) : re.run ⟨l, r, caps⟩ = [] ↔ re.run ⟨[], r, []⟩ = [] := by
  rw [run_simple re h l r caps]
  simp


theorem mem_run_ci {ch : Char} {s t : MState} :
    t ∈ (Re.ci ch).run s ↔
      ∃ c r, s.right = c :: r ∧ c.toLower = ch.toLower ∧ t = ⟨c :: s.left, r, s.caps⟩ := by
  rw [Re.ci, mem_run_chr]
  simp

theorem mem_run_litCI {s : Str} {st t : MState} :
    t ∈ (Re.litCI s).run st ↔
      ∃ a r, st.right = a ++ r ∧ a.map Char.toLower = s.map Char.toLower ∧
        t = ⟨a.reverse ++ st.left, r, st.caps⟩ := by
  induction s generalizing st with
  | nil =>
    rcases st with ⟨l, r, cs⟩
    simp only [Re.litCI, Re.run, List.mem_singleton, List.map_nil, List.map_eq_nil_iff]
    constructor
    · rintro rfl
      exact ⟨[], r, rfl, rfl, rfl⟩
    · rintro ⟨a, r', h, rfl, rfl⟩
      simp only [List.nil_append] at h
      subst h
      rfl
  | cons c cs ih =>
    rw [Re.litCI, mem_run_seq]
    constructor
    · rintro ⟨u, hu, ht⟩
      obtain ⟨x, r, hr, hx, rfl⟩ := mem_run_ci.1 hu
      obtain ⟨a, r', hr', ha, rfl⟩ := ih.1 ht
      simp only at hr'
      subst hr'
      exact ⟨x :: a, r', by simpa using hr, by simp [hx, ha], by simp⟩
    · rintro ⟨a, r, hr, ha, rfl⟩
      cases a with
      | nil => simp at ha
      | cons x xs =>
        simp only [List.map_cons, List.cons.injEq] at ha
        refine ⟨⟨x :: st.left, xs ++ r, st.caps⟩,
          mem_run_ci.2 ⟨x, xs ++ r, by simpa using hr, ha.1, rfl⟩, ?_⟩
        exact ih.2 ⟨xs, r, rfl, ha.2, by simp⟩

theorem first_ci (c : Char) (l r : Str) (caps : List (Nat × Str)) :
    (Re.ci c).first ⟨l, c :: r, caps⟩ = some ⟨c :: l, r, caps⟩ :=
  first_chr (by simp)

theorem first_litCI (s l r : Str) (caps : List (Nat × Str)) :
    (Re.litCI s).first ⟨l, s ++ r, caps⟩ = some ⟨s.reverse ++ l, r, caps⟩ := by
  induction s generalizing l with
  | nil => simp [Re.litCI, Re.first, Re.run]
  | cons c cs ih =>
    rw [Re.litCI]
    refine first_seq (first_ci c l (cs ++ r) caps) ?_
    rw [ih]
    simp

theorem lazyRun_head (p : Char → Bool) (caps : List (Nat × Str)) (l r : Str) :
    ∃ tl, lazyRun p caps l r = ⟨l, r, caps⟩ :: tl := by
  cases r with
  | nil => exact ⟨[], rfl⟩
  | cons c r =>
    unfold lazyRun
    split
    · exact ⟨_, rfl⟩
    · exact ⟨[], rfl⟩

/-- A lazy star gives way to what follows it at the first cursor where that matches. -/
theorem lazy_flatMap_head (f : MState → List MState) (p : Char → Bool)
    (caps : List (Nat × Str)) (skip rest l : Str) (hskip : ∀ c ∈ skip, p c = true)
    (hfail : ∀ a b, skip = a ++ b → b ≠ [] → f ⟨a.reverse ++ l, b ++ rest, caps⟩ = [])
    (x : MState) (hx : (f ⟨skip.reverse ++ l, rest, caps⟩).head? = some x) :
    ((lazyRun p caps l (skip ++ rest)).flatMap f).head? = some x := by
  induction skip generalizing l with
  | nil =>
    obtain ⟨tl, htl⟩ := lazyRun_head p caps l rest
    simp only [List.nil_append, htl, List.flatMap_cons]
    simp only [List.reverse_nil, List.nil_append] at hx
    cases hf : f ⟨l, rest, caps⟩ with
    | nil => rw [hf] at hx; cases hx
    | cons y ys =>
      rw [hf] at hx
      simpa using hx
  | cons c cs ih =>
    have hc := hskip c (List.mem_cons_self _ _)
    rw [List.cons_append, lazyRun, if_pos hc, List.flatMap_cons]
    have h0 := hfail [] (c :: cs) rfl (by simp)
    simp only [List.reverse_nil, List.nil_append, List.cons_append] at h0
    rw [h0, List.nil_append]
    apply ih (c :: l) (fun y hy => hskip y (List.mem_cons_of_mem _ hy))
    · intro a b hab hb
      have := hfail (c :: a) b (by rw [hab]; rfl) hb
      simpa using this
    · simpa using hx

theorem first_lazy_group (i : Nat) (p : Char → Bool) (K : Re) (l skip rest : Str)
    (caps : List (Nat × Str)) (x : MState) (hskip : ∀ c ∈ skip, p c = true)
    (hfail : ∀ a b, skip = a ++ b → b ≠ [] →
      K.run ⟨a.reverse ++ l, b ++ rest, (i, a) :: caps⟩ = [])
    (hK : K.first ⟨skip.reverse ++ l, rest, (i, skip) :: caps⟩ = some x) :
    (Re.seq (.group i (.lazyStar p)) K).first ⟨l, skip ++ rest, caps⟩ = some x := by
  unfold Re.first
  simp only [Re.run, List.flatMap_map]
  apply lazy_flatMap_head _ p caps skip rest l hskip
  · intro a b hab hb
    subst hab
    simp only
    rw [consumed_eq (s := a ++ b ++ rest) (a := a) (t := b ++ rest) (by simp)]
    exact hfail a b rfl hb
  · simp only
    rw [consumed_eq (s := skip ++ rest) (a := skip) (t := rest) rfl]
    exact hK

/-- A scan passes over a stretch of text in which the pattern matches nowhere. -/
theorem scan_skip (re : Re) (pre rest left : Str)
    (h : ∀ a b, pre = a ++ b → b ≠ [] → re.matchAt (a.reverse ++ left) (b ++ rest) = none) :
    re.scan left (pre ++ rest) = re.scan (pre.reverse ++ left) rest := by
  induction pre generalizing left with
  | nil => rfl
  | cons c cs ih =>
    have h0 := h [] (c :: cs) rfl (by simp)
    simp only [List.reverse_nil, List.nil_append, List.cons_append] at h0
    rw [List.cons_append, Re.scan, h0]
    simp only
    rw [ih (c :: left)]
    · simp
    · intro a b hab hb
      have := h (c :: a) b (by rw [hab]; rfl) hb
      simpa using this


theorem joinWith_snoc (sep : Str) (xs : List Str) (r : Str) :
    joinWith sep (xs ++ [r]) = xs.flatMap (fun x => x ++ sep) ++ r := by
  induction xs with
  | nil => simp [joinWith]
  | cons x xs ih =>
    cases xs with
    | nil => simp [joinWith]
    | cons y ys =>
      rw [List.cons_append, List.cons_append, joinWith_cons_cons, ← List.cons_append, ih]
      simp [List.append_assoc]

theorem scan_none_all (re : Re) (s left : Str) (h : re.scan left s = none) :
    ∀ a b, s = a ++ b → re.matchAt (a.reverse ++ left) b = none := by
  induction s generalizing left with
  | nil =>
    intro a b hab
    obtain ⟨rfl, rfl⟩ := List.append_eq_nil.1 hab.symm
    simpa [Re.scan] using h
  | cons c cs ih =>
    rw [Re.scan] at h
    cases hm : re.matchAt left (c :: cs) with
    | some m => rw [hm] at h; cases h
    | none =>
      rw [hm] at h
      simp only at h
      intro a b hab
      cases a with
      | nil =>
        simp only [List.nil_append] at hab
        subst hab
        simpa using hm
      | cons x xs =>
        simp only [List.cons_append, List.cons.injEq] at hab
        obtain ⟨rfl, rfl⟩ := hab
        have := ih (c :: left) h xs b rfl
        simpa using this

theorem registerOpenRoot_simple : registerOpenRoot.simple = true := by
  simp [registerOpenRoot, Re.cat, Re.simple, Re.litCI]

/-- The texts `registerOpenRoot` matches hold no closing parenthesis. -/
theorem registerOpenRoot_sound {s : Str} {t : MState}
    (h : t ∈ registerOpenRoot.run ⟨[], s, []⟩) :
    ∃ M r, s = M ++ r ∧ ')' ∉ M ∧ ∀ r', (registerOpenRoot.run ⟨[], M ++ r', []⟩) ≠ [] := by
  simp only [registerOpenRoot, Re.cat, mem_run_seq, mem_run_litCI, mem_run_star, mem_run_chr] at h
  obtain ⟨u, ⟨a, r₁, h₁, ha, rfl⟩, v, ⟨ws, r₂, h₂, hws, rfl⟩, w, ⟨q, r₃, h₃, hq, rfl⟩, x,
    ⟨y, r₄, h₄, hy, rfl⟩, q', r₅, h₅, hq', -⟩ := h
  simp only at h₁ h₂ h₃ h₄ h₅
  subst h₁ h₂ h₃ h₄ h₅
  refine ⟨a ++ (ws ++ (q :: (y ++ [q']))), r₅, by simp, ?_, ?_⟩
  · simp only [List.mem_append, List.mem_cons, List.mem_singleton, List.not_mem_nil, or_false,
      not_or]
    refine ⟨?_, ?_, ?_, ?_, ?_⟩
    · intro hm
      have : ')'.toLower ∈ a.map Char.toLower := List.mem_map_of_mem _ hm
      rw [ha] at this
      revert this
      decide
    · intro hm
      have := hws _ hm
      revert this
      decide
    · rintro rfl
      revert hq
      decide
    · intro hm
      have : ')'.toLower ∈ y.map Char.toLower := List.mem_map_of_mem _ hm
      rw [hy] at this
      revert this
      decide
    · rintro rfl
      revert hq'
      decide
  · intro r'
    have e : (a ++ (ws ++ (q :: (y ++ [q'])))) ++ r' = a ++ (ws ++ (q :: (y ++ (q' :: r')))) := by
      simp
    rw [e]
    apply List.ne_nil_of_mem (a := ⟨q' :: (y.reverse ++ (q :: (ws.reverse ++ (a.reverse ++ [])))),
      r', []⟩)
    simp only [registerOpenRoot, Re.cat, mem_run_seq, mem_run_litCI, mem_run_star, mem_run_chr]
    exact ⟨_, ⟨a, _, rfl, ha, rfl⟩, _, ⟨ws, _, rfl, hws, rfl⟩, _, ⟨q, _, rfl, hq, rfl⟩, _,
      ⟨y, _, rfl, hy, rfl⟩, q', r', rfl, hq', rfl⟩

theorem prefix_of_not_mem {α : Type} (c : α) (M r y rest : List α) (h : M ++ r = y ++ c :: rest)
    (hc : c ∉ M) : ∃ r', y = M ++ r' := by
  induction M generalizing y with
  | nil => exact ⟨y, rfl⟩
  | cons m ms ih =>
    cases y with
    | nil =>
      simp only [List.cons_append, List.nil_append, List.cons.injEq] at h
      exact absurd (h.1 ▸ List.mem_cons_self _ _) hc
    | cons y ys =>
      simp only [List.cons_append, List.cons.injEq] at h
      obtain ⟨r', hr'⟩ := ih ys h.2 (fun hm => hc (List.mem_cons_of_mem _ hm))
      exact ⟨r', by rw [h.1, hr']; rfl⟩

/-- A match of `registerOpenRoot` that starts in a text ending with `)` lies within the text. -/
theorem registerOpenRoot_local (y rest l : Str) (caps : List (Nat × Str))
    (h : registerOpenRoot.run ⟨l, (y ++ [')']) ++ rest, caps⟩ ≠ []) :
    registerOpenRoot.run ⟨[], y ++ [')'], []⟩ ≠ [] := by
  rw [Ne, run_simple_eq_nil_iff _ registerOpenRoot_simple] at h
  obtain ⟨t, ht⟩ := List.exists_mem_of_ne_nil _ h
  obtain ⟨M, r, hs, hM, hrun⟩ := registerOpenRoot_sound ht
  obtain ⟨r', hr'⟩ := prefix_of_not_mem ')' M r y rest (by rw [← hs]; simp) hM
  rw [hr', List.append_assoc]
  exact hrun _

theorem reRegister_opens {s t : MState} (h : t ∈ reRegister.run s) :
    registerOpenRoot.run s ≠ [] := by
  simp only [reRegister, Re.cat, mem_run_seq] at h
  obtain ⟨a, ha, b, hb, c, hc, d, hd, e, he, -⟩ := h
  apply List.ne_nil_of_mem (a := e)
  simp only [registerOpenRoot, Re.cat, mem_run_seq]
  exact ⟨a, ha, b, hb, c, hc, d, hd, he⟩

theorem reRegister_matchAt_none {l r : Str} (h : registerOpenRoot.run ⟨l, r, []⟩ = []) :
    reRegister.matchAt l r = none := by
  rw [matchAt_eq_none_iff]
  cases hr : reRegister.run ⟨l, r, []⟩ with
  | nil => rfl
  | cons t tl =>
    exact absurd h (reRegister_opens (t := t) (by rw [hr]; exact List.mem_cons_self _ _))

theorem registerOpenRoot_newline (l r : Str) (caps : List (Nat × Str)) :
    registerOpenRoot.run ⟨l, '\n' :: r, caps⟩ = [] := by
  cases h : registerOpenRoot.run ⟨l, '\n' :: r, caps⟩ with
  | nil => rfl
  | cons t tl =>
    exfalso
    have ht : t ∈ registerOpenRoot.run ⟨l, '\n' :: r, caps⟩ := by rw [h]; exact List.mem_cons_self _ _
    simp only [registerOpenRoot, Re.cat, mem_run_seq, mem_run_litCI] at ht
    obtain ⟨u, ⟨a, r₁, h₁, ha, -⟩, -⟩ := ht
    cases a with
    | nil => simp at ha
    | cons x xs =>
      simp only [List.cons_append, List.cons.injEq] at h₁
      rw [← h₁.1] at ha
      revert ha
      simp

theorem scan_clean_block (x rest left : Str) (hx : CleanBlock x) :
    reRegister.scan left ((x ++ blockSep) ++ rest) =
      reRegister.scan ((x ++ blockSep).reverse ++ left) rest := by
  apply scan_skip
  intro a b hab hb
  apply reRegister_matchAt_none
  rcases List.append_eq_append_iff.1 hab with ⟨c, rfl, hc⟩ | ⟨c, hxc, rfl⟩
  · -- the cursor is in the separator
    have : ∃ b', b = '\n' :: b' := by
      have hsep : blockSep = ['\n', '\n'] := rfl
      rw [hsep] at hc
      cases c with
      | nil => exact ⟨['\n'], by simpa using hc.symm⟩
      | cons c₁ c' =>
        cases c' with
        | nil => exact ⟨[], by simp at hc; exact hc.2.symm⟩
        | cons c₂ c'' =>
          simp only [List.cons_append, List.cons.injEq] at hc
          have := hc.2.2
          simp only [List.nil_eq, List.append_eq_nil] at this
          exact absurd this.2 hb
    obtain ⟨b', rfl⟩ := this
    exact registerOpenRoot_newline _ _ _
  · cases c with
    | nil => exact registerOpenRoot_newline _ _ _
    | cons c₁ c' =>
      by_contra hne
      obtain ⟨⟨y, hy⟩, hex⟩ := hx
      -- the cursor is in the block, whose end is `)`
      have hend : ∃ y', c₁ :: c' = y' ++ [')'] := by
        rw [hy] at hxc
        rcases List.append_eq_append_iff.1 hxc with ⟨d, rfl, hd⟩ | ⟨d, rfl, hd⟩
        · cases d with
          | nil =>
            simp only [List.nil_append, List.cons.injEq] at hd
            obtain ⟨h₁, h₂⟩ := hd
            subst h₁ h₂
            exact ⟨[], rfl⟩
          | cons d₁ d' =>
            simp only [List.cons_append, List.cons.injEq] at hd
            have := hd.2
            simp at this
        · exact ⟨d, hd⟩
      obtain ⟨y', hy'⟩ := hend
      have h₁ : registerOpenRoot.run ⟨[], y' ++ [')'], []⟩ ≠ [] := by
        apply registerOpenRoot_local y' (blockSep ++ rest) (a.reverse ++ left) []
        rw [← hy']
        simpa [List.append_assoc] using hne
      have h₂ := scan_none_all registerOpenRoot x [] hex a (c₁ :: c') hxc
      rw [matchAt_eq_none_iff, run_simple_eq_nil_iff _ registerOpenRoot_simple, hy'] at h₂
      exact h₁ h₂

theorem scan_clean_blocks (xs : List Str) (rest left : Str) (hxs : ∀ x ∈ xs, CleanBlock x) :
    reRegister.scan left (xs.flatMap (fun x => x ++ blockSep) ++ rest) =
      reRegister.scan ((xs.flatMap (fun x => x ++ blockSep)).reverse ++ left) rest := by
  induction xs generalizing left with
  | nil => rfl
  | cons x xs ih =>
    rw [List.flatMap_cons, List.append_assoc,
      scan_clean_block x _ left (hxs x (List.mem_cons_self _ _)),
      ih _ (fun y hy => hxs y (List.mem_cons_of_mem _ hy))]
    simp


theorem registerStopTail_simple : registerStopTail.simple = true := by
  simp [registerStopTail, registerLookahead, Re.cat, Re.simple, Re.litCI, Re.plus]

theorem registerStop_run (l r : Str) (caps : List (Nat × Str)) :
    registerStop.run ⟨l, r, caps⟩ =
      if atWordBoundary l r then registerStopTail.run ⟨l, r, caps⟩ else [] := by
  simp only [registerStop, registerStopTail, Re.cat, Re.run]
  split <;> simp

theorem atWordBoundary_head (l₁ l₂ r : Str) (h : l₁.head? = l₂.head?) :
    atWordBoundary l₁ r = atWordBoundary l₂ r := by
  cases l₁ <;> cases l₂ <;> simp_all [atWordBoundary]

/-- Whether `registerStop` matches depends on the text before the cursor through its last
character only, and not on the captures. -/
theorem registerStop_context (l₁ l₂ r : Str) (c₁ c₂ : List (Nat × Str))
    (h : l₁.head? = l₂.head?) (h₁ : registerStop.run ⟨l₁, r, c₁⟩ = []) :
    registerStop.run ⟨l₂, r, c₂⟩ = [] := by
  rw [registerStop_run] at h₁ ⊢
  rw [← atWordBoundary_head l₁ l₂ r h]
  split
  · rename_i hb
    rw [if_pos hb] at h₁
    rw [run_simple_eq_nil_iff _ registerStopTail_simple] at h₁ ⊢
    exact h₁
  · rfl

theorem noEarlyStop_split (body a b : Str) (h : noEarlyStop body = true) (hab : body = a ++ b) :
    registerStop.run ⟨a.reverse ++ ['\n'], b ++ rootTrailer, []⟩ = [] := by
  unfold noEarlyStop at h
  rw [List.all_eq_true] at h
  have := h a.length (List.mem_range.2 (by rw [hab]; simp; omega))
  rw [hab] at this
  simpa using this

theorem head?_append_cons {α : Type} (x y : List α) (c : α) :
    (x ++ c :: y).head? = (x ++ [c]).head? := by
  cases x <;> rfl

theorem not_space_of_trimStart {c : Char} {cs : Str} (h : trimStart (c :: cs) = c :: cs) :
    isSpace c = false := by
  unfold trimStart at h
  rw [List.dropWhile_cons] at h
  split at h
  · have hl := congrArg List.length h
    have := (List.dropWhile_sublist isSpace (l := cs)).length_le
    simp only [List.length_cons] at hl
    omega
  · rename_i hc
    simpa using hc


theorem rootBlock_eq (body : Str) :
    rootBlock body =
      "__bundle_register(".toList ++ ([] ++ ('"' :: ("__root".toList ++ ('"' :: ([] ++ (',' ::
        (" ".toList ++ ("function".toList ++ ([] ++ ('(' ::
          ("require, _LOADED, __bundle_register, __bundle_modules".toList ++ (')' ::
            ("\n".toList ++ ((body ++ ['\n']) ++ stopText)))))))))))))) := by
  simp [rootBlock, registerOpen, stopText, List.append_assoc]

theorem first_wordB (l r : Str) (caps : List (Nat × Str)) (h : atWordBoundary l r = true) :
    Re.wordB.first ⟨l, r, caps⟩ = some ⟨l, r, caps⟩ := by
  simp [Re.first, Re.run, h]

theorem first_look {a : Re} {s t : MState} (h : a.first s = some t) :
    (Re.look a).first s = some ⟨s.left, s.right, t.caps⟩ := by
  unfold Re.first at *
  cases hr : a.run s with
  | nil => rw [hr] at h; cases h
  | cons t' tl =>
    rw [hr] at h
    simp only [List.head?_cons, Option.some.injEq] at h
    subst h
    simp [Re.run, hr]

theorem split_snoc {α : Type} (skip a b : List α) (x : α) (h : skip ++ [x] = a ++ b)
    (hb : b ≠ []) : ∃ b', b = b' ++ [x] ∧ skip = a ++ b' := by
  rcases List.eq_nil_or_concat b with rfl | ⟨b', y, rfl⟩
  · exact absurd rfl hb
  · rw [List.concat_eq_append, ← List.append_assoc] at h
    obtain ⟨h₁, h₂⟩ := List.append_inj' h rfl
    simp only [List.cons.injEq, and_true] at h₂
    subst h₂
    exact ⟨b', by simp, h₁⟩

theorem first_alt_left {a b : Re} {s t : MState} (h : a.first s = some t) :
    (Re.alt a b).first s = some t := by
  unfold Re.first at *
  cases hr : a.run s with
  | nil => rw [hr] at h; cases h
  | cons t' tl =>
    rw [hr] at h
    simpa [Re.run, hr] using h

theorem first_alt_right {a b : Re} {s : MState} (h : a.run s = []) :
    (Re.alt a b).first s = b.first s := by
  simp [Re.first, Re.run, h]

theorem run_litCI_mismatch (s l r : Str) (caps : List (Nat × Str)) (c x : Char) (cs r' : Str)
    (hs : s = c :: cs) (hr : r = x :: r') (h : (x.toLower == c.toLower) = false) :
    (Re.litCI s).run ⟨l, r, caps⟩ = [] := by
  subst hs hr
  simp [Re.litCI, Re.run, Re.ci, h]

theorem registerStop_first_stopText (l : Str) (caps : List (Nat × Str)) :
    registerStop.first ⟨'\n' :: l, stopText, caps⟩ =
      some ⟨"end)\n\n".toList.reverse ++ ('\n' :: l),
        "return __bundle_require(\"__root\")".toList, caps⟩ := by
  have e : stopText = "end)".toList ++ ("\n\n".toList ++
      ("return".toList ++ (' ' :: ([] ++ ("__bundle_require".toList ++ "(\"__root\")".toList))))) := rfl
  rw [e]
  simp only [registerStop, Re.cat]
  refine first_seq (first_wordB _ _ _ (by rfl)) ?_
  refine first_seq (first_litCI _ _ _ _) ?_
  refine first_seq (first_star _ "\n\n".toList _ _ (by decide)
    (by rintro x r h; cases h; decide)) ?_
  have hla : registerLookahead.first ⟨"\n\n".toList.reverse ++ ("end)".toList.reverse ++ ('\n' :: l)),
      "return".toList ++ (' ' :: ([] ++ ("__bundle_require".toList ++ "(\"__root\")".toList))),
      caps⟩ = some ⟨"__bundle_require".toList.reverse ++ ([' '].reverse ++ ("return".toList.reverse ++
        ("\n\n".toList.reverse ++ ("end)".toList.reverse ++ ('\n' :: l))))),
        "(\"__root\")".toList, caps⟩ := by
    unfold registerLookahead
    refine Eq.trans (first_alt_right ?_) ?_
    · exact run_litCI_mismatch _ _ _ _ '_' 'r' _ _ rfl rfl (by decide)
    refine Eq.trans (first_alt_right ?_) ?_
    · exact run_litCI_mismatch _ _ _ _ 'p' 'r' _ _ rfl rfl (by decide)
    have h₃ : (Re.cat [.litCI "return".toList, .plus isSpace, .litCI "__bundle_require".toList]).first
        ⟨"\n\n".toList.reverse ++ ("end)".toList.reverse ++ ('\n' :: l)),
          "return".toList ++ (' ' :: ([] ++ ("__bundle_require".toList ++ "(\"__root\")".toList))),
          caps⟩ = some ⟨"__bundle_require".toList.reverse ++ ([' '].reverse ++
            ("return".toList.reverse ++
              ("\n\n".toList.reverse ++ ("end)".toList.reverse ++ ('\n' :: l))))),
            "(\"__root\")".toList, caps⟩ := by
      simp only [Re.cat]
      refine first_seq (first_litCI _ _ _ _) ?_
      refine first_seq (first_plus _ _ ' ' [] _ (by decide) (by simp)
        (by rintro x r h; cases h; decide)) ?_
      exact first_litCI _ _ _ _
    exact first_alt_left h₃
  exact (first_look hla).trans rfl

theorem reRegister_first_root (l body : Str) (hne : body ≠ []) (hhead : trimStart body = body)
    (hstop : noEarlyStop body = true) :
    ∃ tl tr, reRegister.first ⟨l, rootBlock body, []⟩ = some ⟨tl, tr, [(1, body ++ ['\n'])]⟩ := by
  obtain ⟨c, cs, rfl⟩ : ∃ c cs, body = c :: cs := by
    cases body with
    | nil => exact absurd rfl hne
    | cons c cs => exact ⟨c, cs, rfl⟩
  have hc : isSpace c = false := not_space_of_trimStart hhead
  apply Exists.intro
  apply Exists.intro
  rw [rootBlock_eq]
  simp only [reRegister, Re.cat]
  refine first_seq (first_litCI _ _ _ _) ?_
  refine first_seq (first_star _ [] _ _ (by simp) (by rintro x r h; cases h; decide)) ?_
  refine first_seq (first_chr (by decide)) ?_
  refine first_seq (first_litCI _ _ _ _) ?_
  refine first_seq (first_chr (by decide)) ?_
  refine first_seq (first_star _ [] _ _ (by simp) (by rintro x r h; cases h; decide)) ?_
  refine first_seq (first_ci _ _ _ _) ?_
  refine first_seq (first_star _ " ".toList _ _ (by decide)
    (by rintro x r h; cases h; decide)) ?_
  refine first_seq (first_litCI _ _ _ _) ?_
  refine first_seq (first_star _ [] _ _ (by simp) (by rintro x r h; cases h; decide)) ?_
  refine first_seq (first_ci _ _ _ _) ?_
  refine first_seq (first_star _ "require, _LOADED, __bundle_register, __bundle_modules".toList
    _ _ (by decide) (by rintro x r h; cases h; decide)) ?_
  refine first_seq (first_ci _ _ _ _) ?_
  refine first_seq (first_star _ "\n".toList _ _ (by decide) ?_) ?_
  · rintro x r h
    simp only [List.cons_append, List.cons.injEq] at h
    rw [← h.1]
    exact hc
  apply first_lazy_group 1 anyChar registerStop _ (c :: cs ++ ['\n']) stopText
  · intro _ _; rfl
  · intro a b hab hb
    obtain ⟨b', rfl, hbody⟩ := split_snoc (c :: cs) a b '\n' hab hb
    have h₀ := noEarlyStop_split (c :: cs) a b' hstop hbody
    have hr : b' ++ ['\n'] ++ stopText = b' ++ rootTrailer := by
      simp [rootTrailer, stopText]
    rw [hr]
    refine registerStop_context _ _ _ _ _ ?_ h₀
    simp only [List.reverse_append, List.reverse_cons, List.reverse_nil, List.nil_append,
      List.append_assoc, List.singleton_append]
    exact (head?_append_cons _ _ _).symm
  · have := registerStop_first_stopText
      ((c :: cs).reverse ++ ("\n".toList.reverse ++ (')' ::
        ("require, _LOADED, __bundle_register, __bundle_modules".toList.reverse ++ ('(' ::
          ([].reverse ++ ("function".toList.reverse ++ (" ".toList.reverse ++ (',' ::
            ([].reverse ++ ('"' :: ("__root".toList.reverse ++ ('"' ::
              ([].reverse ++ ("__bundle_register(".toList.reverse ++ l)))))))))))))))
      [(1, c :: cs ++ ['\n'])]
    simpa using this


theorem includes_eq_false_iff (s p : Str) :
    includes s p = false ↔ ∀ a b, s = a ++ b → p.isPrefixOf b = false := by
  induction s with
  | nil =>
    constructor
    · intro h a b hab
      obtain ⟨rfl, rfl⟩ := List.append_eq_nil.1 hab.symm
      cases p with
      | nil => simp [includes] at h
      | cons c cs => rfl
    · intro h
      have := h [] [] rfl
      cases p with
      | nil => simp at this
      | cons c cs => rfl
  | cons c cs ih =>
    rw [includes, Bool.or_eq_false_iff, ih]
    constructor
    · rintro ⟨h₁, h₂⟩ a b hab
      cases a with
      | nil =>
        simp only [List.nil_append] at hab
        subst hab
        exact h₁
      | cons x xs =>
        simp only [List.cons_append, List.cons.injEq] at hab
        exact h₂ xs b hab.2
    · intro h
      exact ⟨h [] _ rfl, fun a b hab => h (c :: a) b (by rw [hab]; rfl)⟩

theorem replaceAllFrom_of_no_match (re : Re) (rep : Str) (fuel : Nat) (left s : Str)
    (hfuel : s.length < fuel)
    (h : ∀ a b, s = a ++ b → re.matchAt (a.reverse ++ left) b = none) :
    re.replaceAllFrom rep fuel left s = s := by
  induction s generalizing fuel left with
  | nil =>
    cases fuel with
    | zero => rfl
    | succ n =>
      have := h [] [] rfl
      simp only [List.reverse_nil, List.nil_append] at this
      rw [Re.replaceAllFrom, this]
  | cons c cs ih =>
    cases fuel with
    | zero => simp at hfuel
    | succ n =>
      have h0 := h [] (c :: cs) rfl
      simp only [List.reverse_nil, List.nil_append] at h0
      rw [Re.replaceAllFrom, h0]
      simp only
      rw [ih n (c :: left) (by simpa using hfuel)]
      intro a b hab
      have := h (c :: a) b (by rw [hab]; rfl)
      simpa using this

theorem dropWhile_cons_self {p : Char → Bool} {c : Char} {cs : Str}
    (h : (c :: cs).dropWhile p = c :: cs) : p c = false := by
  rw [List.dropWhile_cons] at h
  split at h
  · have hl := congrArg List.length h
    have := (List.dropWhile_sublist p (l := cs)).length_le
    simp only [List.length_cons] at hl
    omega
  · rename_i hc
    simpa using hc

theorem last_not_space {body b₀ : Str} {x : Char} (h : trimEnd body = body)
    (hb : body = b₀ ++ [x]) : isSpace x = false := by
  subst hb
  unfold trimEnd at h
  have h' := congrArg List.reverse h
  simp only [List.reverse_reverse, List.reverse_append, List.reverse_cons, List.reverse_nil,
    List.nil_append, List.singleton_append] at h'
  exact dropWhile_cons_self h'

theorem trimEnd_snoc_newline (body : Str) (h : trimEnd body = body) :
    trimEnd (body ++ ['\n']) = body := by
  unfold trimEnd at h ⊢
  rw [List.reverse_append]
  simp only [List.reverse_cons, List.reverse_nil, List.nil_append, List.singleton_append,
    List.dropWhile_cons]
  rw [if_pos (by decide)]
  exact h

theorem crlf_none (body : Str) (h : Tidy body) (a b : Str) (hab : body ++ ['\n'] = a ++ b) :
    "\r\n".toList.isPrefixOf b = false := by
  by_cases hb : b = []
  · subst hb; rfl
  · obtain ⟨b', rfl, hbody⟩ := split_snoc body a b '\n' hab hb
    have h₁ := (includes_eq_false_iff body _).1 h.no_crlf a b' hbody
    match b', hbody, h₁ with
    | [], _, _ => rfl
    | [y], hbody, _ =>
      have := last_not_space h.no_trailing hbody
      by_cases hy : y = '\r'
      · subst hy
        revert this
        decide
      · simp [List.isPrefixOf, Ne.symm hy]
    | y₁ :: y₂ :: r, _, h₁ =>
      simpa [List.isPrefixOf] using h₁

theorem blank_run_none (body : Str) (h : Tidy body) (a b : Str)
    (hab : body ++ ['\n'] = a ++ b) : "\n\n\n".toList.isPrefixOf b = false := by
  by_cases hb : b = []
  · subst hb; rfl
  · obtain ⟨b', rfl, hbody⟩ := split_snoc body a b '\n' hab hb
    have h₁ := (includes_eq_false_iff body _).1 h.no_blank_run a b' hbody
    match b', hbody, h₁ with
    | [], _, _ => rfl
    | [y], hbody, _ =>
      have := last_not_space h.no_trailing hbody
      by_cases hy : y = '\n'
      · subst hy
        revert this
        decide
      · simp [List.isPrefixOf, Ne.symm hy]
    | [y₁, y₂], hbody, _ =>
      have hbody' : body = (a ++ [y₁]) ++ [y₂] := by rw [hbody]; simp
      have := last_not_space h.no_trailing hbody'
      by_cases hy : y₂ = '\n'
      · subst hy
        exact absurd this (by decide)
      · simp [List.isPrefixOf, Ne.symm hy]
    | y₁ :: y₂ :: y₃ :: r, _, h₁ =>
      simpa [List.isPrefixOf] using h₁

theorem reBlankLines_matchAt_none (l b : Str) (h : "\n\n\n".toList.isPrefixOf b = false) :
    reBlankLines.matchAt l b = none := by
  rw [matchAt_eq_none_iff]
  cases hr : reBlankLines.run ⟨l, b, []⟩ with
  | nil => rfl
  | cons t tl =>
    exfalso
    have ht : t ∈ reBlankLines.run ⟨l, b, []⟩ := by rw [hr]; exact List.mem_cons_self _ _
    simp only [reBlankLines, Re.cat, mem_run_seq, mem_run_c] at ht
    obtain ⟨u, ⟨r₁, h₁, rfl⟩, v, ⟨r₂, h₂, rfl⟩, w, ⟨r₃, h₃, rfl⟩, -⟩ := ht
    simp only at h₁ h₂ h₃
    subst h₁ h₂ h₃
    simp [List.isPrefixOf] at h

theorem tidyLua_snoc_newline (body : Str) (hne : body ≠ []) (h : Tidy body) :
    tidyLua (body ++ ['\n']) = body := by
  unfold tidyLua
  have e₁ : (Re.lit "\r\n".toList).replaceAll "\n".toList (body ++ ['\n']) = body ++ ['\n'] := by
    apply replaceAllFrom_of_no_match _ _ _ _ _ (Nat.lt_succ_self _)
    intro a b hab
    exact matchAt_lit_none _ _ _ (crlf_none body h a b hab)
  have e₂ : reBlankLines.replaceAll "\n\n".toList (body ++ ['\n']) = body ++ ['\n'] := by
    apply replaceAllFrom_of_no_match _ _ _ _ _ (Nat.lt_succ_self _)
    intro a b hab
    exact reBlankLines_matchAt_none _ _ (blank_run_none body h a b hab)
  have e₃ : reLeadingSpace.replaceFirst [] (body ++ ['\n']) = body ++ ['\n'] := by
    unfold Re.replaceFirst
    have : reLeadingSpace.exec (body ++ ['\n']) = none := by
      simp only [reLeadingSpace, Re.cat]
      rw [exec_bol_eq_matchAt, matchAt_eq_none_iff]
      cases body with
      | nil => exact absurd rfl hne
      | cons c cs =>
        have hc : isSpace c = false := not_space_of_trimStart h.no_leading
        simp [Re.run, Re.plus, hc]
    rw [this]
  rw [e₁, e₂, e₃, trimEnd_snoc_newline body h.no_trailing]


set_option maxRecDepth 100000 in
theorem header_clean : CleanBlock emitLuabundleHeader :=
  ⟨⟨emitLuabundleHeader.dropLast, by decide⟩, by decide⟩

theorem registerBlock_clean (m : LuaModule)
    (h : registerOpenRoot.exec (registerBlock m) = none) : CleanBlock (registerBlock m) :=
  ⟨⟨registerOpen m.id ++ '\n' :: m.code ++ "\nend".toList, by simp [registerBlock]⟩, h⟩

theorem emitBundle_eq (mods : List LuaModule) (body : Str) :
    emitBundle mods body =
      (emitLuabundleHeader :: mods.map registerBlock).flatMap (fun x => x ++ blockSep) ++
        rootBlock body := by
  unfold emitBundle
  rw [joinWith_snoc]
  rfl

theorem extractRootModule_emitBundle (mods : List LuaModule) (body : Str) (hne : body ≠ [])
    (htidy : Tidy body) (hstop : noEarlyStop body = true)
    (hmods : ∀ m ∈ mods, registerOpenRoot.exec (registerBlock m) = none) :
    extractRootModule (emitBundle mods body) = body := by
  have hclean : ∀ x ∈ emitLuabundleHeader :: mods.map registerBlock, CleanBlock x := by
    intro x hx
    rcases List.mem_cons.1 hx with rfl | hx
    · exact header_clean
    · obtain ⟨m, hm, rfl⟩ := List.mem_map.1 hx
      exact registerBlock_clean m (hmods m hm)
  obtain ⟨tl, tr, hfirst⟩ := reRegister_first_root
    (((emitLuabundleHeader :: mods.map registerBlock).flatMap
      (fun x => x ++ blockSep)).reverse ++ []) body hne htidy.no_leading hstop
  have hexec : ∃ m, reRegister.exec (emitBundle mods body) = some m ∧
      m.cap 1 = some (body ++ ['\n']) := by
    rw [emitBundle_eq, Re.exec, scan_clean_blocks _ _ _ hclean]
    exact ⟨_, scan_of_matchAt (matchAt_of_first hfirst), by simp [Match.cap]⟩
  obtain ⟨m, hm, hcap⟩ := hexec
  have htruthy : truthy (emitBundle mods body) = true := by
    rw [emitBundle_eq]
    have : rootBlock body ≠ [] := by simp [rootBlock, registerOpen]
    cases hr : rootBlock body with
    | nil => exact absurd hr this
    | cons c cs =>
      cases hx : (emitLuabundleHeader :: mods.map registerBlock).flatMap (fun x => x ++ blockSep)
        <;> rfl
  unfold extractRootModule
  rw [htruthy, hm]
  simp only [Bool.not_true, Bool.false_eq_true, if_false, capturedBody, hcap]
  have : truthy (body ++ ['\n']) = true := by
    cases body <;> rfl
  rw [this]
  simp only [if_true]
  exact tidyLua_snoc_newline body hne htidy

theorem bundle_eq_emitBundle (fs : FS) (libDir : Str) (fuel : Nat) (body out : Str)
    (st : BundleState) (hreq : findRequireIds body ≠ [])
    (hst : collectModules fs libDir fuel body = .ok st)
    (hout : bundleLuaIfNeeded fs libDir fuel body = .ok out) :
    out = emitBundle st.modules body := by
  unfold bundleLuaIfNeeded at hout
  have : (findRequireIds body).isEmpty = false := by
    cases h : findRequireIds body with
    | nil => exact absurd h hreq
    | cons x xs => rfl
  rw [this] at hout
  simp only [Bool.false_eq_true, if_false, hst] at hout
  split at hout
  · cases hout
  · simp only [Res.ok.injEq] at hout
    exact hout.symm


/-- Where the extractor does invert the bundler: for an entry body that contains an import, is
in tidy form and in which the stop `\bend\)\s*(?=...)` of the extractor matches nowhere, and
for collected modules whose registration blocks hold no opening of a registration of the root
name, `extractRootModule(bundleLuaIfNeeded(body))` is the body. -/
theorem extractRootModule_bundle (fs : FS) (libDir : Str) (fuel : Nat) (body out : Str)
    (st : BundleState) (hreq : findRequireIds body ≠ [])
    (hst : collectModules fs libDir fuel body = .ok st)
    (hout : bundleLuaIfNeeded fs libDir fuel body = .ok out) (htidy : Tidy body)
    (hstop : noEarlyStop body = true)
    (hmods : ∀ m ∈ st.modules, registerOpenRoot.exec (registerBlock m) = none) :
    extractRootModule out = body := by
  have hne : body ≠ [] := by
    rintro rfl
    exact hreq (by decide)
  rw [bundle_eq_emitBundle fs libDir fuel body out st hreq hst hout]
  exact extractRootModule_emitBundle st.modules body hne htidy hstop hmods

theorem bundleLuaIfNeeded_ok (fs : FS) (libDir : Str) (fuel : Nat) (body : Str)
    (st : BundleState) (hreq : findRequireIds body ≠ [])
    (hdir : fs.existsSync (pathNormalize libDir) = true)
    (hst : collectModules fs libDir fuel body = .ok st) :
    bundleLuaIfNeeded fs libDir fuel body = .ok (emitBundle st.modules body) := by
  unfold bundleLuaIfNeeded
  have : (findRequireIds body).isEmpty = false := by
    cases h : findRequireIds body with
    | nil => exact absurd h hreq
    | cons x xs => rfl
  rw [this]
  simp [hdir, hst]

theorem cyclicLib_tidyEntry :
    collectModules cyclicLib "lib".toList 10 tidyEntry =
      .ok ⟨["A".toList, "B".toList], cyclicModules,
        [["__root".toList, "A".toList, "A".toList]]⟩ := by
  decide

theorem cyclicLib_earlyStopEntry :
    collectModules cyclicLib "lib".toList 10 earlyStopEntry =
      .ok ⟨["A".toList, "B".toList], cyclicModules,
        [["__root".toList, "A".toList, "A".toList]]⟩ := by
  decide

/-- Witness for `extractRootModule_bundle`: an entry body importing `A` from a library in which
`A` imports `B` imports `A`. -/
theorem extractRootModule_bundle_witness :
    extractRootModule (emitBundle cyclicModules tidyEntry) = tidyEntry :=
  extractRootModule_bundle cyclicLib "lib".toList 10 tidyEntry (emitBundle cyclicModules tidyEntry)
    ⟨["A".toList, "B".toList], cyclicModules, [["__root".toList, "A".toList, "A".toList]]⟩
    (by decide) cyclicLib_tidyEntry
    (bundleLuaIfNeeded_ok _ _ _ _ _ (by decide) (by decide) cyclicLib_tidyEntry)
    ⟨by decide, by decide, by decide, by decide⟩ (by decide) (by decide)

set_option maxRecDepth 100000 in
theorem earlyStopEntry_extract :
    extractRootModule (emitBundle cyclicModules earlyStopEntry) =
      "local a = require(\"A\")\na.run(function()".toList := by
  decide

/-- C10 fails in the code: this entry body contains an import, is in tidy form, the collected
modules hold no registration of the root name, and `extractRootModule` returns only the text
before the first `end)` that is followed by `package.preload`, an `end)` inside the body and not
the one that closes the function of the root registration, which the extractor is written to
stop at. -/
theorem extractRootModule_stops_early :
    findRequireIds earlyStopEntry ≠ [] ∧ Tidy earlyStopEntry ∧
    bundleLuaIfNeeded cyclicLib "lib".toList 10 earlyStopEntry =
      .ok (emitBundle cyclicModules earlyStopEntry) ∧
    (∀ m ∈ cyclicModules, registerOpenRoot.exec (registerBlock m) = none) ∧
    extractRootModule (emitBundle cyclicModules earlyStopEntry) =
      "local a = require(\"A\")\na.run(function()".toList ∧
    extractRootModule (emitBundle cyclicModules earlyStopEntry) ≠ earlyStopEntry := by
  refine ⟨by decide, ⟨by decide, by decide, by decide, by decide⟩,
    bundleLuaIfNeeded_ok _ _ _ _ _ (by decide) (by decide) cyclicLib_earlyStopEntry,
    by decide, earlyStopEntry_extract, ?_⟩
  rw [earlyStopEntry_extract]
  decide


set_option autoImplicit false

set_option autoImplicit false

theorem normalizeSegs_good (raw acc : List Str) (h : ∀ s ∈ raw, s = ['.'] ∨ CleanSeg s) :
    normalizeSegs false acc raw = (raw.filter fun s => s ≠ ['.']).reverse ++ acc := by
  induction raw generalizing acc with
  | nil => simp [normalizeSegs]
  | cons s raw ih =>
    have hr : ∀ s ∈ raw, s = ['.'] ∨ CleanSeg s := fun x hx => h x (List.mem_cons_of_mem _ hx)
    rcases h s (List.mem_cons_self _ _) with rfl | hs
    · unfold normalizeSegs
      rw [if_pos (Or.inr rfl), ih _ hr]
      simp
    · unfold normalizeSegs
      rw [if_neg (by
        rintro (e | e)
        · exact hs.1 e
        · exact hs.2.2.1 e), if_neg hs.2.2.2, ih _ hr]
      simp [hs.2.2.1]

theorem joinWith_head_ne (raw : List Str) (h : ∀ s ∈ raw, s ≠ [] ∧ '/' ∉ s) :
    (joinWith ['/'] raw).head? ≠ some '/' := by
  cases raw with
  | nil => simp [joinWith]
  | cons r rest =>
    obtain ⟨hne, hs⟩ := h r (List.mem_cons_self _ _)
    cases r with
    | nil => exact absurd rfl hne
    | cons c cs =>
      have hc : c ≠ '/' := fun e => hs (e ▸ List.mem_cons_self _ _)
      cases rest with
      | nil => simpa [joinWith] using hc
      | cons r' rest' => simpa [joinWith] using hc

theorem joinWith_getLast_ne (raw : List Str) (h : ∀ s ∈ raw, s ≠ [] ∧ '/' ∉ s) :
    (joinWith ['/'] raw).getLast? ≠ some '/' := by
  rcases List.eq_nil_or_concat raw with rfl | ⟨xs, r, rfl⟩
  · simp [joinWith]
  · rw [List.concat_eq_append] at h ⊢
    obtain ⟨hne, hs⟩ := h r (by simp)
    rw [joinWith_snoc]
    rcases List.eq_nil_or_concat r with rfl | ⟨ys, c, rfl⟩
    · exact absurd rfl hne
    · rw [List.concat_eq_append] at hs ⊢
      have hc : c ≠ '/' := fun e => hs (by simp [e])
      rw [← List.append_assoc, List.getLast?_append]
      simpa using hc

theorem good_seg_ne {s : Str} (h : s = ['.'] ∨ CleanSeg s) : s ≠ [] ∧ '/' ∉ s := by
  rcases h with rfl | h
  · simp
  · exact ⟨h.1, h.2.1⟩

theorem pathNormalize_joinWith (raw : List Str) (h : ∀ s ∈ raw, s = ['.'] ∨ CleanSeg s)
    (hk : (raw.filter fun s => s ≠ ['.']) ≠ []) :
    pathNormalize (joinWith ['/'] raw) = joinWith ['/'] (raw.filter fun s => s ≠ ['.']) := by
  have hraw : raw ≠ [] := by
    rintro rfl
    exact hk rfl
  have hg : ∀ s ∈ raw, s ≠ [] ∧ '/' ∉ s := fun s hs => good_seg_ne (h s hs)
  obtain ⟨k, hkm⟩ := List.exists_mem_of_ne_nil _ hk
  have hkc : k ∈ raw ∧ k ≠ ['.'] := by simpa using hkm
  have hp : joinWith ['/'] raw ≠ [] := joinWith_ne_nil _ _ k hkc.1 (hg k hkc.1).1
  have hbody : joinWith ['/'] (raw.filter fun s => s ≠ ['.']) ≠ [] :=
    joinWith_ne_nil _ _ k hkm (hg k hkc.1).1
  unfold pathNormalize
  rw [if_neg hp]
  simp only [splitOn_joinWith '/' raw hraw (fun l hl => (hg l hl).2), joinWith_head_ne raw hg,
    joinWith_getLast_ne raw hg, decide_False, normalizeSegs_good raw [] h,
    List.append_nil, List.reverse_reverse, if_neg hbody, if_false, List.nil_append]

theorem splitOn_good_mem {p : Str} (h : GoodPath p) : ∀ s ∈ splitOn '/' p, s ≠ [] ∧ '/' ∉ s :=
  fun s hs => good_seg_ne (h s hs)

theorem good_ne_nil {p : Str} (h : GoodPath p) : p ≠ [] := by
  rintro rfl
  have := h [] (by simp [splitOn])
  rcases this with e | e
  · cases e
  · exact e.1 rfl

/-- Joining two good relative paths keeps their segments. -/
theorem pathJoin_good (a b : Str) (ha : GoodPath a) (hb : GoodPath b)
    (hk : segsOf a ++ segsOf b ≠ []) :
    pathJoin [a, b] = joinWith ['/'] (segsOf a ++ segsOf b) := by
  have hane := good_ne_nil ha
  have hbne := good_ne_nil hb
  have e : joinWith ['/'] [a, b] = joinWith ['/'] (splitOn '/' a ++ splitOn '/' b) := by
    rw [joinWith_append _ _ _ (splitOn_ne_nil _ _) (splitOn_ne_nil _ _), joinWith_splitOn,
      joinWith_splitOn]
    rfl
  have hf : ([a, b].filter fun x => !x.isEmpty) = [a, b] := by
    cases a with
    | nil => exact absurd rfl hane
    | cons _ _ =>
      cases b with
      | nil => exact absurd rfl hbne
      | cons _ _ => rfl
  unfold pathJoin
  rw [hf]
  simp only
  rw [e, pathNormalize_joinWith]
  · simp [segsOf]
  · intro s hs
    rcases List.mem_append.1 hs with h | h
    · exact ha s h
    · exact hb s h
  · simpa [segsOf] using hk

theorem splitOn_joinWith_clean (segs : List Str) (hne : segs ≠ []) (h : ∀ s ∈ segs, CleanSeg s) :
    splitOn '/' (joinWith ['/'] segs) = segs :=
  splitOn_joinWith '/' segs hne fun s hs => (h s hs).2.1

theorem goodPath_joinWith (segs : List Str) (hne : segs ≠ []) (h : ∀ s ∈ segs, CleanSeg s) :
    GoodPath (joinWith ['/'] segs) := by
  intro s hs
  rw [splitOn_joinWith_clean segs hne h] at hs
  exact Or.inr (h s hs)

theorem segsOf_joinWith (segs : List Str) (hne : segs ≠ []) (h : ∀ s ∈ segs, CleanSeg s) :
    segsOf (joinWith ['/'] segs) = segs := by
  rw [segsOf, splitOn_joinWith_clean segs hne h, List.filter_eq_self]
  intro s hs
  simpa using (h s hs).2.2.1

theorem goodPath_clean {s : Str} (h : CleanSeg s) : GoodPath s := by
  simpa [joinWith] using goodPath_joinWith [s] (by simp) (by simpa using h)

theorem segsOf_clean {s : Str} (h : CleanSeg s) : segsOf s = [s] := by
  simpa [joinWith] using segsOf_joinWith [s] (by simp) (by simpa using h)

theorem segsOf_clean_all {p : Str} (h : GoodPath p) : ∀ s ∈ segsOf p, CleanSeg s := by
  intro s hs
  simp only [segsOf, List.mem_filter, decide_eq_true_eq] at hs
  rcases h s hs.1 with e | e
  · exact absurd e hs.2
  · exact e

/-- The path of a file in a directory below the output directory, as the splitter writes it and
as the merger reads it from the manifest. -/
theorem jsonPath_eq (rel fn : Str) (hrel : GoodPath rel) (hfn : CleanSeg fn) :
    pathJoin [pathJoin [outputDir, rel], fn] =
        joinWith ['/'] ("src".toList :: segsOf rel ++ [fn]) ∧
      pathJoin [srcDir, pathJoin [rel, fn]] =
        joinWith ['/'] ("src".toList :: segsOf rel ++ [fn]) := by
  have hsrc : CleanSeg "src".toList := by
    refine ⟨by decide, by decide, by decide, by decide⟩
  have ho : GoodPath outputDir := by
    intro s hs
    have : s = ['.'] ∨ s = "src".toList := by
      have e : splitOn '/' outputDir = [['.'], "src".toList] := by decide
      rw [e] at hs
      simpa using hs
    rcases this with rfl | rfl
    · exact Or.inl rfl
    · exact Or.inr hsrc
  have hso : segsOf outputDir = ["src".toList] := by decide
  have hcl := segsOf_clean_all hrel
  have hdir : pathJoin [outputDir, rel] = joinWith ['/'] ("src".toList :: segsOf rel) := by
    rw [pathJoin_good _ _ ho hrel (by simp [hso]), hso]
    rfl
  have hdc : ∀ s ∈ "src".toList :: segsOf rel, CleanSeg s := by
    intro s hs
    rcases List.mem_cons.1 hs with rfl | hs
    · exact hsrc
    · exact hcl s hs
  have hfile : pathJoin [rel, fn] = joinWith ['/'] (segsOf rel ++ [fn]) := by
    rw [pathJoin_good _ _ hrel (goodPath_clean hfn) (by simp [segsOf_clean hfn]),
      segsOf_clean hfn]
  have hfc : ∀ s ∈ segsOf rel ++ [fn], CleanSeg s := by
    intro s hs
    rcases List.mem_append.1 hs with hs | hs
    · exact hcl s hs
    · rw [List.mem_singleton.1 hs]
      exact hfn
  constructor
  · rw [hdir, pathJoin_good _ _ (goodPath_joinWith _ (by simp) hdc) (goodPath_clean hfn)
      (by simp [segsOf_clean hfn]), segsOf_joinWith _ (by simp) hdc, segsOf_clean hfn]
  · rw [hfile]
    show pathJoin [outputDir, _] = _
    rw [pathJoin_good _ _ ho (goodPath_joinWith _ (by simp) hfc) (by simp [hso]), hso,
      segsOf_joinWith _ (by simp) hfc]
    simp


set_option autoImplicit false

theorem matchAt_chr (p : Char → Bool) (left : Str) (c : Char) (r : Str) :
    (Re.chr p).matchAt left (c :: r) =
      if p c then some ⟨left.reverse, [c], r, []⟩ else none := by
  by_cases h : p c = true
  · simp [Re.matchAt, Re.run, h]
  · simp [Re.matchAt, Re.run, h]

theorem matchAt_chr_nil (p : Char → Bool) (left : Str) : (Re.chr p).matchAt left [] = none := by
  simp [Re.matchAt, Re.run]

/-- Replacing every character of a class replaces character by character. -/
theorem replaceAllFrom_chr (p : Char → Bool) (rep : Str) (fuel : Nat) (left right : Str)
    (h : right.length < fuel) :
    (Re.chr p).replaceAllFrom rep fuel left right =
      right.flatMap fun c => if p c then rep else [c] := by
  induction fuel generalizing left right with
  | zero => omega
  | succ fuel ih =>
    cases right with
    | nil => simp [Re.replaceAllFrom, matchAt_chr_nil]
    | cons c r =>
      have hr : r.length < fuel := by simpa using h
      rw [Re.replaceAllFrom, matchAt_chr]
      by_cases hc : p c = true
      · simp [hc, ih _ _ hr]
      · simp [hc, ih _ _ hr]

theorem jsSlice_zero (s : Str) : jsSlice 0 s = [] := by
  cases s <;> rfl

theorem jsSlice_nil (n : Nat) : jsSlice n [] = [] := by
  cases n <;> rfl

theorem jsSlice_bmp (n : Nat) (c : Char) (cs : Str) (h : c.toNat < 65536) :
    jsSlice (n + 1) (c :: cs) = c :: jsSlice n cs := by
  rw [jsSlice.eq_def]
  simp only [if_pos h]

theorem jsSlice_cut (c : Char) (cs : Str) (h : ¬ c.toNat < 65536) :
    jsSlice 1 (c :: cs) = ['\uFFFD'] := by
  rw [jsSlice.eq_def]
  simp only [if_neg h]

theorem jsSlice_pair (n : Nat) (c : Char) (cs : Str) (h : ¬ c.toNat < 65536) :
    jsSlice (n + 2) (c :: cs) = c :: jsSlice n cs := by
  rw [jsSlice.eq_def]
  simp only [if_neg h]

theorem unitsOf_pos (c : Char) : 1 ≤ unitsOf c := by
  unfold unitsOf
  split <;> omega

theorem unitsOf_le (c : Char) : unitsOf c ≤ 2 := by
  unfold unitsOf
  split <;> omega

theorem length_le_jsLength (s : Str) : s.length ≤ jsLength s := by
  induction s with
  | nil => simp [jsLength]
  | cons c cs ih =>
    have := unitsOf_pos c
    simp only [jsLength, List.length_cons]
    omega

theorem jsLength_le (s : Str) : jsLength s ≤ 2 * s.length := by
  induction s with
  | nil => simp [jsLength]
  | cons c cs ih =>
    have := unitsOf_le c
    simp only [jsLength, List.length_cons]
    omega

/-- A slice holds characters of the text, and `U+FFFD` where it cut a surrogate pair. -/
theorem mem_jsSlice (n : Nat) (s : Str) (c : Char) (h : c ∈ jsSlice n s) :
    c ∈ s ∨ c = '\uFFFD' := by
  induction s generalizing n with
  | nil => rw [jsSlice_nil] at h; exact Or.inl h
  | cons d ds ih =>
    cases n with
    | zero => rw [jsSlice_zero] at h; exact absurd h (List.not_mem_nil _)
    | succ n =>
      by_cases hd : d.toNat < 65536
      · rw [jsSlice_bmp _ _ _ hd] at h
        rcases List.mem_cons.1 h with e | e
        · exact Or.inl (e ▸ List.mem_cons_self _ _)
        · rcases ih n e with e | e
          · exact Or.inl (List.mem_cons_of_mem _ e)
          · exact Or.inr e
      · cases n with
        | zero =>
          rw [jsSlice_cut _ _ hd] at h
          exact Or.inr (List.mem_singleton.1 h)
        | succ m =>
          rw [jsSlice_pair _ _ _ hd] at h
          rcases List.mem_cons.1 h with e | e
          · exact Or.inl (e ▸ List.mem_cons_self _ _)
          · rcases ih m e with e | e
            · exact Or.inl (List.mem_cons_of_mem _ e)
            · exact Or.inr e

/-- A text of at most `n` units is its own slice. -/
theorem jsSlice_of_le (n : Nat) (s : Str) (h : jsLength s ≤ n) : jsSlice n s = s := by
  induction s generalizing n with
  | nil => exact jsSlice_nil n
  | cons d ds ih =>
    simp only [jsLength, unitsOf] at h
    by_cases hd : d.toNat < 65536
    · rw [if_pos hd] at h
      cases n with
      | zero => omega
      | succ n => rw [jsSlice_bmp _ _ _ hd, ih n (by omega)]
    · rw [if_neg hd] at h
      cases n with
      | zero => omega
      | succ n =>
        cases n with
        | zero => omega
        | succ m => rw [jsSlice_pair _ _ _ hd, ih m (by omega)]

/-- A slice of a text of at least `n` units has `n` units. -/
theorem jsLength_jsSlice (n : Nat) (s : Str) (h : n ≤ jsLength s) :
    jsLength (jsSlice n s) = n := by
  induction s generalizing n with
  | nil =>
    simp only [jsLength] at h
    have : n = 0 := by omega
    subst this
    rfl
  | cons d ds ih =>
    simp only [jsLength, unitsOf] at h
    cases n with
    | zero => rw [jsSlice_zero]; rfl
    | succ n =>
      by_cases hd : d.toNat < 65536
      · rw [if_pos hd] at h
        rw [jsSlice_bmp _ _ _ hd]
        simp only [jsLength, unitsOf, if_pos hd]
        rw [ih n (by omega)]
        omega
      · rw [if_neg hd] at h
        cases n with
        | zero => rw [jsSlice_cut _ _ hd]; rfl
        | succ m =>
          rw [jsSlice_pair _ _ _ hd]
          simp only [jsLength, unitsOf, if_neg hd]
          rw [ih m (by omega)]
          omega

theorem jsSlice_ne_nil (n : Nat) (s : Str) (hs : s ≠ []) : jsSlice (n + 1) s ≠ [] := by
  cases s with
  | nil => exact absurd rfl hs
  | cons d ds =>
    by_cases hd : d.toNat < 65536
    · rw [jsSlice_bmp _ _ _ hd]
      exact List.cons_ne_nil _ _
    · cases n with
      | zero => rw [jsSlice_cut _ _ hd]; exact List.cons_ne_nil _ _
      | succ m => rw [jsSlice_pair _ _ _ hd]; exact List.cons_ne_nil _ _
theorem mem_sanitize (H : Host) (x : Option Str) (c : Char) (h : c ∈ sanitize H x) :
    keptBySanitize H c = true ∨ c = '_' ∨ c = '\uFFFD' := by
  unfold sanitize Re.replaceAll at h
  rw [replaceAllFrom_chr _ _ _ _ _ (Nat.lt_succ_self _)] at h
  rcases mem_jsSlice _ _ _ h with h' | h'
  · simp only [List.mem_flatMap] at h'
    obtain ⟨d, -, hd⟩ := h'
    by_cases hk : keptBySanitize H d = true
    · simp only [hk, Bool.not_true, Bool.false_eq_true, if_false, List.mem_singleton] at hd
      exact Or.inl (hd ▸ hk)
    · simp only [hk, Bool.not_false, if_true, List.mem_singleton] at hd
      exact Or.inr (Or.inl hd)
  · exact Or.inr (Or.inr h')

theorem slash_not_mem_sanitize (H : Host) (hslash : H.letterOrNumber '/' = false)
    (x : Option Str) : '/' ∉ sanitize H x := by
  intro h
  rcases mem_sanitize H x _ h with h | h | h
  · simp [keptBySanitize, hslash] at h
  · exact absurd h (by decide)
  · exact absurd h (by decide)

theorem digitChar_ne_slash (n : Nat) : Nat.digitChar (n % 10) ≠ '/' := by
  have h : n % 10 < 10 := Nat.mod_lt _ (by decide)
  generalize n % 10 = m at h
  interval_cases m <;> decide

theorem slash_not_mem_toDigitsCore (fuel n : Nat) (ds : List Char) (h : '/' ∉ ds) :
    '/' ∉ Nat.toDigitsCore 10 fuel n ds := by
  induction fuel generalizing n ds with
  | zero => simpa [Nat.toDigitsCore] using h
  | succ fuel ih =>
    have hd : '/' ∉ Nat.digitChar (n % 10) :: ds := by
      intro hm
      rcases List.mem_cons.1 hm with e | e
      · exact digitChar_ne_slash n e.symm
      · exact h e
    unfold Nat.toDigitsCore
    simp only
    split
    · exact hd
    · exact ih _ _ hd

theorem slash_not_mem_padIndex (i : Nat) : '/' ∉ padIndex i := by
  unfold padIndex
  simp only [List.mem_append, List.mem_replicate, not_or]
  refine ⟨fun h => absurd h.2 (by decide), ?_⟩
  exact slash_not_mem_toDigitsCore _ _ _ (by simp)

theorem generateFilename_eq (H : Host) (obj : Node) (order : Option Nat) (incl : Bool) :
    generateFilename H obj order incl = fileStem H obj order incl ++ ".json".toList := by
  have key : ∀ s : Str, (s ++ ".json".toList).dropLast.dropLast.dropLast.dropLast.dropLast = s := by
    intro s
    have : s ++ ".json".toList = s ++ ['.'] ++ ['j'] ++ ['s'] ++ ['o'] ++ ['n'] := by simp
    rw [this]
    simp only [List.dropLast_concat]
  unfold fileStem generateFilename
  simp only
  rw [key]

theorem slash_not_mem_generateFilename (H : Host) (hslash : H.letterOrNumber '/' = false)
    (obj : Node) (order : Option Nat) (incl : Bool) :
    '/' ∉ generateFilename H obj order incl := by
  unfold generateFilename
  simp only [List.mem_append, List.mem_cons, not_or]
  refine ⟨⟨⟨?_, ?_⟩, by decide, slash_not_mem_sanitize H hslash _⟩, by decide⟩
  · cases order with
    | none => simp
    | some i =>
      simp only [List.mem_append, List.mem_singleton, not_or]
      exact ⟨slash_not_mem_padIndex i, by decide⟩
  · split
    · exact slash_not_mem_sanitize H hslash _
    · split
      · exact slash_not_mem_sanitize H hslash _
      · decide

theorem cleanSeg_generateFilename (H : Host) (hslash : H.letterOrNumber '/' = false)
    (obj : Node) (order : Option Nat) (incl : Bool) :
    CleanSeg (generateFilename H obj order incl) := by
  refine ⟨?_, slash_not_mem_generateFilename H hslash obj order incl, ?_, ?_⟩
  all_goals
    rw [generateFilename_eq]
    intro h
    have := congrArg List.length h
    simp at this
    try omega

theorem cleanSeg_containerName (H : Host) (hslash : H.letterOrNumber '/' = false) (obj : Node) :
    CleanSeg (containerName H obj) := by
  unfold containerName
  refine ⟨by simp, ?_, ?_, ?_⟩
  · simp only [List.mem_append, List.mem_cons, not_or]
    exact ⟨slash_not_mem_sanitize H hslash _, by decide, slash_not_mem_sanitize H hslash _⟩
  · intro h
    have : '_' ∈ ['.'] := by rw [← h]; simp
    exact absurd this (by decide)
  · intro h
    have : '_' ∈ ['.', '.'] := by rw [← h]; simp
    exact absurd this (by decide)

theorem cleanSeg_Contained : CleanSeg "Contained".toList :=
  ⟨by decide, by decide, by decide, by decide⟩

theorem containerRelPath_eq (H : Host) (hslash : H.letterOrNumber '/' = false) (obj : Node) :
    containerRelPath H obj = joinWith ['/'] ["Contained".toList, containerName H obj] := by
  have hk := cleanSeg_containerName H hslash obj
  unfold containerRelPath
  show pathJoin ["Contained".toList, containerName H obj] = _
  rw [pathJoin_good _ _ (goodPath_clean cleanSeg_Contained) (goodPath_clean hk)
    (by simp [segsOf_clean hk]), segsOf_clean cleanSeg_Contained, segsOf_clean hk]
  rfl

theorem first_eol (l : Str) (caps : List (Nat × Str)) :
    Re.eol.first ⟨l, [], caps⟩ = some ⟨l, [], caps⟩ := by
  simp [Re.first, Re.run]

/-- Replacing the extension `.json` of a path. -/
theorem replaceFirst_jsonExt (rep y : Str) :
    reJsonExt.replaceFirst rep (y ++ ".json".toList) = y ++ rep := by
  have hskip : reJsonExt.scan [] (y ++ ".json".toList) =
      reJsonExt.scan (y.reverse ++ []) ".json".toList := by
    apply scan_skip
    intro a b hab hb
    rw [matchAt_eq_none_iff]
    apply List.eq_nil_iff_forall_not_mem.2
    intro t ht
    simp only [reJsonExt, Re.cat, mem_run_seq, mem_run_litCI, mem_run_eol] at ht
    obtain ⟨u, ⟨x, r, hr, hx, rfl⟩, hu, -⟩ := ht
    simp only at hr hu
    subst hu
    have h1 := congrArg List.length hr
    have h2 := congrArg List.length hx
    simp at h1 h2
    have : b.length = 0 := by omega
    exact hb (List.length_eq_zero.1 this)
  have hfirst : reJsonExt.first ⟨y.reverse ++ [], ".json".toList, []⟩ =
      some ⟨".json".toList.reverse ++ (y.reverse ++ []), [], []⟩ := by
    unfold reJsonExt
    simp only [Re.cat]
    refine first_seq ?_ (first_eol _ _)
    simpa using first_litCI ".json".toList y.reverse [] []
  have hm := scan_of_matchAt (matchAt_of_first hfirst)
  unfold Re.replaceFirst Re.exec
  rw [hskip, hm]
  simp

theorem append_ne_of_suffix (k : Nat) (a b e₁ e₂ : Str)
    (h : e₁.reverse.take k ≠ e₂.reverse.take k) (h₁ : k ≤ e₁.length) (h₂ : k ≤ e₂.length) :
    a ++ e₁ ≠ b ++ e₂ := by
  intro he
  apply h
  have := congrArg (fun l => l.reverse.take k) he
  simp only [List.reverse_append] at this
  rwa [List.take_append_of_le_length (by simpa using h₁),
    List.take_append_of_le_length (by simpa using h₂)] at this


set_option autoImplicit false

set_option autoImplicit false

/-- Induction over a node and what it contains. -/
theorem Node.induct (P : Node → Prop)
    (h : ∀ n : Node, (∀ ch ∈ n.children, P ch) → P n) : ∀ n, P n :=
  @Node.rec P (fun o => ∀ ch ∈ o.getD [], P ch) (fun l => ∀ ch ∈ l, P ch)
    (fun n k g s t x m r c ih => h (.mk n k g s t x m r c) ih)
    (by simp) (fun l ih => by simpa using ih) (by simp)
    (fun hd tl h1 h2 => by
      intro ch hch
      rcases List.mem_cons.1 hch with rfl | hch
      · exact h1
      · exact h2 ch hch)

theorem saveEach_eq_foldl (H : Host) (cs : List Node)
    (ih : ∀ ch ∈ cs, ∀ rel parent order incl st,
      saveObjectToFile H ch rel parent order incl st =
        (placedNode H ch rel parent order incl).foldl (Placed.save H) st)
    (rel : Str) (parent : Option Str) (i : Nat) (st : SplitState) :
    saveEach H cs rel parent i st = (placedEach H false cs rel parent i).foldl (Placed.save H) st := by
  induction cs generalizing i st with
  | nil => simp [saveEach, placedEach]
  | cons c cs ihc =>
    rw [saveEach, placedEach, List.foldl_append, ← ih c (List.mem_cons_self _ _),
      ihc (fun ch hch => ih ch (List.mem_cons_of_mem _ hch))]

theorem saveObjectToFile_eq_foldl (H : Host) (n : Node) :
    ∀ rel parent order incl st,
      saveObjectToFile H n rel parent order incl st =
        (placedNode H n rel parent order incl).foldl (Placed.save H) st := by
  induction n using Node.induct with
  | h n ih =>
    intro rel parent order incl st
    rcases n with ⟨n, k, g, s, t, x, m, r, c⟩
    rw [saveObjectToFile, placedNode, List.foldl_cons]
    cases c with
    | none => simp [saveContained, placedContained, Placed.save]
    | some cs =>
      rw [saveContained, placedContained]
      exact saveEach_eq_foldl H cs (by simpa [Node.children, Node.contained] using ih) _ _ _ _

theorem saveTopLevel_eq_foldl (H : Host) (ns : List Node) (i : Nat) (st : SplitState) :
    saveTopLevel H ns i st = (placedEach H true ns ['.'] none i).foldl (Placed.save H) st := by
  induction ns generalizing i st with
  | nil => simp [saveTopLevel, placedEach]
  | cons c cs ihc =>
    rw [saveTopLevel, placedEach, List.foldl_append, ← saveObjectToFile_eq_foldl, ihc]

theorem splitObjectStates_eq (H : Host) (objectStates : List Node) :
    splitObjectStates H objectStates =
      (placedAll H objectStates).foldl (Placed.save H)
        ⟨⟨[], dirAncestors (pathNormalize outputDir)⟩, []⟩ :=
  saveTopLevel_eq_foldl H objectStates 0 _

theorem foldl_save_manifest (H : Host) (ps : List Placed) (st : SplitState) :
    (ps.foldl (Placed.save H) st).manifest = st.manifest ++ ps.map (Placed.entry H) := by
  induction ps generalizing st with
  | nil => simp
  | cons p ps ih =>
    rw [List.foldl_cons, ih]
    simp [Placed.save, saveObjectOnly, Placed.entry, Placed.fileName]

theorem splitObjectStates_manifest (H : Host) (objectStates : List Node) :
    (splitObjectStates H objectStates).manifest = (placedAll H objectStates).map (Placed.entry H) := by
  rw [splitObjectStates_eq, foldl_save_manifest]
  rfl


set_option autoImplicit false

set_option autoImplicit false

theorem pathKind_append (a : Str) :
    pathKind (a ++ ".json".toList) = 0 ∧ pathKind (a ++ ".ttslua".toList) = 1 ∧
    pathKind (a ++ ".lua".toList) = 2 ∧ pathKind (a ++ ".state.txt".toList) = 3 ∧
    pathKind (a ++ ".memo.txt".toList) = 4 ∧ pathKind (a ++ ".xml".toList) = 5 := by
  simp [pathKind, List.isPrefixOf]

/-- Two paths with extensions of the table are equal only with the same extension and the same
stem. -/
theorem ext_inj {a b e₁ e₂ : Str} (h₁ : e₁ ∈ allExts) (h₂ : e₂ ∈ allExts)
    (h : a ++ e₁ = b ++ e₂) : e₁ = e₂ ∧ a = b := by
  have ha := pathKind_append a
  have hb := pathKind_append b
  have hk := congrArg pathKind h
  simp only [allExts, List.map_cons, List.map_nil, List.mem_cons, List.mem_singleton,
    List.not_mem_nil, or_false] at h₁ h₂
  rcases h₁ with rfl | rfl | rfl | rfl | rfl | rfl <;>
    rcases h₂ with rfl | rfl | rfl | rfl | rfl | rfl <;>
    first
    | exact ⟨rfl, List.append_cancel_right h⟩
    | (exfalso; simp only [ha, hb] at hk; omega)

theorem placedDirect_subset_placedEach (H : Host) (incl : Bool) (cs : List Node) (rel : Str)
    (parent : Option Str) (i : Nat) :
    ∀ p ∈ placedDirect incl cs rel parent i, p ∈ placedEach H incl cs rel parent i := by
  induction cs generalizing i with
  | nil => simp [placedDirect]
  | cons c cs ih =>
    intro p hp
    rw [placedDirect] at hp
    rw [placedEach]
    rcases List.mem_cons.1 hp with rfl | hp
    · apply List.mem_append_left
      rcases c with ⟨n, k, g, s, t, x, m, r, c⟩
      rw [placedNode]
      exact List.mem_cons_self _ _
    · exact List.mem_append_right _ (ih _ _ hp)

theorem placedNode_head (H : Host) (n : Node) (rel : Str) (parent : Option Str)
    (order : Option Nat) (incl : Bool) :
    placedNode H n rel parent order incl =
      ⟨n, rel, parent, order, incl⟩ ::
        placedContained H n.contained (containerRelPath H n) (orNull n.guid) := by
  rcases n with ⟨n, k, g, s, t, x, m, r, c⟩
  rw [placedNode]
  rfl

theorem placedContained_eq (H : Host) (n : Node) :
    placedContained H n.contained (containerRelPath H n) (orNull n.guid) =
      placedEach H false n.children (containerRelPath H n) (orNull n.guid) 0 := by
  unfold Node.children
  cases n.contained with
  | none => simp [placedContained, placedEach]
  | some cs => simp [placedContained]

theorem placedNode_eq (H : Host) (n : Node) (rel : Str) (parent : Option Str)
    (order : Option Nat) (incl : Bool) :
    placedNode H n rel parent order incl =
      ⟨n, rel, parent, order, incl⟩ ::
        placedEach H false n.children (containerRelPath H n) (orNull n.guid) 0 := by
  rw [placedNode_head, placedContained_eq]

theorem mem_placedEach_of (H : Host) (incl : Bool) (cs : List Node)
    (ih : ∀ ch ∈ cs, ∀ rel parent order incl p, p ∈ placedNode H ch rel parent order incl →
      p = ⟨ch, rel, parent, order, incl⟩ ∨
        ∃ q ∈ placedNode H ch rel parent order incl, p ∈ placedChildren H q.node)
    (rel : Str) (parent : Option Str) (i : Nat) (p : Placed)
    (hp : p ∈ placedEach H incl cs rel parent i) :
    p ∈ placedDirect incl cs rel parent i ∨
      ∃ q ∈ placedEach H incl cs rel parent i, p ∈ placedChildren H q.node := by
  induction cs generalizing i with
  | nil => simp [placedEach] at hp
  | cons c cs ihc =>
    rw [placedEach] at hp ⊢
    rw [placedDirect]
    rcases List.mem_append.1 hp with hp | hp
    · rcases ih c (List.mem_cons_self _ _) _ _ _ _ _ hp with rfl | ⟨q, hq, hpq⟩
      · exact Or.inl (List.mem_cons_self _ _)
      · exact Or.inr ⟨q, List.mem_append_left _ hq, hpq⟩
    · rcases ihc (fun ch hch => ih ch (List.mem_cons_of_mem _ hch)) _ hp with h | ⟨q, hq, hpq⟩
      · exact Or.inl (List.mem_cons_of_mem _ h)
      · exact Or.inr ⟨q, List.mem_append_right _ hq, hpq⟩

theorem mem_placedNode (H : Host) (n : Node) :
    ∀ rel parent order incl p, p ∈ placedNode H n rel parent order incl →
      p = ⟨n, rel, parent, order, incl⟩ ∨
        ∃ q ∈ placedNode H n rel parent order incl, p ∈ placedChildren H q.node := by
  induction n using Node.induct with
  | h n ih =>
    intro rel parent order incl p hp
    rw [placedNode_eq] at hp ⊢
    rcases List.mem_cons.1 hp with rfl | hp
    · exact Or.inl rfl
    · right
      rcases mem_placedEach_of H false n.children ih _ _ _ p hp with h | ⟨q, hq, hpq⟩
      · exact ⟨_, List.mem_cons_self _ _, h⟩
      · exact ⟨q, List.mem_cons_of_mem _ hq, hpq⟩

/-- A call of the split is a call for a top-level node or for a child of a node of a call. -/
theorem mem_placedEach (H : Host) (incl : Bool) (cs : List Node) (rel : Str)
    (parent : Option Str) (i : Nat) (p : Placed) (hp : p ∈ placedEach H incl cs rel parent i) :
    p ∈ placedDirect incl cs rel parent i ∨
      ∃ q ∈ placedEach H incl cs rel parent i, p ∈ placedChildren H q.node :=
  mem_placedEach_of H incl cs (fun ch _ => mem_placedNode H ch) rel parent i p hp

theorem placedChildren_subset_node (H : Host) (n : Node) :
    ∀ rel parent order incl, ∀ q ∈ placedNode H n rel parent order incl,
      ∀ p ∈ placedChildren H q.node, p ∈ placedNode H n rel parent order incl := by
  induction n using Node.induct with
  | h n ih =>
    intro rel parent order incl q hq p hp
    rw [placedNode_eq] at hq ⊢
    apply List.mem_cons_of_mem
    rcases List.mem_cons.1 hq with rfl | hq
    · exact placedDirect_subset_placedEach H _ _ _ _ _ p hp
    · have key : ∀ (cs : List Node) (i : Nat), (∀ ch ∈ cs, ch ∈ n.children) →
          q ∈ placedEach H false cs (containerRelPath H n) (orNull n.guid) i →
          p ∈ placedEach H false cs (containerRelPath H n) (orNull n.guid) i := by
        intro cs
        induction cs with
        | nil =>
          intro i _ h
          simp [placedEach] at h
        | cons c cs ihc =>
          intro i hsub h
          rw [placedEach] at h ⊢
          rcases List.mem_append.1 h with h | h
          · exact List.mem_append_left _
              (ih c (hsub c (List.mem_cons_self _ _)) _ _ _ _ q h p hp)
          · exact List.mem_append_right _
              (ihc _ (fun ch hch => hsub ch (List.mem_cons_of_mem _ hch)) h)
      exact key _ _ (fun _ h => h) hq

/-- The calls for the children of the node of a call are calls of the split. -/
theorem placedChildren_subset (H : Host) (incl : Bool) (cs : List Node) (rel : Str)
    (parent : Option Str) (i : Nat) :
    ∀ q ∈ placedEach H incl cs rel parent i, ∀ p ∈ placedChildren H q.node,
      p ∈ placedEach H incl cs rel parent i := by
  induction cs generalizing i with
  | nil => simp [placedEach]
  | cons c cs ihc =>
    intro q hq p hp
    rw [placedEach] at hq ⊢
    rcases List.mem_append.1 hq with h | h
    · exact List.mem_append_left _ (placedChildren_subset_node H c _ _ _ _ q h p hp)
    · exact List.mem_append_right _ (ihc _ q h p hp)

theorem placedDirect_shaped (incl : Bool) (cs : List Node) (rel : Str)
    (parent : Option Str) (i : Nat) :
    ∀ p ∈ placedDirect incl cs rel parent i,
      p.rel = rel ∧ p.parent = parent ∧ p.incl = incl ∧ p.node ∈ cs ∧ ∃ j, p.order = some j := by
  induction cs generalizing i with
  | nil => simp [placedDirect]
  | cons c cs ih =>
    intro p hp
    rw [placedDirect] at hp
    rcases List.mem_cons.1 hp with rfl | hp
    · exact ⟨rfl, rfl, rfl, List.mem_cons_self _ _, i, rfl⟩
    · obtain ⟨h₁, h₂, h₃, h₄, h₅⟩ := ih _ p hp
      exact ⟨h₁, h₂, h₃, List.mem_cons_of_mem _ h₄, h₅⟩

theorem placedAll_shaped (H : Host) (objectStates : List Node) :
    ∀ p ∈ placedAll H objectStates, p.Shaped H := by
  intro p hp
  rcases mem_placedEach H _ _ _ _ _ p hp with h | ⟨q, -, h⟩
  · obtain ⟨h₁, -, -, -, h₅⟩ := placedDirect_shaped _ _ _ _ _ p h
    exact ⟨Or.inl h₁, h₅⟩
  · obtain ⟨h₁, -, -, -, h₅⟩ := placedDirect_shaped _ _ _ _ _ p h
    exact ⟨Or.inr ⟨_, h₁⟩, h₅⟩


set_option autoImplicit false

theorem cleanSeg_src : CleanSeg "src".toList := ⟨by decide, by decide, by decide, by decide⟩

theorem goodPath_outputDir : GoodPath outputDir := by
  intro s hs
  have e : splitOn '/' outputDir = [['.'], "src".toList] := by decide
  rw [e] at hs
  rcases List.mem_cons.1 hs with rfl | hs
  · exact Or.inl rfl
  · rw [List.mem_singleton.1 hs]
    exact Or.inr cleanSeg_src

theorem segsOf_outputDir : segsOf outputDir = ["src".toList] := by decide

theorem shaped_rel (H : Host) (hslash : H.letterOrNumber '/' = false) (p : Placed)
    (hp : p.Shaped H) :
    GoodPath p.rel ∧ (segsOf p.rel = [] ∨ ∃ k, segsOf p.rel = ["Contained".toList, k]) := by
  rcases hp.1 with h | ⟨m, h⟩
  · rw [h]
    refine ⟨?_, Or.inl (by decide)⟩
    intro s hs
    have e : splitOn '/' ['.'] = [['.']] := by decide
    rw [e] at hs
    exact Or.inl (List.mem_singleton.1 hs)
  · have hc : ∀ s ∈ ["Contained".toList, containerName H m], CleanSeg s := by
      intro s hs
      rcases List.mem_cons.1 hs with rfl | hs
      · exact cleanSeg_Contained
      · rw [List.mem_singleton.1 hs]
        exact cleanSeg_containerName H hslash m
    rw [h, containerRelPath_eq H hslash]
    exact ⟨goodPath_joinWith _ (by simp) hc, Or.inr ⟨_, segsOf_joinWith _ (by simp) hc⟩⟩

theorem dirPath_eq (rel : Str) (hrel : GoodPath rel) :
    pathJoin [outputDir, rel] = joinWith ['/'] ("src".toList :: segsOf rel) := by
  rw [pathJoin_good _ _ goodPath_outputDir hrel (by simp [segsOf_outputDir]), segsOf_outputDir]
  rfl

theorem shaped_jsonPath (H : Host) (hslash : H.letterOrNumber '/' = false) (p : Placed)
    (hp : p.Shaped H) :
    p.jsonPath H = p.dirPrefix ++ fileStem H p.node p.order p.incl ++ ".json".toList ∧
      pathJoin [srcDir, (p.entry H).file] = p.jsonPath H ∧
      p.jsonPath H = "src/".toList ++ (p.entry H).file := by
  obtain ⟨hrel, -⟩ := shaped_rel H hslash p hp
  have hfn : CleanSeg (p.fileName H) := cleanSeg_generateFilename H hslash p.node p.order p.incl
  obtain ⟨h₁, h₂⟩ := jsonPath_eq p.rel (p.fileName H) hrel hfn
  have e : "src".toList :: segsOf p.rel ++ [p.fileName H] =
      ("src".toList :: segsOf p.rel) ++ [p.fileName H] := rfl
  refine ⟨?_, ?_, ?_⟩
  · unfold Placed.jsonPath
    rw [h₁, e, joinWith_snoc, Placed.fileName, generateFilename_eq, Placed.dirPrefix]
    simp
  · unfold Placed.jsonPath Placed.entry
    rw [h₁]
    exact h₂
  · have hfile : (p.entry H).file = joinWith ['/'] (segsOf p.rel ++ [p.fileName H]) := by
      unfold Placed.entry
      simp only
      rw [pathJoin_good _ _ hrel (goodPath_clean hfn) (by simp [segsOf_clean hfn]),
        segsOf_clean hfn]
    unfold Placed.jsonPath
    rw [h₁, hfile]
    cases hs : segsOf p.rel ++ [p.fileName H] with
    | nil => simp at hs
    | cons x xs =>
      have : "src".toList :: segsOf p.rel ++ [p.fileName H] = "src".toList :: x :: xs := by
        rw [← hs]
        rfl
      rw [this, joinWith_cons_cons]
      simp

theorem shaped_base (H : Host) (hslash : H.letterOrNumber '/' = false) (p : Placed)
    (hp : p.Shaped H) :
    p.base H = p.dirPrefix ++ fileStem H p.node p.order p.incl ∧
      p.jsonPath H = p.base H ++ ".json".toList ∧
      ∀ rep, reJsonExt.replaceFirst rep (p.jsonPath H) = p.base H ++ rep := by
  obtain ⟨h, -, -⟩ := shaped_jsonPath H hslash p hp
  have hb : p.base H = p.dirPrefix ++ fileStem H p.node p.order p.incl := by
    unfold Placed.base
    rw [h, replaceFirst_jsonExt]
    simp
  refine ⟨hb, by rw [hb, h], ?_⟩
  intro rep
  rw [h, replaceFirst_jsonExt, hb]


set_option autoImplicit false

theorem mem_writePayload (fs : FS) (path : Str) (payload : Option Str) (content : Str)
    (k c : Str) :
    (k, c) ∈ (writePayload fs path payload content).files ↔
      (k, c) ∈ fs.files ∨ (nonBlank payload = true ∧ k = path ∧ c = content) := by
  unfold writePayload
  by_cases h : nonBlank payload = true
  · simp only [h, if_true, FS.writeFileSync, List.mem_cons, Prod.mk.injEq, true_and]
    tauto
  · simp [h]

theorem content_iff (H : Host) (p : Placed) (e c : Str) :
    p.content H e = some c ↔
      (e = ".json".toList ∧ c = H.stringify p.node.stripped) ∨
      (e = ".lua".toList ∧ nonBlank p.node.luaScript = true ∧
        c = extractRootModule (p.node.luaScript.getD [])) ∨
      (e = ".state.txt".toList ∧ nonBlank p.node.luaScriptState = true ∧
        c = p.node.luaScriptState.getD []) ∨
      (e = ".xml".toList ∧ nonBlank p.node.xmlUI = true ∧ c = p.node.xmlUI.getD []) ∨
      (e = ".memo.txt".toList ∧ nonBlank p.node.memo = true ∧ c = p.node.memo.getD []) := by
  unfold Placed.content
  constructor
  · intro h
    split_ifs at h with h1 h2 h3 h4 h5 h6 h7 h8 h9
    all_goals (simp only [Option.some.injEq] at h; subst h; simp_all)
  · rintro (⟨rfl, rfl⟩ | ⟨rfl, h, rfl⟩ | ⟨rfl, h, rfl⟩ | ⟨rfl, h, rfl⟩ | ⟨rfl, h, rfl⟩)
    · simp
    · rw [if_neg (by decide), if_pos rfl, if_pos h]
    · rw [if_neg (by decide), if_neg (by decide), if_pos rfl, if_pos h]
    · rw [if_neg (by decide), if_neg (by decide), if_neg (by decide), if_pos rfl, if_pos h]
    · rw [if_neg (by decide), if_neg (by decide), if_neg (by decide), if_neg (by decide),
        if_pos rfl, if_pos h]

theorem exists_content (H : Host) (p : Placed) (k c b : Str) :
    (∃ e, p.content H e = some c ∧ k = b ++ e) ↔
      (k = b ++ ".json".toList ∧ c = H.stringify p.node.stripped) ∨
      (nonBlank p.node.luaScript = true ∧ k = b ++ ".lua".toList ∧
        c = extractRootModule (p.node.luaScript.getD [])) ∨
      (nonBlank p.node.luaScriptState = true ∧ k = b ++ ".state.txt".toList ∧
        c = p.node.luaScriptState.getD []) ∨
      (nonBlank p.node.xmlUI = true ∧ k = b ++ ".xml".toList ∧ c = p.node.xmlUI.getD []) ∨
      (nonBlank p.node.memo = true ∧ k = b ++ ".memo.txt".toList ∧ c = p.node.memo.getD []) := by
  constructor
  · rintro ⟨e, he, rfl⟩
    rcases (content_iff H p e c).1 he with ⟨rfl, rfl⟩ | ⟨rfl, h, rfl⟩ | ⟨rfl, h, rfl⟩ |
      ⟨rfl, h, rfl⟩ | ⟨rfl, h, rfl⟩
    · exact Or.inl ⟨rfl, rfl⟩
    · exact Or.inr (Or.inl ⟨h, rfl, rfl⟩)
    · exact Or.inr (Or.inr (Or.inl ⟨h, rfl, rfl⟩))
    · exact Or.inr (Or.inr (Or.inr (Or.inl ⟨h, rfl, rfl⟩)))
    · exact Or.inr (Or.inr (Or.inr (Or.inr ⟨h, rfl, rfl⟩)))
  · rintro (⟨rfl, rfl⟩ | ⟨h, rfl, rfl⟩ | ⟨h, rfl, rfl⟩ | ⟨h, rfl, rfl⟩ | ⟨h, rfl, rfl⟩)
    · exact ⟨_, (content_iff H p _ _).2 (Or.inl ⟨rfl, rfl⟩), rfl⟩
    · exact ⟨_, (content_iff H p _ _).2 (Or.inr (Or.inl ⟨rfl, h, rfl⟩)), rfl⟩
    · exact ⟨_, (content_iff H p _ _).2 (Or.inr (Or.inr (Or.inl ⟨rfl, h, rfl⟩))), rfl⟩
    · exact ⟨_, (content_iff H p _ _).2 (Or.inr (Or.inr (Or.inr (Or.inl ⟨rfl, h, rfl⟩)))), rfl⟩
    · exact ⟨_, (content_iff H p _ _).2 (Or.inr (Or.inr (Or.inr (Or.inr ⟨rfl, h, rfl⟩)))), rfl⟩

theorem save_files (H : Host) (p : Placed) (st : SplitState) :
    (p.save H st).fs.files =
      (p.jsonPath H, H.stringify p.node.stripped) ::
        (writePayload (writePayload (writePayload (writePayload
          (st.fs.mkdirSync (pathJoin [outputDir, p.rel]))
          (p.base H ++ ".lua".toList) p.node.luaScript
            (extractRootModule (p.node.luaScript.getD [])))
          (p.base H ++ ".state.txt".toList) p.node.luaScriptState (p.node.luaScriptState.getD []))
          (p.base H ++ ".xml".toList) p.node.xmlUI (p.node.xmlUI.getD []))
          (p.base H ++ ".memo.txt".toList) p.node.memo (p.node.memo.getD [])).files := by
  simp only [Placed.save, saveObjectOnly, Placed.base, Placed.jsonPath, Placed.fileName,
    FS.writeFileSync]

theorem mem_save_files (H : Host) (p : Placed) (st : SplitState)
    (hjson : p.jsonPath H = p.base H ++ ".json".toList) (k c : Str) :
    (k, c) ∈ (p.save H st).fs.files ↔
      (k, c) ∈ st.fs.files ∨ ∃ e, p.content H e = some c ∧ k = p.base H ++ e := by
  have h0 : (st.fs.mkdirSync (pathJoin [outputDir, p.rel])).files = st.fs.files := by
    simp only [FS.mkdirSync]
  rw [save_files, exists_content, List.mem_cons, Prod.mk.injEq, mem_writePayload,
    mem_writePayload, mem_writePayload, mem_writePayload, h0, hjson]
  generalize p.base H ++ ".json".toList = k₀
  generalize p.base H ++ ".lua".toList = k₁
  generalize p.base H ++ ".state.txt".toList = k₂
  generalize p.base H ++ ".xml".toList = k₃
  generalize p.base H ++ ".memo.txt".toList = k₄
  generalize H.stringify p.node.stripped = c₀
  generalize extractRootModule (p.node.luaScript.getD []) = c₁
  generalize p.node.luaScriptState.getD [] = c₂
  generalize p.node.xmlUI.getD [] = c₃
  generalize p.node.memo.getD [] = c₄
  generalize nonBlank p.node.luaScript = b₁
  generalize nonBlank p.node.luaScriptState = b₂
  generalize nonBlank p.node.xmlUI = b₃
  generalize nonBlank p.node.memo = b₄
  generalize st.fs.files = fl
  clear hjson h0
  constructor
  · rintro (h | ((((h | h) | h) | h) | h))
    exacts [Or.inr (Or.inl h), Or.inl h, Or.inr (Or.inr (Or.inl h)),
      Or.inr (Or.inr (Or.inr (Or.inl h))), Or.inr (Or.inr (Or.inr (Or.inr (Or.inl h)))),
      Or.inr (Or.inr (Or.inr (Or.inr (Or.inr h))))]
  · rintro (h | h | h | h | h | h)
    exacts [Or.inr (Or.inl (Or.inl (Or.inl (Or.inl h)))), Or.inl h,
      Or.inr (Or.inl (Or.inl (Or.inl (Or.inr h)))), Or.inr (Or.inl (Or.inl (Or.inr h))),
      Or.inr (Or.inl (Or.inr h)), Or.inr (Or.inr h)]

theorem save_dirs (H : Host) (p : Placed) (st : SplitState) :
    (p.save H st).fs.dirs = dirAncestors (pathJoin [outputDir, p.rel]) ++ st.fs.dirs := by
  rw [Placed.save, saveObjectOnly]
  simp only [FS.writeFileSync, writePayload, FS.mkdirSync]
  split_ifs <;> rfl

theorem mem_foldl_save_files (H : Host) (ps : List Placed) (st : SplitState)
    (hjson : ∀ p ∈ ps, p.jsonPath H = p.base H ++ ".json".toList) (k c : Str) :
    (k, c) ∈ (ps.foldl (Placed.save H) st).fs.files ↔
      (k, c) ∈ st.fs.files ∨ ∃ p ∈ ps, ∃ e, p.content H e = some c ∧ k = p.base H ++ e := by
  induction ps generalizing st with
  | nil => simp
  | cons p ps ih =>
    rw [List.foldl_cons, ih _ (fun q hq => hjson q (List.mem_cons_of_mem _ hq)),
      mem_save_files H p st (hjson p (List.mem_cons_self _ _))]
    constructor
    · rintro ((h | h) | ⟨q, hq, h⟩)
      · exact Or.inl h
      · exact Or.inr ⟨p, List.mem_cons_self _ _, h⟩
      · exact Or.inr ⟨q, List.mem_cons_of_mem _ hq, h⟩
    · rintro (h | ⟨q, hq, h⟩)
      · exact Or.inl (Or.inl h)
      · rcases List.mem_cons.1 hq with rfl | hq
        · exact Or.inl (Or.inr h)
        · exact Or.inr ⟨q, hq, h⟩

theorem mem_foldl_save_dirs (H : Host) (ps : List Placed) (st : SplitState) (d : Str) :
    d ∈ (ps.foldl (Placed.save H) st).fs.dirs ↔
      d ∈ st.fs.dirs ∨ ∃ p ∈ ps, d ∈ dirAncestors (pathJoin [outputDir, p.rel]) := by
  induction ps generalizing st with
  | nil => simp
  | cons p ps ih =>
    rw [List.foldl_cons, ih, save_dirs, List.mem_append]
    constructor
    · rintro ((h | h) | ⟨q, hq, h⟩)
      · exact Or.inr ⟨p, List.mem_cons_self _ _, h⟩
      · exact Or.inl h
      · exact Or.inr ⟨q, List.mem_cons_of_mem _ hq, h⟩
    · rintro (h | ⟨q, hq, h⟩)
      · exact Or.inl (Or.inr h)
      · rcases List.mem_cons.1 hq with rfl | hq
        · exact Or.inl (Or.inl h)
        · exact Or.inr ⟨q, hq, h⟩


set_option autoImplicit false

theorem lookup_isSome_of_mem {l : List (Str × Str)} {k c : Str} (h : (k, c) ∈ l) :
    ∃ c', l.lookup k = some c' := by
  induction l with
  | nil => cases h
  | cons x l ih =>
    rcases x with ⟨k', c'⟩
    by_cases hk : k = k'
    · subst hk
      exact ⟨c', by simp [List.lookup]⟩
    · rcases List.mem_cons.1 h with e | h'
      · exact absurd (Prod.mk.inj e).1 hk
      · obtain ⟨c'', hc⟩ := ih h'
        refine ⟨c'', ?_⟩
        rw [List.lookup_cons]
        have : (k == k') = false := by simpa using hk
        rw [this]
        exact hc

/-- A lookup in a list of files in which every entry of the path is the same. -/
theorem lookup_eq_of_unique {l : List (Str × Str)} {k : Str} {o : Option Str}
    (h₁ : ∀ c, o = some c → (k, c) ∈ l) (h₂ : ∀ c, (k, c) ∈ l → o = some c) :
    l.lookup k = o := by
  cases hl : l.lookup k with
  | some c => exact (h₂ c (mem_of_lookup hl)).symm
  | none =>
    cases o with
    | none => rfl
    | some c =>
      obtain ⟨c', hc'⟩ := lookup_isSome_of_mem (h₁ c rfl)
      rw [hl] at hc'
      cases hc'

theorem content_ext {H : Host} {p : Placed} {e c : Str} (h : p.content H e = some c) :
    e ∈ allExts := by
  rcases (content_iff H p e c).1 h with ⟨rfl, -⟩ | ⟨rfl, -⟩ | ⟨rfl, -⟩ | ⟨rfl, -⟩ | ⟨rfl, -⟩ <;>
    decide

theorem split_files_mem (H : Host) (hslash : H.letterOrNumber '/' = false)
    (objectStates : List Node) (k c : Str) :
    (k, c) ∈ (splitObjectStates H objectStates).fs.files ↔
      ∃ p ∈ placedAll H objectStates, ∃ e, p.content H e = some c ∧ k = p.base H ++ e := by
  rw [splitObjectStates_eq, mem_foldl_save_files H _ _
    (fun p hp => (shaped_base H hslash p (placedAll_shaped H objectStates p hp)).2.1)]
  simp

theorem base_inj (H : Host) (hslash : H.letterOrNumber '/' = false) (objectStates : List Node)
    (hfiles : ((placedAll H objectStates).map fun p => (p.entry H).file).Nodup)
    {p q : Placed} (hp : p ∈ placedAll H objectStates) (hq : q ∈ placedAll H objectStates)
    (h : p.base H = q.base H) : p = q := by
  have hp' := shaped_base H hslash p (placedAll_shaped H objectStates p hp)
  have hq' := shaped_base H hslash q (placedAll_shaped H objectStates q hq)
  have hp'' := shaped_jsonPath H hslash p (placedAll_shaped H objectStates p hp)
  have hq'' := shaped_jsonPath H hslash q (placedAll_shaped H objectStates q hq)
  have hj : p.jsonPath H = q.jsonPath H := by rw [hp'.2.1, hq'.2.1, h]
  rw [hp''.2.2, hq''.2.2] at hj
  exact List.inj_on_of_nodup_map hfiles hp hq (List.append_cancel_left hj)

/-- What the merger finds at the path of a node file with one of the extensions. -/
theorem split_readFileSync (H : Host) (hslash : H.letterOrNumber '/' = false)
    (objectStates : List Node)
    (hfiles : ((placedAll H objectStates).map fun p => (p.entry H).file).Nodup)
    {p : Placed} (hp : p ∈ placedAll H objectStates) {e : Str} (he : e ∈ allExts) :
    (splitObjectStates H objectStates).fs.readFileSync (p.base H ++ e) = p.content H e := by
  unfold FS.readFileSync
  apply lookup_eq_of_unique
  · intro c hc
    exact (split_files_mem H hslash objectStates _ _).2 ⟨p, hp, e, hc, rfl⟩
  · intro c hc
    obtain ⟨q, hq, e', hqc, hk⟩ := (split_files_mem H hslash objectStates _ _).1 hc
    obtain ⟨rfl, hb⟩ := ext_inj he (content_ext hqc) hk
    rw [base_inj H hslash objectStates hfiles hp hq hb]
    exact hqc

theorem dirAncestors_joinWith (segs : List Str) (hne : segs ≠ []) (h : ∀ s ∈ segs, CleanSeg s) :
    dirAncestors (joinWith ['/'] segs) =
      (List.range segs.length).map fun i => joinWith ['/'] (segs.take (i + 1)) := by
  unfold dirAncestors
  simp only [splitOn_joinWith_clean segs hne h]

theorem slash_not_mem_ext {e : Str} (he : e ∈ allExts) : '/' ∉ e := by
  simp only [allExts, List.map_cons, List.map_nil, List.mem_cons, List.mem_singleton,
    List.not_mem_nil, or_false] at he
  rcases he with rfl | rfl | rfl | rfl | rfl | rfl <;> decide

theorem pathKind_ext (a : Str) {e : Str} (he : e ∈ allExts) : pathKind (a ++ e) ≤ 5 := by
  have ha := pathKind_append a
  simp only [allExts, List.map_cons, List.map_nil, List.mem_cons, List.mem_singleton,
    List.not_mem_nil, or_false] at he
  rcases he with rfl | rfl | rfl | rfl | rfl | rfl <;> omega

theorem joinWith_inj {A B : List Str} (hA : A ≠ []) (hB : B ≠ [])
    (hAs : ∀ s ∈ A, '/' ∉ s) (hBs : ∀ s ∈ B, '/' ∉ s)
    (h : joinWith ['/'] A = joinWith ['/'] B) : A = B := by
  rw [← splitOn_joinWith '/' A hA hAs, ← splitOn_joinWith '/' B hB hBs, h]

/-- No file next to a node file has the path of a directory of the split. -/
theorem split_not_dir (H : Host) (hslash : H.letterOrNumber '/' = false)
    (objectStates : List Node) {p : Placed} (hp : p ∈ placedAll H objectStates) {e : Str}
    (he : e ∈ allExts) :
    p.base H ++ e ∉ (splitObjectStates H objectStates).fs.dirs := by
  have hps := placedAll_shaped H objectStates p hp
  obtain ⟨hprel, hpsegs⟩ := shaped_rel H hslash p hps
  have hstem : '/' ∉ fileStem H p.node p.order p.incl := by
    intro hm
    apply slash_not_mem_generateFilename H hslash p.node p.order p.incl
    rw [generateFilename_eq]
    exact List.mem_append_left _ hm
  have hx : '/' ∉ fileStem H p.node p.order p.incl ++ e := by
    intro hm
    rcases List.mem_append.1 hm with hm | hm
    · exact hstem hm
    · exact slash_not_mem_ext he hm
  have hkey : p.base H ++ e =
      joinWith ['/'] (("src".toList :: segsOf p.rel) ++ [fileStem H p.node p.order p.incl ++ e]) := by
    rw [joinWith_snoc, (shaped_base H hslash p hps).1, Placed.dirPrefix]
    simp
  have hAs : ∀ s ∈ ("src".toList :: segsOf p.rel) ++ [fileStem H p.node p.order p.incl ++ e],
      '/' ∉ s := by
    intro s hs
    rcases List.mem_append.1 hs with hs | hs
    · rcases List.mem_cons.1 hs with rfl | hs
      · decide
      · exact (segsOf_clean_all hprel s hs).2.1
    · rw [List.mem_singleton.1 hs]
      exact hx
  have hC : fileStem H p.node p.order p.incl ++ e ≠ "Contained".toList := by
    intro h
    have h5 := pathKind_ext (fileStem H p.node p.order p.incl) he
    rw [h] at h5
    exact absurd h5 (by decide)
  have hmain : ∀ B : List Str, B ≠ [] → (∀ s ∈ B, '/' ∉ s) →
      (B = ["src".toList] ∨ B = ["src".toList, "Contained".toList] ∨
        ∃ k, B = ["src".toList, "Contained".toList, k]) →
      p.base H ++ e ≠ joinWith ['/'] B := by
    intro B hB hBs hshape h
    rw [hkey] at h
    have hAB := joinWith_inj (by simp) hB hAs hBs h
    rcases hpsegs with hs | ⟨k, hs⟩ <;> rw [hs] at hAB <;>
      rcases hshape with rfl | rfl | ⟨k', rfl⟩
    · simp at hAB
    · simp only [List.cons_append, List.nil_append, List.cons.injEq, and_true, true_and] at hAB
      exact hC hAB
    · simp at hAB
    · simp at hAB
    · simp at hAB
    · simp at hAB
  rw [splitObjectStates_eq, mem_foldl_save_dirs]
  rintro (hd | ⟨q, hq, hd⟩)
  · have e0 : dirAncestors (pathNormalize outputDir) = [joinWith ['/'] ["src".toList]] := by
      decide
    simp only [e0, List.mem_singleton] at hd
    exact hmain _ (by simp) (by simp) (Or.inl rfl) hd
  · have hqs := placedAll_shaped H objectStates q hq
    obtain ⟨hqrel, hqsegs⟩ := shaped_rel H hslash q hqs
    have hcl : ∀ s ∈ "src".toList :: segsOf q.rel, CleanSeg s := by
      intro s hs
      rcases List.mem_cons.1 hs with rfl | hs
      · exact cleanSeg_src
      · exact segsOf_clean_all hqrel s hs
    rw [dirPath_eq q.rel hqrel, dirAncestors_joinWith _ (by simp) hcl] at hd
    rcases hqsegs with hs | ⟨k, hs⟩
    · rw [hs] at hd
      have e1 : List.range (["src".toList].length) = [0] := by decide
      simp only [e1, List.map_cons, List.map_nil, List.mem_singleton] at hd
      exact hmain ["src".toList] (by simp) (by simp) (Or.inl rfl) hd
    · have hk : '/' ∉ k := (segsOf_clean_all hqrel k (by rw [hs]; simp)).2.1
      rw [hs] at hd
      have e3 : List.range (["src".toList, "Contained".toList, k].length) = [0, 1, 2] := by
        simp only [List.length_cons, List.length_nil]
        decide
      simp only [e3, List.map_cons, List.map_nil, List.mem_cons, List.mem_singleton,
        List.not_mem_nil, or_false] at hd
      rcases hd with hd | hd | hd
      · exact hmain ["src".toList] (by simp) (by simp) (Or.inl rfl) hd
      · exact hmain ["src".toList, "Contained".toList] (by simp)
          (by
            intro s hs'
            simp only [List.mem_cons, List.mem_singleton, List.not_mem_nil, or_false] at hs'
            rcases hs' with rfl | rfl <;> decide)
          (Or.inr (Or.inl rfl)) hd
      · exact hmain ["src".toList, "Contained".toList, k] (by simp)
          (by
            intro s hs'
            simp only [List.mem_cons, List.mem_singleton, List.not_mem_nil, or_false] at hs'
            rcases hs' with rfl | rfl | rfl
            · decide
            · decide
            · exact hk)
          (Or.inr (Or.inr ⟨k, rfl⟩)) hd

/-- Whether the merger finds a file at the path of a node file with one of the extensions. -/
theorem split_existsSync (H : Host) (hslash : H.letterOrNumber '/' = false)
    (objectStates : List Node)
    (hfiles : ((placedAll H objectStates).map fun p => (p.entry H).file).Nodup)
    {p : Placed} (hp : p ∈ placedAll H objectStates) {e : Str} (he : e ∈ allExts) :
    (splitObjectStates H objectStates).fs.existsSync (p.base H ++ e) =
      (p.content H e).isSome := by
  have hr := split_readFileSync H hslash objectStates hfiles hp he
  unfold FS.readFileSync at hr
  unfold FS.existsSync
  rw [hr]
  have hd := split_not_dir H hslash objectStates hp he
  have : (splitObjectStates H objectStates).fs.dirs.contains (p.base H ++ e) = false := by
    simpa using hd
  rw [this, Bool.or_false]


set_option autoImplicit false

set_option autoImplicit false

theorem ownEntries_pushEntry (m : ManifestMap) (key : Str) (e : ManifestEntry) (key' : Str) :
    ownEntries (pushEntry m key e) key' =
      if key' = key then ownEntries m key ++ [e] else ownEntries m key' := by
  induction m with
  | nil =>
    by_cases h : key' = key
    · subst h
      simp [pushEntry, ownEntries, List.lookup]
    · have : (key' == key) = false := by simpa using h
      simp [pushEntry, ownEntries, List.lookup, this, h]
  | cons x m ih =>
    rcases x with ⟨k, es⟩
    unfold ownEntries at ih ⊢
    by_cases hk : k = key
    · subst hk
      rw [pushEntry, if_pos rfl]
      by_cases h : key' = k
      · subst h
        simp [List.lookup]
      · have : (key' == k) = false := by simpa using h
        simp [List.lookup, this, h]
    · rw [pushEntry, if_neg hk]
      by_cases h : key' = k
      · subst h
        have hne : ¬key' = key := hk
        simp [List.lookup, hne]
      · have : (key' == k) = false := by simpa using h
        have hkk : (key == k) = false := by simpa using fun x : key = k => hk x.symm
        simp only [List.lookup, this, hkk]
        exact ih

theorem groupByParent_ok (es : List ManifestEntry) (m : ManifestMap)
    (h : ∀ e ∈ es, parentKey e ∉ objectPrototypeKeys) :
    ∃ M, groupByParent es m = .ok M ∧
      ∀ key, ownEntries M key = ownEntries m key ++ es.filter fun e => parentKey e = key := by
  induction es generalizing m with
  | nil => exact ⟨m, rfl, by simp⟩
  | cons e es ih =>
    obtain ⟨M, hM, hk⟩ := ih (pushEntry m (parentKey e) e)
      (fun x hx => h x (List.mem_cons_of_mem _ hx))
    refine ⟨M, ?_, ?_⟩
    · rw [groupByParent, if_neg (h e (List.mem_cons_self _ _))]
      exact hM
    · intro key
      rw [hk, ownEntries_pushEntry]
      by_cases hkey : key = parentKey e
      · subst hkey
        simp
      · have : ¬parentKey e = key := fun x => hkey x.symm
        simp [hkey, this]

theorem childrenOf_eq (M : ManifestMap) (key : Str) (h : key ∉ objectPrototypeKeys) :
    childrenOf M key = .ok (ownEntries M key) := by
  unfold childrenOf ownEntries
  cases M.lookup key with
  | some es => rfl
  | none => simp [h]

/-- The grouping of the merger, for parent keys that are no inherited property names. -/
theorem groupByParent_spec (es : List ManifestEntry)
    (h : ∀ e ∈ es, parentKey e ∉ objectPrototypeKeys) :
    ∃ M, groupByParent es [] = .ok M ∧
      ∀ key, key ∉ objectPrototypeKeys →
        childrenOf M key = .ok (es.filter fun e => parentKey e = key) := by
  obtain ⟨M, hM, hk⟩ := groupByParent_ok es [] h
  refine ⟨M, hM, fun key hkey => ?_⟩
  rw [childrenOf_eq M key hkey, hk]
  simp [ownEntries]

theorem Node.subtree_eq (n : Node) : n.subtree = n :: subtreeEach n.children := by
  rcases n with ⟨n, k, g, s, t, x, m, r, c⟩
  rw [Node.subtree]
  cases c with
  | none => simp [subtreeContained, Node.children, Node.contained, subtreeEach]
  | some cs => simp [subtreeContained, Node.children, Node.contained]

theorem placedNode_nodes (H : Host) (n : Node) :
    ∀ rel parent order incl,
      (placedNode H n rel parent order incl).map (·.node) = n.subtree := by
  induction n using Node.induct with
  | h n ih =>
    intro rel parent order incl
    rw [placedNode_eq, Node.subtree_eq, List.map_cons]
    congr 1
    have key : ∀ (cs : List Node) (i : Nat), (∀ ch ∈ cs, ch ∈ n.children) →
        (placedEach H false cs (containerRelPath H n) (orNull n.guid) i).map (·.node) =
          subtreeEach cs := by
      intro cs
      induction cs with
      | nil =>
        intro i _
        simp [placedEach, subtreeEach]
      | cons c cs ihc =>
        intro i hsub
        rw [placedEach, subtreeEach, List.map_append, ih c (hsub c (List.mem_cons_self _ _)),
          ihc _ (fun ch hch => hsub ch (List.mem_cons_of_mem _ hch))]
    exact key _ _ (fun _ h => h)

theorem placedEach_nodes (H : Host) (incl : Bool) (cs : List Node) (rel : Str)
    (parent : Option Str) (i : Nat) :
    (placedEach H incl cs rel parent i).map (·.node) = subtreeEach cs := by
  induction cs generalizing i with
  | nil => simp [placedEach, subtreeEach]
  | cons c cs ihc => rw [placedEach, subtreeEach, List.map_append, placedNode_nodes, ihc]

theorem placedEach_node_mem (H : Host) (incl : Bool) (cs : List Node) (rel : Str)
    (parent : Option Str) (i : Nat) {q : Placed} (hq : q ∈ placedEach H incl cs rel parent i) :
    q.node ∈ subtreeEach cs := by
  rw [← placedEach_nodes H incl cs rel parent i]
  exact List.mem_map_of_mem _ hq

theorem placedNode_node_mem (H : Host) (n : Node) (rel : Str) (parent : Option Str)
    (order : Option Nat) (incl : Bool) {q : Placed}
    (hq : q ∈ placedNode H n rel parent order incl) : q.node ∈ n.subtree := by
  rw [← placedNode_nodes H n rel parent order incl]
  exact List.mem_map_of_mem _ hq

theorem filter_absent_each (H : Host) (cs : List Node)
    (ih : ∀ c ∈ cs, ∀ rel parent order incl key,
      orElseStr (orNull parent) "__root__".toList ≠ key →
      (∀ m ∈ c.subtree, m.childKey ≠ key) →
      (placedNode H c rel parent order incl).filter (keyIs key) = [])
    (incl : Bool) (rel : Str) (parent : Option Str) (i : Nat) (key : Str)
    (hp : orElseStr (orNull parent) "__root__".toList ≠ key)
    (hm : ∀ m ∈ subtreeEach cs, m.childKey ≠ key) :
    (placedEach H incl cs rel parent i).filter (keyIs key) = [] := by
  induction cs generalizing i with
  | nil => simp [placedEach]
  | cons c cs ihc =>
    rw [subtreeEach] at hm
    rw [placedEach, List.filter_append, ih c (List.mem_cons_self _ _) _ _ _ _ _ hp
      (fun m h => hm m (List.mem_append_left _ h)),
      ihc (fun ch hch => ih ch (List.mem_cons_of_mem _ hch)) _
        (fun m h => hm m (List.mem_append_right _ h))]
    rfl

theorem filter_absent_node (H : Host) (n : Node) :
    ∀ rel parent order incl key,
      orElseStr (orNull parent) "__root__".toList ≠ key →
      (∀ m ∈ n.subtree, m.childKey ≠ key) →
      (placedNode H n rel parent order incl).filter (keyIs key) = [] := by
  induction n using Node.induct with
  | h n ih =>
    intro rel parent order incl key hp hm
    rw [Node.subtree_eq] at hm
    have hhead : keyIs key ⟨n, rel, parent, order, incl⟩ = false := by
      simpa [keyIs, Placed.pkey] using hp
    rw [placedNode_eq, List.filter_cons, hhead]
    simp only [Bool.false_eq_true, if_false]
    exact filter_absent_each H n.children ih false _ _ _ key
      (hm n (List.mem_cons_self _ _)) (fun m h => hm m (List.mem_cons_of_mem _ h))

theorem filter_direct (H : Host) (incl : Bool) (cs : List Node) (rel : Str)
    (parent : Option Str) (i : Nat) (key : Str)
    (hp : orElseStr (orNull parent) "__root__".toList = key)
    (hm : ∀ m ∈ subtreeEach cs, m.childKey ≠ key) :
    (placedEach H incl cs rel parent i).filter (keyIs key) = placedDirect incl cs rel parent i := by
  induction cs generalizing i with
  | nil => simp [placedEach, placedDirect]
  | cons c cs ihc =>
    rw [subtreeEach] at hm
    have hc : ∀ m ∈ c.subtree, m.childKey ≠ key := fun m h => hm m (List.mem_append_left _ h)
    rw [Node.subtree_eq] at hc
    have hhead : keyIs key ⟨c, rel, parent, some i, incl⟩ = true := by
      simpa [keyIs, Placed.pkey] using hp
    rw [placedEach, List.filter_append, placedNode_eq, List.filter_cons, hhead, if_pos rfl,
      filter_absent_each H c.children (fun ch _ => filter_absent_node H ch) false _ _ _ key
        (hc c (List.mem_cons_self _ _)) (fun m h => hc m (List.mem_cons_of_mem _ h)),
      ihc _ (fun m h => hm m (List.mem_append_right _ h)), placedDirect]
    rfl

theorem filter_children_each (H : Host) (cs : List Node)
    (ih : ∀ c ∈ cs, ∀ rel parent order incl,
      (c.subtree.map Node.childKey).Nodup →
      orElseStr (orNull parent) "__root__".toList ∉ c.subtree.map Node.childKey →
      ∀ q ∈ placedNode H c rel parent order incl,
        (placedNode H c rel parent order incl).filter (keyIs q.node.childKey) =
          placedChildren H q.node)
    (incl : Bool) (rel : Str) (parent : Option Str) (i : Nat)
    (hnd : ((subtreeEach cs).map Node.childKey).Nodup)
    (hp : orElseStr (orNull parent) "__root__".toList ∉ (subtreeEach cs).map Node.childKey) :
    ∀ q ∈ placedEach H incl cs rel parent i,
      (placedEach H incl cs rel parent i).filter (keyIs q.node.childKey) =
        placedChildren H q.node := by
  induction cs generalizing i with
  | nil => simp [placedEach]
  | cons c cs ihc =>
    intro q hq
    rw [subtreeEach, List.map_append] at hnd hp
    obtain ⟨hnd₁, hnd₂, hdis⟩ := List.nodup_append.1 hnd
    have hp₁ := fun h => hp (List.mem_append_left _ h)
    have hp₂ := fun h => hp (List.mem_append_right _ h)
    rw [placedEach] at hq ⊢
    rw [List.filter_append]
    rcases List.mem_append.1 hq with hq | hq
    · have hqn := List.mem_map_of_mem Node.childKey (placedNode_node_mem H c _ _ _ _ hq)
      rw [ih c (List.mem_cons_self _ _) _ _ _ _ hnd₁ hp₁ q hq,
        filter_absent_each H cs (fun ch _ => filter_absent_node H ch) incl _ _ _ _
          (fun e => hp₁ (e ▸ hqn))
          (fun m hm e => hdis hqn (e ▸ List.mem_map_of_mem Node.childKey hm))]
      simp
    · have hqn := List.mem_map_of_mem Node.childKey (placedEach_node_mem H incl cs _ _ _ hq)
      rw [filter_absent_node H c _ _ _ _ _ (fun e => hp₂ (e ▸ hqn))
          (fun m hm e => hdis (e ▸ List.mem_map_of_mem Node.childKey hm) hqn),
        ihc (fun ch hch => ih ch (List.mem_cons_of_mem _ hch)) _ hnd₂ hp₂ q hq]
      rfl

theorem filter_children_node (H : Host) (n : Node) :
    ∀ rel parent order incl,
      (n.subtree.map Node.childKey).Nodup →
      orElseStr (orNull parent) "__root__".toList ∉ n.subtree.map Node.childKey →
      ∀ q ∈ placedNode H n rel parent order incl,
        (placedNode H n rel parent order incl).filter (keyIs q.node.childKey) =
          placedChildren H q.node := by
  induction n using Node.induct with
  | h n ih =>
    intro rel parent order incl hnd hp q hq
    rw [Node.subtree_eq, List.map_cons] at hnd hp
    obtain ⟨hn, hnd'⟩ := List.nodup_cons.1 hnd
    rw [placedNode_eq] at hq ⊢
    rcases List.mem_cons.1 hq with rfl | hq
    · have hhead : keyIs n.childKey ⟨n, rel, parent, order, incl⟩ = false := by
        have : orElseStr (orNull parent) "__root__".toList ≠ n.childKey :=
          fun e => hp (e ▸ List.mem_cons_self _ _)
        simpa [keyIs, Placed.pkey] using this
      rw [List.filter_cons, hhead]
      simp only [Bool.false_eq_true, if_false]
      exact filter_direct H false n.children _ _ _ _ rfl
        (fun m hm e => hn (e ▸ List.mem_map_of_mem Node.childKey hm))
    · have hqn := List.mem_map_of_mem Node.childKey (placedEach_node_mem H false _ _ _ _ hq)
      have hhead : keyIs q.node.childKey ⟨n, rel, parent, order, incl⟩ = false := by
        have : orElseStr (orNull parent) "__root__".toList ≠ q.node.childKey :=
          fun e => hp (e ▸ List.mem_cons_of_mem _ hqn)
        simpa [keyIs, Placed.pkey] using this
      rw [List.filter_cons, hhead]
      simp only [Bool.false_eq_true, if_false]
      exact filter_children_each H n.children ih false _ _ _ hnd' hn q hq

/-- The entries grouped under the key of a node are those of its children, in their order. -/
theorem filter_children (H : Host) (incl : Bool) (cs : List Node) (rel : Str)
    (parent : Option Str) (i : Nat)
    (hnd : ((subtreeEach cs).map Node.childKey).Nodup)
    (hp : orElseStr (orNull parent) "__root__".toList ∉ (subtreeEach cs).map Node.childKey) :
    ∀ q ∈ placedEach H incl cs rel parent i,
      (placedEach H incl cs rel parent i).filter (keyIs q.node.childKey) =
        placedChildren H q.node :=
  filter_children_each H cs (fun c _ => filter_children_node H c) incl rel parent i hnd hp


set_option autoImplicit false

theorem keyedFrom_mem_v {n : Nat} {arr : List ManifestEntry} {k : Keyed}
    (h : k ∈ keyedFrom n arr) : k.v ∈ arr := by
  rw [← keyedFrom_map_v n arr]
  exact List.mem_map_of_mem _ h

theorem keyedFrom_sorted (n : Nat) (arr : List ManifestEntry)
    (h : (arr.map getOrderFromFile).Pairwise OrderKey.le) :
    (keyedFrom n arr).Pairwise keyedLe := by
  induction arr generalizing n with
  | nil => simp [keyedFrom]
  | cons x xs ih =>
    have e : keyedFrom n (x :: xs) = ⟨x, n, getOrderFromFile x⟩ :: keyedFrom (n + 1) xs := rfl
    rw [List.map_cons, List.pairwise_cons] at h
    rw [e, List.pairwise_cons]
    refine ⟨fun b hb => ?_, ih (n + 1) h.2⟩
    have hle : (getOrderFromFile x).le b.key := by
      rw [keyedFrom_key hb]
      exact h.1 _ (List.mem_map_of_mem _ (keyedFrom_mem_v hb))
    have hidx : n ≤ b.idx := Nat.le_of_succ_le (keyedFrom_idx_ge hb)
    rw [keyedLe_iff]
    by_cases hk : getOrderFromFile x = b.key
    · exact Or.inr ⟨hk, hidx⟩
    · exact Or.inl ⟨hle, hk⟩

/-- Entries whose keys are in order already are left as they are. -/
theorem sortByOrderStable_of_sorted (arr : List ManifestEntry)
    (h : (arr.map getOrderFromFile).Pairwise OrderKey.le) : sortByOrderStable arr = arr := by
  rw [sortByOrderStable_eq, List.Sorted.insertionSort_eq (keyedFrom_sorted 0 arr h),
    keyedFrom_map_v]

theorem getOrderFromFile_entry (H : Host) (p : Placed) (j : Nat) (h : p.order = some j) :
    getOrderFromFile (p.entry H) = .fin (j : ℚ) := by
  simp [getOrderFromFile, Placed.entry, h]

theorem placedDirect_order (incl : Bool) (cs : List Node) (rel : Str) (parent : Option Str)
    (i : Nat) : ∀ p ∈ placedDirect incl cs rel parent i, ∃ j, i ≤ j ∧ p.order = some j := by
  induction cs generalizing i with
  | nil => simp [placedDirect]
  | cons c cs ih =>
    intro p hp
    rw [placedDirect] at hp
    rcases List.mem_cons.1 hp with rfl | hp
    · exact ⟨i, le_refl _, rfl⟩
    · obtain ⟨j, hj, h⟩ := ih _ p hp
      exact ⟨j, Nat.le_of_succ_le hj, h⟩

theorem placedDirect_keys_sorted (H : Host) (incl : Bool) (cs : List Node) (rel : Str)
    (parent : Option Str) (i : Nat) :
    (((placedDirect incl cs rel parent i).map (Placed.entry H)).map
      getOrderFromFile).Pairwise OrderKey.le := by
  induction cs generalizing i with
  | nil => simp [placedDirect]
  | cons c cs ih =>
    rw [placedDirect, List.map_cons, List.map_cons, List.pairwise_cons]
    refine ⟨?_, ih (i + 1)⟩
    intro k hk
    simp only [List.mem_map] at hk
    obtain ⟨e, ⟨p, hp, rfl⟩, rfl⟩ := hk
    obtain ⟨j, hj, h⟩ := placedDirect_order incl cs rel parent (i + 1) p hp
    rw [getOrderFromFile_entry H p j h, getOrderFromFile_entry H _ i rfl]
    simp only [OrderKey.le, Nat.cast_le]
    omega

/-- The entries of the nodes of a sequence stay in the order of the sequence. -/
theorem sortByOrderStable_placedDirect (H : Host) (incl : Bool) (cs : List Node) (rel : Str)
    (parent : Option Str) (i : Nat) :
    sortByOrderStable ((placedDirect incl cs rel parent i).map (Placed.entry H)) =
      (placedDirect incl cs rel parent i).map (Placed.entry H) :=
  sortByOrderStable_of_sorted _ (placedDirect_keys_sorted H incl cs rel parent i)


set_option autoImplicit false

set_option autoImplicit false

theorem nonBlank_of_trim {s : Str} (h : trim s ≠ []) : nonBlank (some s) = true := by
  have hs : s ≠ [] := by
    rintro rfl
    exact h rfl
  cases s with
  | nil => exact absurd rfl hs
  | cons c cs =>
    cases ht : trim (c :: cs) with
    | nil => exact absurd ht h
    | cons d ds => simp [nonBlank, truthy, ht]

theorem loadEach_ok (load : ManifestEntry → Res Node) (H : Host) (ps : List Placed)
    (h : ∀ p ∈ ps, load (p.entry H) = .ok p.node) :
    loadEach load (ps.map (Placed.entry H)) = .ok (ps.map (·.node)) := by
  induction ps with
  | nil => rfl
  | cons p ps ih =>
    rw [List.map_cons, loadEach, h p (List.mem_cons_self _ _),
      ih (fun q hq => h q (List.mem_cons_of_mem _ hq))]
    rfl

theorem placedDirect_nodes (incl : Bool) (cs : List Node) (rel : Str) (parent : Option Str)
    (i : Nat) : (placedDirect incl cs rel parent i).map (·.node) = cs := by
  induction cs generalizing i with
  | nil => rfl
  | cons c cs ih => rw [placedDirect, List.map_cons, ih]

theorem readIfExists_split (fs : FS) (path : Str) (field : Option Str) (old : Option Str)
    (hold : field = none → old = none)
    (hf : ∀ s, field = some s → trim s ≠ [])
    (hex : fs.existsSync path = (if nonBlank field then some (field.getD []) else none).isSome)
    (hrd : fs.readFileSync path = if nonBlank field then some (field.getD []) else none) :
    readIfExists fs path old = .ok field := by
  unfold readIfExists
  cases field with
  | none =>
    have : nonBlank none = false := rfl
    simp only [this, Bool.false_eq_true, if_false, Option.isSome_none] at hex
    rw [hex, hold rfl]
    rfl
  | some s =>
    have hb := nonBlank_of_trim (hf s rfl)
    simp only [hb, if_true, Option.isSome_some, Option.getD_some] at hex hrd
    rw [hex, hrd]
    rfl


set_option autoImplicit false

theorem Node.eta (n : Node) :
    Node.mk n.name n.nickname n.guid n.luaScript n.luaScriptState n.xmlUI n.memo n.rest
      n.contained = n := by
  cases n
  rfl

theorem Node.contained_of_children (n : Node) (h : 0 < n.children.length) :
    n.contained = some n.children := by
  unfold Node.children at h ⊢
  cases hc : n.contained with
  | none => simp [hc] at h
  | some cs => rfl

theorem load_step (H : Host) (fs : FS) (luaFuel : Nat) (M : ManifestMap) (fuel : Nat)
    (p : Placed)
    (hjson : pathJoin [srcDir, (p.entry H).file] = p.base H ++ ".json".toList)
    (hparse : H.parse (H.stringify p.node.stripped) = some p.node.stripped)
    (hrep : ∀ rep, reJsonExt.replaceFirst rep (p.base H ++ ".json".toList) = p.base H ++ rep)
    (hex : ∀ e ∈ allExts, fs.existsSync (p.base H ++ e) = (p.content H e).isSome)
    (hrd : ∀ e ∈ allExts, fs.readFileSync (p.base H ++ e) = p.content H e)
    (hrest : p.node.Restorable)
    (hkids : childrenOf M (guidKey (p.entry H).guid) =
      .ok ((placedChildren H p.node).map (Placed.entry H)))
    (hload : ∀ q ∈ placedChildren H p.node,
      loadObjectFromManifest H fs luaFuel M fuel (q.entry H) = .ok q.node) :
    loadObjectFromManifest H fs luaFuel M (fuel + 1) (p.entry H) = .ok p.node := by
  obtain ⟨hlua, hstate, hxml, hmemo⟩ := hrest
  have hread : (fs.readFileSync (p.base H ++ ".json".toList)).bind H.parse =
      some p.node.stripped := by
    rw [hrd _ (by decide)]
    simp [Placed.content, hparse]
  -- the script
  have hscript : readObjectLuaIfExists fs (p.base H ++ ".json".toList) = .ok p.node.luaScript := by
    unfold readObjectLuaIfExists
    simp only [hrep, List.append_nil]
    have h2 : fs.existsSync (p.base H ++ ".ttslua".toList) = false := by
      rw [hex _ (by decide)]
      rfl
    cases hs : p.node.luaScript with
    | none =>
      have h1 : fs.existsSync (p.base H ++ ".lua".toList) = false := by
        rw [hex _ (by decide)]
        simp [Placed.content, hs, nonBlank]
      rw [List.find?, h1, List.find?, h2]
      rfl
    | some s =>
      have hb := nonBlank_of_trim (hlua s hs).1
      have hc : p.content H ".lua".toList = some s := by
        simp [Placed.content, hs, hb, (hlua s hs).2.2]
      have h1 : fs.existsSync (p.base H ++ ".lua".toList) = true := by
        rw [hex _ (by decide), hc]
        rfl
      rw [List.find?, h1]
      simp only
      rw [hrd _ (show ".lua".toList ∈ allExts by decide), hc]
  have hbundle : ∀ s, p.node.luaScript = some s →
      bundleLuaIfNeeded fs LIB_DIR luaFuel s = .ok s := by
    intro s hs
    unfold bundleLuaIfNeeded
    rw [(hlua s hs).2.1]
    rfl
  have hst : readIfExists fs (p.base H ++ ".state.txt".toList) p.node.stripped.luaScriptState =
      .ok p.node.luaScriptState := by
    apply readIfExists_split _ _ _ _ (fun _ => by cases p.node; rfl) hstate
    · rw [hex _ (by decide)]
      simp [Placed.content]
    · rw [hrd _ (by decide)]
      simp [Placed.content]
  have hx : readIfExists fs (p.base H ++ ".xml".toList) p.node.stripped.xmlUI =
      .ok p.node.xmlUI := by
    apply readIfExists_split _ _ _ _ (fun _ => by cases p.node; rfl) hxml
    · rw [hex _ (by decide)]
      simp [Placed.content]
    · rw [hrd _ (by decide)]
      simp [Placed.content]
  have hm : readIfExists fs (p.base H ++ ".memo.txt".toList) p.node.stripped.memo =
      .ok p.node.memo := by
    apply readIfExists_split _ _ _ _ (fun _ => by cases p.node; rfl) hmemo
    · rw [hex _ (by decide)]
      simp [Placed.content]
    · rw [hrd _ (by decide)]
      simp [Placed.content]
  have hsort : sortByOrderStable ((placedChildren H p.node).map (Placed.entry H)) =
      (placedChildren H p.node).map (Placed.entry H) :=
    sortByOrderStable_placedDirect H false p.node.children
      (containerRelPath H p.node) (orNull p.node.guid) 0
  have hkids' := loadEach_ok (loadObjectFromManifest H fs luaFuel M fuel) H
    (placedChildren H p.node) hload
  have hnodes : (placedChildren H p.node).map (·.node) = p.node.children :=
    placedDirect_nodes _ _ _ _ _
  rw [hnodes] at hkids'
  have hs1 : p.node.stripped.name = p.node.name := by cases p.node; rfl
  have hs2 : p.node.stripped.nickname = p.node.nickname := by cases p.node; rfl
  have hs3 : p.node.stripped.guid = p.node.guid := by cases p.node; rfl
  have hs4 : p.node.stripped.rest = p.node.rest := by cases p.node; rfl
  have hs5 : p.node.stripped.contained = p.node.contained := by cases p.node; rfl
  have hs6 : p.node.stripped.luaScript = none := by cases p.node; rfl
  have hlen : ((placedChildren H p.node).map (Placed.entry H)).length = p.node.children.length := by
    rw [List.length_map, ← hnodes, List.length_map]
  rw [loadObjectFromManifest]
  simp only [hjson, hread, hscript, hrep, hst, hx, hm, hkids, hsort, hlen, hs1, hs2, hs3, hs4,
    hs5, hs6, hkids']
  cases hs : p.node.luaScript with
  | none =>
    simp only []
    split
    · rename_i hpos
      rw [← Node.contained_of_children _ hpos, ← hs, Node.eta]
    · rw [← hs, Node.eta]
  | some s =>
    simp only [hbundle s hs]
    split
    · rename_i hpos
      rw [← Node.contained_of_children _ hpos, ← hs, Node.eta]
    · rw [← hs, Node.eta]


set_option autoImplicit false

theorem depthEach_le {cs : List Node} {c : Node} (h : c ∈ cs) : c.depth ≤ depthEach cs := by
  induction cs with
  | nil => cases h
  | cons x xs ih =>
    rw [depthEach]
    rcases List.mem_cons.1 h with rfl | h
    · exact le_max_left _ _
    · exact le_trans (ih h) (le_max_right _ _)

theorem Node.depth_eq (n : Node) : n.depth = depthEach n.children + 1 := by
  rcases n with ⟨n, k, g, s, t, x, m, r, c⟩
  rw [Node.depth]
  cases c with
  | none => simp [depthContained, Node.children, Node.contained, depthEach]
  | some cs => simp [depthContained, Node.children, Node.contained]

theorem Node.depth_child {n c : Node} (h : c ∈ n.children) : c.depth < n.depth := by
  rw [Node.depth_eq n]
  exact Nat.lt_succ_of_le (depthEach_le h)

theorem HasKey.childKey {n : Node} (h : n.HasKey) :
    n.childKey ∉ objectPrototypeKeys ∧ n.childKey ≠ "__root__".toList ∧
      guidKey (orNull n.guid) = n.childKey ∧
      orElseStr (orNull (orNull n.guid)) "__root__".toList = n.childKey ∧
      n.guid = some n.childKey := by
  obtain ⟨g, hg, hne, hroot, hproto⟩ := h
  have e : n.childKey = g := by
    cases g with
    | nil => exact absurd rfl hne
    | cons c cs => simp [Node.childKey, hg, orNull, orElseStr, truthy]
  have e' : guidKey (orNull n.guid) = g := by
    cases g with
    | nil => exact absurd rfl hne
    | cons c cs => simp [guidKey, hg, orNull, truthy]
  rw [e, e']
  exact ⟨hproto, hroot, rfl, e, hg⟩

theorem childKey_nodup (ns : List Node) (hkey : ∀ n ∈ ns, n.HasKey)
    (hguid : (ns.map Node.guid).Nodup) : (ns.map Node.childKey).Nodup := by
  have e : ns.map Node.childKey = (ns.map Node.guid).map fun o => o.getD [] := by
    rw [List.map_map]
    apply List.map_congr_left
    intro n hn
    simp [(HasKey.childKey (hkey n hn)).2.2.2.2]
  rw [e]
  apply List.Nodup.map_on _ hguid
  intro x hx y hy hxy
  simp only [List.mem_map] at hx hy
  obtain ⟨n, hn, rfl⟩ := hx
  obtain ⟨m, hm, rfl⟩ := hy
  rw [(HasKey.childKey (hkey n hn)).2.2.2.2, (HasKey.childKey (hkey m hm)).2.2.2.2] at hxy ⊢
  simpa using hxy

theorem filter_entries (H : Host) (ps : List Placed) (key : Str) :
    (ps.map (Placed.entry H)).filter (fun e => parentKey e = key) =
      (ps.filter (keyIs key)).map (Placed.entry H) := by
  rw [List.filter_map]
  rfl

/-- Every node file of a split loads back as the node it was written from. -/
theorem load_all (H : Host) (objectStates : List Node) (luaFuel : Nat) (M : ManifestMap)
    (hslash : H.letterOrNumber '/' = false)
    (hcodec : ∀ n ∈ subtreeEach objectStates, H.parse (H.stringify n.stripped) = some n.stripped)
    (hkey : ∀ n ∈ subtreeEach objectStates, n.HasKey)
    (hguid : ((subtreeEach objectStates).map Node.guid).Nodup)
    (hfiles : ((placedAll H objectStates).map fun p => (p.entry H).file).Nodup)
    (hrest : ∀ n ∈ subtreeEach objectStates, n.Restorable)
    (hM : ∀ key, key ∉ objectPrototypeKeys →
      childrenOf M key = .ok (((placedAll H objectStates).map (Placed.entry H)).filter
        fun e => parentKey e = key)) :
    ∀ fuel, ∀ p ∈ placedAll H objectStates, p.node.depth ≤ fuel →
      loadObjectFromManifest H (splitObjectStates H objectStates).fs luaFuel M fuel (p.entry H) =
        .ok p.node := by
  intro fuel
  induction fuel with
  | zero =>
    intro p _ hd
    rw [Node.depth_eq] at hd
    omega
  | succ fuel ih =>
    intro p hp hd
    have hshape := placedAll_shaped H objectStates p hp
    have hnode : p.node ∈ subtreeEach objectStates := placedEach_node_mem H _ _ _ _ _ hp
    have hk := HasKey.childKey (hkey _ hnode)
    obtain ⟨-, hjp, -⟩ := shaped_jsonPath H hslash p hshape
    obtain ⟨-, hbj, hrep⟩ := shaped_base H hslash p hshape
    rw [hbj] at hjp hrep
    apply load_step H _ luaFuel M fuel p hjp (hcodec _ hnode) hrep
      (fun e he => split_existsSync H hslash objectStates hfiles hp he)
      (fun e he => split_readFileSync H hslash objectStates hfiles hp he)
      (hrest _ hnode)
    · have : guidKey (p.entry H).guid = p.node.childKey := hk.2.2.1
      have hf : (placedAll H objectStates).filter (keyIs p.node.childKey) =
          placedChildren H p.node := by
        refine filter_children H true objectStates _ _ _
          (childKey_nodup _ hkey hguid) ?_ p hp
        intro hmem
        simp only [List.mem_map] at hmem
        obtain ⟨m, hm, hmk⟩ := hmem
        exact (HasKey.childKey (hkey m hm)).2.1 hmk
      rw [this, hM _ hk.1, filter_entries, hf]
    · intro q hq
      apply ih q (placedChildren_subset H _ _ _ _ _ p hp q hq)
      have hqn : q.node ∈ p.node.children := (placedDirect_shaped _ _ _ _ _ q hq).2.2.2.1
      have := Node.depth_child hqn
      omega


set_option autoImplicit false

theorem placedAll_parentKey (H : Host) (objectStates : List Node)
    (hkey : ∀ n ∈ subtreeEach objectStates, n.HasKey) :
    ∀ e ∈ (placedAll H objectStates).map (Placed.entry H), parentKey e ∉ objectPrototypeKeys := by
  intro e he
  simp only [List.mem_map] at he
  obtain ⟨p, hp, rfl⟩ := he
  have hpk : parentKey (p.entry H) = p.pkey := rfl
  rw [hpk]
  rcases mem_placedEach H _ _ _ _ _ p hp with h | ⟨q, hq, h⟩
  · have := (placedDirect_shaped _ _ _ _ _ p h).2.1
    rw [Placed.pkey, this]
    decide
  · have := (placedDirect_shaped _ _ _ _ _ p h).2.1
    have hk := HasKey.childKey (hkey _ (placedEach_node_mem H _ _ _ _ _ hq))
    rw [Placed.pkey, this, hk.2.2.2.1]
    exact hk.1


set_option autoImplicit false

set_option autoImplicit false

theorem restorable_intro (n : Node) (script state xml memo : Option Str)
    (h₁ : n.luaScript = script) (h₂ : n.luaScriptState = state) (h₃ : n.xmlUI = xml)
    (h₄ : n.memo = memo)
    (hs : ∀ s, script = some s → trim s ≠ [] ∧ findRequireIds s = [] ∧ extractRootModule s = s)
    (ht : ∀ s, state = some s → trim s ≠ []) (hx : ∀ s, xml = some s → trim s ≠ [])
    (hm : ∀ s, memo = some s → trim s ≠ []) : n.Restorable := by
  subst h₁ h₂ h₃ h₄
  exact ⟨hs, ht, hx, hm⟩

theorem sampleTree_subtree :
    subtreeEach sampleTree = [sampleBag, sampleCard, sampleDie,
      .mk (some "Token".toList) none (some "70ke17".toList) none none none none [] none] := rfl

theorem sampleTree_codec : ∀ n ∈ subtreeEach sampleTree,
    (tableHost (subtreeEach sampleTree)).parse
      ((tableHost (subtreeEach sampleTree)).stringify n.stripped) = some n.stripped := by
  intro n hn
  rw [sampleTree_subtree] at hn
  simp only [List.mem_cons, List.mem_singleton, List.not_mem_nil, or_false] at hn
  rcases hn with rfl | rfl | rfl | rfl <;> rfl

theorem sampleTree_hasKey : ∀ n ∈ subtreeEach sampleTree, n.HasKey := by
  intro n hn
  rw [sampleTree_subtree] at hn
  simp only [List.mem_cons, List.mem_singleton, List.not_mem_nil, or_false] at hn
  rcases hn with rfl | rfl | rfl | rfl <;>
    exact ⟨_, rfl, by decide, by decide, by decide⟩

theorem sampleTree_restorable : ∀ n ∈ subtreeEach sampleTree, n.Restorable := by
  intro n hn
  rw [sampleTree_subtree] at hn
  simp only [List.mem_cons, List.mem_singleton, List.not_mem_nil, or_false] at hn
  rcases hn with rfl | rfl | rfl | rfl
  · refine restorable_intro _ _ _ _ _ rfl rfl rfl rfl ?_ ?_ ?_ ?_ <;> intro s hs <;> cases hs
    · exact ⟨by decide, by decide, by decide⟩
    · decide
    · decide
  · refine restorable_intro _ _ _ _ _ rfl rfl rfl rfl ?_ ?_ ?_ ?_ <;> intro s hs <;> cases hs
    decide
  · refine restorable_intro _ _ _ _ _ rfl rfl rfl rfl ?_ ?_ ?_ ?_ <;> intro s hs <;> cases hs
    decide
  · refine restorable_intro _ _ _ _ _ rfl rfl rfl rfl ?_ ?_ ?_ ?_ <;> intro s hs <;> cases hs

set_option maxRecDepth 100000 in
theorem sampleTree_files :
    (splitObjectStates (tableHost (subtreeEach sampleTree)) sampleTree).manifest.map
        (fun e => e.file) =
      ["001_Loot_bag.Bag_bag001.json".toList,
        "Contained/Loot_bag_bag001/001_Card_c0ffee.json".toList,
        "Contained/Loot_bag_bag001/002_Die_d1ce00.json".toList,
        "002_Token_70ke17.json".toList] := by
  rfl


set_option autoImplicit false

/-- C1 (as amended): flattening a node sequence of well-formed texts (a `Str` holds no lone
surrogate, so every text comes back from its UTF-8 file as it was written) and building from the
manifest and the files gives the node sequence back, with enough fuel for its depth, when every
node has a non-empty GUID that no other node has and that is neither `__root__` nor a property
name inherited from `Object.prototype`, every payload that is present has more than white space,
every script is free of imports and is no bundle (`extractRootModule` returns it unchanged), no
two manifest entries have the same file path, the host reads each node file back as written, and
`/` is no letter or number. -/
theorem split_build_round_trip (H : Host) (objectStates : List Node) (luaFuel k : Nat)
    (hslash : H.letterOrNumber '/' = false)
    (hcodec : ∀ n ∈ subtreeEach objectStates, H.parse (H.stringify n.stripped) = some n.stripped)
    (hkey : ∀ n ∈ subtreeEach objectStates, n.HasKey)
    (hguid : ((subtreeEach objectStates).map Node.guid).Nodup)
    (hfiles : ((splitObjectStates H objectStates).manifest.map fun e => e.file).Nodup)
    (hrest : ∀ n ∈ subtreeEach objectStates, n.Restorable) :
    buildObjectStates H (splitObjectStates H objectStates).fs luaFuel
      (depthEach objectStates + k) (splitObjectStates H objectStates).manifest =
        .ok objectStates := by
  rw [splitObjectStates_manifest, List.map_map] at hfiles
  obtain ⟨M, hM, hch⟩ := groupByParent_spec _ (placedAll_parentKey H objectStates hkey)
  have hroot : childrenOf M "__root__".toList =
      .ok ((placedDirect true objectStates ['.'] none 0).map (Placed.entry H)) := by
    rw [hch _ (by decide), filter_entries]
    have hf : (placedAll H objectStates).filter (keyIs "__root__".toList) =
        placedDirect true objectStates ['.'] none 0 := by
      refine filter_direct H true objectStates _ _ _ _ rfl ?_
      intro m hm
      exact (HasKey.childKey (hkey m hm)).2.1
    rw [hf]
  have hload := load_all H objectStates luaFuel M hslash hcodec hkey hguid hfiles hrest hch
    (depthEach objectStates + k)
  have hall : loadEach (loadObjectFromManifest H (splitObjectStates H objectStates).fs luaFuel M
      (depthEach objectStates + k))
      ((placedDirect true objectStates ['.'] none 0).map (Placed.entry H)) =
        .ok objectStates := by
    have := loadEach_ok (loadObjectFromManifest H (splitObjectStates H objectStates).fs
      luaFuel M (depthEach objectStates + k)) H (placedDirect true objectStates ['.'] none 0)
      (by
        intro p hp
        apply hload p (placedDirect_subset_placedEach H _ _ _ _ _ p hp)
        have hn : p.node ∈ objectStates := (placedDirect_shaped _ _ _ _ _ p hp).2.2.2.1
        have := depthEach_le hn
        omega)
    rwa [placedDirect_nodes] at this
  unfold buildObjectStates
  rw [splitObjectStates_manifest, hM]
  simp only [hroot, sortByOrderStable_placedDirect, hall]

/-- Witness for `split_build_round_trip`: a container with a script, a state, markup and two
children, followed by a leaf. -/
theorem split_build_round_trip_witness :
    buildObjectStates (tableHost (subtreeEach sampleTree))
      (splitObjectStates (tableHost (subtreeEach sampleTree)) sampleTree).fs 0
      (depthEach sampleTree + 0)
      (splitObjectStates (tableHost (subtreeEach sampleTree)) sampleTree).manifest =
        .ok sampleTree :=
  split_build_round_trip (tableHost (subtreeEach sampleTree)) sampleTree 0 0 (by decide)
    sampleTree_codec sampleTree_hasKey (by decide) (by rw [sampleTree_files]; decide)
    sampleTree_restorable

set_option maxRecDepth 100000 in
/-- C1 as stated fails: this single node has a GUID, no script and no markup, and a note of one
blank; the splitter writes no note file and takes the note out of the node file, so the build
succeeds with a node that has no note. -/
theorem split_build_drops_blank_note :
    blankMemoNode.guid = some "abc123".toList ∧ blankMemoNode.luaScript = none ∧
    blankMemoNode.xmlUI = none ∧ blankMemoNode.memo = some [' '] ∧
    buildObjectStates (tableHost [blankMemoNode])
      (splitObjectStates (tableHost [blankMemoNode]) [blankMemoNode]).fs 0 1
      (splitObjectStates (tableHost [blankMemoNode]) [blankMemoNode]).manifest =
        .ok [blankMemoNode.stripped] ∧
    blankMemoNode.stripped.memo = none ∧ blankMemoNode.stripped ≠ blankMemoNode :=
  ⟨rfl, rfl, rfl, rfl, rfl, rfl, fun h => by cases h⟩


theorem scan_none_of_matchAt {re₁ re₂ : Re}
    (h : ∀ l r, re₁.matchAt l r = none → re₂.matchAt l r = none) (s left : Str)
    (hs : re₁.scan left s = none) : re₂.scan left s = none := by
  induction s generalizing left with
  | nil =>
    simp only [Re.scan] at hs ⊢
    exact h _ _ hs
  | cons c cs ih =>
    rw [Re.scan] at hs ⊢
    cases hm : re₁.matchAt left (c :: cs) with
    | some m => rw [hm] at hs; cases hs
    | none =>
      rw [hm] at hs
      rw [h _ _ hm]
      exact ih _ hs

theorem rePreload_opens {s t : MState} (h : t ∈ rePreload.run s) :
    preloadOpenRoot.run s ≠ [] := by
  simp only [rePreload, Re.cat, mem_run_seq] at h
  obtain ⟨a, ha, b, hb, c, hc, d, hd, e, he, -⟩ := h
  apply List.ne_nil_of_mem (a := e)
  simp only [preloadOpenRoot, Re.cat, mem_run_seq]
  exact ⟨a, ha, b, hb, c, hc, d, hd, he⟩

theorem rePreload_matchAt_none {l r : Str} (h : preloadOpenRoot.matchAt l r = none) :
    rePreload.matchAt l r = none := by
  rw [matchAt_eq_none_iff] at h ⊢
  cases hr : rePreload.run ⟨l, r, []⟩ with
  | nil => rfl
  | cons t tl =>
    exact absurd h (rePreload_opens (t := t) (by rw [hr]; exact List.mem_cons_self _ _))

/-- C11 (as amended): a script text in which neither the opening of a registration of the root
name (`__bundle_register(`, white space if any, a quote, `__root`, a quote, every letter of it
in any case, the pattern having flag `i`) nor the opening of an assignment to `package.preload`
under the root name (`package.preload[`, white space if any, a quote, `__root`, a quote, in
this letter case only) occurs comes back unchanged. -/
theorem extractRootModule_no_marker (lua : Str) (h₁ : registerOpenRoot.exec lua = none)
    (h₂ : preloadOpenRoot.exec lua = none) : extractRootModule lua = lua := by
  have e₁ : reRegister.exec lua = none :=
    scan_none_of_matchAt
      (fun l r h => reRegister_matchAt_none (matchAt_eq_none_iff.1 h)) lua [] h₁
  have e₂ : rePreload.exec lua = none :=
    scan_none_of_matchAt (fun l r h => rePreload_matchAt_none h) lua [] h₂
  unfold extractRootModule
  rw [e₁, e₂]
  simp [capturedBody]

/-- Witness for `extractRootModule_no_marker`: a script that registers another module. -/
theorem extractRootModule_no_marker_witness :
    extractRootModule "__bundle_register(\"util\", function() return 1 end)".toList =
      "__bundle_register(\"util\", function() return 1 end)".toList :=
  extractRootModule_no_marker _ (by decide) (by decide)

set_option maxRecDepth 100000 in
/-- C11 as stated fails: this text holds neither `__bundle_register` nor `package.preload`, the
pattern of the registration is matched without regard to letter case, and `extractRootModule`
returns the body of the function. -/
theorem extractRootModule_capital_register :
    includes capitalRegister "__bundle_register".toList = false ∧
    includes capitalRegister "package.preload".toList = false ∧
    extractRootModule capitalRegister = "x = 1".toList ∧
    extractRootModule capitalRegister ≠ capitalRegister := by
  refine ⟨by decide, by decide, by decide, by decide⟩


theorem toDigitsCore_acc (b f n : Nat) (ds : List Char) :
    Nat.toDigitsCore b f n ds = Nat.toDigitsCore b f n [] ++ ds := by
  induction f generalizing n ds with
  | zero => simp [Nat.toDigitsCore]
  | succ f ih =>
    unfold Nat.toDigitsCore
    simp only
    split
    · simp
    · rw [ih _ (_ :: ds), ih _ [_]]
      simp

theorem digitChar_value (m : Nat) (h : m < 10) :
    (Nat.digitChar m).toNat - 48 = m ∧ isDigit (Nat.digitChar m) = true := by
  interval_cases m <;> exact ⟨by decide, by decide⟩

theorem digitsValue_snoc (ds : Str) (c : Char) :
    digitsValue (ds ++ [c]) = 10 * digitsValue ds + (c.toNat - 48) := by
  simp [digitsValue, List.foldl_append]

theorem toDigitsCore_value (f n : Nat) (h : n < f) :
    digitsValue (Nat.toDigitsCore 10 f n []) = n ∧
      (∀ c ∈ Nat.toDigitsCore 10 f n [], isDigit c = true) ∧
      Nat.toDigitsCore 10 f n [] ≠ [] := by
  induction f generalizing n with
  | zero => omega
  | succ f ih =>
    have hd := digitChar_value (n % 10) (Nat.mod_lt _ (by decide))
    unfold Nat.toDigitsCore
    simp only
    split
    · rename_i h0
      have hn : n % 10 = n := by omega
      refine ⟨?_, ?_, by simp⟩
      · simp only [digitsValue, List.foldl_cons, List.foldl_nil, hd.1]
        omega
      · intro c hc
        rw [List.mem_singleton.1 hc]
        exact hd.2
    · rename_i h0
      have hlt : n / 10 < f := by omega
      obtain ⟨h₁, h₂, h₃⟩ := ih (n / 10) hlt
      rw [toDigitsCore_acc]
      refine ⟨?_, ?_, by simp [h₃]⟩
      · rw [digitsValue_snoc, h₁, hd.1]
        omega
      · intro c hc
        rcases List.mem_append.1 hc with hc | hc
        · exact h₂ c hc
        · rw [List.mem_singleton.1 hc]
          exact hd.2

theorem digitsValue_zeros (k : Nat) (ds : Str) :
    digitsValue (List.replicate k '0' ++ ds) = digitsValue ds := by
  have key : ∀ k : Nat, (List.replicate k '0').foldl
      (fun acc c => 10 * acc + (c.toNat - 48)) 0 = 0 := by
    intro k
    induction k with
    | zero => rfl
    | succ k ih =>
      rw [List.replicate_succ, List.foldl_cons]
      exact ih
  simp only [digitsValue, List.foldl_append, key]

/-- The index prefix of a file name is the index plus one, in at least three digits. -/
theorem padIndex_spec (i : Nat) :
    digitsValue (padIndex i) = i + 1 ∧ (∀ c ∈ padIndex i, isDigit c = true) ∧
      3 ≤ (padIndex i).length := by
  obtain ⟨h₁, h₂, -⟩ := toDigitsCore_value (i + 1 + 1) (i + 1) (Nat.lt_succ_self _)
  unfold padIndex
  simp only
  refine ⟨?_, ?_, ?_⟩
  · rw [digitsValue_zeros]
    exact h₁
  · intro c hc
    rcases List.mem_append.1 hc with hc | hc
    · rw [(List.mem_replicate.1 hc).2]
      decide
    · exact h₂ c hc
  · rw [List.length_append, List.length_replicate]
    omega

theorem basename_of_no_slash (p : Str) (h : '/' ∉ p) : basename p = p := by
  have hr : '/' ∉ p.reverse := by simpa using h
  unfold basename
  have h₁ : p.reverse.dropWhile (· == '/') = p.reverse := by
    cases hp : p.reverse with
    | nil => rfl
    | cons c cs =>
      have : c ≠ '/' := fun e => hr (by rw [hp, e]; exact List.mem_cons_self _ _)
      have hc : (c == '/') = false := by simpa using this
      simp only [List.dropWhile, hc]
  have h₂ : p.reverse.takeWhile (· != '/') = p.reverse := by
    rw [List.takeWhile_eq_self_iff]
    intro c hc
    have : c ≠ '/' := fun e => hr (e ▸ hc)
    simpa using this
  rw [h₁, h₂, List.reverse_reverse]

theorem generateFilename_prefix (H : Host) (obj : Node) (i : Nat) (incl : Bool) :
    ∃ rest, generateFilename H obj (some i) incl = padIndex i ++ '_' :: rest := by
  unfold generateFilename
  simp only [List.append_assoc, List.singleton_append]
  exact ⟨_, rfl⟩

theorem getOrderFromFile_prefix (e : ManifestEntry) (ds rest : Str) (n : Nat)
    (horder : e.order = none) (hb : basename e.file = ds ++ '_' :: rest)
    (hds : ∀ c ∈ ds, isDigit c = true) (hlen : 3 ≤ ds.length) (hv : digitsValue ds = n + 1)
    (hn : n < 2 ^ 53) : getOrderFromFile e = .fin (n : ℚ) := by
  rw [getOrderFromFile_digits e ds rest (by simp [horder]) hb hds hlen, hv,
    roundToDouble_le (by omega)]
  simp only
  rw [doubleMinusOne_le (by omega)]
  congr 1
  push_cast
  ring

theorem sort_three (ea eb ec : ManifestEntry) (ha : getOrderFromFile ea = .fin 0)
    (hb : getOrderFromFile eb = .fin 1) (hc : getOrderFromFile ec = .fin 2) :
    sortByOrderStable [eb, ea, ec] = [ea, eb, ec] := by
  have e : keyedFrom 0 [eb, ea, ec] =
      [⟨eb, 0, getOrderFromFile eb⟩, ⟨ea, 1, getOrderFromFile ea⟩,
        ⟨ec, 2, getOrderFromFile ec⟩] := rfl
  have h₁ : keyedLe ⟨ea, 1, getOrderFromFile ea⟩ ⟨ec, 2, getOrderFromFile ec⟩ := by
    rw [keyedLe_iff]
    simp [ha, hc, OrderKey.le]
  have h₂ : ¬keyedLe ⟨eb, 0, getOrderFromFile eb⟩ ⟨ea, 1, getOrderFromFile ea⟩ := by
    rw [keyedLe_iff]
    simp [ha, hb, OrderKey.le]
  have h₃ : keyedLe ⟨eb, 0, getOrderFromFile eb⟩ ⟨ec, 2, getOrderFromFile ec⟩ := by
    rw [keyedLe_iff]
    simp [hb, hc, OrderKey.le]
  rw [sortByOrderStable_eq, e]
  simp only [List.insertionSort, List.orderedInsert, h₁, h₂, h₃, if_true, if_false,
    List.map_cons, List.map_nil]

/-- C12: a manifest entry without an explicit order whose file is the name `generateFilename`
gives a node for the sibling index `i` (an array index, so below `2 ^ 53`) has the order key
`i`; and entries without an explicit order whose file names start with `002_`, `001_`, `003_`
sort into the order `001_`, `002_`, `003_`. -/
theorem getOrderFromFile_generateFilename (H : Host) (hslash : H.letterOrNumber '/' = false) :
    (∀ (obj : Node) (i : Nat) (incl : Bool) (e : ManifestEntry), i < 2 ^ 53 →
      e.order = none → e.file = generateFilename H obj (some i) incl →
      getOrderFromFile e = .fin (i : ℚ)) ∧
    (∀ (ea eb ec : ManifestEntry) (ra rb rc : Str),
      ea.order = none → eb.order = none → ec.order = none →
      basename ea.file = "001_".toList ++ ra → basename eb.file = "002_".toList ++ rb →
      basename ec.file = "003_".toList ++ rc →
      sortByOrderStable [eb, ea, ec] = [ea, eb, ec]) := by
  constructor
  · intro obj i incl e hi horder hfile
    obtain ⟨rest, hrest⟩ := generateFilename_prefix H obj i incl
    obtain ⟨h₁, h₂, h₃⟩ := padIndex_spec i
    have hb : basename e.file = padIndex i ++ '_' :: rest := by
      rw [hfile, basename_of_no_slash _ (slash_not_mem_generateFilename H hslash obj _ incl),
        hrest]
    exact getOrderFromFile_prefix e _ rest i horder hb h₂ h₃ h₁ hi
  · intro ea eb ec ra rb rc ha hb hc fa fb fc
    apply sort_three
    · have := getOrderFromFile_prefix ea "001".toList ra 0 ha (by simpa using fa)
        (by decide) (by decide) (by decide) (by norm_num)
      simpa using this
    · have := getOrderFromFile_prefix eb "002".toList rb 1 hb (by simpa using fb)
        (by decide) (by decide) (by decide) (by norm_num)
      simpa using this
    · have := getOrderFromFile_prefix ec "003".toList rc 2 hc (by simpa using fc)
        (by decide) (by decide) (by decide) (by norm_num)
      simpa using this


/-- Witness for `getOrderFromFile_generateFilename`: the seventh child, and three entries in
container directories. -/
theorem getOrderFromFile_generateFilename_witness :
    getOrderFromFile ⟨"Card".toList, none, some "c0ffee".toList,
      generateFilename (tableHost []) sampleCard (some 6) false, none, none⟩ =
        .fin ((6 : Nat) : ℚ) ∧
    sortByOrderStable [fileEntry "Contained/Loot_bag001/002_Die_d1ce00.json",
        fileEntry "Contained/Loot_bag001/001_Card_c0ffee.json", fileEntry "003_Token_70ke17.json"] =
      [fileEntry "Contained/Loot_bag001/001_Card_c0ffee.json",
        fileEntry "Contained/Loot_bag001/002_Die_d1ce00.json", fileEntry "003_Token_70ke17.json"] :=
  ⟨(getOrderFromFile_generateFilename (tableHost []) (by decide)).1 sampleCard 6 false _
      (by norm_num) rfl rfl,
    (getOrderFromFile_generateFilename (tableHost []) (by decide)).2 _ _ _
      "Card_c0ffee.json".toList "Die_d1ce00.json".toList "Token_70ke17.json".toList
      rfl rfl rfl (by decide) (by decide) (by decide)⟩

theorem placedDirect_getElem (incl : Bool) (cs : List Node) (rel : Str) (parent : Option Str)
    (k i : Nat) (c : Node) (h : cs[i]? = some c) :
    (⟨c, rel, parent, some (k + i), incl⟩ : Placed) ∈ placedDirect incl cs rel parent k := by
  induction cs generalizing k i with
  | nil => simp at h
  | cons x xs ih =>
    rw [placedDirect]
    cases i with
    | zero =>
      simp only [List.getElem?_cons_zero, Option.some.injEq] at h
      subst h
      exact List.mem_cons_self _ _
    | succ i =>
      simp only [List.getElem?_cons_succ] at h
      have := ih (k + 1) i h
      rw [show k + 1 + i = k + (i + 1) by omega] at this
      exact List.mem_cons_of_mem _ this

theorem child_entry_file (H : Host) (hslash : H.letterOrNumber '/' = false) (parent child : Node)
    (i : Nat) :
    ((⟨child, containerRelPath H parent, orNull parent.guid, some i, false⟩ : Placed).entry H).file =
      "Contained/".toList ++ containerName H parent ++
        '/' :: generateFilename H child (some i) false := by
  have hk := cleanSeg_containerName H hslash parent
  have hfn := cleanSeg_generateFilename H hslash child (some i) false
  have hc : ∀ s ∈ ["Contained".toList, containerName H parent], CleanSeg s := by
    intro s hs
    rcases List.mem_cons.1 hs with rfl | hs
    · exact cleanSeg_Contained
    · rw [List.mem_singleton.1 hs]
      exact hk
  unfold Placed.entry Placed.fileName
  simp only
  rw [containerRelPath_eq H hslash,
    pathJoin_good _ _ (goodPath_joinWith _ (by simp) hc) (goodPath_clean hfn)
      (by simp [segsOf_clean hfn]),
    segsOf_joinWith _ (by simp) hc, segsOf_clean hfn]
  simp [joinWith]

/-- C13 (as amended): for every node of the tree, at whatever depth, the manifest entry of its
`i`-th child has the file path `Contained/<label>_<identifier>/<file name of the child>`
relative to the output directory, label and identifier being those of the node, sanitised: the
directories of all containers lie side by side, they do not nest. -/
theorem child_file_flat (H : Host) (hslash : H.letterOrNumber '/' = false)
    (objectStates : List Node) (parent : Node) (hp : parent ∈ subtreeEach objectStates)
    (i : Nat) (child : Node) (hc : parent.children[i]? = some child) :
    ∃ e ∈ (splitObjectStates H objectStates).manifest,
      e.guid = orNull child.guid ∧ e.parent = orNull (orNull parent.guid) ∧
      e.order = some (.finite (i : ℚ)) ∧
      e.file = "Contained/".toList ++
        (sanitize H parent.nickname ++
          '_' :: sanitize H (some (orElseStr parent.guid "noguid".toList))) ++
        '/' :: generateFilename H child (some i) false := by
  rw [← placedEach_nodes H true objectStates ['.'] none 0] at hp
  obtain ⟨q, hq, rfl⟩ := List.mem_map.1 hp
  have hd := placedDirect_getElem false q.node.children (containerRelPath H q.node)
    (orNull q.node.guid) 0 i child hc
  rw [Nat.zero_add] at hd
  have hall := placedChildren_subset H true objectStates ['.'] none 0 q hq _ hd
  refine ⟨_, ?_, rfl, rfl, rfl, child_entry_file H hslash q.node child i⟩
  rw [splitObjectStates_manifest]
  exact List.mem_map_of_mem _ hall

/-- Witness for `child_file_flat`: the card in the inner bag of `nestedTree`. -/
theorem child_file_flat_witness :
    ∃ e ∈ (splitObjectStates (tableHost []) nestedTree).manifest,
      e.guid = some "ccc333".toList ∧ e.parent = some "bbb222".toList ∧
      e.order = some (.finite ((0 : Nat) : ℚ)) ∧
      e.file = "Contained/Inner_bbb222/001_Card_ccc333.json".toList :=
  child_file_flat (tableHost []) (by decide) nestedTree
    (.mk (some "Bag".toList) (some "Inner".toList) (some "bbb222".toList) none none none none []
      (some [.mk (some "Card".toList) (some "Ace".toList) (some "ccc333".toList) none none none
        none [] none]))
    (by simp [nestedTree, subtreeEach, Node.subtree, subtreeContained]) 0 _ rfl

set_option maxRecDepth 100000 in
/-- C13 as stated fails: the file of the inner bag of `nestedTree` lies in
`Contained/Outer_aaa111`, and the file of the card in the inner bag lies in
`Contained/Inner_bbb222`, not below `Contained/Outer_aaa111`. -/
theorem child_file_not_nested :
    (splitObjectStates (tableHost []) nestedTree).manifest.map (fun e => e.file) =
      ["001_Outer.Bag_aaa111.json".toList,
        "Contained/Outer_aaa111/001_Bag_bbb222.json".toList,
        "Contained/Inner_bbb222/001_Card_ccc333.json".toList] ∧
    startsWith "Contained/Inner_bbb222/001_Card_ccc333.json".toList
      "Contained/Outer_aaa111/".toList = false :=
  ⟨rfl, by decide⟩


theorem lazyRun_suffix (p : Char → Bool) (caps : List (Nat × Str)) (left right : Str)
    (t : MState) (h : t ∈ lazyRun p caps left right) : ∃ a, right = a ++ t.right := by
  induction right generalizing left with
  | nil =>
    simp only [lazyRun, List.mem_singleton] at h
    subst h
    exact ⟨[], rfl⟩
  | cons c r ih =>
    unfold lazyRun at h
    split at h
    · rcases List.mem_cons.1 h with rfl | h
      · exact ⟨[], rfl⟩
      · obtain ⟨a, ha⟩ := ih _ h
        exact ⟨c :: a, by rw [ha]; rfl⟩
    · rw [List.mem_singleton] at h
      subst h
      exact ⟨[], rfl⟩

/-- A match consumes a prefix of the text after the cursor. -/
theorem run_suffix (re : Re) : ∀ (s t : MState), t ∈ re.run s → ∃ a, s.right = a ++ t.right := by
  induction re with
  | eps =>
    intro s t h
    simp only [Re.run, List.mem_singleton] at h
    subst h
    exact ⟨[], rfl⟩
  | chr p =>
    intro s t h
    obtain ⟨c, r, hr, -, rfl⟩ := mem_run_chr.1 h
    exact ⟨[c], by simpa using hr⟩
  | seq a b iha ihb =>
    intro s t h
    obtain ⟨u, hu, ht⟩ := mem_run_seq.1 h
    obtain ⟨x, hx⟩ := iha s u hu
    obtain ⟨y, hy⟩ := ihb u t ht
    exact ⟨x ++ y, by rw [hx, hy, List.append_assoc]⟩
  | alt a b iha ihb =>
    intro s t h
    simp only [Re.run, List.mem_append] at h
    rcases h with h | h
    · exact iha s t h
    · exact ihb s t h
  | star p =>
    intro s t h
    obtain ⟨run, rest, hr, -, rfl⟩ := mem_run_star.1 h
    exact ⟨run, hr⟩
  | lazyStar p =>
    intro s t h
    simp only [Re.run] at h
    exact lazyRun_suffix p _ _ _ t h
  | group i a iha =>
    intro s t h
    obtain ⟨u, hu, rfl⟩ := mem_run_group.1 h
    exact iha s u hu
  | bol =>
    intro s t h
    obtain ⟨-, rfl⟩ := mem_run_bol.1 h
    exact ⟨[], rfl⟩
  | eol =>
    intro s t h
    obtain ⟨-, rfl⟩ := mem_run_eol.1 h
    exact ⟨[], rfl⟩
  | wordB =>
    intro s t h
    simp only [Re.run] at h
    split at h
    · rw [List.mem_singleton] at h
      subst h
      exact ⟨[], rfl⟩
    · cases h
  | look a _ =>
    intro s t h
    simp only [Re.run] at h
    split at h
    · cases h
    · rw [List.mem_singleton] at h
      subst h
      exact ⟨[], rfl⟩

theorem matchAt_some {re : Re} {l r : Str} {m : Match} (h : re.matchAt l r = some m) :
    m.pre = l.reverse ∧ r = m.matched ++ m.post := by
  unfold Re.matchAt at h
  cases hr : re.run ⟨l, r, []⟩ with
  | nil => rw [hr] at h; cases h
  | cons t tl =>
    rw [hr] at h
    simp only [Option.some.injEq] at h
    subst h
    obtain ⟨a, ha⟩ := run_suffix re ⟨l, r, []⟩ t (by rw [hr]; exact List.mem_cons_self _ _)
    simp only at ha
    refine ⟨rfl, ?_⟩
    simp only
    rw [consumed_eq ha]
    exact ha

theorem scan_some {re : Re} {left s : Str} {m : Match} (h : re.scan left s = some m) :
    ∃ a b, s = a ++ b ∧ re.matchAt (a.reverse ++ left) b = some m := by
  induction s generalizing left with
  | nil => exact ⟨[], [], rfl, by simpa [Re.scan] using h⟩
  | cons c cs ih =>
    rw [Re.scan] at h
    cases hm : re.matchAt left (c :: cs) with
    | some m' =>
      rw [hm] at h
      simp only [Option.some.injEq] at h
      subst h
      exact ⟨[], c :: cs, rfl, by simpa using hm⟩
    | none =>
      rw [hm] at h
      obtain ⟨a, b, hab, hmatch⟩ := ih h
      exact ⟨c :: a, b, by rw [hab]; rfl, by simpa using hmatch⟩

/-- The parts of the first match of a pattern make up the text. -/
theorem exec_some {re : Re} {s : Str} {m : Match} (h : re.exec s = some m) :
    s = m.pre ++ m.matched ++ m.post := by
  obtain ⟨a, b, hab, hm⟩ := scan_some h
  obtain ⟨hpre, hb⟩ := matchAt_some hm
  rw [hab, hb, hpre]
  simp

theorem mem_replaceAllFrom (re : Re) (rep : Str) (fuel : Nat) (left right : Str) (c : Char)
    (h : c ∈ re.replaceAllFrom rep fuel left right) : c ∈ right ∨ c ∈ rep := by
  induction fuel generalizing left right with
  | zero => exact Or.inl (by simpa [Re.replaceAllFrom] using h)
  | succ fuel ih =>
    unfold Re.replaceAllFrom at h
    cases hm : re.matchAt left right with
    | some m =>
      rw [hm] at h
      simp only at h
      obtain ⟨-, hr⟩ := matchAt_some hm
      split at h
      · cases right with
        | nil => exact Or.inr (by simpa using h)
        | cons x r =>
          simp only [List.mem_append, List.mem_cons] at h
          rcases h with h | rfl | h
          · exact Or.inr h
          · exact Or.inl (List.mem_cons_self _ _)
          · rcases ih _ _ h with h | h
            · exact Or.inl (List.mem_cons_of_mem _ h)
            · exact Or.inr h
      · rcases List.mem_append.1 h with h | h
        · exact Or.inr h
        · rcases ih _ _ h with h | h
          · exact Or.inl (by rw [hr]; exact List.mem_append_right _ h)
          · exact Or.inr h
    | none =>
      rw [hm] at h
      simp only at h
      cases right with
      | nil => simp at h
      | cons x r =>
        rcases List.mem_cons.1 h with rfl | h
        · exact Or.inl (List.mem_cons_self _ _)
        · rcases ih _ _ h with h | h
          · exact Or.inl (List.mem_cons_of_mem _ h)
          · exact Or.inr h

theorem mem_replaceAll (re : Re) (rep s : Str) (c : Char) (h : c ∈ re.replaceAll rep s) :
    c ∈ s ∨ c ∈ rep :=
  mem_replaceAllFrom re rep _ _ _ c h

theorem mem_replaceFirst (re : Re) (rep s : Str) (c : Char) (h : c ∈ re.replaceFirst rep s) :
    c ∈ s ∨ c ∈ rep := by
  unfold Re.replaceFirst at h
  cases hm : re.exec s with
  | none =>
    rw [hm] at h
    exact Or.inl h
  | some m =>
    rw [hm] at h
    simp only [List.mem_append] at h
    have hs := exec_some hm
    rcases h with (h | h) | h
    · exact Or.inl (by rw [hs]; simp [h])
    · exact Or.inr h
    · exact Or.inl (by rw [hs]; simp [h])


theorem kept_underscore (H : Host) : keptBySanitize H '_' = true := by simp [keptBySanitize]

theorem kept_dot (H : Host) : keptBySanitize H '.' = true := by simp [keptBySanitize]

theorem mem_replaceAll_notKept (H : Host) (s : Str) (c : Char)
    (h : c ∈ (Re.chr fun c => !keptBySanitize H c).replaceAll ['_'] s) :
    c ∈ s ∧ keptBySanitize H c = true ∨ c = '_' := by
  unfold Re.replaceAll at h
  rw [replaceAllFrom_chr _ _ _ _ _ (Nat.lt_succ_self _)] at h
  simp only [List.mem_flatMap] at h
  obtain ⟨d, hd, hc⟩ := h
  by_cases hk : keptBySanitize H d = true
  · simp only [hk, Bool.not_true, Bool.false_eq_true, if_false, List.mem_singleton] at hc
    subst hc
    exact Or.inl ⟨hd, hk⟩
  · simp only [hk, Bool.not_false, if_true, List.mem_singleton] at hc
    exact Or.inr hc

/-- The name before the fallback holds only characters the sanitiser keeps. -/
theorem cleanFileName_kept (H : Host) (input : Option Str) :
    ∀ c ∈ cleanFileName H input, keptBySanitize H c = true := by
  intro c hc
  unfold cleanFileName at hc
  simp only at hc
  rcases mem_replaceFirst _ _ _ c hc with hc | hc
  swap
  · cases hc
  rcases mem_replaceFirst _ _ _ c hc with hc | hc
  swap
  · cases hc
  rcases mem_replaceAll _ _ _ c hc with hc | hc
  swap
  · rw [List.mem_singleton.1 hc]
    exact kept_dot H
  rcases mem_replaceAll _ _ _ c hc with hc | hc
  swap
  · rw [List.mem_singleton.1 hc]
    exact kept_underscore H
  rcases mem_replaceAll_notKept H _ c hc with hc | hc
  · exact hc.2
  · rw [hc]
    exact kept_underscore H

theorem orFallback_cases (s fallback : Str) :
    orFallback s fallback = fallback ∨ (orFallback s fallback = s ∧ s ≠ []) := by
  unfold orFallback
  split
  · exact Or.inl rfl
  · rename_i h
    refine Or.inr ⟨rfl, ?_⟩
    rintro rfl
    simp [truthy] at h

theorem escapeReserved_cases (s : Str) :
    escapeReserved s = s ∨ escapeReserved s = '_' :: s := by
  unfold escapeReserved
  split
  · exact Or.inr rfl
  · exact Or.inl rfl

theorem replaceFirst_leading_all (p : Char → Bool) (s : Str) (h : ∀ c ∈ s, p c = true) :
    (Re.cat [.bol, .plus p]).replaceFirst [] s = [] := by
  cases s with
  | nil =>
    have : (Re.cat [.bol, .plus p]).exec [] = none := by
      simp [Re.exec, Re.scan, Re.matchAt, Re.cat, Re.plus, Re.run]
    simp [Re.replaceFirst, this]
  | cons c run =>
    have hf : (Re.cat [.bol, .plus p]).first ⟨[], c :: run ++ [], []⟩ =
        some ⟨(c :: run).reverse ++ [], [], []⟩ := by
      simp only [Re.cat]
      exact first_seq (first_bol _ _)
        (first_plus [] [] c run [] (h c (List.mem_cons_self _ _))
          (fun x hx => h x (List.mem_cons_of_mem _ hx)) (fun x r hr => by cases hr))
    rw [List.append_nil] at hf
    simp [Re.replaceFirst, exec_of_first hf]

theorem cleanFileName_no_letter (H : Host) (input : Option Str)
    (hin : ∀ c ∈ H.normalize (input.getD []), H.letterOrNumber c = false ∧ c ≠ '-') :
    cleanFileName H input = [] := by
  have h₁ : ∀ c ∈ (Re.chr fun c => !keptBySanitize H c).replaceAll ['_']
      ((Re.plus isSpace).replaceAll ['_']
        ((Re.chr isControl).replaceAll [] (H.normalize (input.getD [])))),
      c = '_' ∨ c = '.' := by
    intro c hc
    rcases mem_replaceAll_notKept H _ c hc with ⟨hc, hk⟩ | hc
    · rcases mem_replaceAll _ _ _ c hc with hc | hc
      · rcases mem_replaceAll _ _ _ c hc with hc | hc
        · obtain ⟨hl, hd⟩ := hin c hc
          simp only [keptBySanitize, hl, Bool.false_or, Bool.or_eq_true, beq_iff_eq] at hk
          rcases hk with (hk | hk) | hk
          · exact Or.inl hk
          · exact absurd hk hd
          · exact Or.inr hk
        · cases hc
      · exact Or.inl (List.mem_singleton.1 hc)
    · exact Or.inl hc
  have h₂ : ∀ c ∈ (Re.cat [.c '.', .c '.', .star fun c => c == '.']).replaceAll ['.']
      ((Re.plus fun c => c == '_').replaceAll ['_']
        ((Re.chr fun c => !keptBySanitize H c).replaceAll ['_']
          ((Re.plus isSpace).replaceAll ['_']
            ((Re.chr isControl).replaceAll [] (H.normalize (input.getD [])))))),
      isSpaceDotUnderscore c = true := by
    intro c hc
    have : c = '_' ∨ c = '.' := by
      rcases mem_replaceAll _ _ _ c hc with hc | hc
      · rcases mem_replaceAll _ _ _ c hc with hc | hc
        · exact h₁ c hc
        · exact Or.inl (List.mem_singleton.1 hc)
      · exact Or.inr (List.mem_singleton.1 hc)
    rcases this with rfl | rfl <;> decide
  unfold cleanFileName
  simp only
  rw [replaceFirst_leading_all _ _ h₂]
  decide

theorem mem_run_alt {a b : Re} {s t : MState} :
    t ∈ (Re.alt a b).run s ↔ t ∈ a.run s ∨ t ∈ b.run s := by
  simp [Re.run]

theorem litCI_three {a name : Str} (h : a.map Char.toLower = name.map Char.toLower)
    (hn : name.length = 3) : a.length = 3 ∧ a.head?.map Char.toLower = name.head?.map Char.toLower := by
  have hl := congrArg List.length h
  simp only [List.length_map] at hl
  refine ⟨by omega, ?_⟩
  have := congrArg List.head? h
  simpa [List.head?_map] using this

/-- A reserved device name has three or four characters, and its first character is a
letter. -/
theorem isReservedName_sound {s : Str} (h : isReservedName s = true) :
    (s.length = 3 ∨ s.length = 4) ∧ ∃ c rest, s = c :: rest ∧ c ≠ '_' := by
  unfold isReservedName at h
  cases he : reReserved.exec s with
  | none => simp [he] at h
  | some m =>
    have hm : reReserved.matchAt [] s = some m := by
      have := exec_bol_eq_matchAt
        (Re.cat [.group 1 (.alt (.litCI "con".toList) (.alt (.litCI "prn".toList)
          (.alt (.litCI "aux".toList) (.alt (.litCI "nul".toList)
            (.alt (.cat [.litCI "com".toList, .chr isDigitNonZero])
              (.cat [.litCI "lpt".toList, .chr isDigitNonZero])))))), .eol]) s
      rw [show reReserved = Re.seq .bol _ from rfl] at he ⊢
      rw [← this]
      exact he
    have hrun : reReserved.run ⟨[], s, []⟩ ≠ [] := by
      intro h0
      rw [matchAt_eq_none_iff.2 h0] at hm
      cases hm
    obtain ⟨t, ht⟩ := List.exists_mem_of_ne_nil _ hrun
    simp only [reReserved, Re.cat, mem_run_seq, mem_run_group, mem_run_bol, mem_run_eol,
      mem_run_chr, mem_run_alt, mem_run_litCI] at ht
    obtain ⟨u, ⟨-, rfl⟩, v, ⟨w, hw, rfl⟩, hv, -⟩ := ht
    simp only at hv hw
    have key : ∀ (a r : Str) (name : Str), s = a ++ r → r = [] →
        a.map Char.toLower = name.map Char.toLower → name.length = 3 →
        (name.head?.map Char.toLower ≠ some '_') →
        (s.length = 3 ∨ s.length = 4) ∧ ∃ c rest, s = c :: rest ∧ c ≠ '_' := by
      intro a r name hs hr ha hn hh
      subst hr
      rw [List.append_nil] at hs
      rw [hs]
      obtain ⟨hl, hhd⟩ := litCI_three ha hn
      refine ⟨Or.inl hl, ?_⟩
      cases a with
      | nil => simp at hl
      | cons c rest =>
        refine ⟨c, rest, rfl, ?_⟩
        rintro rfl
        apply hh
        rw [← hhd]
        rfl
    have key4 : ∀ (a r : Str) (d : Char) (r' : Str) (name : Str), s = a ++ r → r = d :: r' →
        r' = [] → a.map Char.toLower = name.map Char.toLower → name.length = 3 →
        (name.head?.map Char.toLower ≠ some '_') →
        (s.length = 3 ∨ s.length = 4) ∧ ∃ c rest, s = c :: rest ∧ c ≠ '_' := by
      intro a r d r' name hs hr hr' ha hn hh
      subst hr hr'
      rw [hs]
      obtain ⟨hl, hhd⟩ := litCI_three ha hn
      refine ⟨Or.inr (by simp [hl]), ?_⟩
      cases a with
      | nil => simp at hl
      | cons c rest =>
        refine ⟨c, rest ++ [d], rfl, ?_⟩
        rintro rfl
        apply hh
        rw [← hhd]
        rfl
    rcases hw with ⟨a, r, hs, ha, rfl⟩ | ⟨a, r, hs, ha, rfl⟩ | ⟨a, r, hs, ha, rfl⟩ |
      ⟨a, r, hs, ha, rfl⟩ | ⟨x, ⟨a, r, hs, ha, rfl⟩, d, r', hr, -, rfl⟩ |
      ⟨x, ⟨a, r, hs, ha, rfl⟩, d, r', hr, -, rfl⟩
    · exact key a r _ hs hv ha rfl (by decide)
    · exact key a r _ hs hv ha rfl (by decide)
    · exact key a r _ hs hv ha rfl (by decide)
    · exact key a r _ hs hv ha rfl (by decide)
    · exact key4 a r d r' _ hs hr hv ha rfl (by decide)
    · exact key4 a r d r' _ hs hr hv ha rfl (by decide)

theorem isReservedName_underscore (s : Str) : isReservedName ('_' :: s) = false := by
  cases h : isReservedName ('_' :: s) with
  | false => rfl
  | true =>
    obtain ⟨-, c, rest, hs, hc⟩ := isReservedName_sound h
    simp only [List.cons.injEq] at hs
    exact absurd hs.1.symm hc

theorem isReservedName_long (s : Str) (h : 4 < s.length) : isReservedName s = false := by
  cases hr : isReservedName s with
  | false => rfl
  | true =>
    obtain ⟨hl, -⟩ := isReservedName_sound hr
    omega


theorem validateObject_eq (hasTransform : Node → Bool) (i : Nat) (obj : Node)
    (st : ValidationState) :
    ∃ e msg, (∃ new, e = st.errors ++ new) ∧ (truthyOpt obj.guid = false → e ≠ []) ∧
      validateObject hasTransform i obj st =
        if truthyOpt obj.guid then
          if obj.guid.getD [] ∈ st.seenGuids then ⟨e ++ [msg], st.seenGuids⟩
          else ⟨e, setAdd st.seenGuids (obj.guid.getD [])⟩
        else ⟨e, st.seenGuids⟩ := by
  refine ⟨_, _, ?_, ?_, rfl⟩
  · split_ifs <;> simp
  · intro h
    simp only [h, Bool.not_false, if_true]
    split_ifs <;> simp

theorem validateObject_errors (hasTransform : Node → Bool) (i : Nat) (obj : Node)
    (st : ValidationState) :
    ∃ new, (validateObject hasTransform i obj st).errors = st.errors ++ new := by
  obtain ⟨e, msg, ⟨new, rfl⟩, -, h⟩ := validateObject_eq hasTransform i obj st
  rw [h]
  split_ifs
  · exact ⟨new ++ [msg], by simp⟩
  · exact ⟨new, rfl⟩
  · exact ⟨new, rfl⟩

theorem validateObjects_errors (hasTransform : Node → Bool) (i : Nat) (os : List Node)
    (st : ValidationState) (h : st.errors ≠ []) :
    (validateObjects hasTransform i os st).errors ≠ [] := by
  induction os generalizing i st with
  | nil => exact h
  | cons o os ih =>
    rw [validateObjects]
    apply ih
    obtain ⟨new, hnew⟩ := validateObject_errors hasTransform i o st
    rw [hnew]
    simp [h]

theorem validateObject_seen (hasTransform : Node → Bool) (i : Nat) (obj : Node)
    (st : ValidationState) (g : Str) (h : g ∈ st.seenGuids) :
    g ∈ (validateObject hasTransform i obj st).seenGuids := by
  obtain ⟨e, msg, -, -, he⟩ := validateObject_eq hasTransform i obj st
  rw [he]
  split_ifs
  · exact h
  · unfold setAdd
    split
    · exact h
    · exact List.mem_append_left _ h
  · exact h

theorem validateObject_falsy (hasTransform : Node → Bool) (i : Nat) (obj : Node)
    (st : ValidationState) (h : truthyOpt obj.guid = false) :
    (validateObject hasTransform i obj st).errors ≠ [] := by
  obtain ⟨e, msg, -, hne, he⟩ := validateObject_eq hasTransform i obj st
  rw [he, h]
  exact hne h

theorem validateObject_truthy (hasTransform : Node → Bool) (i : Nat) (obj : Node)
    (st : ValidationState) (g : Str) (hg : obj.guid = some g) (h : truthyOpt obj.guid = true) :
    (g ∈ st.seenGuids → (validateObject hasTransform i obj st).errors ≠ []) ∧
      g ∈ (validateObject hasTransform i obj st).seenGuids := by
  obtain ⟨e, msg, -, -, he⟩ := validateObject_eq hasTransform i obj st
  have hgd : obj.guid.getD [] = g := by rw [hg]; rfl
  rw [he, h, hgd]
  simp only [if_true]
  constructor
  · intro hs
    rw [if_pos hs]
    simp
  · split
    · assumption
    · rename_i hs
      unfold setAdd
      rw [if_neg hs]
      simp

/-- A GUID that the loop has seen and meets again leaves an error. -/
theorem validateObjects_seen (hasTransform : Node → Bool) (i : Nat) (os : List Node)
    (st : ValidationState) (g : Str) (hseen : g ∈ st.seenGuids) (j : Nat) (b : Node)
    (hb : os[j]? = some b) (hg : b.guid = some g) (ht : truthyOpt b.guid = true) :
    (validateObjects hasTransform i os st).errors ≠ [] := by
  induction os generalizing i st j with
  | nil => simp at hb
  | cons o os ih =>
    rw [validateObjects]
    cases j with
    | zero =>
      simp only [List.getElem?_cons_zero, Option.some.injEq] at hb
      subst hb
      exact validateObjects_errors _ _ _ _
        ((validateObject_truthy hasTransform i o st g hg ht).1 hseen)
    | succ j =>
      simp only [List.getElem?_cons_succ] at hb
      exact ih _ _ (validateObject_seen hasTransform i o st g hseen) j hb

theorem validateObjects_duplicate (hasTransform : Node → Bool) (k : Nat) (os : List Node)
    (st : ValidationState) (i j : Nat) (a b : Node) (hij : i < j) (ha : os[i]? = some a)
    (hb : os[j]? = some b) (hab : a.guid = b.guid) :
    (validateObjects hasTransform k os st).errors ≠ [] := by
  induction os generalizing k st i j with
  | nil => simp at ha
  | cons o os ih =>
    rw [validateObjects]
    cases j with
    | zero => omega
    | succ j =>
      simp only [List.getElem?_cons_succ] at hb
      cases i with
      | zero =>
        simp only [List.getElem?_cons_zero, Option.some.injEq] at ha
        subst ha
        cases ht : truthyOpt o.guid with
        | false =>
          exact validateObjects_errors _ _ _ _ (validateObject_falsy hasTransform k o st ht)
        | true =>
          cases hg : o.guid with
          | none => rw [hg] at ht; cases ht
          | some g =>
            exact validateObjects_seen hasTransform _ os _ g
              (validateObject_truthy hasTransform k o st g hg ht).2 j b hb
              (by rw [← hab, hg]) (by rw [← hab]; exact ht)
      | succ i =>
        simp only [List.getElem?_cons_succ] at ha
        exact ih _ _ i j (by omega) ha hb

/-- C17: when two nodes of the node sequence of the assembled document have the same GUID,
`validateModStructure` ends the process, and the step of `main` that validates and then writes
the output file leaves the files as they were. -/
theorem validateModStructure_duplicate (hasTransform : Node → Bool) (mod : ModDocument)
    (os : List Node) (i j : Nat) (a b : Node) (hos : mod.objectStates = some os) (hij : i < j)
    (ha : os[i]? = some a) (hb : os[j]? = some b) (hab : a.guid = b.guid) (fs : FS)
    (outputFile text : Str) :
    validateModStructure hasTransform mod = .exit ∧
      validateAndWrite hasTransform fs mod outputFile text = (fs, .exit) := by
  have herr : validationErrors hasTransform mod ≠ [] := by
    unfold validationErrors
    simp only [hos, Option.getD_some]
    exact validateObjects_duplicate hasTransform 0 os _ i j a b hij ha hb hab
  have hv : validateModStructure hasTransform mod = .exit := by
    unfold validateModStructure
    rw [if_pos (List.length_pos.2 herr)]
  refine ⟨hv, ?_⟩
  unfold validateAndWrite
  rw [hv]

/-- Witness for `validateModStructure_duplicate`: a document that is valid but for a card that
stands in it twice. -/
theorem validateModStructure_duplicate_witness :
    validateModStructure (fun _ => true)
        ⟨some [sampleCard, sampleBag, sampleCard], some "Save".toList, some "Game".toList⟩ =
      .exit ∧
    validateAndWrite (fun _ => true) ⟨[], []⟩
        ⟨some [sampleCard, sampleBag, sampleCard], some "Save".toList, some "Game".toList⟩
        "build/Save_v1.json".toList "text".toList = (⟨[], []⟩, .exit) :=
  validateModStructure_duplicate (fun _ => true) _ [sampleCard, sampleBag, sampleCard] 0 2
    sampleCard sampleCard rfl (by decide) rfl rfl rfl ⟨[], []⟩ _ _


theorem RunPost.refl_run (st : BundleState) : RunPost st st :=
  ⟨fun _ h => h, ⟨[], by simp, by simp⟩, fun _ h => h⟩

theorem RunPost.trans_run {a b c : BundleState} (h₁ : RunPost a b) (h₂ : RunPost b c) :
    RunPost a c := by
  obtain ⟨n₁, e₁, f₁⟩ := h₁.modules_mono
  obtain ⟨n₂, e₂, f₂⟩ := h₂.modules_mono
  refine ⟨fun _ h => h₂.visited_mono (h₁.visited_mono h), ⟨n₁ ++ n₂, ?_, ?_⟩,
    fun _ h => h₂.warnings_mono (h₁.warnings_mono h)⟩
  · rw [e₂, e₁, List.append_assoc]
  · intro m hm
    rcases List.mem_append.1 hm with hm | hm
    · exact f₁ m hm
    · exact fun hv => f₂ m hm (h₁.visited_mono hv)

theorem RunPost.ids_mono {a b : BundleState} (h : RunPost a b) {x : Str}
    (hx : x ∈ a.modules.map (·.id)) : x ∈ b.modules.map (·.id) := by
  obtain ⟨n, e, _⟩ := h.modules_mono
  rw [e, List.map_append]
  exact List.mem_append_left _ hx

theorem RunInv.warn_inv {fs : FS} {libDir : Str} {ch : List Str} {st : BundleState}
    (h : RunInv fs libDir ch st) (c : List Str) (d : Str) (hd : d ∈ c) :
    RunInv fs libDir ch { st with warnings := st.warnings ++ [c ++ [d]] } := by
  refine ⟨h.pending, h.collected, h.nodup, h.codes, ?_, ?_⟩
  · intro w hw
    rcases List.mem_append.1 hw with hw | hw
    · exact h.warned w hw
    · exact ⟨c, d, List.mem_singleton.1 hw, hd⟩
  · intro pre m post hsplit x hx
    rcases h.deps pre m post hsplit x hx with h₁ | h₁ | ⟨c', hc', hw⟩
    · exact Or.inl h₁
    · exact Or.inr (Or.inl h₁)
    · exact Or.inr (Or.inr ⟨c', hc', List.mem_append_left _ hw⟩)

theorem RunPost.warn_post (st : BundleState) (w : List Str) :
    RunPost st { st with warnings := st.warnings ++ [w] } :=
  ⟨fun _ h => h, ⟨[], by simp, by simp⟩, fun _ h => List.mem_append_left _ h⟩

theorem loadSubs_run {fs : FS} {libDir : Str}
    {load : Str → List Str → BundleState → Res BundleState} (hload : RunSpec fs libDir load)
    (id : Str) (chain subs : List Str) (st st' : BundleState)
    (hinv : RunInv fs libDir (chain ++ [id]) st)
    (h : loadSubs load id chain subs st = .ok st') :
    RunInv fs libDir (chain ++ [id]) st' ∧ RunPost st st' ∧
      ∀ sub ∈ subs, sub ∈ st'.modules.map (·.id) ∨ sub = id ∨
        ∃ ch, sub ∈ ch ∧ ch ++ [sub] ∈ st'.warnings := by
  induction subs generalizing st with
  | nil =>
    simp only [loadSubs, Res.ok.injEq] at h
    subst h
    exact ⟨hinv, RunPost.refl_run _, fun _ hs => absurd hs (List.not_mem_nil _)⟩
  | cons sub subs ih =>
    unfold loadSubs at h
    split at h
    · rename_i hmem
      obtain ⟨i₁, p₁, s₁⟩ := ih _ (hinv.warn_inv chain sub hmem) h
      refine ⟨i₁, (RunPost.warn_post st _).trans_run p₁, ?_⟩
      intro x hx
      rcases List.mem_cons.1 hx with rfl | hx
      · exact Or.inr (Or.inr ⟨chain, hmem,
          p₁.warnings_mono (List.mem_append_right _ (List.mem_singleton.2 rfl))⟩)
      · exact s₁ x hx
    · rename_i hmem
      cases hr : load sub (chain ++ [id]) st with
      | ok st₁ =>
        rw [hr] at h
        obtain ⟨i₀, p₀, s₀⟩ := hload sub _ st st₁ hinv hr
        obtain ⟨i₁, p₁, s₁⟩ := ih _ i₀ h
        refine ⟨i₁, p₀.trans_run p₁, ?_⟩
        intro x hx
        rcases List.mem_cons.1 hx with rfl | hx
        · rcases s₀ with s₀ | s₀
          · exact Or.inl (p₁.ids_mono s₀)
          · rcases List.mem_append.1 s₀ with s₀ | s₀
            · exact absurd s₀ hmem
            · exact Or.inr (Or.inl (List.mem_singleton.1 s₀))
        · exact s₁ x hx
      | exit => rw [hr] at h; cases h
      | crash => rw [hr] at h; cases h
      | timeout => rw [hr] at h; cases h

theorem split_last {α : Type} (xs pre post : List α) (x m : α)
    (h : xs ++ [x] = pre ++ m :: post) :
    (post = [] ∧ pre = xs ∧ m = x) ∨ ∃ post', post = post' ++ [x] ∧ xs = pre ++ m :: post' := by
  rcases List.eq_nil_or_concat post with rfl | ⟨post', y, rfl⟩
  · obtain ⟨h₁, h₂⟩ := List.append_inj' h rfl
    simp only [List.cons.injEq, and_true] at h₂
    exact Or.inl ⟨rfl, h₁.symm, h₂.symm⟩
  · right
    rw [List.concat_eq_append, ← List.cons_append, ← List.append_assoc] at h
    obtain ⟨h₁, h₂⟩ := List.append_inj' h rfl
    simp only [List.cons.injEq, and_true] at h₂
    subst h₂
    exact ⟨post', by simp, h₁⟩

theorem loadModule_run (fs : FS) (libDir : Str) (fuel : Nat) :
    RunSpec fs libDir (loadModule fs libDir fuel) := by
  induction fuel with
  | zero =>
    intro sub ch st st' _ h
    rw [loadModule_zero] at h
    cases h
  | succ fuel ih =>
    intro id ch st st' hinv h
    rw [loadModule_succ] at h
    split at h
    · rename_i hvis
      simp only [Res.ok.injEq] at h
      subst h
      exact ⟨hinv, RunPost.refl_run _, hinv.pending id hvis⟩
    · rename_i hvis
      cases hcode : moduleCode fs libDir id with
      | none => rw [hcode] at h; cases h
      | some code =>
        rw [hcode] at h
        simp only at h
        have hinv₁ : RunInv fs libDir (ch ++ [id]) { st with visited := st.visited ++ [id] } := by
          refine ⟨?_, ?_, hinv.nodup, hinv.codes, hinv.warned, hinv.deps⟩
          · intro v hv
            rcases List.mem_append.1 hv with hv | hv
            · rcases hinv.pending v hv with hp | hp
              · exact Or.inl hp
              · exact Or.inr (List.mem_append_left _ hp)
            · exact Or.inr (List.mem_append_right _ hv)
          · intro m hm
            exact List.mem_append_left _ (hinv.collected m hm)
        cases hr : loadSubs (loadModule fs libDir fuel) id ch (findRequireIds code)
            { st with visited := st.visited ++ [id] } with
        | ok st₂ =>
          rw [hr] at h
          simp only [Res.ok.injEq] at h
          subst h
          obtain ⟨i₂, p₂, s₂⟩ := loadSubs_run ih id ch _ _ st₂ hinv₁ hr
          obtain ⟨new, enew, fnew⟩ := p₂.modules_mono
          have hidnew : id ∉ st₂.modules.map (·.id) := by
            rw [enew, List.map_append, List.mem_append]
            rintro (hm | hm)
            · obtain ⟨m, hm', hmid⟩ := List.mem_map.1 hm
              exact hvis (hmid ▸ hinv.collected m hm')
            · obtain ⟨m, hm', hmid⟩ := List.mem_map.1 hm
              exact fnew m hm' (hmid ▸ List.mem_append_right _ (List.mem_singleton.2 rfl))
          refine ⟨⟨?_, ?_, ?_, ?_, i₂.warned, ?_⟩, ⟨?_, ⟨new ++ [⟨id, code⟩], ?_, ?_⟩, ?_⟩, ?_⟩
          · intro v hv
            rcases i₂.pending v hv with hp | hp
            · left
              simp only [List.map_append, List.mem_append]
              exact Or.inl hp
            · rcases List.mem_append.1 hp with hp | hp
              · exact Or.inr hp
              · left
                simp only [List.map_append, List.mem_append]
                exact Or.inr (by simpa using hp)
          · intro m hm
            rcases List.mem_append.1 hm with hm | hm
            · exact i₂.collected m hm
            · rw [List.mem_singleton.1 hm]
              exact p₂.visited_mono (List.mem_append_right _ (List.mem_singleton.2 rfl))
          · show ((st₂.modules ++ [(⟨id, code⟩ : LuaModule)]).map (·.id)).Nodup
            rw [List.map_append, List.nodup_append]
            refine ⟨i₂.nodup, by simp, ?_⟩
            intro x hx hx'
            simp only [List.map_cons, List.map_nil, List.mem_singleton] at hx'
            subst hx'
            exact hidnew hx
          · intro m hm
            rcases List.mem_append.1 hm with hm | hm
            · exact i₂.codes m hm
            · rw [List.mem_singleton.1 hm]
              exact hcode
          · intro pre m post hsplit d hd
            rcases split_last st₂.modules pre post ⟨id, code⟩ m hsplit with
              ⟨_, rfl, rfl⟩ | ⟨post', _, hmods⟩
            · exact s₂ d hd
            · exact i₂.deps pre m post' hmods d hd
          · exact fun v hv => p₂.visited_mono (List.mem_append_left _ hv)
          · show st₂.modules ++ [⟨id, code⟩] = st.modules ++ (new ++ [⟨id, code⟩])
            rw [enew, List.append_assoc]
          · intro m hm
            rcases List.mem_append.1 hm with hm | hm
            · exact fun hv => fnew m hm (List.mem_append_left _ hv)
            · rw [List.mem_singleton.1 hm]
              exact hvis
          · exact p₂.warnings_mono
          · left
            show id ∈ (st₂.modules ++ [(⟨id, code⟩ : LuaModule)]).map (·.id)
            simp
        | exit => rw [hr] at h; cases h
        | crash => rw [hr] at h; cases h
        | timeout => rw [hr] at h; cases h

theorem loadRoots_run (fs : FS) (libDir : Str) (fuel : Nat) (ids : List Str)
    (st st' : BundleState) (hinv : RunInv fs libDir [rootName] st)
    (h : loadRoots fs libDir fuel ids st = .ok st') :
    RunInv fs libDir [rootName] st' ∧ RunPost st st' := by
  induction ids generalizing st with
  | nil =>
    simp only [loadRoots, Res.ok.injEq] at h
    subst h
    exact ⟨hinv, RunPost.refl_run _⟩
  | cons id ids ih =>
    unfold loadRoots at h
    cases hr : loadModule fs libDir fuel id ["__root".toList] st with
    | ok st₁ =>
      rw [hr] at h
      obtain ⟨i₁, p₁, _⟩ := loadModule_run fs libDir fuel id [rootName] st st₁ hinv hr
      obtain ⟨i₂, p₂⟩ := ih st₁ i₁ h
      exact ⟨i₂, p₁.trans_run p₂⟩
    | exit => rw [hr] at h; cases h
    | crash => rw [hr] at h; cases h
    | timeout => rw [hr] at h; cases h

theorem collectModules_run (fs : FS) (libDir : Str) (fuel : Nat) (rootCode : Str)
    (st : BundleState) (h : collectModules fs libDir fuel rootCode = .ok st) :
    RunInv fs libDir [rootName] st := by
  refine (loadRoots_run fs libDir fuel _ ⟨[], [], []⟩ st ?_ h).1
  refine ⟨by simp, by simp, by simp, by simp, by simp, ?_⟩
  intro pre m post hsplit
  simp at hsplit


theorem loadSubs_quiet {fs : FS} {libDir rootCode : Str} {rank : Str → Nat}
    {load : Str → List Str → BundleState → Res BundleState}
    (hload : QuietLoader fs libDir rootCode rank load) (id : Str) (chain subs : List Str)
    (st st' : BundleState)
    (hsubs : ∀ sub ∈ subs, ImportsAll fs libDir rootCode sub ∧ rank sub < rank id)
    (hch : ∀ c ∈ chain, rank id < rank c)
    (h : loadSubs load id chain subs st = .ok st') :
    st'.warnings = st.warnings ∧
      ∀ m ∈ st'.modules, m ∈ st.modules ∨ ImportsAll fs libDir rootCode m.id := by
  induction subs generalizing st with
  | nil =>
    simp only [loadSubs, Res.ok.injEq] at h
    subst h
    exact ⟨rfl, fun m hm => Or.inl hm⟩
  | cons sub subs ih =>
    obtain ⟨himp, hrank⟩ := hsubs sub (List.mem_cons_self _ _)
    have hsubs' : ∀ x ∈ subs, ImportsAll fs libDir rootCode x ∧ rank x < rank id :=
      fun x hx => hsubs x (List.mem_cons_of_mem _ hx)
    unfold loadSubs at h
    split at h
    · rename_i hmem
      have := hch sub hmem
      omega
    · cases hr : load sub (chain ++ [id]) st with
      | ok st₁ =>
        rw [hr] at h
        have hlt : ∀ c ∈ chain ++ [id], rank sub < rank c := by
          intro c hc
          rcases List.mem_append.1 hc with hc | hc
          · have := hch c hc
            omega
          · rw [List.mem_singleton.1 hc]
            exact hrank
        obtain ⟨w₀, m₀⟩ := hload sub _ st st₁ himp hlt hr
        obtain ⟨w₁, m₁⟩ := ih st₁ hsubs' h
        refine ⟨w₁.trans w₀, fun m hm => ?_⟩
        rcases m₁ m hm with hm | hm
        · exact m₀ m hm
        · exact Or.inr hm
      | exit => rw [hr] at h; cases h
      | crash => rw [hr] at h; cases h
      | timeout => rw [hr] at h; cases h

theorem loadModule_quiet (fs : FS) (libDir rootCode : Str) (rank : Str → Nat)
    (hrank : RankedImports fs libDir rootCode rank) (fuel : Nat) :
    QuietLoader fs libDir rootCode rank (loadModule fs libDir fuel) := by
  induction fuel with
  | zero =>
    intro sub ch st st' _ _ h
    rw [loadModule_zero] at h
    cases h
  | succ fuel ih =>
    intro id ch st st' himp hch h
    rw [loadModule_succ] at h
    split at h
    · simp only [Res.ok.injEq] at h
      subst h
      exact ⟨rfl, fun m hm => Or.inl hm⟩
    · cases hcode : moduleCode fs libDir id with
      | none => rw [hcode] at h; cases h
      | some code =>
        rw [hcode] at h
        simp only at h
        cases hr : loadSubs (loadModule fs libDir fuel) id ch (findRequireIds code)
            { st with visited := st.visited ++ [id] } with
        | ok st₂ =>
          rw [hr] at h
          simp only [Res.ok.injEq] at h
          subst h
          obtain ⟨w₂, m₂⟩ := loadSubs_quiet ih id ch _ _ st₂
            (fun sub hsub => ⟨ImportsAll.step himp hcode hsub, hrank.2 id code sub himp hcode hsub⟩)
            hch hr
          refine ⟨w₂, fun m hm => ?_⟩
          rcases List.mem_append.1 hm with hm | hm
          · exact m₂ m hm
          · rw [List.mem_singleton.1 hm]
            exact Or.inr himp
        | exit => rw [hr] at h; cases h
        | crash => rw [hr] at h; cases h
        | timeout => rw [hr] at h; cases h

theorem loadRoots_quiet (fs : FS) (libDir rootCode : Str) (rank : Str → Nat)
    (hrank : RankedImports fs libDir rootCode rank) (fuel : Nat) (ids : List Str)
    (hids : ids ⊆ findRequireIds rootCode) (st st' : BundleState)
    (h : loadRoots fs libDir fuel ids st = .ok st') :
    st'.warnings = st.warnings ∧
      ∀ m ∈ st'.modules, m ∈ st.modules ∨ ImportsAll fs libDir rootCode m.id := by
  induction ids generalizing st with
  | nil =>
    simp only [loadRoots, Res.ok.injEq] at h
    subst h
    exact ⟨rfl, fun m hm => Or.inl hm⟩
  | cons id ids ih =>
    have hid := hids (List.mem_cons_self _ _)
    unfold loadRoots at h
    cases hr : loadModule fs libDir fuel id ["__root".toList] st with
    | ok st₁ =>
      rw [hr] at h
      obtain ⟨w₀, m₀⟩ := loadModule_quiet fs libDir rootCode rank hrank fuel id [rootName] st st₁
        (ImportsAll.root hid)
        (fun c hc => by rw [List.mem_singleton.1 hc]; exact hrank.1 id hid) hr
      obtain ⟨w₁, m₁⟩ := ih (fun x hx => hids (List.mem_cons_of_mem _ hx)) st₁ h
      refine ⟨w₁.trans w₀, fun m hm => ?_⟩
      rcases m₁ m hm with hm | hm
      · exact m₀ m hm
      · exact Or.inr hm
    | exit => rw [hr] at h; cases h
    | crash => rw [hr] at h; cases h
    | timeout => rw [hr] at h; cases h

theorem collectModules_quiet (fs : FS) (libDir rootCode : Str) (rank : Str → Nat)
    (hrank : RankedImports fs libDir rootCode rank) (fuel : Nat) (st : BundleState)
    (h : collectModules fs libDir fuel rootCode = .ok st) :
    st.warnings = [] ∧ ∀ m ∈ st.modules, ImportsAll fs libDir rootCode m.id := by
  obtain ⟨w, m⟩ := loadRoots_quiet fs libDir rootCode rank hrank fuel _ (fun _ hx => hx)
    ⟨[], [], []⟩ st h
  refine ⟨w, fun x hx => ?_⟩
  rcases m x hx with hm | hm
  · cases hm
  · exact hm

theorem loadSubs_no_crash {load : Str → List Str → BundleState → Res BundleState}
    (hload : ∀ sub ch st, load sub ch st ≠ .crash) (id : Str) (chain subs : List Str)
    (st : BundleState) : loadSubs load id chain subs st ≠ .crash := by
  induction subs generalizing st with
  | nil => simp [loadSubs]
  | cons sub subs ih =>
    unfold loadSubs
    split
    · exact ih _
    · cases hr : load sub (chain ++ [id]) st with
      | ok st₁ => exact ih _
      | exit => simp
      | crash => exact absurd hr (hload _ _ _)
      | timeout => simp

theorem loadModule_no_crash (fs : FS) (libDir : Str) (fuel : Nat) (id : Str) (ch : List Str)
    (st : BundleState) : loadModule fs libDir fuel id ch st ≠ .crash := by
  induction fuel generalizing id ch st with
  | zero => simp [loadModule_zero]
  | succ fuel ih =>
    rw [loadModule_succ]
    split
    · simp
    · cases hcode : moduleCode fs libDir id with
      | none => simp
      | some code =>
        simp only
        cases hr : loadSubs (loadModule fs libDir fuel) id ch (findRequireIds code)
            { st with visited := st.visited ++ [id] } with
        | ok st₂ => simp
        | exit => simp
        | crash => exact absurd hr (loadSubs_no_crash ih _ _ _ _)
        | timeout => simp

theorem loadRoots_no_crash (fs : FS) (libDir : Str) (fuel : Nat) (ids : List Str)
    (st : BundleState) : loadRoots fs libDir fuel ids st ≠ .crash := by
  induction ids generalizing st with
  | nil => simp [loadRoots]
  | cons id ids ih =>
    unfold loadRoots
    cases hr : loadModule fs libDir fuel id ["__root".toList] st with
    | ok st₁ => exact ih _
    | exit => simp
    | crash => exact absurd hr (loadModule_no_crash _ _ _ _ _ _)
    | timeout => simp

theorem collectModules_no_crash (fs : FS) (libDir : Str) (fuel : Nat) (rootCode : Str) :
    collectModules fs libDir fuel rootCode ≠ .crash :=
  loadRoots_no_crash fs libDir fuel _ _

theorem bundleLuaIfNeeded_cases (fs : FS) (libDir rootCode : Str) (k : Nat)
    (hne : findRequireIds rootCode ≠ []) :
    bundleLuaIfNeeded fs libDir ((requireUniverse fs rootCode).length + 1 + k) rootCode =
        .exit ∨
      ∃ st, collectModules fs libDir ((requireUniverse fs rootCode).length + 1 + k) rootCode =
          .ok st ∧
        bundleLuaIfNeeded fs libDir ((requireUniverse fs rootCode).length + 1 + k) rootCode =
          .ok (emitBundle st.modules rootCode) := by
  have hnt := collectModules_no_timeout fs libDir rootCode
    ((requireUniverse fs rootCode).length + 1 + k) (by omega)
  have hnc := collectModules_no_crash fs libDir
    ((requireUniverse fs rootCode).length + 1 + k) rootCode
  have hemp : (findRequireIds rootCode).isEmpty = false := by
    cases h : findRequireIds rootCode with
    | nil => exact absurd h hne
    | cons x xs => rfl
  unfold bundleLuaIfNeeded
  rw [hemp]
  simp only [Bool.false_eq_true, if_false]
  split
  · exact Or.inl rfl
  · cases hr : collectModules fs libDir ((requireUniverse fs rootCode).length + 1 + k)
        rootCode with
    | ok st => exact Or.inr ⟨st, rfl, rfl⟩
    | exit => exact Or.inl rfl
    | crash => exact absurd hr hnc
    | timeout => exact absurd hr hnt


theorem chainLib_importsAll (id : Str)
    (h : ImportsAll chainLib "lib".toList cyclicEntry id) :
    id = "A".toList ∨ id = "B".toList := by
  induction h with
  | root h =>
    have : findRequireIds cyclicEntry = ["A".toList] := by decide
    rw [this] at h
    exact Or.inl (List.mem_singleton.1 h)
  | step _ hcode hsub ih =>
    rcases ih with rfl | rfl
    · have : moduleCode chainLib "lib".toList "A".toList =
          some "local b = require(\"B\")\nreturn 1".toList := by decide
      rw [this] at hcode
      cases hcode
      have : findRequireIds "local b = require(\"B\")\nreturn 1".toList = ["B".toList] := by decide
      rw [this] at hsub
      exact Or.inr (List.mem_singleton.1 hsub)
    · have : moduleCode chainLib "lib".toList "B".toList = some "return 2".toList := by decide
      rw [this] at hcode
      cases hcode
      have : findRequireIds "return 2".toList = [] := by decide
      rw [this] at hsub
      cases hsub

theorem chainLib_acyclic : Acyclic chainLib "lib".toList cyclicEntry := by
  refine ⟨chainRank, ?_, ?_⟩
  · intro id hid
    have : findRequireIds cyclicEntry = ["A".toList] := by decide
    rw [this] at hid
    rw [List.mem_singleton.1 hid]
    decide
  · intro m code d hm hcode hd
    rcases chainLib_importsAll m hm with rfl | rfl
    · have : moduleCode chainLib "lib".toList "A".toList =
          some "local b = require(\"B\")\nreturn 1".toList := by decide
      rw [this] at hcode
      cases hcode
      have : findRequireIds "local b = require(\"B\")\nreturn 1".toList = ["B".toList] := by decide
      rw [this] at hd
      rw [List.mem_singleton.1 hd]
      decide
    · have : moduleCode chainLib "lib".toList "B".toList = some "return 2".toList := by decide
      rw [this] at hcode
      cases hcode
      have : findRequireIds "return 2".toList = [] := by decide
      rw [this] at hd
      cases hd

/-- C18: when the import graph reached from the entry body is acyclic and the entry body is not
free of imports, a run of `bundleLuaIfNeeded` with enough fuel either exits (the library directory
or a module is missing, or a module is empty) or emits the header, the registration blocks of the
collected modules and, last, the registration block of the entry body; every collected module
holds the text of its file, and every identifier a collected module imports is registered by a
block before the block of the module. -/
theorem bundleLuaIfNeeded_dependency_first (fs : FS) (libDir rootCode : Str) (k : Nat)
    (hacyc : Acyclic fs libDir rootCode) (hne : findRequireIds rootCode ≠ []) :
    bundleLuaIfNeeded fs libDir ((requireUniverse fs rootCode).length + 1 + k) rootCode =
        .exit ∨
      ∃ modules : List LuaModule,
        bundleLuaIfNeeded fs libDir ((requireUniverse fs rootCode).length + 1 + k) rootCode =
          .ok (joinWith "\n\n".toList
            (emitLuabundleHeader :: modules.map registerBlock ++ [rootBlock rootCode])) ∧
        (∀ m ∈ modules, moduleCode fs libDir m.id = some m.code) ∧
        ∀ pre m post, modules = pre ++ m :: post →
          ∀ d ∈ findRequireIds m.code, d ∈ pre.map (·.id) := by
  rcases bundleLuaIfNeeded_cases fs libDir rootCode k hne with h | ⟨st, hst, hout⟩
  · exact Or.inl h
  · right
    obtain ⟨rank, hrank⟩ := hacyc
    have hinv := collectModules_run fs libDir _ rootCode st hst
    obtain ⟨hw, himp⟩ := collectModules_quiet fs libDir rootCode rank hrank _ st hst
    refine ⟨st.modules, hout, hinv.codes, ?_⟩
    intro pre m post hsplit d hd
    have hm : m ∈ st.modules := by
      rw [hsplit]
      exact List.mem_append_right _ (List.mem_cons_self _ _)
    rcases hinv.deps pre m post hsplit d hd with h | h | ⟨ch, _, hwarn⟩
    · exact h
    · have := hrank.2 m.id m.code d (himp m hm) (hinv.codes m hm) hd
      rw [h] at this
      omega
    · rw [hw] at hwarn
      cases hwarn

/-- Witness for `bundleLuaIfNeeded_dependency_first`: `A` imports `B`, the entry imports `A`. -/
theorem bundleLuaIfNeeded_dependency_first_witness :
    Acyclic chainLib "lib".toList cyclicEntry ∧ findRequireIds cyclicEntry ≠ [] ∧
    (bundleLuaIfNeeded chainLib "lib".toList
        ((requireUniverse chainLib cyclicEntry).length + 1 + 0) cyclicEntry = .exit ∨
      ∃ modules : List LuaModule,
        bundleLuaIfNeeded chainLib "lib".toList
            ((requireUniverse chainLib cyclicEntry).length + 1 + 0) cyclicEntry =
          .ok (joinWith "\n\n".toList
            (emitLuabundleHeader :: modules.map registerBlock ++ [rootBlock cyclicEntry])) ∧
        (∀ m ∈ modules, moduleCode chainLib "lib".toList m.id = some m.code) ∧
        ∀ pre m post, modules = pre ++ m :: post →
          ∀ d ∈ findRequireIds m.code, d ∈ pre.map (·.id)) :=
  ⟨chainLib_acyclic, by decide,
    bundleLuaIfNeeded_dependency_first chainLib "lib".toList cyclicEntry 0 chainLib_acyclic
      (by decide)⟩


theorem registerBlocks_text (mods : List LuaModule) :
    (mods.map registerBlock).flatMap (fun x => x ++ blockSep) =
      mods.flatMap fun m =>
        "__bundle_register(\"".toList ++ m.id ++
          "\", function(require, _LOADED, __bundle_register, __bundle_modules)\n".toList ++
          m.code ++ "\nend)\n\n".toList := by
  induction mods with
  | nil => rfl
  | cons m mods ih =>
    rw [List.map_cons, List.flatMap_cons, List.flatMap_cons, ih]
    congr 1
    simp [registerBlock, registerOpen, blockSep, List.append_assoc]

theorem rootBlock_text (body : Str) :
    rootBlock body =
      "__bundle_register(\"__root\", function(require, _LOADED, __bundle_register, __bundle_modules)\n".toList ++
        body ++ "\nend)\n\nreturn __bundle_require(\"__root\")".toList := by
  simp [rootBlock, registerOpen, List.append_assoc]

theorem header_text (h : Str) (xs : List Str) :
    (h :: xs).flatMap (fun x => x ++ blockSep) =
      h ++ "\n\n".toList ++ xs.flatMap (fun x => x ++ blockSep) := by
  rw [List.flatMap_cons]
  rfl

theorem emitBundle_text (mods : List LuaModule) (body : Str) :
    emitBundle mods body =
      emitLuabundleHeader ++ "\n\n".toList ++
        (mods.flatMap fun m =>
          "__bundle_register(\"".toList ++ m.id ++
            "\", function(require, _LOADED, __bundle_register, __bundle_modules)\n".toList ++
            m.code ++ "\nend)\n\n".toList) ++
        ("__bundle_register(\"__root\", function(require, _LOADED, __bundle_register, __bundle_modules)\n".toList ++
          body ++ "\nend)\n\nreturn __bundle_require(\"__root\")".toList) := by
  rw [emitBundle_eq, header_text, registerBlocks_text, rootBlock_text]

/-- C19: for an entry body with at least one import, a run of `bundleLuaIfNeeded` with enough
fuel either exits or returns exactly: the header, then for every collected module, in the order
of collection, a block `__bundle_register("<id>", function(...)`, the text of the file of the
module as read, `end)`, then the block of that form named `__root` holding the entry body, then
`return __bundle_require("__root")`, the parts separated by an empty line; it does not exit
when the library directory exists and every module followed from the entry body resolves to a
file that is neither empty nor blank. -/
theorem bundleLuaIfNeeded_layout (fs : FS) (libDir rootCode : Str) (k : Nat)
    (hne : findRequireIds rootCode ≠ []) :
    (bundleLuaIfNeeded fs libDir ((requireUniverse fs rootCode).length + 1 + k) rootCode =
        .exit ∨
      ∃ st, collectModules fs libDir ((requireUniverse fs rootCode).length + 1 + k) rootCode =
          .ok st ∧
        (∀ m ∈ st.modules, moduleCode fs libDir m.id = some m.code) ∧
        bundleLuaIfNeeded fs libDir ((requireUniverse fs rootCode).length + 1 + k) rootCode =
          .ok (emitLuabundleHeader ++ "\n\n".toList ++
            (st.modules.flatMap fun m =>
              "__bundle_register(\"".toList ++ m.id ++
                "\", function(require, _LOADED, __bundle_register, __bundle_modules)\n".toList ++
                m.code ++ "\nend)\n\n".toList) ++
            ("__bundle_register(\"__root\", function(require, _LOADED, __bundle_register, __bundle_modules)\n".toList ++
              rootCode ++ "\nend)\n\nreturn __bundle_require(\"__root\")".toList))) ∧
    (fs.existsSync (pathNormalize libDir) = true →
      (∀ id, Imports fs libDir rootCode id → (moduleCode fs libDir id).isSome) →
      bundleLuaIfNeeded fs libDir ((requireUniverse fs rootCode).length + 1 + k) rootCode ≠
        .exit) := by
  constructor
  · rcases bundleLuaIfNeeded_cases fs libDir rootCode k hne with h | ⟨st, hst, hout⟩
    · exact Or.inl h
    · right
      refine ⟨st, hst, (collectModules_run fs libDir _ rootCode st hst).codes, ?_⟩
      rw [hout, emitBundle_text]
  · intro hdir hres
    obtain ⟨st, hst, _⟩ := collectModules_spec fs libDir rootCode hres k
    rw [bundleLuaIfNeeded_ok fs libDir _ rootCode st hne hdir hst]
    simp

/-- Witness for `bundleLuaIfNeeded_layout`: the entry that imports `A` of the library in which
`A` imports `B`. -/
theorem bundleLuaIfNeeded_layout_witness :
    findRequireIds cyclicEntry ≠ [] ∧
    bundleLuaIfNeeded chainLib "lib".toList
        ((requireUniverse chainLib cyclicEntry).length + 1 + 0) cyclicEntry ≠ .exit :=
  ⟨by decide,
    (bundleLuaIfNeeded_layout chainLib "lib".toList cyclicEntry 0 (by decide)).2 (by decide)
      (fun id h => by
        have h' : ImportsAll chainLib "lib".toList cyclicEntry id := by
          induction h with
          | root h => exact ImportsAll.root h
          | step _ hcode hsub _ ih => exact ImportsAll.step ih hcode hsub
        rcases chainLib_importsAll id h' with rfl | rfl <;> decide)⟩


/-- What the module collection does with circular imports: a run of the module collection of
`bundleLuaIfNeeded` with enough fuel does not run out of fuel, cyclic libraries included; when
it completes, no module is collected twice, every warning names a chain followed by an
identifier of that chain, and every import of a collected module that is neither registered
before the module nor the module itself was skipped with such a warning; for `A` importing `B`
importing `A` the run completes with both modules and exactly one warning, `__root -> A -> A`. -/
theorem collectModules_circular (fs : FS) (libDir rootCode : Str) (k : Nat) :
    collectModules fs libDir ((requireUniverse fs rootCode).length + 1 + k) rootCode ≠
        .timeout ∧
    (∀ st, collectModules fs libDir ((requireUniverse fs rootCode).length + 1 + k) rootCode =
        .ok st →
      (st.modules.map (·.id)).Nodup ∧
      (∀ w ∈ st.warnings, ∃ ch d, w = ch ++ [d] ∧ d ∈ ch) ∧
      ∀ pre m post, st.modules = pre ++ m :: post → ∀ d ∈ findRequireIds m.code,
        d ∉ pre.map (·.id) → d ≠ m.id → ∃ ch, d ∈ ch ∧ ch ++ [d] ∈ st.warnings) ∧
    collectModules cyclicLib "lib".toList
        ((requireUniverse cyclicLib cyclicEntry).length + 1 + k) cyclicEntry =
      .ok ⟨["A".toList, "B".toList],
        [⟨"B".toList, "local a = require(\"A\")\nreturn 2".toList⟩,
          ⟨"A".toList, "local b = require(\"B\")\nreturn 1".toList⟩],
        [["__root".toList, "A".toList, "A".toList]]⟩ := by
  refine ⟨collectModules_no_timeout fs libDir rootCode _ (by omega), fun st hst => ?_, ?_⟩
  · have hinv := collectModules_run fs libDir _ rootCode st hst
    refine ⟨hinv.nodup, hinv.warned, ?_⟩
    intro pre m post hsplit d hd hpre hself
    rcases hinv.deps pre m post hsplit d hd with h | h | h
    · exact absurd h hpre
    · exact absurd h hself
    · exact h
  · rw [collectModules_mono]
    decide

/-- C20 fails in the code: in this library `A` imports itself, the entry imports `A`, and the
run completes with `A` collected and no warning at all: `loadModule` tests the chain of the
ancestors, which does not hold the module that is being loaded, though it passes that module
down the chain. For the same reason the one warning for `A` importing `B` importing `A` names
the chain `__root -> A -> A`, without the module `B` that imports `A`. -/
theorem self_import_no_warning :
    ImportsAll selfLib "lib".toList cyclicEntry "A".toList ∧
    moduleCode selfLib "lib".toList "A".toList =
      some "local a = require(\"A\")\nreturn 1".toList ∧
    "A".toList ∈ findRequireIds "local a = require(\"A\")\nreturn 1".toList ∧
    (∀ k, collectModules selfLib "lib".toList
        ((requireUniverse selfLib cyclicEntry).length + 1 + k) cyclicEntry =
      .ok ⟨["A".toList], [⟨"A".toList, "local a = require(\"A\")\nreturn 1".toList⟩], []⟩) ∧
    ∀ k, collectModules cyclicLib "lib".toList
        ((requireUniverse cyclicLib cyclicEntry).length + 1 + k) cyclicEntry =
      .ok ⟨["A".toList, "B".toList],
        [⟨"B".toList, "local a = require(\"A\")\nreturn 2".toList⟩,
          ⟨"A".toList, "local b = require(\"B\")\nreturn 1".toList⟩],
        [["__root".toList, "A".toList, "A".toList]]⟩ := by
  refine ⟨ImportsAll.root (by decide), by decide, by decide, fun k => ?_, fun k => ?_⟩
  · rw [collectModules_mono]
    decide
  · rw [collectModules_mono]
    decide


theorem bundleLines_unmatched (fs : FS) (xmlDir : Str) (recur : Str → List Str → Res Str)
    (visited : List Str) (lines : List Str)
    (h : ∀ line ∈ lines, INCLUDE_PATTERN.exec line = none) :
    bundleLines fs xmlDir recur visited lines = .ok lines := by
  induction lines with
  | nil => rfl
  | cons l ls ih =>
    rw [bundleLines, h l (List.mem_cons_self _ _)]
    simp only
    rw [ih (fun x hx => h x (List.mem_cons_of_mem _ hx))]
    rfl

/-- C21: a markup text in which no line matches `INCLUDE_PATTERN` is returned unchanged by
`bundleXML`, whatever the file system, the source directory and the guard set are. -/
theorem bundleXML_no_directive (fs : FS) (xmlDir : Str) (fuel : Nat) (xmlContent : Str)
    (visited : List Str)
    (h : ∀ line ∈ splitOn '\n' xmlContent, INCLUDE_PATTERN.exec line = none) :
    bundleXML fs xmlDir (fuel + 1) xmlContent visited = .ok xmlContent := by
  rw [bundleXML]
  split
  · rfl
  · rw [bundleLines_unmatched fs xmlDir _ visited _ h]
    simp only
    rw [joinWith_splitOn]

set_option maxRecDepth 100000 in
/-- Witness for `bundleXML_no_directive`: a panel of three lines, in a directory that has a
fragment. -/
theorem bundleXML_no_directive_witness :
    (∀ line ∈ splitOn '\n' "<Panel>\n  <Text/>\n</Panel>".toList,
      INCLUDE_PATTERN.exec line = none) ∧
    bundleXML panelDir "ui".toList (0 + 1) "<Panel>\n  <Text/>\n</Panel>".toList
      ["panel".toList] = .ok "<Panel>\n  <Text/>\n</Panel>".toList :=
  ⟨by decide, bundleXML_no_directive panelDir "ui".toList 0 _ _ (by decide)⟩

theorem mem_includeSources {text line : Str} {m : Match} (hl : line ∈ splitOn '\n' text)
    (hm : INCLUDE_PATTERN.exec line = some m) :
    cleanSrcOf ((m.cap 2).getD []) ∈ includeSources text := by
  unfold includeSources
  rw [List.mem_filterMap]
  exact ⟨line, hl, by rw [hm]; rfl⟩

theorem filter_length_lt {α : Type} (p q : α → Bool) (l : List α) (t : α) (ht : t ∈ l)
    (hpq : ∀ a, q a = true → p a = true) (hp : p t = true) (hq : q t = false) :
    (l.filter q).length < (l.filter p).length := by
  induction l with
  | nil => cases ht
  | cons u us ih =>
    have hle : (us.filter q).length ≤ (us.filter p).length :=
      (List.monotone_filter_right us hpq).length_le
    rcases List.mem_cons.1 ht with rfl | ht'
    · rw [List.filter_cons_of_pos hp, List.filter_cons_of_neg (by simp [hq]), List.length_cons]
      omega
    · have := ih ht'
      cases hqu : q u with
      | true =>
        rw [List.filter_cons_of_pos hqu, List.filter_cons_of_pos (hpq u hqu), List.length_cons,
          List.length_cons]
        omega
      | false =>
        rw [List.filter_cons_of_neg (by simp [hqu])]
        cases hpu : p u with
        | true =>
          rw [List.filter_cons_of_pos hpu, List.length_cons]
          omega
        | false =>
          rw [List.filter_cons_of_neg (by simp [hpu])]
          exact this

theorem unguarded_lt (U visited : List Str) (t : Str) (ht : t ∈ U) (hv : t ∉ visited) :
    (unguarded U (visited ++ [t])).length < (unguarded U visited).length := by
  unfold unguarded
  apply filter_length_lt _ _ U t ht
  · intro a ha
    simp only [decide_eq_true_eq] at ha ⊢
    exact fun h => ha (List.mem_append_left _ h)
  · simpa using hv
  · simp

theorem bundleLines_ok (fs : FS) (xmlDir : Str) (recur : Str → List Str → Res Str)
    (U visited lines : List Str)
    (hU : ∀ line ∈ lines, ∀ m, INCLUDE_PATTERN.exec line = some m →
      cleanSrcOf ((m.cap 2).getD []) ∈ U)
    (hrec : ∀ t ∈ U, t ∉ visited → ∀ p c, fs.readFileSync p = some c →
      ∃ r, recur c (visited ++ [t]) = .ok r) :
    ∃ R, bundleLines fs xmlDir recur visited lines = .ok R := by
  induction lines with
  | nil => exact ⟨[], rfl⟩
  | cons l ls ih =>
    obtain ⟨R, hR⟩ := ih (fun x hx => hU x (List.mem_cons_of_mem _ hx))
    rw [bundleLines, hR]
    simp only
    cases hm : INCLUDE_PATTERN.exec l with
    | none => exact ⟨_, rfl⟩
    | some m =>
      simp only
      have ht := hU l (List.mem_cons_self _ _) m hm
      split
      · exact ⟨_, rfl⟩
      · rename_i hv
        split
        · exact ⟨_, rfl⟩
        · cases hrd : fs.readFileSync
              (pathJoin [xmlDir, xmlFileOf (cleanSrcOf ((m.cap 2).getD []))]) with
          | none => exact ⟨_, rfl⟩
          | some c =>
            obtain ⟨r, hr⟩ := hrec _ ht hv _ c hrd
            simp only [hr]
            exact ⟨_, rfl⟩

theorem bundleXML_ok (fs : FS) (xmlDir : Str) (U : List Str)
    (hfiles : ∀ f ∈ fs.files, includeSources f.2 ⊆ U) (fuel : Nat) :
    ∀ content visited, includeSources content ⊆ U → (unguarded U visited).length < fuel →
      ∃ r, bundleXML fs xmlDir fuel content visited = .ok r := by
  induction fuel with
  | zero =>
    intro content visited _ h
    omega
  | succ fuel ih =>
    intro content visited hc hlen
    rw [bundleXML]
    split
    · exact ⟨_, rfl⟩
    · obtain ⟨R, hR⟩ := bundleLines_ok fs xmlDir (bundleXML fs xmlDir fuel) U visited
        (splitOn '\n' content)
        (fun line hl m hm => hc (mem_includeSources hl hm))
        (fun t ht hv p c hrd => ih c (visited ++ [t])
          (hfiles (p, c) (mem_of_lookup hrd))
          (by have := unguarded_lt U visited t ht hv; omega))
      rw [hR]
      exact ⟨_, rfl⟩

theorem unguarded_le (U visited : List Str) : (unguarded U visited).length ≤ U.length :=
  List.length_filter_le _ _

theorem bundleLines_mono {fs : FS} {xmlDir : Str} {recur₁ recur₂ : Str → List Str → Res Str}
    (h : ∀ c v r, recur₁ c v = .ok r → recur₂ c v = .ok r) (visited lines : List Str)
    (R : List Str) (hR : bundleLines fs xmlDir recur₁ visited lines = .ok R) :
    bundleLines fs xmlDir recur₂ visited lines = .ok R := by
  induction lines generalizing R with
  | nil => simpa [bundleLines] using hR
  | cons l ls ih =>
    rw [bundleLines] at hR ⊢
    cases hrest : bundleLines fs xmlDir recur₁ visited ls with
    | ok more =>
      rw [hrest] at hR
      rw [ih more hrest]
      simp only at hR ⊢
      cases hm : INCLUDE_PATTERN.exec l with
      | none => rw [hm] at hR; exact hR
      | some m =>
        rw [hm] at hR
        simp only at hR ⊢
        split
        · rename_i hv
          rw [if_pos hv] at hR
          exact hR
        · rename_i hv
          rw [if_neg hv] at hR
          split
          · rename_i hex
            rw [if_pos hex] at hR
            exact hR
          · rename_i hex
            rw [if_neg hex] at hR
            cases hrd : fs.readFileSync
                (pathJoin [xmlDir, xmlFileOf (cleanSrcOf ((m.cap 2).getD []))]) with
            | none => rw [hrd] at hR; exact hR
            | some c =>
              rw [hrd] at hR
              simp only at hR ⊢
              cases hr : recur₁ c (visited ++ [cleanSrcOf ((m.cap 2).getD [])]) with
              | ok b =>
                rw [hr] at hR
                rw [h _ _ _ hr]
                exact hR
              | exit => rw [hr] at hR; cases hR
              | crash => rw [hr] at hR; cases hR
              | timeout => rw [hr] at hR; cases hR
    | exit =>
      rw [hrest] at hR
      simp only at hR
      split at hR <;> (try split at hR) <;> (try split at hR) <;> (try split at hR) <;>
        (try split at hR) <;> cases hR
    | crash =>
      rw [hrest] at hR
      simp only at hR
      split at hR <;> (try split at hR) <;> (try split at hR) <;> (try split at hR) <;>
        (try split at hR) <;> cases hR
    | timeout =>
      rw [hrest] at hR
      simp only at hR
      split at hR <;> (try split at hR) <;> (try split at hR) <;> (try split at hR) <;>
        (try split at hR) <;> cases hR

theorem bundleXML_mono_succ (fs : FS) (xmlDir : Str) (fuel : Nat) :
    ∀ c v r, bundleXML fs xmlDir fuel c v = .ok r → bundleXML fs xmlDir (fuel + 1) c v = .ok r := by
  induction fuel with
  | zero =>
    intro c v r h
    rw [bundleXML] at h
    cases h
  | succ fuel ih =>
    intro c v r h
    rw [bundleXML] at h ⊢
    split
    · rename_i ht
      rw [if_pos ht] at h
      exact h
    · rename_i ht
      rw [if_neg ht] at h
      cases hR : bundleLines fs xmlDir (bundleXML fs xmlDir fuel) v (splitOn '\n' c) with
      | ok R =>
        rw [hR] at h
        rw [bundleLines_mono ih v _ R hR]
        exact h
      | exit => rw [hR] at h; cases h
      | crash => rw [hR] at h; cases h
      | timeout => rw [hR] at h; cases h

theorem bundleXML_mono (fs : FS) (xmlDir : Str) (fuel k : Nat) (c : Str) (v : List Str) (r : Str)
    (h : bundleXML fs xmlDir fuel c v = .ok r) : bundleXML fs xmlDir (fuel + k) c v = .ok r := by
  induction k with
  | zero => exact h
  | succ k ih => exact bundleXML_mono_succ fs xmlDir (fuel + k) c v r ih

/-- C24: for every markup text, every file system and every guard set, sets of files whose
directives form cycles or name missing files included, the expansion `bundleXML` does not run
out of fuel once the fuel exceeds the number of sources the directives of the texts name: it
returns a result, the same one for every larger amount of fuel. -/
theorem bundleXML_terminates (fs : FS) (xmlDir xmlContent : Str) (visited : List Str) :
    ∃ result, ∀ k, bundleXML fs xmlDir ((includeUniverse fs xmlContent).length + 1 + k)
      xmlContent visited = .ok result := by
  obtain ⟨r, hr⟩ := bundleXML_ok fs xmlDir (includeUniverse fs xmlContent)
    (fun f hf x hx => List.mem_append_right _ (List.mem_flatMap.2 ⟨f, hf, hx⟩))
    ((includeUniverse fs xmlContent).length + 1) xmlContent visited
    (fun x hx => List.mem_append_left _ hx)
    (by have := unguarded_le (includeUniverse fs xmlContent) visited; omega)
  exact ⟨r, fun k => bundleXML_mono fs xmlDir _ k _ _ r hr⟩


theorem bundleLines_congr (fs : FS) (xmlDir : Str) (recur₁ recur₂ : Str → List Str → Res Str)
    (visited lines : List Str)
    (h : ∀ t c, t ∉ visited → recur₁ c (visited ++ [t]) = recur₂ c (visited ++ [t])) :
    bundleLines fs xmlDir recur₁ visited lines = bundleLines fs xmlDir recur₂ visited lines := by
  induction lines with
  | nil => rfl
  | cons l ls ih =>
    rw [bundleLines, bundleLines, ih]
    cases INCLUDE_PATTERN.exec l with
    | none => rfl
    | some m =>
      simp only
      split
      · rfl
      · rename_i hv
        have h' := fun c => h (cleanSrcOf ((m.cap 2).getD [])) c hv
        simp only [h']

theorem bundleLines_circular (fs : FS) (xmlDir : Str) (recur : Str → List Str → Res Str)
    (visited : List Str) (line : Str) (rest : List Str) (m : Match)
    (hm : INCLUDE_PATTERN.exec line = some m)
    (hv : cleanSrcOf ((m.cap 2).getD []) ∈ visited) :
    bundleLines fs xmlDir recur visited (line :: rest) =
      match bundleLines fs xmlDir recur visited rest with
      | .ok more =>
        .ok (markerLine ((m.cap 1).getD []) "CIRCULAR: ".toList
          (cleanSrcOf ((m.cap 2).getD [])) :: more)
      | .exit => .exit
      | .crash => .crash
      | .timeout => .timeout := by
  rw [bundleLines, hm]
  simp only [if_pos hv]
  cases bundleLines fs xmlDir recur visited rest <;> rfl

theorem bundleXML_eq_strict (fs : FS) (xmlDir : Str) (fuel : Nat) :
    ∀ xmlContent visited, visited.Nodup →
      bundleXML fs xmlDir fuel xmlContent visited =
        bundleXMLStrict fs xmlDir fuel xmlContent visited := by
  induction fuel with
  | zero => intro _ _ _; rfl
  | succ fuel ih =>
    intro c visited hnd
    rw [bundleXML, bundleXMLStrict, if_neg (not_not.2 hnd)]
    rw [bundleLines_congr fs xmlDir (bundleXML fs xmlDir fuel) (bundleXMLStrict fs xmlDir fuel)
      visited _ (fun t c' ht => ih c' (visited ++ [t]) (by
        rw [List.nodup_append]
        refine ⟨hnd, List.nodup_singleton t, ?_⟩
        intro x hx hx'
        rw [List.mem_singleton.1 hx'] at hx
        exact ht hx))]

set_option maxRecDepth 100000 in
/-- C23 (as amended): in every expansion by `bundleXML` that starts from a guard set without
repetition, no guard set names a source twice, so no sanitised source is expanded inside its own
expansion (the expansion equals the one that fails on such a guard set); the loop over the lines
calls the nested expansion only with the guard set extended by a source that the guard set does
not hold; a directive whose sanitised source is in the guard set gives the `CIRCULAR` marker and
nothing else, whatever the files and the nested expansion are; for `x` including `y` including
`x` the inner directive becomes the marker, and a fragment `c` included from the two branches
`a` and `b` is expanded in both. -/
theorem bundleXML_guard :
    (∀ fs xmlDir fuel xmlContent visited, visited.Nodup →
      bundleXML fs xmlDir fuel xmlContent visited =
        bundleXMLStrict fs xmlDir fuel xmlContent visited) ∧
    (∀ fs xmlDir (recur₁ recur₂ : Str → List Str → Res Str) visited lines,
      (∀ t c, t ∉ visited → recur₁ c (visited ++ [t]) = recur₂ c (visited ++ [t])) →
      bundleLines fs xmlDir recur₁ visited lines = bundleLines fs xmlDir recur₂ visited lines) ∧
    (∀ fs xmlDir recur visited line rest m, INCLUDE_PATTERN.exec line = some m →
      cleanSrcOf ((m.cap 2).getD []) ∈ visited →
      bundleLines fs xmlDir recur visited (line :: rest) =
        match bundleLines fs xmlDir recur visited rest with
        | .ok more =>
          .ok (markerLine ((m.cap 1).getD []) "CIRCULAR: ".toList
            (cleanSrcOf ((m.cap 2).getD [])) :: more)
        | .exit => .exit
        | .crash => .crash
        | .timeout => .timeout) ∧
    bundleXML cycleDir "ui".toList 5 "<Include src=\"x\"/>".toList [] =
      .ok ("<!-- include x -->\n<X>\n  <!-- include y -->\n  <Y/>\n  <!-- CIRCULAR: x -->\n" ++
        "  <!-- include y -->\n</X>\n<!-- include x -->").toList ∧
    bundleXML diamondDir "ui".toList 5 "<Include src=\"a\"/>\n<Include src=\"b\"/>".toList [] =
      .ok ("<!-- include a -->\n<A/>\n<!-- include c -->\n<C/>\n<!-- include c -->\n" ++
        "<!-- include a -->\n<!-- include b -->\n<!-- include c -->\n<C/>\n" ++
        "<!-- include c -->\n<!-- include b -->").toList :=
  ⟨fun fs xmlDir fuel => bundleXML_eq_strict fs xmlDir fuel,
    fun fs xmlDir recur₁ recur₂ visited lines h =>
      bundleLines_congr fs xmlDir recur₁ recur₂ visited lines h,
    fun fs xmlDir recur visited line rest m hm hv =>
      bundleLines_circular fs xmlDir recur visited line rest m hm hv,
    by decide, by decide⟩

set_option maxRecDepth 100000 in
/-- C23 as stated fails for a file that includes itself: `a.xml` includes `a.xml`, the root
includes it under the name `a`, both names resolve to the file `ui/a.xml`, and the content of
the file is expanded once more inside its own expansion before the marker appears. -/
theorem bundleXML_alias_expands_twice :
    pathJoin ["ui".toList, xmlFileOf (cleanSrcOf "a".toList)] = "ui/a.xml".toList ∧
    pathJoin ["ui".toList, xmlFileOf (cleanSrcOf "a.xml".toList)] = "ui/a.xml".toList ∧
    aliasDir.readFileSync "ui/a.xml".toList = some "<A/>\n<Include src=\"a.xml\"/>".toList ∧
    ∀ k, bundleXML aliasDir "ui".toList
        ((includeUniverse aliasDir "<Include src=\"a\"/>".toList).length + 1 + k)
        "<Include src=\"a\"/>".toList [] =
      .ok ("<!-- include a -->\n<A/>\n<!-- include a.xml -->\n<A/>\n" ++
        "<!-- CIRCULAR: a.xml -->\n<!-- include a.xml -->\n<!-- include a -->").toList := by
  refine ⟨by decide, by decide, by decide, fun k => ?_⟩
  exact bundleXML_mono aliasDir "ui".toList _ k _ _ _ (by decide)


theorem load_inv (H : Host) (fs : FS) (luaFuel : Nat) (M : ManifestMap) (fuel : Nat)
    (entry : ManifestEntry) (node : Node)
    (h : loadObjectFromManifest H fs luaFuel M (fuel + 1) entry = .ok node) :
    ∃ obj raw, (fs.readFileSync (pathJoin [srcDir, entry.file])).bind H.parse = some obj ∧
      childrenOf M (guidKey entry.guid) = .ok raw ∧
      ((sortByOrderStable raw).length > 0 →
        ∃ nodes, loadEach (loadObjectFromManifest H fs luaFuel M fuel)
          (sortByOrderStable raw) = .ok nodes ∧ node.contained = some nodes) ∧
      (¬(sortByOrderStable raw).length > 0 → node.contained = obj.contained) := by
  rw [loadObjectFromManifest] at h
  simp only at h
  split at h
  · cases h
  · rename_i obj hobj
    refine ⟨obj, ?_⟩
    split at h
    · split at h
      · split at h
        · split at h
          · split at h
            · split at h
              · rename_i raw hraw
                refine ⟨raw, hobj, hraw, ?_, ?_⟩
                · intro hlen
                  rw [if_pos hlen] at h
                  split at h
                  · rename_i nodes hnodes
                    simp only [Res.ok.injEq] at h
                    subst h
                    exact ⟨nodes, hnodes, rfl⟩
                  all_goals cases h
                · intro hlen
                  rw [if_neg hlen] at h
                  simp only [Res.ok.injEq] at h
                  subst h
                  rfl
              all_goals cases h
            all_goals cases h
          all_goals cases h
        all_goals cases h
      all_goals cases h
    all_goals cases h

theorem groupByParent_keys (es : List ManifestEntry) (m M : ManifestMap)
    (h : groupByParent es m = .ok M) : ∀ e ∈ es, parentKey e ∉ objectPrototypeKeys := by
  induction es generalizing m with
  | nil => intro e he; cases he
  | cons e es ih =>
    rw [groupByParent] at h
    split at h
    · cases h
    · rename_i hk
      intro x hx
      rcases List.mem_cons.1 hx with rfl | hx
      · exact hk
      · exact ih _ h x hx

theorem childrenOf_grouped (manifest : List ManifestEntry) (M : ManifestMap) (key : Str)
    (raw : List ManifestEntry) (hM : groupByParent manifest [] = .ok M)
    (hraw : childrenOf M key = .ok raw) :
    raw = manifest.filter fun e => parentKey e = key := by
  obtain ⟨M', hM', hk⟩ := groupByParent_ok manifest [] (groupByParent_keys manifest [] M hM)
  rw [hM] at hM'
  cases hM'
  have hown : ownEntries M key = manifest.filter fun e => parentKey e = key := by
    rw [hk]
    simp [ownEntries]
  rw [← hown]
  unfold childrenOf at hraw
  unfold ownEntries
  cases hl : M.lookup key with
  | some es =>
    rw [hl] at hraw
    cases hraw
    rfl
  | none =>
    rw [hl] at hraw
    simp only at hraw
    split at hraw
    · cases hraw
    · cases hraw
      rfl

set_option maxRecDepth 100000 in
/-- C26 as stated fails: the die has an empty list of contained nodes, the splitter keeps the
list in the node file and writes no entry that names the die as parent, and the loader gives
the node back with the empty list. -/
theorem loadObjectFromManifest_keeps_empty_list :
    dieSplit.manifest = [sampleDieEntry] ∧
    (∀ e ∈ dieSplit.manifest, parentKey e ≠ guidKey sampleDieEntry.guid) ∧
    groupByParent dieSplit.manifest [] = .ok [("__root__".toList, [sampleDieEntry])] ∧
    loadObjectFromManifest (tableHost [sampleDie]) dieSplit.fs 0
      [("__root__".toList, [sampleDieEntry])] 1 sampleDieEntry = .ok sampleDie ∧
    sampleDie.contained = some [] :=
  ⟨rfl, by decide, rfl, rfl, rfl⟩


theorem Node.walk_eq (n : Node) (parent : Option Node) (i : Nat) :
    n.walk parent i = ⟨n, parent, i⟩ :: walkEach n.children (some n) 0 := by
  rcases n with ⟨n, k, g, s, t, x, m, r, c⟩
  rw [Node.walk]
  cases c with
  | none => simp [walkContained, Node.children, Node.contained, walkEach]
  | some cs => simp [walkContained, Node.children, Node.contained]

theorem orNull_orNull (x : Option Str) : orNull (orNull x) = orNull x := by
  cases x with
  | none => rfl
  | some s =>
    unfold orNull
    by_cases h : truthy s = true
    · simp [h]
    · simp [h]

theorem orNull_parent (par : Option Node) :
    orNull (par.bind fun p => orNull p.guid) = par.bind fun p => orNull p.guid := by
  cases par with
  | none => rfl
  | some p => exact orNull_orNull _

theorem placedNode_record (H : Host) (n : Node) :
    ∀ rel (par : Option Node) (i : Nat) incl,
      (placedNode H n rel (par.bind fun p => orNull p.guid) (some i) incl).map
          (fun p => (p.entry H).record) =
        (n.walk par i).map Visit.record := by
  induction n using Node.induct with
  | h n ih =>
    intro rel par i incl
    rw [placedNode_eq, Node.walk_eq, List.map_cons, List.map_cons]
    congr 1
    · simp only [Placed.entry, ManifestEntry.record, Visit.record, orNull_parent,
        Option.map_some']
      rfl
    · have key : ∀ (cs : List Node) (j : Nat), (∀ ch ∈ cs, ch ∈ n.children) →
          (placedEach H false cs (containerRelPath H n) (orNull n.guid) j).map
              (fun p => (p.entry H).record) =
            (walkEach cs (some n) j).map Visit.record := by
        intro cs
        induction cs with
        | nil =>
          intro j _
          simp [placedEach, walkEach]
        | cons c cs ihc =>
          intro j hsub
          rw [placedEach, walkEach, List.map_append, List.map_append,
            ← ih c (hsub c (List.mem_cons_self _ _)) (containerRelPath H n) (some n) j false,
            ihc _ (fun ch hch => hsub ch (List.mem_cons_of_mem _ hch))]
          rfl
      exact key _ _ (fun _ h => h)

theorem placedEach_record (H : Host) (incl : Bool) (cs : List Node) (rel : Str)
    (par : Option Node) (i : Nat) :
    (placedEach H incl cs rel (par.bind fun p => orNull p.guid) i).map
        (fun p => (p.entry H).record) =
      (walkEach cs par i).map Visit.record := by
  induction cs generalizing i with
  | nil => simp [placedEach, walkEach]
  | cons c cs ihc =>
    rw [placedEach, walkEach, List.map_append, List.map_append, placedNode_record, ihc]

theorem Node.walk_nodes (n : Node) :
    ∀ (par : Option Node) (i : Nat), (n.walk par i).map (·.node) = n.subtree := by
  induction n using Node.induct with
  | h n ih =>
    intro par i
    rw [Node.walk_eq, Node.subtree_eq, List.map_cons]
    congr 1
    have key : ∀ (cs : List Node) (j : Nat), (∀ ch ∈ cs, ch ∈ n.children) →
        (walkEach cs (some n) j).map (·.node) = subtreeEach cs := by
      intro cs
      induction cs with
      | nil =>
        intro j _
        simp [walkEach, subtreeEach]
      | cons c cs ihc =>
        intro j hsub
        rw [walkEach, subtreeEach, List.map_append, ih c (hsub c (List.mem_cons_self _ _)),
          ihc _ (fun ch hch => hsub ch (List.mem_cons_of_mem _ hch))]
    exact key _ _ (fun _ h => h)

theorem walkEach_nodes (cs : List Node) (par : Option Node) (i : Nat) :
    (walkEach cs par i).map (·.node) = subtreeEach cs := by
  induction cs generalizing i with
  | nil => simp [walkEach, subtreeEach]
  | cons c cs ihc => rw [walkEach, subtreeEach, List.map_append, Node.walk_nodes, ihc]

/-- C25 (as amended): the manifest of a split records, entry by entry, the depth-first
pre-order walk of the node sequence: one entry for every node of the tree, with the name, the
nickname and the identifier of the node, the zero-based index of the node among its siblings as
explicit order, and as parent reference the identifier of the parent, `null` for a top-level
node and also for a child of a node whose identifier is missing or empty. -/
theorem splitObjectStates_manifest_walk (H : Host) (objectStates : List Node) :
    (splitObjectStates H objectStates).manifest.map ManifestEntry.record =
        (walkEach objectStates none 0).map Visit.record ∧
      (walkEach objectStates none 0).map (·.node) = subtreeEach objectStates ∧
      (splitObjectStates H objectStates).manifest.length = (subtreeEach objectStates).length := by
  have h₁ : (splitObjectStates H objectStates).manifest.map ManifestEntry.record =
      (walkEach objectStates none 0).map Visit.record := by
    rw [splitObjectStates_manifest, List.map_map]
    exact placedEach_record H true objectStates ['.'] none 0
  refine ⟨h₁, walkEach_nodes _ _ _, ?_⟩
  have := congrArg List.length h₁
  rw [List.length_map, List.length_map] at this
  rw [this, ← walkEach_nodes objectStates none 0, List.length_map]

set_option maxRecDepth 100000 in
/-- C25 as stated fails: the identifier of this container is the empty string, and the entry of
the card it contains has the parent reference `null`, as a top-level node has. -/
theorem manifest_parent_null_for_blank_guid :
    blankGuidTree.map Node.guid = [some []] ∧
    blankGuidTree.map Node.children = [[sampleCard]] ∧
    (splitObjectStates (tableHost []) blankGuidTree).manifest.map
        (fun e => (e.guid, e.parent, e.order)) =
      [(none, none, some (.finite 0)), (some "c0ffee".toList, none, some (.finite 0))] :=
  ⟨rfl, rfl, rfl⟩


theorem objGet_objSet (M : TextObject) (key value key' : Str)
    (hproto : key ≠ "__proto__".toList) :
    objGet (objSet M key value) key' = if key' = key then some value else objGet M key' := by
  induction M with
  | nil =>
    rw [objSet, if_neg hproto]
    by_cases h : key' = key
    · subst h
      simp [objGet, List.lookup]
    · have : (key' == key) = false := by simpa using h
      simp [objGet, List.lookup, this, h]
  | cons p rest ih =>
    obtain ⟨k, v⟩ := p
    rw [objSet]
    by_cases hk : k = key
    · subst hk
      rw [if_pos rfl]
      by_cases h : key' = k
      · subst h
        simp [objGet, List.lookup]
      · have : (key' == k) = false := by simpa using h
        simp [objGet, List.lookup, this, h]
    · rw [if_neg hk]
      unfold objGet at ih ⊢
      by_cases h : key' = k
      · subst h
        have hne : ¬key' = key := hk
        simp [List.lookup, hne]
      · have : (key' == k) = false := by simpa using h
        simp only [List.lookup, this]
        exact ih

theorem indentLine_nil (l : Str) : indentLine [] l = l := by
  unfold indentLine
  split <;> rfl

theorem indentLine_of_ne {l : Str} (I : Str) (h : l ≠ []) : indentLine I l = I ++ l := by
  unfold indentLine
  rw [if_pos (List.length_pos.2 h)]

theorem indentLine_indentLine (I i l : Str) :
    indentLine I (indentLine i l) = indentLine (I ++ i) l := by
  cases l with
  | nil => rfl
  | cons c cs =>
    rw [indentLine_of_ne i (by simp), indentLine_of_ne I (by simp), indentLine_of_ne _ (by simp),
      List.append_assoc]

theorem indentLine_marker (I i name : Str) :
    indentLine I (markerLine i "include ".toList name) =
      markerLine (I ++ i) "include ".toList name := by
  rw [indentLine_of_ne I (by simp [markerLine])]
  simp [markerLine, List.append_assoc]

theorem indentLine_directive (I i name : Str) :
    indentLine I (directiveLine i name) = directiveLine (I ++ i) name := by
  rw [indentLine_of_ne I (by simp [directiveLine])]
  simp [directiveLine, List.append_assoc]

theorem map_indentLine_splitOn (I T : Str) :
    (splitOn '\n' T).map (indentLine I) = indentedLines I T := rfl

theorem plain_comment_none (I l : Str) (hI : ∀ c ∈ I, isSpace c = true) (h : PlainLine l) :
    COMMENT_PATTERN.exec (indentLine I l) = none := by
  apply comment_exec_none
  unfold indentLine
  split
  · rw [trimStart_append_of_space I l hI]
    exact h.2
  · exact h.2

theorem splitOn_indentLines (i b : Str) (hi : '\n' ∉ i) :
    splitOn '\n' (indentLines i b) = (splitOn '\n' b).map (indentLine i) := by
  rw [indentLines_eq, splitOn_joinWith '\n' _ (indentedLines_ne_nil i b)
    (indentedLines_no_newline i b hi)]
  rfl

theorem splitOn_append_newline (sep : Char) (a b : Str) :
    splitOn sep (a ++ sep :: b) = splitOn sep a ++ splitOn sep b := by
  induction a with
  | nil => simp [splitOn]
  | cons c cs ih =>
    rw [List.cons_append, splitOn, splitOn]
    by_cases hc : c = sep
    · rw [if_pos hc, if_pos hc, ih, List.cons_append]
    · rw [if_neg hc, if_neg hc, ih]
      cases hs : splitOn sep cs with
      | nil => exact absurd hs (splitOn_ne_nil sep cs)
      | cons l ls => rfl

theorem splitOn_joinWith_flatMap (sep : Char) (xs : List Str) (hne : xs ≠ []) :
    splitOn sep (joinWith [sep] xs) = xs.flatMap (splitOn sep) := by
  induction xs with
  | nil => exact absurd rfl hne
  | cons x xs ih =>
    cases xs with
    | nil => simp [joinWith]
    | cons y ys =>
      rw [joinWith_cons_cons, List.append_assoc, List.singleton_append, splitOn_append_newline,
        ih (by simp)]
      simp [List.flatMap_cons]

theorem included_append (fs : FS) (xmlDir : Str) (L₁ L₂ : List Str) (name : Str) :
    Included fs xmlDir (L₁ ++ L₂) name ↔
      Included fs xmlDir L₁ name ∨ Included fs xmlDir L₂ name := by
  constructor
  · intro h
    cases h with
    | here hl hm =>
      rcases List.mem_append.1 hl with hl | hl
      · exact Or.inl (Included.here hl hm)
      · exact Or.inr (Included.here hl hm)
    | deep hl hm hr hd =>
      rcases List.mem_append.1 hl with hl | hl
      · exact Or.inl (Included.deep hl hm hr hd)
      · exact Or.inr (Included.deep hl hm hr hd)
  · rintro (h | h)
    · cases h with
      | here hl hm => exact Included.here (List.mem_append_left _ hl) hm
      | deep hl hm hr hd => exact Included.deep (List.mem_append_left _ hl) hm hr hd
    · cases h with
      | here hl hm => exact Included.here (List.mem_append_right _ hl) hm
      | deep hl hm hr hd => exact Included.deep (List.mem_append_right _ hl) hm hr hd

theorem included_plain (fs : FS) (xmlDir l name : Str) (h : INCLUDE_PATTERN.exec l = none) :
    ¬Included fs xmlDir [l] name := by
  intro hi
  cases hi with
  | here hl hm =>
    rw [List.mem_singleton.1 hl, h] at hm
    cases hm
  | deep hl hm _ _ =>
    rw [List.mem_singleton.1 hl, h] at hm
    cases hm

theorem included_directive (fs : FS) (xmlDir i n T name : Str)
    (hi : ∀ c ∈ i, isSpace c = true) (hgood : GoodName n)
    (hread : fs.readFileSync (pathJoin [xmlDir, xmlFileOf n]) = some T) :
    Included fs xmlDir [directiveLine i n] name ↔
      name = n ∨ Included fs xmlDir (splitOn '\n' T) name := by
  obtain ⟨hne, hq, -, -, hdots, -, -⟩ := hgood
  obtain ⟨m, hm, -, hc₂⟩ := include_exec i n hi hne hq
  have hclean := cleanSrcOf_of_not_includes n hdots
  constructor
  · intro h
    cases h with
    | here hl hm' =>
      rw [List.mem_singleton.1 hl, hm] at hm'
      cases hm'
      rw [hc₂]
      exact Or.inl hclean
    | deep hl hm' hr hd =>
      rw [List.mem_singleton.1 hl, hm] at hm'
      cases hm'
      rw [hc₂, Option.getD_some, hclean, hread] at hr
      cases hr
      exact Or.inr hd
  · rintro (rfl | h)
    · have := @Included.here fs xmlDir _ _ _ (List.mem_singleton.2 rfl) hm
      rw [hc₂, Option.getD_some, hclean] at this
      exact this
    · refine Included.deep (List.mem_singleton.2 rfl) hm ?_ h
      rw [hc₂, Option.getD_some, hclean]
      exact hread


theorem unbundles_plain (fs : FS) (xmlDir : Str) (rank : Str → Nat) (r : Nat) (l : Str)
    (h : PlainLine l) : Unbundles fs xmlDir rank r [l] [l] := by
  intro I A B S M f hI _
  refine ⟨M, ?_, fun key => Or.inl rfl,
    fun name hn => absurd hn (included_plain _ _ _ _ (include_exec_none l h.1))⟩
  exact unbundleLoop_skip f A [indentLine I l] B S M (by
    intro x hx
    rw [List.mem_singleton.1 hx]
    exact plain_comment_none I l hI h)

theorem unbundles_nil (fs : FS) (xmlDir : Str) (rank : Str → Nat) (r : Nat) :
    Unbundles fs xmlDir rank r [] [] := by
  intro I A B S M f _ _
  refine ⟨M, rfl, fun key => Or.inl rfl, ?_⟩
  intro name hn
  cases hn with
  | here hl _ => cases hl
  | deep hl _ _ _ => cases hl

theorem unbundles_append {fs : FS} {xmlDir : Str} {rank : Str → Nat} {r : Nat}
    {L₁ X₁ L₂ X₂ : List Str} (h₁ : Unbundles fs xmlDir rank r L₁ X₁)
    (h₂ : Unbundles fs xmlDir rank r L₂ X₂) :
    Unbundles fs xmlDir rank r (L₁ ++ L₂) (X₁ ++ X₂) := by
  intro I A B S M f hI hS
  obtain ⟨M₁, e₁, k₁, i₁⟩ := h₁ I A (X₂.map (indentLine I) ++ B) S M (f + X₂.length) hI hS
  obtain ⟨M₂, e₂, k₂, i₂⟩ := h₂ I (A ++ L₁.map (indentLine I)) B S M₁ f hI hS
  refine ⟨M₂, ?_, ?_, ?_⟩
  · have hf : f + (X₁ ++ X₂).length = f + X₂.length + X₁.length := by
      rw [List.length_append]
      omega
    rw [hf, List.map_append, List.append_assoc, e₁]
    simp only [List.append_assoc, List.length_append, List.length_map] at e₂
    rw [e₂, List.map_append, List.length_append]
    simp only [List.append_assoc, Nat.add_assoc]
  · intro key
    rcases k₂ key with h | ⟨hin, T, hr, hg⟩
    · rcases k₁ key with h' | ⟨hin, T, hr, hg⟩
      · exact Or.inl (h.trans h')
      · exact Or.inr ⟨(included_append _ _ _ _ _).2 (Or.inl hin), T, hr, h.trans hg⟩
    · exact Or.inr ⟨(included_append _ _ _ _ _).2 (Or.inr hin), T, hr, hg⟩
  · intro name hn
    rcases (included_append _ _ _ _ _).1 hn with hn | hn
    · obtain ⟨T, hr, hg⟩ := i₁ name hn
      rcases k₂ name with h | ⟨_, T', hr', hg'⟩
      · exact ⟨T, hr, h.trans hg⟩
      · exact ⟨T', hr', hg'⟩
    · exact i₂ name hn


theorem unbundleLoop_open (f : Nat) (A rest : List Str) (mk : Str) (S : List Frame)
    (M : TextObject) (m : Match) (J n : Str) (hm : COMMENT_PATTERN.exec mk = some m)
    (hc₁ : m.cap 1 = some J) (hc₂ : m.cap 2 = some n)
    (hS : ∀ fr, S.head? = some fr → ¬(fr.name = n ∧ fr.indent = J)) :
    unbundleLoop (f + 1) (A ++ mk :: rest) S A.length M =
      unbundleLoop f (A ++ mk :: rest) (⟨n, J, A.length⟩ :: S) (A.length + 1) M := by
  rw [unbundleLoop, getElem?_middle]
  simp only [hm, hc₁, hc₂, Option.getD_some]
  cases S with
  | nil => rfl
  | cons fr below =>
    simp only
    rw [if_neg (hS fr rfl)]

theorem unbundleLoop_close (f : Nat) (A body B : List Str) (mk : Str) (S : List Frame)
    (M : TextObject) (m : Match) (J n : Str) (hm : COMMENT_PATTERN.exec mk = some m)
    (hc₁ : m.cap 1 = some J) (hc₂ : m.cap 2 = some n) :
    unbundleLoop (f + 1) (A ++ mk :: (body ++ mk :: B)) (⟨n, J, A.length⟩ :: S)
        (A.length + 1 + body.length) M =
      unbundleLoop f (A ++ directiveLine J n :: B) S (A.length + 1)
        (objSet M n (trim (joinWith ['\n'] (body.map fun line =>
          if startsWith line J then line.drop J.length else line)))) := by
  have hlines : A ++ mk :: (body ++ mk :: B) = (A ++ mk :: body) ++ mk :: B := by simp
  have hidx : A.length + 1 + body.length = (A ++ mk :: body).length := by
    simp only [List.length_append, List.length_cons]
    omega
  rw [unbundleLoop, hidx]
  conv_lhs => rw [hlines, getElem?_middle]
  simp only [hm, hc₁, hc₂, Option.getD_some, and_self, if_true]
  have htake : ((A ++ mk :: body) ++ mk :: B).take (A ++ mk :: body).length =
      A ++ mk :: body := take_length_append _ _
  have hdrop : (A ++ mk :: body).drop (A.length + 1) = body := drop_succ_middle _ _ _
  have htake' : ((A ++ mk :: body) ++ mk :: B).take A.length = A := by
    rw [List.append_assoc]
    exact take_length_append _ _
  have hdrop' : ((A ++ mk :: body) ++ mk :: B).drop ((A ++ mk :: body).length + 1) = B :=
    drop_succ_middle _ _ _
  rw [htake, hdrop, htake', hdrop']
  have hrepl : J ++ "<Include src=\"".toList ++ n ++ "\"/>".toList = directiveLine J n := by
    simp [directiveLine]
  rw [hrepl]

theorem spaces_append {I i : Str} (hI : ∀ c ∈ I, isSpace c = true)
    (hi : ∀ c ∈ i, isSpace c = true) : ∀ c ∈ I ++ i, isSpace c = true := by
  intro c hc
  rcases List.mem_append.1 hc with h | h
  · exact hI c h
  · exact hi c h

theorem unbundles_directive (fs : FS) (xmlDir : Str) (rank : Str → Nat) (r : Nat)
    (i n T : Str) (X : List Str) (hi : ∀ c ∈ i, isSpace c = true) (hgood : GoodName n)
    (hread : fs.readFileSync (pathJoin [xmlDir, xmlFileOf n]) = some T) (htrim : trim T = T)
    (hrank : rank T < r)
    (hX : Unbundles fs xmlDir rank (rank T) (splitOn '\n' T) X) :
    Unbundles fs xmlDir rank r [directiveLine i n]
      (markerLine i "include ".toList n ::
        (X.map (indentLine i) ++ [markerLine i "include ".toList n])) := by
  intro I A B S M f hI hS
  have hJ := spaces_append hI hi
  obtain ⟨hne, hq, hsp, hnn, hdots, hroot, hproto⟩ := hgood
  obtain ⟨m, hm, hc₁, hc₂⟩ := comment_exec (I ++ i) n hJ hne hsp
  -- the lines of the expansion, indented
  have hmap : (markerLine i "include ".toList n ::
      (X.map (indentLine i) ++ [markerLine i "include ".toList n])).map (indentLine I) =
      markerLine (I ++ i) "include ".toList n ::
        (X.map (indentLine (I ++ i)) ++ [markerLine (I ++ i) "include ".toList n]) := by
    simp only [List.map_cons, List.map_append, List.map_map, List.map_nil, indentLine_marker]
    congr 2
    apply List.map_congr_left
    intro x _
    exact indentLine_indentLine I i x
  have hmapL : [directiveLine i n].map (indentLine I) = [directiveLine (I ++ i) n] := by
    simp only [List.map_cons, List.map_nil, indentLine_directive]
  rw [hmap, hmapL]
  generalize hmk : markerLine (I ++ i) "include ".toList n = mk at hm
  -- the nested lines
  obtain ⟨M₁, e₁, k₁, i₁⟩ := hX (I ++ i) (A ++ [mk]) (mk :: B) (⟨n, I ++ i, A.length⟩ :: S) M
    (f + 1) hJ (by
      intro fr hfr T' hT'
      simp only [List.head?_cons, Option.some.injEq] at hfr
      subst hfr
      simp only at hT'
      rw [hread] at hT'
      cases hT'
      exact Nat.le_refl _)
  refine ⟨objSet M₁ n T, ?_, ?_, ?_⟩
  · -- the opening marker
    have hfuel : f + (markerLine i "include ".toList n ::
        (X.map (indentLine i) ++ [markerLine i "include ".toList n])).length =
        (f + 1 + X.length) + 1 := by
      simp only [List.length_cons, List.length_append, List.length_map, List.length_nil]
      omega
    have hlen : A.length + [directiveLine i n].length = A.length + 1 := rfl
    rw [hfuel, hlen, List.cons_append, List.append_assoc, List.singleton_append]
    rw [unbundleLoop_open (f + 1 + X.length) A _ mk S M m (I ++ i) n hm hc₁ hc₂ (by
      intro fr hfr hand
      have := hS fr hfr T (by rw [hand.1]; exact hread)
      omega)]
    -- the lines of the fragment
    simp only [List.append_assoc, List.singleton_append, List.length_append,
      List.length_singleton] at e₁
    rw [e₁]
    -- the closing marker
    have hbl : ((splitOn '\n' T).map (indentLine (I ++ i))).length = (splitOn '\n' T).length :=
      List.length_map _ _
    rw [← hbl, unbundleLoop_close f A _ B mk S M₁ m (I ++ i) n hm hc₁ hc₂,
      map_indentLine_splitOn, unindent_indentedLines, joinWith_splitOn, htrim]
    rfl
  · intro key
    rw [objGet_objSet M₁ n T key hproto]
    by_cases hk : key = n
    · subst hk
      rw [if_pos rfl]
      exact Or.inr ⟨(included_directive fs xmlDir i key T key hi
        ⟨hne, hq, hsp, hnn, hdots, hroot, hproto⟩ hread).2 (Or.inl rfl), T, hread, rfl⟩
    · rw [if_neg hk]
      rcases k₁ key with h | ⟨hin, T', hr, hg⟩
      · exact Or.inl h
      · exact Or.inr ⟨(included_directive fs xmlDir i n T key hi
          ⟨hne, hq, hsp, hnn, hdots, hroot, hproto⟩ hread).2 (Or.inr hin), T', hr, hg⟩
  · intro name hn
    rw [objGet_objSet M₁ n T name hproto]
    rcases (included_directive fs xmlDir i n T name hi
      ⟨hne, hq, hsp, hnn, hdots, hroot, hproto⟩ hread).1 hn with rfl | hin
    · exact ⟨T, hread, by rw [if_pos rfl]⟩
    · by_cases hk : name = n
      · subst hk
        exact ⟨T, hread, by rw [if_pos rfl]⟩
      · obtain ⟨T', hr, hg⟩ := i₁ name hin
        exact ⟨T', hr, by rw [if_neg hk]; exact hg⟩


theorem bundleLines_cons_plain (fs : FS) (xmlDir : Str) (recur : Str → List Str → Res Str)
    (visited : List Str) (l : Str) (ls : List Str) (h : INCLUDE_PATTERN.exec l = none) :
    bundleLines fs xmlDir recur visited (l :: ls) =
      match bundleLines fs xmlDir recur visited ls with
      | .ok more => .ok (l :: more)
      | .exit => .exit
      | .crash => .crash
      | .timeout => .timeout := by
  rw [bundleLines, h]
  simp only
  cases bundleLines fs xmlDir recur visited ls <;> rfl

theorem existsSync_of_read {fs : FS} {p c : Str} (h : fs.readFileSync p = some c) :
    fs.existsSync p = true := by
  unfold FS.readFileSync at h
  unfold FS.existsSync
  rw [h]
  rfl

theorem bundleLines_cons_include (fs : FS) (xmlDir : Str) (recur : Str → List Str → Res Str)
    (visited : List Str) (l : Str) (ls : List Str) (m : Match) (i n c : Str)
    (hm : INCLUDE_PATTERN.exec l = some m) (hc₁ : m.cap 1 = some i) (hc₂ : m.cap 2 = some n)
    (hclean : cleanSrcOf n = n) (hv : n ∉ visited)
    (hrd : fs.readFileSync (pathJoin [xmlDir, xmlFileOf n]) = some c) :
    bundleLines fs xmlDir recur visited (l :: ls) =
      match recur c (visited ++ [n]) with
      | .ok bundled =>
        match bundleLines fs xmlDir recur visited ls with
        | .ok more =>
          .ok (markerLine i "include ".toList n :: indentLines i bundled ::
            markerLine i "include ".toList n :: more)
        | .exit => .exit
        | .crash => .crash
        | .timeout => .timeout
      | .exit => .exit
      | .crash => .crash
      | .timeout => .timeout := by
  rw [bundleLines, hm]
  simp only [hc₁, hc₂, Option.getD_some, hclean, if_neg hv, existsSync_of_read hrd, hrd,
    Bool.not_true, Bool.false_eq_true, if_false]
  cases recur c (visited ++ [n]) with
  | ok bundled => cases bundleLines fs xmlDir recur visited ls <;> rfl
  | exit => rfl
  | crash => rfl
  | timeout => rfl

theorem bundleLines_length (fs : FS) (xmlDir : Str) (recur : Str → List Str → Res Str)
    (visited : List Str) (L result : List Str)
    (h : bundleLines fs xmlDir recur visited L = .ok result) : L.length ≤ result.length := by
  induction L generalizing result with
  | nil => simp
  | cons l ls ih =>
    rw [bundleLines] at h
    cases hrest : bundleLines fs xmlDir recur visited ls with
    | ok more =>
      have hle := ih more hrest
      rw [hrest] at h
      simp only at h
      split at h
      · cases h
        simp only [List.length_append, List.length_cons, List.length_nil]
        omega
      · split at h
        · cases h
          simp only [List.length_append, List.length_cons, List.length_nil]
          omega
        · split at h
          · cases h
            simp only [List.length_append, List.length_cons, List.length_nil]
            omega
          · split at h
            · cases h
              simp only [List.length_append, List.length_cons, List.length_nil]
              omega
            · split at h
              · cases h
                simp only [List.length_append, List.length_cons, List.length_nil]
                omega
              all_goals cases h
    | exit =>
      rw [hrest] at h
      simp only at h
      split at h <;> (try split at h) <;> (try split at h) <;> (try split at h) <;>
        (try split at h) <;> cases h
    | crash =>
      rw [hrest] at h
      simp only at h
      split at h <;> (try split at h) <;> (try split at h) <;> (try split at h) <;>
        (try split at h) <;> cases h
    | timeout =>
      rw [hrest] at h
      simp only at h
      split at h <;> (try split at h) <;> (try split at h) <;> (try split at h) <;>
        (try split at h) <;> cases h

theorem bundleLines_unbundles (fs : FS) (xmlDir : Str) (rank : Str → Nat)
    (hfiles : ∀ name T, fs.readFileSync (pathJoin [xmlDir, xmlFileOf name]) = some T →
      TidyMarkup fs xmlDir rank T)
    (fuel : Nat)
    (ih : ∀ T visited b, TidyLines fs xmlDir rank (rank T) (splitOn '\n' T) →
      GuardAbove fs xmlDir rank visited T → bundleXML fs xmlDir fuel T visited = .ok b →
      Unbundles fs xmlDir rank (rank T) (splitOn '\n' T) (splitOn '\n' b))
    (r : Nat) (visited : List Str)
    (hguard : ∀ v ∈ visited, ∃ Tv, fs.readFileSync (pathJoin [xmlDir, xmlFileOf v]) = some Tv ∧
      r ≤ rank Tv) :
    ∀ L result, (∀ l ∈ L, '\n' ∉ l) → TidyLines fs xmlDir rank r L →
      bundleLines fs xmlDir (bundleXML fs xmlDir fuel) visited L = .ok result →
      Unbundles fs xmlDir rank r L (result.flatMap (splitOn '\n')) := by
  intro L
  induction L with
  | nil =>
    intro result _ _ h
    simp only [bundleLines, Res.ok.injEq] at h
    subst h
    exact unbundles_nil fs xmlDir rank r
  | cons l ls ihL =>
    intro result hnl htidy h
    have hnl' : ∀ x ∈ ls, '\n' ∉ x := fun x hx => hnl x (List.mem_cons_of_mem _ hx)
    have htidy' : TidyLines fs xmlDir rank r ls := fun x hx => htidy x (List.mem_cons_of_mem _ hx)
    rcases htidy l (List.mem_cons_self _ _) with hp | ⟨i, n, T', rfl, hi, hgood, hread, hrank⟩
    · rw [bundleLines_cons_plain fs xmlDir _ visited l ls (include_exec_none l hp.1)] at h
      cases hrest : bundleLines fs xmlDir (bundleXML fs xmlDir fuel) visited ls with
      | ok more =>
        rw [hrest] at h
        simp only [Res.ok.injEq] at h
        subst h
        rw [List.flatMap_cons, splitOn_of_not_mem '\n' l (hnl l (List.mem_cons_self _ _))]
        exact unbundles_append (unbundles_plain fs xmlDir rank r l hp)
          (ihL more hnl' htidy' hrest)
      | exit => rw [hrest] at h; cases h
      | crash => rw [hrest] at h; cases h
      | timeout => rw [hrest] at h; cases h
    · obtain ⟨hne, hq, hsp, hnn, hdots, hroot, hproto⟩ := hgood
      obtain ⟨m, hm, hc₁, hc₂⟩ := include_exec i n hi hne hq
      have hclean := cleanSrcOf_of_not_includes n hdots
      have hv : n ∉ visited := by
        intro hmem
        obtain ⟨Tv, hTv, hle⟩ := hguard n hmem
        rw [hread] at hTv
        cases hTv
        omega
      have hin : '\n' ∉ i := by
        intro hmem
        apply hnl _ (List.mem_cons_self _ _)
        simp only [directiveLine, List.mem_append]
        exact Or.inl hmem
      rw [bundleLines_cons_include fs xmlDir _ visited _ ls m i n T' hm hc₁ hc₂ hclean hv
        hread] at h
      cases hb : bundleXML fs xmlDir fuel T' (visited ++ [n]) with
      | ok b' =>
        rw [hb] at h
        cases hrest : bundleLines fs xmlDir (bundleXML fs xmlDir fuel) visited ls with
        | ok more =>
          rw [hrest] at h
          simp only [Res.ok.injEq] at h
          subst h
          have htidyT := hfiles n T' hread
          have hnested := ih T' (visited ++ [n]) b' htidyT.2 (by
            intro v hvm
            rcases List.mem_append.1 hvm with hvm | hvm
            · obtain ⟨Tv, hTv, hle⟩ := hguard v hvm
              exact ⟨Tv, hTv, by omega⟩
            · rw [List.mem_singleton.1 hvm]
              exact ⟨T', hread, Nat.le_refl _⟩) hb
          have hdir := unbundles_directive fs xmlDir rank r i n T' (splitOn '\n' b') hi
            ⟨hne, hq, hsp, hnn, hdots, hroot, hproto⟩ hread htidyT.1 hrank hnested
          have hflat : (markerLine i "include ".toList n :: indentLines i b' ::
              markerLine i "include ".toList n :: more).flatMap (splitOn '\n') =
              (markerLine i "include ".toList n ::
                ((splitOn '\n' b').map (indentLine i) ++ [markerLine i "include ".toList n])) ++
                more.flatMap (splitOn '\n') := by
            simp only [List.flatMap_cons,
              splitOn_of_not_mem '\n' _ (markerLine_no_newline i n hin hnn),
              splitOn_indentLines i b' hin]
            simp
          rw [hflat]
          exact unbundles_append hdir (ihL more hnl' htidy' hrest)
        | exit => rw [hrest] at h; cases h
        | crash => rw [hrest] at h; cases h
        | timeout => rw [hrest] at h; cases h
      | exit => rw [hb] at h; cases h
      | crash => rw [hb] at h; cases h
      | timeout => rw [hb] at h; cases h

theorem plainLine_nil : PlainLine [] := ⟨by decide, by decide⟩

theorem bundleXML_unbundles (fs : FS) (xmlDir : Str) (rank : Str → Nat)
    (hfiles : ∀ name T, fs.readFileSync (pathJoin [xmlDir, xmlFileOf name]) = some T →
      TidyMarkup fs xmlDir rank T)
    (fuel : Nat) :
    ∀ T visited b, TidyLines fs xmlDir rank (rank T) (splitOn '\n' T) →
      GuardAbove fs xmlDir rank visited T → bundleXML fs xmlDir fuel T visited = .ok b →
      Unbundles fs xmlDir rank (rank T) (splitOn '\n' T) (splitOn '\n' b) := by
  induction fuel with
  | zero =>
    intro T visited b _ _ h
    rw [bundleXML] at h
    cases h
  | succ fuel ih =>
    intro T visited b htidy hguard h
    rw [bundleXML] at h
    split at h
    · simp only [Res.ok.injEq] at h
      subst h
      have hT : T = [] := by
        rename_i ht
        cases T with
        | nil => rfl
        | cons c cs => simp [truthy] at ht
      subst hT
      exact unbundles_plain fs xmlDir rank _ [] plainLine_nil
    · cases hres : bundleLines fs xmlDir (bundleXML fs xmlDir fuel) visited (splitOn '\n' T) with
      | ok result =>
        rw [hres] at h
        simp only [Res.ok.injEq] at h
        subst h
        have hne : result ≠ [] := by
          have hlen := bundleLines_length fs xmlDir _ visited _ result hres
          have := List.length_pos.2 (splitOn_ne_nil '\n' T)
          intro hnil
          rw [hnil] at hlen
          simp at hlen
          exact splitOn_ne_nil '\n' T hlen
        rw [splitOn_joinWith_flatMap '\n' result hne]
        exact bundleLines_unbundles fs xmlDir rank hfiles fuel ih (rank T) visited hguard
          (splitOn '\n' T) result (not_mem_of_mem_splitOn '\n' T) htidy hres
      | exit => rw [hres] at h; cases h
      | crash => rw [hres] at h; cases h
      | timeout => rw [hres] at h; cases h


theorem included_good (fs : FS) (xmlDir : Str) (rank : Str → Nat)
    (hfiles : ∀ name T, fs.readFileSync (pathJoin [xmlDir, xmlFileOf name]) = some T →
      TidyMarkup fs xmlDir rank T)
    (L : List Str) (name : Str) (r : Nat) (hL : TidyLines fs xmlDir rank r L)
    (h : Included fs xmlDir L name) : GoodName name := by
  induction h generalizing r with
  | here hl hm =>
    rcases hL _ hl with hp | ⟨i, n, T', rfl, hi, hgood, -, -⟩
    · rw [include_exec_none _ hp.1] at hm
      cases hm
    · obtain ⟨m', hm', -, hc₂⟩ := include_exec i n hi hgood.1 hgood.2.1
      rw [hm'] at hm
      cases hm
      rw [hc₂, Option.getD_some, cleanSrcOf_of_not_includes n hgood.2.2.2.2.1]
      exact hgood
  | deep hl hm hr _ ih =>
    exact ih _ (hfiles _ _ hr).2

theorem unbundleXML_of_unbundles (fs : FS) (xmlDir : Str) (rank : Str → Nat) (r : Nat)
    (root b : Str) (htrim : trim root = root)
    (hU : Unbundles fs xmlDir rank r (splitOn '\n' root) (splitOn '\n' b)) :
    ∃ M', unbundleXML b = objSet M' "__root".toList root ∧
      (∀ key, objGet M' key = none ∨ Included fs xmlDir (splitOn '\n' root) key) ∧
      ∀ name, Included fs xmlDir (splitOn '\n' root) name →
        ∃ T, fs.readFileSync (pathJoin [xmlDir, xmlFileOf name]) = some T ∧
          objGet M' name = some T := by
  obtain ⟨M', e, k, i⟩ := hU [] [] [] [] [] 1 (by simp) (by simp)
  have hid : ∀ xs : List Str, xs.map (indentLine []) = xs := by
    intro xs
    conv_rhs => rw [← List.map_id xs]
    exact List.map_congr_left (fun x _ => indentLine_nil x)
  simp only [hid, List.nil_append, List.append_nil, List.length_nil, Nat.zero_add] at e
  refine ⟨M', ?_, ?_, i⟩
  · unfold unbundleXML
    simp only
    rw [Nat.add_comm, e, unbundleLoop_end]
    simp only
    rw [joinWith_splitOn, htrim]
  · intro key
    rcases k key with h | ⟨hin, -⟩
    · exact Or.inl h
    · exact Or.inr hin

/-- C22 (as amended): for every root document and every file system in which every text (the
root document and the text of every file a fragment name resolves to) is trimmed and consists
of plain lines (no directive, no marker) and of directives `<indent><Include src="name"/>` with
white space as indentation, whose names are not empty, hold no quote, blank, line break or
`../`, are neither `__root` nor `__proto__`, and resolve to files of lower rank (no inclusion
cycle), the expansion of the root document with enough fuel succeeds, and its extraction maps
`__root` to the root document, every fragment name included at any depth to the text of its
file, and no other key to anything. -/
theorem bundle_unbundle_nested (fs : FS) (xmlDir root : Str) (rank : Str → Nat)
    (hroot : TidyMarkup fs xmlDir rank root)
    (hfiles : ∀ name T, fs.readFileSync (pathJoin [xmlDir, xmlFileOf name]) = some T →
      TidyMarkup fs xmlDir rank T)
    (k : Nat) :
    ∃ b, bundleXML fs xmlDir ((includeUniverse fs root).length + 1 + k) root [] = .ok b ∧
      objGet (unbundleXML b) "__root".toList = some root ∧
      (∀ name, Included fs xmlDir (splitOn '\n' root) name →
        ∃ T, fs.readFileSync (pathJoin [xmlDir, xmlFileOf name]) = some T ∧
          objGet (unbundleXML b) name = some T) ∧
      ∀ key v, objGet (unbundleXML b) key = some v →
        key = "__root".toList ∨ Included fs xmlDir (splitOn '\n' root) key := by
  obtain ⟨b, hb⟩ := bundleXML_ok fs xmlDir (includeUniverse fs root)
    (fun f hf x hx => List.mem_append_right _ (List.mem_flatMap.2 ⟨f, hf, hx⟩))
    ((includeUniverse fs root).length + 1) root []
    (fun x hx => List.mem_append_left _ hx)
    (by have := unguarded_le (includeUniverse fs root) []; omega)
  have hbk := bundleXML_mono fs xmlDir _ k _ _ b hb
  have hU := bundleXML_unbundles fs xmlDir rank hfiles _ root [] b hroot.2
    (fun v hv => absurd hv (List.not_mem_nil _)) hbk
  obtain ⟨M', hun, hkeys, hincl⟩ := unbundleXML_of_unbundles fs xmlDir rank _ root b hroot.1 hU
  refine ⟨b, hbk, ?_, ?_, ?_⟩
  · rw [hun, objGet_objSet M' _ _ _ (by decide), if_pos rfl]
  · intro name hn
    obtain ⟨T, hr, hg⟩ := hincl name hn
    have hgood := included_good fs xmlDir rank hfiles _ name _ hroot.2 hn
    refine ⟨T, hr, ?_⟩
    rw [hun, objGet_objSet M' _ _ _ (by decide), if_neg hgood.2.2.2.2.2.1]
    exact hg
  · intro key v hv
    rw [hun, objGet_objSet M' _ _ _ (by decide)] at hv
    by_cases hk : key = "__root".toList
    · exact Or.inl hk
    · rw [if_neg hk] at hv
      rcases hkeys key with h | h
      · rw [h] at hv
        cases hv
      · exact Or.inr h


set_option maxRecDepth 100000 in
theorem nestRoot_tidy : TidyMarkup nestDir "ui".toList List.length nestRoot := by
  refine ⟨by decide, ?_⟩
  intro l hl
  have hs : splitOn '\n' nestRoot = ["<Root>".toList, "\t<Include src=\"outer\"/>".toList,
      "\t<Include src=\"inner\"/>".toList, "</Root>".toList] := by decide
  rw [hs] at hl
  simp only [List.mem_cons, List.mem_singleton, List.not_mem_nil, or_false] at hl
  rcases hl with rfl | rfl | rfl | rfl
  · exact Or.inl ⟨by decide, by decide⟩
  · exact Or.inr ⟨['\t'], "outer".toList,
      "<Outer>\n  <Include src=\"inner\"/>\n</Outer>".toList, by decide, by decide,
      by unfold GoodName; decide, by decide, by decide⟩
  · exact Or.inr ⟨['\t'], "inner".toList, "<Inner>\n\n  <Text/>\n</Inner>".toList, by decide,
      by decide, by unfold GoodName; decide, by decide, by decide⟩
  · exact Or.inl ⟨by decide, by decide⟩

set_option maxRecDepth 100000 in
theorem nestDir_tidy : ∀ name T,
    nestDir.readFileSync (pathJoin ["ui".toList, xmlFileOf name]) = some T →
      TidyMarkup nestDir "ui".toList List.length T := by
  intro name T h
  have hmem := mem_of_lookup (show nestDir.files.lookup _ = some T from h)
  simp only [nestDir, List.mem_cons, Prod.mk.injEq, List.mem_singleton, List.not_mem_nil,
    or_false] at hmem
  rcases hmem with ⟨-, rfl⟩ | ⟨-, rfl⟩
  · refine ⟨by decide, ?_⟩
    intro l hl
    have hs : splitOn '\n' "<Outer>\n  <Include src=\"inner\"/>\n</Outer>".toList =
        ["<Outer>".toList, "  <Include src=\"inner\"/>".toList, "</Outer>".toList] := by decide
    rw [hs] at hl
    simp only [List.mem_cons, List.mem_singleton, List.not_mem_nil, or_false] at hl
    rcases hl with rfl | rfl | rfl
    · exact Or.inl ⟨by decide, by decide⟩
    · exact Or.inr ⟨"  ".toList, "inner".toList, "<Inner>\n\n  <Text/>\n</Inner>".toList,
        by decide, by decide, by unfold GoodName; decide, by decide, by decide⟩
    · exact Or.inl ⟨by decide, by decide⟩
  · refine ⟨by decide, ?_⟩
    intro l hl
    have hs : splitOn '\n' "<Inner>\n\n  <Text/>\n</Inner>".toList =
        ["<Inner>".toList, [], "  <Text/>".toList, "</Inner>".toList] := by decide
    rw [hs] at hl
    simp only [List.mem_cons, List.mem_singleton, List.not_mem_nil, or_false] at hl
    rcases hl with rfl | rfl | rfl | rfl <;> exact Or.inl ⟨by decide, by decide⟩

/-- Witness for `bundle_unbundle_nested`: a root document that includes `outer`, which includes
`inner`, and `inner` once more next to it; the texts are ranked by their length. -/
theorem bundle_unbundle_nested_witness :
    TidyMarkup nestDir "ui".toList List.length nestRoot ∧
    (∀ name T, nestDir.readFileSync (pathJoin ["ui".toList, xmlFileOf name]) = some T →
      TidyMarkup nestDir "ui".toList List.length T) ∧
    ∃ b, bundleXML nestDir "ui".toList ((includeUniverse nestDir nestRoot).length + 1 + 0)
        nestRoot [] = .ok b ∧
      objGet (unbundleXML b) "__root".toList = some nestRoot ∧
      (∀ name, Included nestDir "ui".toList (splitOn '\n' nestRoot) name →
        ∃ T, nestDir.readFileSync (pathJoin ["ui".toList, xmlFileOf name]) = some T ∧
          objGet (unbundleXML b) name = some T) ∧
      ∀ key v, objGet (unbundleXML b) key = some v →
        key = "__root".toList ∨ Included nestDir "ui".toList (splitOn '\n' nestRoot) key :=
  ⟨nestRoot_tidy, nestDir_tidy,
    bundle_unbundle_nested nestDir "ui".toList nestRoot List.length nestRoot_tidy nestDir_tidy 0⟩

set_option maxRecDepth 100000 in
/-- C22 as stated fails for a fragment name with a blank: the file of `my panel` is read and
holds a trimmed text without markers, the directive has the canonical form, and the extraction
of the expansion has the key `__root` alone, which holds the expanded text, not the root
document. -/
theorem bundle_unbundle_blank_in_name :
    spaceDir.readFileSync (pathJoin ["ui".toList, xmlFileOf "my panel".toList]) =
      some "<Panel/>".toList ∧
    "<Include src=\"my panel\"/>".toList = directiveLine [] "my panel".toList ∧
    (∀ k, bundleXML spaceDir "ui".toList
        ((includeUniverse spaceDir "<Include src=\"my panel\"/>".toList).length + 1 + k)
        "<Include src=\"my panel\"/>".toList [] =
      .ok "<!-- include my panel -->\n<Panel/>\n<!-- include my panel -->".toList) ∧
    unbundleXML "<!-- include my panel -->\n<Panel/>\n<!-- include my panel -->".toList =
      [("__root".toList,
        "<!-- include my panel -->\n<Panel/>\n<!-- include my panel -->".toList)] := by
  refine ⟨by decide, by decide, fun k => ?_, by decide⟩
  exact bundleXML_mono spaceDir "ui".toList _ k _ _ _ (by decide)


theorem sanitizeFileNameStrict_eq (H : Host) (input : Option Str) (fallback : Str) :
    sanitizeFileNameStrict H input fallback =
      (if !truthy (if jsLength (escapeReserved (orFallback (cleanFileName H input) fallback)) > 50
        then jsSlice 50 (escapeReserved (orFallback (cleanFileName H input) fallback))
        else escapeReserved (orFallback (cleanFileName H input) fallback)) then fallback
      else (if jsLength (escapeReserved (orFallback (cleanFileName H input) fallback)) > 50
        then jsSlice 50 (escapeReserved (orFallback (cleanFileName H input) fallback))
        else escapeReserved (orFallback (cleanFileName H input) fallback))) := rfl

theorem finish_short (s fallback : Str) (hne : s ≠ []) (hl : jsLength s ≤ 50) :
    (if !truthy (if jsLength s > 50 then jsSlice 50 s else s) then fallback
      else (if jsLength s > 50 then jsSlice 50 s else s)) = s := by
  have h : (if jsLength s > 50 then jsSlice 50 s else s) = s := if_neg (by omega)
  rw [h]
  cases s with
  | nil => exact absurd rfl hne
  | cons _ _ => rfl

theorem finish_long (s fallback : Str) (hl : jsLength s > 50) :
    (if !truthy (if jsLength s > 50 then jsSlice 50 s else s) then fallback
      else (if jsLength s > 50 then jsSlice 50 s else s)) = jsSlice 50 s := by
  have h : (if jsLength s > 50 then jsSlice 50 s else s) = jsSlice 50 s := if_pos hl
  rw [h]
  have hs : s ≠ [] := by
    intro h0
    rw [h0] at hl
    simp [jsLength] at hl
  cases ht : jsSlice 50 s with
  | nil => exact absurd ht (jsSlice_ne_nil 49 s hs)
  | cons _ _ => rfl

theorem finish_nil (fallback : Str) :
    (if !truthy (if jsLength ([] : Str) > 50 then jsSlice 50 ([] : Str) else []) then fallback
      else (if jsLength ([] : Str) > 50 then jsSlice 50 ([] : Str) else [])) = fallback := rfl

/-- With a fallback that is not empty and holds only allowed characters, the result of
`sanitizeFileNameStrict` is not empty, has at most 50 UTF-16 units, and holds only letters,
numbers, `_`, `-`, `.` and the unit `U+FFFD` of a surrogate pair that the slice cut. -/
theorem sanitizeFileNameStrict_kept (H : Host) (input : Option Str) (fallback : Str)
    (hfb : ∀ c ∈ fallback, keptBySanitize H c = true) (hne : fallback ≠ []) :
    sanitizeFileNameStrict H input fallback ≠ [] ∧
    jsLength (sanitizeFileNameStrict H input fallback) ≤ 50 ∧
    ∀ c ∈ sanitizeFileNameStrict H input fallback,
      keptBySanitize H c = true ∨ c = '\uFFFD' := by
  have h₁ : orFallback (cleanFileName H input) fallback ≠ [] ∧
      ∀ c ∈ orFallback (cleanFileName H input) fallback, keptBySanitize H c = true := by
    rcases orFallback_cases (cleanFileName H input) fallback with h | ⟨h, hs⟩
    · rw [h]
      exact ⟨hne, hfb⟩
    · rw [h]
      exact ⟨hs, cleanFileName_kept H input⟩
  have h₂ : escapeReserved (orFallback (cleanFileName H input) fallback) ≠ [] ∧
      ∀ c ∈ escapeReserved (orFallback (cleanFileName H input) fallback),
        keptBySanitize H c = true := by
    rcases escapeReserved_cases (orFallback (cleanFileName H input) fallback) with h | h
    · rw [h]
      exact h₁
    · rw [h]
      refine ⟨by simp, ?_⟩
      intro c hc
      rcases List.mem_cons.1 hc with rfl | hc
      · exact kept_underscore H
      · exact h₁.2 c hc
  rw [sanitizeFileNameStrict_eq]
  generalize escapeReserved (orFallback (cleanFileName H input) fallback) = s at h₂
  by_cases hl : jsLength s > 50
  · rw [finish_long _ _ hl]
    refine ⟨jsSlice_ne_nil 49 s h₂.1, ?_, ?_⟩
    · rw [jsLength_jsSlice 50 s (by omega)]
    · intro c hc
      rcases mem_jsSlice _ _ _ hc with h | h
      · exact Or.inl (h₂.2 c h)
      · exact Or.inr h
  · rw [finish_short _ _ h₂.1 (by omega)]
    exact ⟨h₂.1, by omega, fun c hc => Or.inl (h₂.2 c hc)⟩

set_option maxRecDepth 100000 in
/-- C14 fails in the code: the name made of `a` and thirty times the letter `U+1D400` (61 UTF-16
units) goes through the replacements as it is, and `s.slice(0, 50)` cuts the 25th surrogate
pair: the result has 50 units and ends in a lone surrogate (`U+FFFD` on the file system), which
is no letter, no number and none of `_`, `-` and `.`; the default fallback holds allowed
characters only. -/
theorem sanitizeFileNameStrict_cuts_pair :
    sanitizeFileNameStrict unicodeHost (some ('a' :: List.replicate 30 boldA))
        "TTS_Save".toList =
      'a' :: List.replicate 24 boldA ++ ['\uFFFD'] ∧
    jsLength ('a' :: List.replicate 30 boldA) = 61 ∧
    jsLength ('a' :: List.replicate 24 boldA ++ ['\uFFFD']) = 50 ∧
    keptBySanitize unicodeHost '\uFFFD' = false ∧
    (∀ c ∈ "TTS_Save".toList, keptBySanitize unicodeHost c = true) := by
  refine ⟨by decide, by decide, by decide, by decide, by decide⟩

/-- C15 as stated fails: the input `½` holds no letter, no digit and no `-`, and it is kept,
being a number of class No; the default fallback is not returned. -/
theorem sanitizeFileNameStrict_keeps_number :
    sanitizeFileNameStrict unicodeHost (some [oneHalf]) "TTS_Save".toList = [oneHalf] ∧
    oneHalf.isAlpha = false ∧ oneHalf.isDigit = false ∧ oneHalf ≠ '-' ∧
    [oneHalf] ≠ "TTS_Save".toList ∧
    jsLength "TTS_Save".toList ≤ 50 ∧ isReservedName "TTS_Save".toList = false := by
  refine ⟨by decide, by decide, by decide, by decide, by decide, by decide, by decide⟩

/-- C15 (as amended): for an input that, in normal form, holds no letter, no number (class N,
the digits and every other number such as `½`) and no `-`, `sanitizeFileNameStrict` returns the
fallback, when the fallback has at most 50 UTF-16 units and is no reserved device name. -/
theorem sanitizeFileNameStrict_fallback (H : Host) (input : Option Str) (fallback : Str)
    (hin : ∀ c ∈ H.normalize (input.getD []), H.letterOrNumber c = false ∧ c ≠ '-')
    (hlen : jsLength fallback ≤ 50) (hres : isReservedName fallback = false) :
    sanitizeFileNameStrict H input fallback = fallback := by
  rw [sanitizeFileNameStrict_eq, cleanFileName_no_letter H input hin]
  have h₁ : orFallback [] fallback = fallback := rfl
  have h₂ : escapeReserved fallback = fallback := by
    unfold escapeReserved
    rw [hres]
    rfl
  have h₃ : (if jsLength fallback > 50 then jsSlice 50 fallback else fallback) = fallback :=
    if_neg (by omega)
  simp only [h₁, h₂, h₃]
  split <;> rfl

/-- Witness for `sanitizeFileNameStrict_fallback`: dots, underscores, white space, a control
character and symbols. -/
theorem sanitizeFileNameStrict_fallback_witness :
    sanitizeFileNameStrict (tableHost []) (some " ..__\t*/: ".toList) "TTS_Save".toList =
      "TTS_Save".toList :=
  sanitizeFileNameStrict_fallback (tableHost []) (some " ..__\t*/: ".toList) "TTS_Save".toList
    (by decide) (by decide) (by decide)

/-- C16: the result of `sanitizeFileNameStrict` is never a reserved device name, whatever the
input and the fallback; a name that is one when the reserved names are tested comes back with
one `_` in front, and the input `con` gives `_con`. -/
theorem sanitizeFileNameStrict_not_reserved (H : Host) (input : Option Str) (fallback : Str) :
    isReservedName (sanitizeFileNameStrict H input fallback) = false ∧
    (isReservedName (orFallback (cleanFileName H input) fallback) = true →
      sanitizeFileNameStrict H input fallback =
        '_' :: orFallback (cleanFileName H input) fallback) ∧
    sanitizeFileNameStrict (tableHost []) (some "con".toList) "TTS_Save".toList =
      "_con".toList := by
  generalize hs₀ : orFallback (cleanFileName H input) fallback = s₀
  have hpfx : isReservedName s₀ = true →
      sanitizeFileNameStrict H input fallback = '_' :: s₀ := by
    intro hr
    obtain ⟨hl, -⟩ := isReservedName_sound hr
    have he : escapeReserved s₀ = '_' :: s₀ := by
      unfold escapeReserved
      rw [hr]
      rfl
    have hj := jsLength_le ('_' :: s₀)
    rw [sanitizeFileNameStrict_eq, hs₀, he,
      finish_short _ _ (by simp) (by simp only [List.length_cons] at hj; omega)]
  refine ⟨?_, hpfx, by decide⟩
  cases hr : isReservedName s₀ with
  | true =>
    rw [hpfx hr]
    exact isReservedName_underscore _
  | false =>
    have he : escapeReserved s₀ = s₀ := by
      unfold escapeReserved
      rw [hr]
      rfl
    rw [sanitizeFileNameStrict_eq, hs₀, he]
    by_cases hlen : jsLength s₀ > 50
    · rw [finish_long _ _ hlen]
      apply isReservedName_long
      have h₁ := jsLength_jsSlice 50 s₀ (by omega)
      have h₂ := jsLength_le (jsSlice 50 s₀)
      omega
    · cases hs : s₀ with
      | nil =>
        have hfb : fallback = [] := by
          rcases orFallback_cases (cleanFileName H input) fallback with h | ⟨h, hne⟩
          · rw [← h, hs₀, hs]
          · rw [hs₀, hs] at h
            exact absurd h.symm hne
        rw [finish_nil, hfb]
        decide
      | cons c cs =>
        rw [← hs, finish_short _ _ (by rw [hs]; simp) (by omega)]
        exact hr


theorem sortByOrderStable_all_posInf (arr : List ManifestEntry)
    (h : ∀ e ∈ arr, getOrderFromFile e = .posInf) : sortByOrderStable arr = arr := by
  have h₁ : (sortByOrderStable arr).filter (fun e => getOrderFromFile e ≠ .posInf) = [] := by
    rw [List.filter_eq_nil_iff]
    intro e he
    have := h e ((sortByOrderStable_perm arr).subset he)
    simp [this]
  have h₂ : arr.filter (fun e => getOrderFromFile e = .posInf) = arr := by
    rw [List.filter_eq_self]
    intro e he
    simp [h e he]
  have h₃ := pairwise_le_split _ (sortByOrderStable_keys arr)
  rw [sortByOrderStable_filter_key arr .posInf, h₁, h₂, List.nil_append] at h₃
  exact h₃

theorem getOrderFromFile_posInf_iff (e : ManifestEntry) :
    getOrderFromFile e = .posInf ↔
      (∀ q, e.order ≠ some (.finite q)) ∧
      ∀ m, reOrderPrefix.exec (basename e.file) = some m →
        parseInt ((m.cap 1).getD []) = none := by
  constructor
  · intro h
    have ho : ∀ q, e.order ≠ some (.finite q) := by
      intro q hq
      rw [getOrderFromFile_explicit e q hq] at h
      cases h
    refine ⟨ho, ?_⟩
    intro m hm
    rw [getOrderFromFile_fallback e ho, hm] at h
    cases hp : parseInt ((m.cap 1).getD []) with
    | none => rfl
    | some n =>
      simp only [hp] at h
      cases h
  · rintro ⟨ho, hm⟩
    rw [getOrderFromFile_fallback e ho]
    cases hx : reOrderPrefix.exec (basename e.file) with
    | none => rfl
    | some m => simp only [hm m hx]

set_option maxRecDepth 20000 in
theorem getOrderFromFile_hugePrefixEntry : getOrderFromFile hugePrefixEntry = .posInf := by
  have hb : basename hugePrefixEntry.file =
      ('1' :: List.replicate 309 '0') ++ '_' :: "Card_abc123.json".toList := by decide
  have hds : ∀ c ∈ '1' :: List.replicate 309 '0', isDigit c = true := by
    intro c hc
    rcases List.mem_cons.1 hc with rfl | hc
    · decide
    · rw [List.eq_of_mem_replicate hc]; decide
  rw [getOrderFromFile_digits hugePrefixEntry _ _ (by simp [hugePrefixEntry]) hb hds (by simp),
    roundToDouble_overflow digitsValue_huge]

set_option maxRecDepth 20000 in
/-- C3 as stated fails: the first entry has neither an explicit order nor a numeric file-name
prefix, the second has a numeric file-name prefix (of 310 digits), and the first stays before
the second: both have the key positive infinity. -/
theorem sortByOrderStable_prefix_stays_behind :
    (fileEntry "Card_p.json").order = none ∧
    reOrderPrefix.exec (basename (fileEntry "Card_p.json").file) = none ∧
    hugePrefixEntry.order = none ∧
    basename hugePrefixEntry.file =
      ('1' :: List.replicate 309 '0') ++ '_' :: "Card_abc123.json".toList ∧
    sortByOrderStable [fileEntry "Card_p.json", hugePrefixEntry] =
      [fileEntry "Card_p.json", hugePrefixEntry] := by
  refine ⟨rfl, by decide, rfl, by decide, ?_⟩
  apply sortByOrderStable_all_posInf
  intro e he
  rcases List.mem_cons.1 he with rfl | he
  · decide
  · rw [List.mem_singleton.1 he]
    exact getOrderFromFile_hugePrefixEntry

/-- C3 (as amended): `sortByOrderStable` is stable: the entries of any one order key appear in
the output in their original relative order; the entries of key positive infinity come after all
the others, in their original relative order; and an entry has the key positive infinity when it
has no finite explicit order and its file name has no numeric prefix that is read as a finite
number (a prefix too long for a finite double is read as infinity). -/
theorem sortByOrderStable_stable (arr : List ManifestEntry) :
    (∀ k, (sortByOrderStable arr).filter (fun e => getOrderFromFile e = k) =
      arr.filter (fun e => getOrderFromFile e = k)) ∧
    sortByOrderStable arr =
      (sortByOrderStable arr).filter (fun e => getOrderFromFile e ≠ .posInf) ++
        arr.filter (fun e => getOrderFromFile e = .posInf) ∧
    (∀ e, getOrderFromFile e = .posInf ↔
      (∀ q, e.order ≠ some (.finite q)) ∧
      ∀ m, reOrderPrefix.exec (basename e.file) = some m →
        parseInt ((m.cap 1).getD []) = none) := by
  refine ⟨sortByOrderStable_filter_key arr, ?_, getOrderFromFile_posInf_iff⟩
  conv_lhs => rw [pairwise_le_split _ (sortByOrderStable_keys arr)]
  rw [sortByOrderStable_filter_key arr .posInf]


theorem readObjectLuaIfExists_no_timeout (fs : FS) (p : Str) :
    readObjectLuaIfExists fs p ≠ .timeout := by
  unfold readObjectLuaIfExists
  simp only
  split
  · simp
  · split <;> simp

theorem readIfExists_no_timeout (fs : FS) (p : Str) (old : Option Str) :
    readIfExists fs p old ≠ .timeout := by
  unfold readIfExists
  split
  · split <;> simp
  · simp

theorem childrenOf_no_timeout (M : ManifestMap) (key : Str) : childrenOf M key ≠ .timeout := by
  unfold childrenOf
  split
  · simp
  · split <;> simp

theorem load_timeout (H : Host) (fs : FS) (luaFuel : Nat) (M : ManifestMap) (fuel : Nat)
    (entry : ManifestEntry)
    (h : loadObjectFromManifest H fs luaFuel M (fuel + 1) entry = .timeout) :
    (∃ code, readObjectLuaIfExists fs (pathJoin [srcDir, entry.file]) = .ok (some code) ∧
      bundleLuaIfNeeded fs LIB_DIR luaFuel code = .timeout) ∨
    ∃ raw, childrenOf M (guidKey entry.guid) = .ok raw ∧
      loadEach (loadObjectFromManifest H fs luaFuel M fuel) (sortByOrderStable raw) =
        .timeout := by
  rw [loadObjectFromManifest] at h
  simp only at h
  split at h
  · cases h
  · rename_i obj hobj
    split at h
    · rename_i rawCode hcode
      split at h
      · split at h
        · split at h
          · split at h
            · split at h
              · rename_i raw hraw
                refine Or.inr ⟨raw, hraw, ?_⟩
                split at h
                · split at h
                  · cases h
                  · cases h
                  · cases h
                  · assumption
                · cases h
              all_goals first
                | exact absurd (by assumption) (childrenOf_no_timeout M _)
                | cases h
            all_goals first
              | exact absurd (by assumption) (readIfExists_no_timeout fs _ _)
              | cases h
          all_goals first
            | exact absurd (by assumption) (readIfExists_no_timeout fs _ _)
            | cases h
        all_goals first
          | exact absurd (by assumption) (readIfExists_no_timeout fs _ _)
          | cases h
      · cases h
      · cases h
      · rename_i hs
        left
        cases rawCode with
        | none => cases hs
        | some code =>
          refine ⟨code, hcode, ?_⟩
          simp only at hs
          split at hs
          · cases hs
          · cases hs
          · cases hs
          · assumption
    all_goals first
      | exact absurd (by assumption) (readObjectLuaIfExists_no_timeout fs _)
      | cases h

theorem loadEach_no_timeout (load : ManifestEntry → Res Node) (es : List ManifestEntry)
    (h : ∀ e ∈ es, load e ≠ .timeout) : loadEach load es ≠ .timeout := by
  induction es with
  | nil => simp [loadEach]
  | cons e es ih =>
    have he := h e (List.mem_cons_self _ _)
    have hes := ih fun x hx => h x (List.mem_cons_of_mem _ hx)
    rw [loadEach]
    cases h₁ : load e with
    | ok n =>
      simp only
      cases h₂ : loadEach load es with
      | ok ns => simp
      | exit => simp
      | crash => simp
      | timeout => exact absurd h₂ hes
    | exit => simp
    | crash => simp
    | timeout => exact absurd h₁ he

theorem findRequireIds_length_le (fs : FS) (p code : Str) (h : fs.readFileSync p = some code) :
    (findRequireIds code).length ≤ (fs.files.flatMap fun f => findRequireIds f.2).length := by
  unfold FS.readFileSync at h
  generalize fs.files = l at h
  induction l with
  | nil => cases h
  | cons x xs ih =>
    rw [List.flatMap_cons, List.length_append]
    rcases x with ⟨q, c⟩
    rw [List.lookup_cons] at h
    split at h
    · cases h
      simp
    · have := ih h
      omega

theorem readObjectLuaIfExists_read (fs : FS) (jsonPath code : Str)
    (h : readObjectLuaIfExists fs jsonPath = .ok (some code)) :
    ∃ p, fs.readFileSync p = some code := by
  unfold readObjectLuaIfExists at h
  simp only at h
  split at h
  · cases h
  · rename_i p hp
    split at h
    · rename_i c hc
      simp only [Res.ok.injEq, Option.some.injEq] at h
      subst h
      exact ⟨p, hc⟩
    · cases h

theorem bundleLuaIfNeeded_no_timeout (fs : FS) (libDir rootCode : Str) (fuel : Nat)
    (hfuel : (requireUniverse fs rootCode).length + 1 ≤ fuel) :
    bundleLuaIfNeeded fs libDir fuel rootCode ≠ .timeout := by
  have hnt := collectModules_no_timeout fs libDir rootCode fuel hfuel
  unfold bundleLuaIfNeeded
  split
  · simp
  · split
    · simp
    · cases h : collectModules fs libDir fuel rootCode with
      | ok st => simp
      | exit => simp
      | crash => simp
      | timeout => exact absurd h hnt

theorem load_no_timeout (H : Host) (fs : FS) (j : Nat) (manifest : List ManifestEntry)
    (M : ManifestMap) (rank : ManifestEntry → Nat) (entry : ManifestEntry)
    (hM : groupByParent manifest [] = .ok M)
    (hrank : ∀ e ∈ entry :: manifest, ∀ c ∈ manifest, parentKey c = guidKey e.guid →
      rank c < rank e) :
    ∀ fuel, ∀ e ∈ entry :: manifest, rank e < fuel →
      loadObjectFromManifest H fs (scriptFuel fs + j) M fuel e ≠ .timeout := by
  intro fuel
  induction fuel with
  | zero => intro e _ h; omega
  | succ fuel ih =>
    intro e he hlt h
    rcases load_timeout H fs _ M fuel e h with ⟨code, hcode, hb⟩ | ⟨raw, hraw, hl⟩
    · obtain ⟨p, hp⟩ := readObjectLuaIfExists_read fs _ code hcode
      have h₁ := findRequireIds_length_le fs p code hp
      refine bundleLuaIfNeeded_no_timeout fs LIB_DIR code _ ?_ hb
      unfold requireUniverse scriptFuel
      rw [List.length_append]
      omega
    · have hr := childrenOf_grouped manifest M _ raw hM hraw
      subst hr
      refine loadEach_no_timeout _ _ ?_ hl
      intro c hc
      have hc' := (sortByOrderStable_perm _).subset hc
      rw [List.mem_filter] at hc'
      have hk : parentKey c = guidKey e.guid := by simpa using hc'.2
      have := hrank e he c hc'.1 hk
      exact ih c (List.mem_cons_of_mem _ hc'.1) (by omega)

/-- C26 (as amended): for a manifest that `main` groups by parent and in which the parent
references have no cycle (a rank falls from every entry to the entries that name its identifier
as parent), `loadObjectFromManifest` comes to an end on every entry, with fuel above the rank;
and when it returns a node, the children are the entries that name the identifier of the entry
as parent (under the keys `entry.parent || '__root__'` and `entry.guid`): when there are none,
the loader sets no child sequence and the node has the child sequence of its node file, absent
when the file has none; when there are some, the child sequence of the node is those entries, in
the order of `sortByOrderStable`, each materialised by the loader. -/
theorem loadObjectFromManifest_children (H : Host) (fs : FS) (manifest : List ManifestEntry)
    (M : ManifestMap) (rank : ManifestEntry → Nat) (entry : ManifestEntry) (j k : Nat)
    (hM : groupByParent manifest [] = .ok M)
    (hrank : ∀ e ∈ entry :: manifest, ∀ c ∈ manifest, parentKey c = guidKey e.guid →
      rank c < rank e) :
    loadObjectFromManifest H fs (scriptFuel fs + j) M (rank entry + k + 1) entry ≠ .timeout ∧
    ∀ node,
      loadObjectFromManifest H fs (scriptFuel fs + j) M (rank entry + k + 1) entry = .ok node →
      ∃ obj, (fs.readFileSync (pathJoin [srcDir, entry.file])).bind H.parse = some obj ∧
        ((∀ e ∈ manifest, parentKey e ≠ guidKey entry.guid) →
          node.contained = obj.contained) ∧
        ((∃ e ∈ manifest, parentKey e = guidKey entry.guid) →
          ∃ nodes, loadEach (loadObjectFromManifest H fs (scriptFuel fs + j) M (rank entry + k))
              (sortByOrderStable (manifest.filter fun e => parentKey e = guidKey entry.guid)) =
                .ok nodes ∧
            node.contained = some nodes) := by
  refine ⟨load_no_timeout H fs j manifest M rank entry hM hrank _ entry
    (List.mem_cons_self _ _) (by omega), ?_⟩
  intro node h
  obtain ⟨obj, raw, hobj, hraw, hsome, hnone⟩ := load_inv H fs _ M _ entry node h
  have hr := childrenOf_grouped manifest M _ raw hM hraw
  subst hr
  refine ⟨obj, hobj, fun hno => ?_, fun ⟨e, he, hk⟩ => ?_⟩
  · apply hnone
    have : (manifest.filter fun e => parentKey e = guidKey entry.guid) = [] := by
      rw [List.filter_eq_nil_iff]
      intro e he
      simpa using hno e he
    rw [this]
    have h0 : (sortByOrderStable ([] : List ManifestEntry)).length = 0 :=
      (sortByOrderStable_perm ([] : List ManifestEntry)).length_eq
    omega
  · apply hsome
    have hmem : e ∈ manifest.filter fun e => parentKey e = guidKey entry.guid := by
      rw [List.mem_filter]
      exact ⟨he, by simpa using hk⟩
    have := (sortByOrderStable_perm (manifest.filter fun e =>
      parentKey e = guidKey entry.guid)).length_eq
    rw [this]
    exact List.length_pos_of_mem hmem

set_option maxRecDepth 100000 in
/-- Witness for `loadObjectFromManifest_children`: the container of the sample node sequence,
loaded from the files and the manifest of its split, comes back with its two children. -/
theorem loadObjectFromManifest_children_witness :
    groupByParent sampleSplit.manifest [] = .ok (groupOf sampleSplit.manifest) ∧
    (∀ e ∈ sampleBagEntry :: sampleSplit.manifest, ∀ c ∈ sampleSplit.manifest,
      parentKey c = guidKey e.guid → sampleRank c < sampleRank e) ∧
    loadObjectFromManifest (tableHost (subtreeEach sampleTree)) sampleSplit.fs
      (scriptFuel sampleSplit.fs + 0) (groupOf sampleSplit.manifest)
      (sampleRank sampleBagEntry + 0 + 1) sampleBagEntry = .ok sampleBag ∧
    (loadObjectFromManifest (tableHost (subtreeEach sampleTree)) sampleSplit.fs
        (scriptFuel sampleSplit.fs + 0) (groupOf sampleSplit.manifest)
        (sampleRank sampleBagEntry + 0 + 1) sampleBagEntry ≠ .timeout ∧
      ∀ node,
        loadObjectFromManifest (tableHost (subtreeEach sampleTree)) sampleSplit.fs
          (scriptFuel sampleSplit.fs + 0) (groupOf sampleSplit.manifest)
          (sampleRank sampleBagEntry + 0 + 1) sampleBagEntry = .ok node →
        ∃ obj, (sampleSplit.fs.readFileSync (pathJoin [srcDir, sampleBagEntry.file])).bind
            (tableHost (subtreeEach sampleTree)).parse = some obj ∧
          ((∀ e ∈ sampleSplit.manifest, parentKey e ≠ guidKey sampleBagEntry.guid) →
            node.contained = obj.contained) ∧
          ((∃ e ∈ sampleSplit.manifest, parentKey e = guidKey sampleBagEntry.guid) →
            ∃ nodes, loadEach (loadObjectFromManifest (tableHost (subtreeEach sampleTree))
                  sampleSplit.fs (scriptFuel sampleSplit.fs + 0) (groupOf sampleSplit.manifest)
                  (sampleRank sampleBagEntry + 0))
                (sortByOrderStable (sampleSplit.manifest.filter fun e =>
                  parentKey e = guidKey sampleBagEntry.guid)) = .ok nodes ∧
              node.contained = some nodes)) :=
  ⟨rfl, by decide, rfl,
    loadObjectFromManifest_children (tableHost (subtreeEach sampleTree)) sampleSplit.fs
      sampleSplit.manifest (groupOf sampleSplit.manifest) sampleRank sampleBagEntry 0 0 rfl
      (by decide)⟩


set_option maxRecDepth 100000 in
/-- Why the manifest of C26 must be free of cycles: the node file of this entry is there and
carries the GUID of the entry, the entry names its own GUID as parent, and
`loadObjectFromManifest` recurses on it without end: it runs out of every fuel. -/
theorem loadObjectFromManifest_self_parent :
    groupByParent [selfParentEntry] [] = .ok [("bag001".toList, [selfParentEntry])] ∧
    (selfParentFiles.readFileSync (pathJoin [srcDir, selfParentEntry.file])).bind
      (tableHost [loopBag]).parse = some loopBag ∧
    ∀ fuel, loadObjectFromManifest (tableHost [loopBag]) selfParentFiles 0
      [("bag001".toList, [selfParentEntry])] fuel selfParentEntry = .timeout := by
  refine ⟨rfl, rfl, fun fuel => ?_⟩
  induction fuel with
  | zero => rfl
  | succ fuel ih =>
    have h₁ : (selfParentFiles.readFileSync (pathJoin [srcDir, selfParentEntry.file])).bind
        (tableHost [loopBag]).parse = some loopBag := rfl
    have h₂ : readObjectLuaIfExists selfParentFiles (pathJoin [srcDir, selfParentEntry.file]) =
        .ok none := by decide
    have h₃ : ∀ ext old, ext ∈ [".state.txt".toList, ".xml".toList, ".memo.txt".toList] →
        readIfExists selfParentFiles
          (reJsonExt.replaceFirst ext (pathJoin [srcDir, selfParentEntry.file])) old =
            .ok old := by
      intro ext old hext
      have hex : selfParentFiles.existsSync
          (reJsonExt.replaceFirst ext (pathJoin [srcDir, selfParentEntry.file])) = false := by
        simp only [List.mem_cons, List.mem_singleton, List.not_mem_nil, or_false] at hext
        rcases hext with rfl | rfl | rfl <;> decide
      unfold readIfExists
      rw [hex]
      rfl
    have h₄ : childrenOf [("bag001".toList, [selfParentEntry])] (guidKey selfParentEntry.guid) =
        .ok [selfParentEntry] := by decide
    have h₅ : sortByOrderStable [selfParentEntry] = [selfParentEntry] := by decide
    rw [loadObjectFromManifest]
    simp only [h₁, h₂, h₃ _ _ (List.mem_cons_self _ _),
      h₃ ".xml".toList _ (by simp), h₃ ".memo.txt".toList _ (by simp), h₄, h₅, loadEach, ih]
    rfl


end TTS
